import Mathlib

/-!
# Distinct row tables of `big_site/drt_big_site.hpp`

A shallow embedding of `DRT` (the row table) and `HDRT` (the operator row
table) of `src/src/big_site/drt_big_site.hpp`, with theorems about the
queries `operator[]`, `index`, `size`, `q_index` and `q_range`.

Conventions of the embedding.

* `int16_t` triples are `Int` triples; `LL` offsets and counts, which the
  code only ever adds and (after a `>=` test) subtracts, are `Nat`. Machine
  arithmetic is modelled without wrap-around: the values of a table stay in
  range when `n_sites < 2^15` and the table has fewer than `2^63` states.
* `std::vector` is `List`; an element read at a position is `getD` with the
  zero value, so that every definition is total.
* `S::pg_t` is `Nat`; `S::pg_mul`, which lives in the symmetry label type
  outside this source tree, is the parameter `PGCompose` below. The concrete
  tables are evaluated with the exclusive or (`xor_compose`) unless they name
  another composition.
* The template parameter `T` is the Boolean `su2` (`true` for
  `ElemOpTypes::SU2`, `false` for `ElemOpTypes::SZ`).
-/

namespace DRTModel

/-- The composition `S::pg_mul` of two point-group labels. It is a static
function of the symmetry label type `S`, which lives outside this source
tree ("compose, inverse, equality, hash, ordering"), so it is a parameter of
the embedding: every definition and theorem that depends on it takes it as
the argument `[PGCompose]` and is stated for every composition, and a law of
the composition that a theorem needs is a hypothesis of that theorem. -/
class PGCompose where
  mul : Nat → Nat → Nat

/-- The call `S::pg_mul(a, b)`. -/
def pg_mul [PGCompose] (a b : Nat) : Nat := PGCompose.mul a b

/-- A symmetry label `S(n, twos, pg)`. -/
structure QLabel where
  n : Int
  twos : Int
  pg : Nat
deriving DecidableEq, Repr

/-- A row `(abc, pg)` of the table: the pair stored in `pabc`. -/
abbrev Row := (Int × Int × Int) × Nat

/-- The lambda `make_abc` of `DRT::initialize`. -/
def make_abc (a b c : Int) (d : Nat) : Int × Int × Int :=
  match d with
  | 0 => (a, b, c - 1)
  | 1 => (a - (if b ≤ 0 then 1 else 0), b - 1, c - (if b ≤ 0 then 1 else 0))
  | 2 => (a - (if b ≥ 0 then 1 else 0), b + 1, c - (if b ≥ 0 then 1 else 0))
  | 3 => (a - 1, b, c)
  | _ => (-1, -1, -1)

/-- The lambda `allow_abc` of `DRT::initialize`; `su2` is `T == SU2`. -/
def allow_abc (su2 : Bool) (a b c : Int) (d : Nat) : Bool :=
  match d with
  | 0 => decide (c ≠ 0)
  | 1 => if su2 then decide (b ≠ 0) else (decide (b > 0) || decide (a * c ≠ 0))
  | 2 => if su2 then decide (a * c ≠ 0) else (decide (b < 0) || decide (a * c ≠ 0))
  | 3 => decide (a ≠ 0)
  | _ => false

/-- The test `(d & 1) ^ (d >> 1)` shared by `make_pg` and `allow_pg`. -/
def odd_step (d : Nat) : Bool := decide (((d &&& 1) ^^^ (d >>> 1)) ≠ 0)

/-- The lambda `make_pg` of `DRT::initialize`. -/
def make_pg [PGCompose] (g gk : Nat) (d : Nat) : Nat :=
  if odd_step d then pg_mul gk g else g

/-- The lambda `allow_pg` of `DRT::initialize`. -/
def allow_pg [PGCompose] (k : Nat) (g gk : Nat) (d : Nat) : Bool :=
  decide (k ≠ 0) || decide ((if odd_step d then pg_mul gk g else g) = 0)

/-- Lexicographic `>` on `array<int16_t, 3>`. -/
def abc_gt (p q : Int × Int × Int) : Bool :=
  decide (p.1 > q.1) ||
    (decide (p.1 = q.1) &&
      (decide (p.2.1 > q.2.1) || (decide (p.2.1 = q.2.1) && decide (p.2.2 > q.2.2))))

/-- The lambda `compare_abc_pg`: the descending order in which every cut
is sorted. -/
def compare_abc_pg (p q : Row) : Bool :=
  if p.1 ≠ q.1 then abc_gt p.1 q.1 else decide (p.2 > q.2)

/-- The step of a row: `make_pair(make_abc(..., d), make_pg(g, gk, d))`. -/
def step_row [PGCompose] (r : Row) (gk : Nat) (d : Nat) : Row :=
  (make_abc r.1.1 r.1.2.1 r.1.2.2 d, make_pg r.2 gk d)

/-- Insertion into a list sorted by the comparison `lt`. -/
def insert_sorted {α : Type} (lt : α → α → Bool) (x : α) : List α → List α
  | [] => [x]
  | y :: ys => if lt y x then y :: insert_sorted lt x ys else x :: y :: ys

/-- The call `sort(first, last, lt)`. -/
def sort_rows {α : Type} (lt : α → α → Bool) (l : List α) : List α :=
  l.foldr (insert_sorted lt) []

/-- The call `unique(first, last)` followed by `resize`: equal neighbours
are merged. -/
def unique_rows {α : Type} [DecidableEq α] : List α → List α
  | [] => []
  | [x] => [x]
  | x :: y :: ys => if x = y then unique_rows (y :: ys) else x :: unique_rows (y :: ys)

/-- The call `lower_bound(first, last, v, lt)` on a sorted cut: the position
of the first element that is not ordered before `v`. -/
def lower_bound {α : Type} (lt : α → α → Bool) (l : List α) (v : α) : Nat :=
  (l.takeWhile (fun x => lt x v)).length

/-- The call `binary_search(first, last, v, lt)` on a sorted cut. -/
def binary_search {α : Type} (lt : α → α → Bool) (l : List α) (v : α) : Bool :=
  match l.get? (lower_bound lt l v) with
  | some y => !(lt v y)
  | none => false

/-- The running sums `acc, acc + w0, acc + w0 + w1, ...`. -/
def prefix_sums : Nat → List Nat → List Nat
  | acc, [] => [acc]
  | acc, w :: ws => acc :: prefix_sums (acc + w) ws

/-- The row written by the inner loop of "construct xs" for a row with edges
`jd`: `xs[j][0] = 0` and `xs[j][d + 1] = xs[j][d] + xs[jd[d]][nd] * (jd[d] != 0)`,
where `nd` is the number of steps and `xs[t][nd]` the last column of row `t`. -/
def xs_row (xs : List (List Nat)) (jd : List Nat) : List Nat :=
  prefix_sums 0 (jd.map (fun t => if t ≠ 0 then (xs.getD t []).getD jd.length 0 else 0))

/-- The loop `for (int j = n - 2; j >= 0; j--)` of "construct xs":
`xs_loop jds m xs` treats the rows `m - 1, m - 2, ..., 0`. -/
def xs_loop (jds : List (List Nat)) : Nat → List (List Nat) → List (List Nat)
  | 0, xs => xs
  | m + 1, xs => xs_loop jds m (xs.set m (xs_row xs (jds.getD m [])))

/-- The call `upper_bound(first, last, i) - first` on a non-decreasing row:
the position of the first element greater than `i`. -/
def upper_bound (l : List Nat) (i : Nat) : Nat :=
  (l.takeWhile (fun x => decide (x ≤ i))).length

/-- The entry `m[j][d]` of a table of rows. -/
def entry (m : List (List Nat)) (j d : Nat) : Nat := (m.getD j []).getD d 0

/-- The steps `d_{k-1}, ..., d_0` chosen by the descent of `operator[]` from
row `j` for the offset `i`, `k` sites left: at each row the step is
`upper_bound(row, i) - 1`, the offset loses `xs[j][d]` and the row becomes
`jds[j][d]`. -/
def walk_steps (jds xs : List (List Nat)) : Nat → Nat → Nat → List Nat
  | 0, _, _ => []
  | k + 1, j, i =>
    (upper_bound (xs.getD j []) i - 1) ::
      walk_steps jds xs k (entry jds j (upper_bound (xs.getD j []) i - 1))
        (i - entry xs j (upper_bound (xs.getD j []) i - 1))

/-- A path from row `j`: every step is one of the `nd` steps and its edge is
not the sentinel `0`. -/
def path_ok (jds : List (List Nat)) (nd : Nat) : Nat → List Nat → Bool
  | _, [] => true
  | j, d :: ds => decide (d < nd) && decide (entry jds j d ≠ 0) && path_ok jds nd (entry jds j d) ds

/-- The sum of `xs[row][d]` along the steps `ds` from row `j`. -/
def path_offset (jds xs : List (List Nat)) : Nat → List Nat → Nat
  | _, [] => 0
  | j, d :: ds => entry xs j d + path_offset jds xs (entry jds j d) ds

/-- The row rebuilt from the steps `d_{k-1}, ..., d_0` by undoing them from
the innermost site outwards, starting from `base`; `unstep k d` undoes step
`d` at site `k`. -/
def recon {α : Type} (unstep : Nat → Nat → α → α) (base : α) : List Nat → α
  | [] => base
  | d :: ds => unstep ds.length d (recon unstep base ds)

/-- The loop "construct graph" of `initialize`, `for (k = n_sites - 1, j = 0; k >= 0; k--, j++)`:
`forward_cuts expand k cur` is the list of cuts `p[j], p[j + 1], ..., p[n_sites]`
when `cur = p[j]` and `k = n_sites - j` sites remain; `expand k' cur` is the
body of the loop at site `k'`. -/
def forward_cuts {α : Type} (expand : Nat → List α → List α) : Nat → List α → List (List α)
  | 0, cur => [cur]
  | k + 1, cur => cur :: forward_cuts expand k (expand k cur)

/-- The loop "filter graph" of `initialize`, from the innermost cut outwards,
on the cuts `p[lvl], p[lvl + 1], ..., p[n_sites]`: the cut `p[lvl]` is filtered
against the already filtered `p[lvl + 1]`. The test `keep lvl k f r` receives
the cut number `lvl`, the site `k = n_sites - 1 - lvl` (the number of cuts
after `p[lvl + 1]`), the next cut `f` and the row `r`. -/
def filter_cuts {α : Type} (keep : Nat → Nat → List α → α → Bool) :
    Nat → List (List α) → List (List α)
  | _, [] => []
  | _, [l] => [l]
  | lvl, l :: l2 :: rest =>
    let f := filter_cuts keep (lvl + 1) (l2 :: rest)
    l.filter (keep lvl rest.length (f.headD [])) :: f

/-- The loop "construct jds" of `initialize` over the cuts `p[j], p[j + 1], ...`,
where `p0` rows precede `p[j]`: `entry nxt p k r d` is the edge of the row `r`
for the step `d`, with `nxt = p[j + 1]`, `p` the number of rows up to and
including `p[j]` and `k` the site (the number of cuts after `p[j + 1]`). -/
def jds_cuts {α : Type} (nd : Nat) (entry : List α → Nat → Nat → α → Nat → Nat) :
    Nat → List (List α) → List (List Nat)
  | _, [] => []
  | _, [_] => []
  | p0, l :: l2 :: rest =>
    l.map (fun r => (List.range nd).map (entry l2 (p0 + l.length) rest.length r)) ++
      jds_cuts nd entry (p0 + l.length) (l2 :: rest)

/-- The candidates pushed for one row at site `k`: the allowed steps in the
order `d = 0, 1, 2, 3`. -/
def row_candidates [PGCompose] (su2 : Bool) (k : Nat) (gk : Nat) (r : Row) : List Row :=
  ((List.range 4).filter
      (fun d => allow_abc su2 r.1.1 r.1.2.1 r.1.2.2 d && allow_pg k r.2 gk d)).map
    (fun d => step_row r gk d)

/-- One round of the loop "construct graph": the next cut `pabc[j + 1]` from
`pabc[j]`, at site `k`. -/
def expand_cut [PGCompose]
    (su2 : Bool) (orb_sym : List Nat) (k : Nat) (cur : List Row) : List Row :=
  unique_rows (sort_rows compare_abc_pg (cur.flatMap (row_candidates su2 k (orb_sym.getD k 0))))

/-- The inner loop of "filter graph": does some step `d < 4` of the row land
in the retained next cut `fabc`? -/
def has_target [PGCompose] (fabc : List Row) (gk : Nat) (r : Row) : Bool :=
  (List.range 4).any (fun d => binary_search compare_abc_pg fabc (step_row r gk d))

/-- One entry `jd[d]` of "construct jds": `p` is the number of rows up to and
including the current cut, `nxt` the next cut. -/
def jd_entry [PGCompose] (nxt : List Row) (p : Nat) (gk : Nat) (r : Row) (d : Nat) : Nat :=
  let v := step_row r gk d
  let it := lower_bound compare_abc_pg nxt v
  match nxt.get? it with
  | some y => if y = v then p + it else 0
  | none => 0

/-- The table `DRT<S, T>`: the fields the queries read. -/
structure DRT where
  abc : List (Int × Int × Int)
  pgs : List Nat
  orb_sym : List Nat
  jds : List (List Nat)
  xs : List (List Nat)
  n_sites : Nat
  n_init_qs : Nat
deriving DecidableEq, Repr

/-- The initial row the constructor pushes for a label `q`. -/
def init_row (n_sites : Nat) (q : QLabel) : Row :=
  (((q.n - q.twos) >>> (1 : Nat), q.twos, (n_sites : Int) - ((q.n + q.twos) >>> (1 : Nat))),
    q.pg)

/-- The per-site labels after `if (orb_sym.size() == 0) resize(n_sites, 0)`. -/
def fix_orb_sym (n_sites : Nat) (orb_sym : List Nat) : List Nat :=
  if orb_sym.length = 0 then List.replicate n_sites 0 else orb_sym

/-- The cuts `pabc[0], ..., pabc[n_sites]` of `initialize` after the loops
"construct graph" and "filter graph". -/
def DRT.cuts [PGCompose]
    (su2 : Bool) (n_sites : Nat) (init_qs : List QLabel) (orb_sym : List Nat) :
    List (List Row) :=
  filter_cuts (fun _ k fabc r => has_target fabc ((fix_orb_sym n_sites orb_sym).getD k 0) r) 0
    (forward_cuts (expand_cut su2 (fix_orb_sym n_sites orb_sym)) n_sites
      (init_qs.map (init_row n_sites)))

/-- The constructor `DRT(n_sites, init_qs, orb_sym)` followed by
`initialize()`. -/
def DRT.build [PGCompose]
    (su2 : Bool) (n_sites : Nat) (init_qs : List QLabel) (orb_sym : List Nat) :
    DRT :=
  let os := fix_orb_sym n_sites orb_sym
  let pabc := DRT.cuts su2 n_sites init_qs orb_sym
  let n_abc := 1 + ((pabc.take n_sites).map List.length).sum
  let rows := pabc.flatten
  let jds := jds_cuts 4 (fun nxt p k r d => jd_entry nxt p (os.getD k 0) r d) 0 pabc ++
    [[0, 0, 0, 0]]
  let xs0 := (List.replicate n_abc [0, 0, 0, 0, 0]).set (n_abc - 1) [0, 0, 0, 0, 1]
  { abc := rows.map Prod.fst
    pgs := rows.map Prod.snd
    orb_sym := os
    jds := jds
    xs := xs_loop jds (n_abc - 1) xs0
    n_sites := n_sites
    n_init_qs := init_qs.length }

/-- The last column `xs[j].back()` of row `j`. -/
def DRT.back (t : DRT) (j : Nat) : Nat := ((t.xs.getD j []).getLast?).getD 0

/-- The first loop of `operator[]`:
`for (; j < n_init_qs && i >= xs[j].back(); j++) i -= xs[j].back();`
with `m = n_init_qs - j` rounds left; the result is the pair `(j, i)`. -/
def DRT.skip_init (t : DRT) : Nat → Nat → Nat → Nat × Nat
  | 0, j, i => (j, i)
  | m + 1, j, i => if i ≥ t.back j then t.skip_init m (j + 1) (i - t.back j) else (j, i)

/-- The step chosen by `operator[]` at row `j` for the offset `i`. -/
def DRT.choose (t : DRT) (j i : Nat) : Nat := upper_bound (t.xs.getD j []) i - 1

/-- The characters `"0+-2"`. -/
def step_chars : List Char := ['0', '+', '-', '2']

/-- The second loop of `operator[]`, `k` sites left: the characters
`r[0], ..., r[k - 1]`. -/
def DRT.walk (t : DRT) : Nat → Nat → Nat → List Char
  | 0, _, _ => []
  | k + 1, j, i =>
    let d := t.choose j i
    t.walk k ((t.jds.getD j []).getD d 0) (i - (t.xs.getD j []).getD d 0) ++
      [step_chars.getD d ' ']

/-- The query `DRT::operator[]`. -/
def DRT.decode (t : DRT) (i : Nat) : List Char :=
  let ji := t.skip_init t.n_init_qs 0 i
  t.walk t.n_sites ji.1 ji.2

/-- The value `(uint8_t)string("0+-2").find(c)`. -/
def char_step (c : Char) : Nat :=
  if c = '0' then 0 else if c = '+' then 1 else if c = '-' then 2 else if c = '2' then 3
  else 255

/-- The body of the loop of `index` that rebuilds the initial triple and
label: the update of `(iabc, ipg)` for the character `c` at a site with
label `gk`. -/
def undo_char [PGCompose] (c : Char) (gk : Nat) (r : Row) : Row :=
  if c = '0' then ((r.1.1, r.1.2.1, r.1.2.2 + 1), r.2)
  else if c = '+' then ((r.1.1, r.1.2.1 + 1, r.1.2.2), pg_mul r.2 gk)
  else if c = '-' then ((r.1.1 + 1, r.1.2.1 - 1, r.1.2.2 + 1), pg_mul r.2 gk)
  else ((r.1.1 + 1, r.1.2.1, r.1.2.2), r.2)

/-- The loop of `index` that rebuilds the initial triple and label from the
string, for `k = 0, 1, ...`: `x` holds the characters `x[k], x[k + 1], ...`
and `os` the labels `orb_sym[k], orb_sym[k + 1], ...`. -/
def rebuild [PGCompose] : List Char → List Nat → Row → Row
  | [], _, r => r
  | c :: cs, os, r => rebuild cs os.tail (undo_char c (os.headD 0) r)

/-- The loop of `index` over the initial rows:
`for (; j < n_init_qs && (iabc != abc[j] || ipg != pgs[j]); j++) i += xs[j].back();`
with `m = n_init_qs - j` rounds left. -/
def DRT.find_init (t : DRT) (iabc : Row) : Nat → Nat → Nat → Nat
  | 0, _, i => i
  | m + 1, j, i =>
    if iabc.1 ≠ t.abc.getD j (0, 0, 0) ∨ iabc.2 ≠ t.pgs.getD j 0 then
      t.find_init iabc m (j + 1) (i + t.back j)
    else i

/-- The last loop of `index`, which declares its own `j = 0`:
`for (int j = 0, k = n_sites - 1; k >= 0; k--) ...`; `x` holds
`x[0], ..., x[k - 1]` for the `k` sites left. -/
def DRT.replay (t : DRT) : Nat → List Char → Nat → Nat → Nat
  | 0, _, _, i => i
  | k + 1, x, j, i =>
    let d := char_step (x.getD k ' ')
    t.replay k x ((t.jds.getD j []).getD d 0) (i + (t.xs.getD j []).getD d 0)

/-- The query `DRT::index`. -/
def DRT.index [PGCompose] (t : DRT) (x : List Char) : Nat :=
  let i0 :=
    if t.n_init_qs > 1 then
      t.find_init (rebuild (x.take t.n_sites) t.orb_sym ((0, 0, 0), 0)) t.n_init_qs 0 0
    else 0
  t.replay t.n_sites x 0 i0

/-- The query `DRT::size`. -/
def DRT.size (t : DRT) : Nat := t.back 0

/-- The loop of `q_index`, rows `j, j + 1, ...` with `m` rounds left. -/
def DRT.q_index_from (t : DRT) (q : QLabel) : Nat → Nat → Int
  | 0, _ => -1
  | m + 1, j =>
    let r := t.abc.getD j (0, 0, 0)
    if (QLabel.mk (r.1 + r.1 + r.2.1) r.2.1 (t.pgs.getD j 0)) = q then (j : Int)
    else t.q_index_from q m (j + 1)

/-- The query `DRT::q_index`. -/
def DRT.q_index (t : DRT) (q : QLabel) : Int := t.q_index_from q t.n_init_qs 0

/-- The loop of `q_range`: `for (int j = 0; j <= i; j++) a = b, b += xs[j].back();`
with `m` rounds left. -/
def DRT.q_range_from (t : DRT) : Nat → Nat → Nat × Nat → Nat × Nat
  | 0, _, ab => ab
  | m + 1, j, ab => t.q_range_from m (j + 1) (ab.2, ab.2 + t.back j)

/-- The query `DRT::q_range`. -/
def DRT.q_range (t : DRT) (i : Nat) : Nat × Nat := t.q_range_from (i + 1) 0 (0, 0)

/-- The sum of the subtree sizes `xs[j][4]` of the rows `j < n_init_qs`. -/
def DRT.total (t : DRT) : Nat := ((List.range t.n_init_qs).map t.back).sum

/-! ## The operator row table `HDRT`

The flat vectors `jds` and `xs` of `HDRT` are kept as their rows: entry
`jds[j * nd + d]` is entry `d` of row `j` of `jds`, and `xs[j * (nd + 1) + d]`
is entry `d` of row `j` of `xs`. Strings are lists of characters. -/

/-- The functions of `SpinPermRecoupling` and `SU2CG` that `HDRT` calls and
that live outside this source tree, taken as parameters. -/
structure Recoupling where
  get_sub_expr : List Char → Nat → Nat → List Char
  get_target_twos : List Char → Int
  triangle : Int → Int → Int → Bool

/-- A row `(q, pg)` of the operator table: `q = (cut, N, 2S, weight, length)`. -/
abbrev HRow := List Int × Nat

/-- A catalog key `(sub-expression, spin delta)`. -/
abbrev DKey := List Char × Int

/-- The table `HDRT<S, T>`. -/
structure HDRT where
  qs : List (List Int)
  pgs : List Nat
  orb_sym : List Nat
  jds : List (List Nat)
  xs : List (List Nat)
  n_sites : Nat
  n_init_qs : Nat
  nd : Nat
  d_map : List (DKey × Nat)
  d_step : List (List Int)
  d_expr : List DKey
deriving DecidableEq, Repr

/-- The constructor `HDRT(n_sites, init_qs, orb_sym)`; an initial label is
`(S(n, twos, pg), (weight, length))`. -/
def HDRT.new (n_sites : Nat) (init_qs : List (QLabel × Int × Int)) (orb_sym : List Nat) :
    HDRT :=
  { qs := init_qs.map (fun q => [(n_sites : Int), q.1.n, q.1.twos, q.2.1, q.2.2])
    pgs := init_qs.map (fun q => q.1.pg)
    orb_sym := fix_orb_sym n_sites orb_sym
    jds := []
    xs := []
    n_sites := n_sites
    n_init_qs := init_qs.length
    nd := 0
    d_map := []
    d_step := []
    d_expr := [] }

/-- The lookup `d_map.count(key)` / `d_map.at(key)`. -/
def d_map_find (m : List (DKey × Nat)) (key : DKey) : Option Nat :=
  (m.find? (fun e => decide (e.1 = key))).map Prod.snd

/-- The number of occurrences `count(x.begin(), x.end(), c)`. -/
def count_char (c : Char) (x : List Char) : Int := ((x.filter (fun y => decide (y = c))).length : Int)

/-- The step `{1, xc - xd, dq, 1, xc + xd, flag}` registered for a new key. -/
def new_step (x : List Char) (dq : Int) : List Int :=
  let xc := count_char 'C' x
  let xd := count_char 'D' x
  [1, xc - xd, dq, 1, xc + xd,
    if xc = xd then 0 else if xc > xd then (xc - xd) % 2 else -((xd - xc) % 2)]

/-- The body `if (!d_map.count(key)) { ... }` of `initialize_steps`. -/
def register_step (cat : List (DKey × Nat) × List (List Int)) (key : DKey) :
    List (DKey × Nat) × List (List Int) :=
  match d_map_find cat.1 key with
  | some _ => cat
  | none => (cat.1 ++ [(key, cat.2.length)], cat.2 ++ [new_step key.1 key.2])

/-- The method `HDRT::initialize_steps`. The scan of the schemes produces the
pairs `(x, dq)` in the order of its loops; `cands` is that sequence. -/
def HDRT.initialize_steps (t : HDRT) (cands : List DKey) : HDRT :=
  let cat := cands.foldl register_step ([(([], 0), 0)], [[1, 0, 0, 0, 0, 0]])
  let nd := cat.1.length
  { t with
    d_map := cat.1
    d_step := cat.2
    nd := nd
    d_expr := cat.1.foldl (fun de dm => de.set dm.2 dm.1) (List.replicate nd ([], 0)) }

/-- Lexicographic `>` on arrays of equal length. -/
def arr_gt : List Int → List Int → Bool
  | x :: xs, y :: ys => decide (x > y) || (decide (x = y) && arr_gt xs ys)
  | _, _ => false

/-- The lambda `compare_q_pg` of `HDRT::initialize`. -/
def HDRT.compare_q_pg (p q : HRow) : Bool :=
  if p.1 ≠ q.1 then arr_gt p.1 q.1 else decide (p.2 > q.2)

/-- The lambda `make_q` of `HDRT::initialize`. -/
def HDRT.make_q (q d : List Int) : List Int :=
  [q.getD 0 0 - d.getD 0 0, q.getD 1 0 - d.getD 1 0, q.getD 2 0 - d.getD 2 0,
    q.getD 3 0 - d.getD 3 0, q.getD 4 0 - d.getD 4 0]

/-- The lambda `allow_q` of `HDRT::initialize`. -/
def HDRT.allow_q (su2 : Bool) (q : List Int) : Bool :=
  (decide (q.getD 0 0 > 0) && (!su2 || decide (q.getD 2 0 ≥ 0)) && decide (q.getD 3 0 ≥ 0) &&
      decide (q.getD 4 0 ≥ 0)) ||
    (decide (q.getD 0 0 = 0) && decide (q.getD 1 0 = 0) && decide (q.getD 2 0 = 0) &&
      decide (q.getD 3 0 = 0) && decide (q.getD 4 0 = 0))

/-- The lambda `make_pg` of `HDRT::initialize`. -/
def HDRT.make_pg [PGCompose] (g gk : Nat) (d : List Int) : Nat :=
  if d.getD 5 0 ≠ 0 then pg_mul gk g else g

/-- The lambda `allow_pg` of `HDRT::initialize`. -/
def HDRT.allow_pg (k : Nat) (g : Nat) : Bool := decide (k ≠ 0) || decide (g = 0)

/-- The step of a row: `make_pair(make_q(q, d_step[d]), make_pg(g, gk, d_step[d]))`. -/
def HDRT.step_row [PGCompose] (d_step : List (List Int)) (r : HRow) (gk : Nat) (d : Nat) : HRow :=
  (HDRT.make_q r.1 (d_step.getD d []), HDRT.make_pg r.2 gk (d_step.getD d []))

/-- The test `allow_q(nq) && allow_pg(k, ng) && (T != SU2 || triangle(ddq[d], q[2], nq[2]))`
of "construct graph" and "construct jds". -/
def HDRT.allowed [PGCompose]
    (E : Recoupling) (su2 : Bool) (d_step : List (List Int)) (ddq : List Int)
    (k : Nat) (gk : Nat) (r : HRow) (d : Nat) : Bool :=
  let nqg := HDRT.step_row d_step r gk d
  HDRT.allow_q su2 nqg.1 && HDRT.allow_pg k nqg.2 &&
    (!su2 || E.triangle (ddq.getD d 0) (r.1.getD 2 0) (nqg.1.getD 2 0))

/-- One round of "construct graph": the cut `pqs[j + 1]` from `pqs[j]`. -/
def HDRT.expand_cut [PGCompose]
    (E : Recoupling) (su2 : Bool) (d_step : List (List Int)) (ddq : List Int)
    (nd : Nat) (orb_sym : List Nat) (k : Nat) (cur : List HRow) : List HRow :=
  unique_rows (sort_rows HDRT.compare_q_pg (cur.flatMap (fun r =>
    ((List.range nd).filter (HDRT.allowed E su2 d_step ddq k (orb_sym.getD k 0) r)).map
      (HDRT.step_row d_step r (orb_sym.getD k 0)))))

/-- The inner loop of "filter graph": some step `d < nd` lands in `fq`. -/
def HDRT.has_target [PGCompose] (d_step : List (List Int)) (nd : Nat) (fq : List HRow) (gk : Nat)
    (r : HRow) : Bool :=
  (List.range nd).any (fun d =>
    binary_search HDRT.compare_q_pg fq (HDRT.step_row d_step r gk d))

/-- One entry of "construct jds". -/
def HDRT.jd_entry [PGCompose]
    (E : Recoupling) (su2 : Bool) (d_step : List (List Int)) (ddq : List Int)
    (nxt : List HRow) (p : Nat) (k : Nat) (gk : Nat) (r : HRow) (d : Nat) : Nat :=
  let nqg := HDRT.step_row d_step r gk d
  let it := lower_bound HDRT.compare_q_pg nxt nqg
  if HDRT.allowed E su2 d_step ddq k gk r d then
    match nxt.get? it with
    | some y => if y = nqg then p + it else 0
    | none => 0
  else 0

/-- The vector `ddq` of `HDRT::initialize`:
`ddq[d] = get_target_twos(d_expr[d].first)`. -/
def HDRT.ddq (E : Recoupling) (t : HDRT) : List Int :=
  (List.range t.nd).map (fun d => E.get_target_twos (t.d_expr.getD d ([], 0)).1)

/-- The cuts `pqs[0], ..., pqs[n_sites]` of `HDRT::initialize` after the loops
"construct graph" and "filter graph". -/
def HDRT.cuts [PGCompose] (E : Recoupling) (su2 : Bool) (t : HDRT) : List (List HRow) :=
  filter_cuts
    (fun lvl k fq r =>
      HDRT.has_target t.d_step t.nd fq (t.orb_sym.getD k 0) r || decide (lvl = 0)) 0
    (forward_cuts (HDRT.expand_cut E su2 t.d_step (HDRT.ddq E t) t.nd t.orb_sym) t.n_sites
      ((t.qs.zip t.pgs).take t.n_init_qs))

/-- The method `HDRT::initialize`. -/
def HDRT.initialize [PGCompose] (E : Recoupling) (su2 : Bool) (t : HDRT) : HDRT :=
  let nd := t.nd
  let pqs := HDRT.cuts E su2 t
  let n_qs := 1 + ((pqs.take t.n_sites).map List.length).sum
  let rows := pqs.flatten
  let jds := jds_cuts nd (fun nxt p k r d =>
      HDRT.jd_entry E su2 t.d_step (HDRT.ddq E t) nxt p k (t.orb_sym.getD k 0) r d) 0 pqs ++
    [List.replicate nd 0]
  let xs0 := (List.replicate n_qs (List.replicate (nd + 1) 0)).set (n_qs - 1)
    (List.replicate nd 0 ++ [1])
  { t with
    qs := rows.map Prod.fst
    pgs := rows.map Prod.snd
    jds := jds
    xs := xs_loop jds (n_qs - 1) xs0 }

/-- The table built by the constructor, `initialize_steps` and `initialize`. -/
def HDRT.build [PGCompose] (E : Recoupling) (su2 : Bool) (n_sites : Nat)
    (init_qs : List (QLabel × Int × Int)) (orb_sym : List Nat) (cands : List DKey) : HDRT :=
  HDRT.initialize E su2 ((HDRT.new n_sites init_qs orb_sym).initialize_steps cands)

/-- The entry `xs[j * (nd + 1) + d]`. -/
def HDRT.x (t : HDRT) (j d : Nat) : Nat := (t.xs.getD j []).getD d 0

/-- The entry `jds[j * nd + d]`. -/
def HDRT.jd (t : HDRT) (j d : Nat) : Nat := (t.jds.getD j []).getD d 0

/-- The query `HDRT::size`. -/
def HDRT.size (t : HDRT) : Nat := ((List.range t.n_init_qs).map (fun i => t.x i t.nd)).sum

/-- The decimal digits of a natural number, `fuel` digits at most. -/
def nat_chars_aux : Nat → Nat → List Char → List Char
  | 0, _, acc => acc
  | fuel + 1, n, acc =>
    if n < 10 then Char.ofNat (48 + n) :: acc
    else nat_chars_aux fuel (n / 10) (Char.ofNat (48 + n % 10) :: acc)

/-- The text `ss << rq` of an integer. -/
def int_chars (z : Int) : List Char :=
  if z < 0 then '-' :: nat_chars_aux (z.natAbs + 1) z.natAbs []
  else nat_chars_aux (z.natAbs + 1) z.natAbs []

/-- The first loop of `HDRT::operator[]`:
`for (; i >= xs[j * (nd + 1) + nd]; j++) i -= xs[j * (nd + 1) + nd];`
The source has no bound on `j`; the model stops after `m` rounds, where `m`
is the number of rows of `xs`. -/
def HDRT.skip_init (t : HDRT) : Nat → Nat → Nat → Nat × Nat
  | 0, j, i => (j, i)
  | m + 1, j, i => if i ≥ t.x j t.nd then t.skip_init m (j + 1) (i - t.x j t.nd) else (j, i)

/-- The step chosen by `HDRT::operator[]` at row `j` for the offset `i`. -/
def HDRT.choose (t : HDRT) (j i : Nat) : Nat := upper_bound (t.xs.getD j []) i - 1

/-- The state `(r, rq, kidx)` of `HDRT::operator[]` after the step `d` at
site `k`. -/
def HDRT.compose (t : HDRT) (k d : Nat) (st : List Char × Int × List Nat) :
    List Char × Int × List Nat :=
  let dx := t.d_expr.getD d ([], 0)
  let ds := t.d_step.getD d []
  if dx.1 ≠ [] then
    let kidx := List.replicate (ds.getD 4 0).toNat k ++ st.2.2
    if st.1 = [] then (dx.1, ds.getD 2 0, kidx)
    else
      let rq := st.2.1 + ds.getD 2 0
      (['('] ++ dx.1 ++ ['+'] ++ st.1 ++ [')'] ++ int_chars rq, rq, kidx)
  else st

/-- The second loop of `HDRT::operator[]` with `k` sites left. -/
def HDRT.walk (t : HDRT) : Nat → Nat → Nat → List Char × Int × List Nat →
    List Char × Int × List Nat
  | 0, _, _, st => st
  | k + 1, j, i, st =>
    let d := t.choose j i
    t.walk k (t.jd j d) (i - t.x j d) (t.compose k d st)

/-- The query `HDRT::operator[]`: the pair `(r, kidx)`. -/
def HDRT.decode (t : HDRT) (i : Nat) : List Char × List Nat :=
  let ji := t.skip_init t.xs.length 0 i
  let st := t.walk t.n_sites ji.1 ji.2 ([], 0, [])
  (st.1, st.2.2)

/-- The catalog steps `d_{n-1}, ..., d_0` that the second loop of
`HDRT::operator[]` follows, `k` sites left. -/
def HDRT.walk_steps (t : HDRT) : Nat → Nat → Nat → List Nat
  | 0, _, _ => []
  | k + 1, j, i =>
    let d := t.choose j i
    d :: t.walk_steps k (t.jd j d) (i - t.x j d)

/-- The steps followed by `HDRT::operator[]` for the offset `i`, as the
vector `ds` of `HDRT::index` (entry `k` is the step at site `k`). -/
def HDRT.decode_steps (t : HDRT) (i : Nat) : List Nat :=
  let ji := t.skip_init t.xs.length 0 i
  (t.walk_steps t.n_sites ji.1 ji.2).reverse

/-- The value of an `int8_t` after the conversion from `int`. -/
def wrap8 (z : Int) : Int := (z + 128) % 256 - 128

/-- The end `l` of the run of equal values that starts at `k`:
`for (l = k; l < n && idxs[k] == idxs[l];) l++;`. -/
def run_end (idxs : List Nat) (k : Nat) : Nat :=
  k + ((idxs.drop k).takeWhile (fun v => decide (idxs.getD k 0 = v))).length

/-- The first loop of `HDRT::index`: the runs of `idxs` from position `k`
are resolved against the catalog and written into `ds`; an absent key is
the error "expr not found". -/
def HDRT.resolve (E : Recoupling) (t : HDRT) (expr : List Char) (idxs : List Nat) :
    Nat → Nat → List Nat → Except String (List Nat)
  | 0, _, ds => Except.ok ds
  | fuel + 1, k, ds =>
    if k < idxs.length then
      let l := run_end idxs k
      let x := E.get_sub_expr expr k l
      let dq := wrap8 (E.get_target_twos (E.get_sub_expr expr 0 l) -
        E.get_target_twos (E.get_sub_expr expr 0 k))
      match d_map_find t.d_map (x, dq) with
      | none => Except.error "expr not found"
      | some d => HDRT.resolve E t expr idxs fuel l (ds.set (idxs.getD k 0) d)
    else Except.ok ds

/-- The body of the loop of `HDRT::index` that rebuilds the initial row: the
update of `(iq, ipg)` for the step `st = d_step[ds[k]]` at a site with label
`gk`. -/
def HDRT.undo_step [PGCompose] (st : List Int) (gk : Nat) (r : HRow) : HRow :=
  ([r.1.getD 0 0 + st.getD 0 0, r.1.getD 1 0 + st.getD 1 0, r.1.getD 2 0 + st.getD 2 0,
      r.1.getD 3 0 + st.getD 3 0, r.1.getD 4 0 + st.getD 4 0],
    if st.getD 5 0 ≠ 0 then pg_mul r.2 gk else r.2)

/-- The loop of `HDRT::index` that adds the steps `ds[k], ds[k + 1], ...` to
`(iq, ipg)`; `os` holds `orb_sym[k], orb_sym[k + 1], ...`. -/
def HDRT.rebuild [PGCompose] (t : HDRT) : List Nat → List Nat → HRow → HRow
  | [], _, r => r
  | d :: ds, os, r =>
    HDRT.rebuild t ds os.tail (HDRT.undo_step (t.d_step.getD d []) (os.headD 0) r)

/-- The loop of `HDRT::index` over the initial rows:
`for (; j < n_init_qs && (iq != qs[j] || ipg != pgs[j]); j++) i += xs[j * (nd + 1) + nd];`
with `m` rounds left; the result is `(j, i)`. -/
def HDRT.find_init (t : HDRT) (iq : HRow) : Nat → Nat → Nat → Nat × Nat
  | 0, j, i => (j, i)
  | m + 1, j, i =>
    if iq.1 ≠ t.qs.getD j [] ∨ iq.2 ≠ t.pgs.getD j 0 then
      t.find_init iq m (j + 1) (i + t.x j t.nd)
    else (j, i)

/-- The last loop of `HDRT::index`, `k` sites left:
`i += xs[j * (nd + 1) + ds[k]], j = jds[j * nd + ds[k]]`. -/
def HDRT.replay (t : HDRT) (ds : List Nat) : Nat → Nat → Nat → Nat
  | 0, _, i => i
  | k + 1, j, i => t.replay ds k (t.jd j (ds.getD k 0)) (i + t.x j (ds.getD k 0))

/-- The part of `HDRT::index` after the steps `ds` are resolved; the failed
`assert(j < n_init_qs)` is an error. -/
def HDRT.index_steps [PGCompose] (t : HDRT) (ds : List Nat) : Except String Nat :=
  let iq := HDRT.rebuild t (ds.take t.n_sites) t.orb_sym
    (t.qs.getLast?.getD [], t.pgs.getLast?.getD 0)
  let ji := t.find_init iq t.n_init_qs 0 0
  if ji.1 < t.n_init_qs then Except.ok (t.replay ds t.n_sites ji.1 ji.2)
  else Except.error "assert"

/-- The query `HDRT::index`. The first statement reads `d_map.at(("", 0))`,
which throws `std::out_of_range` when the catalog has no identity entry. -/
def HDRT.index [PGCompose] (E : Recoupling) (t : HDRT) (expr : List Char) (idxs : List Nat) :
    Except String Nat :=
  match d_map_find t.d_map ([], 0) with
  | none => Except.error "out_of_range"
  | some d0 =>
    match HDRT.resolve E t expr idxs idxs.length 0 (List.replicate t.n_sites d0) with
    | Except.error e => Except.error e
    | Except.ok ds => t.index_steps ds

/-- The sum of the subtree sizes of the initial rows before `j0`. -/
def HDRT.base (t : HDRT) (j0 : Nat) : Nat := ((List.range j0).map (fun j => t.x j t.nd)).sum

/-- The offset of a complete path `(j0, ds)`: the sum of the subtree sizes of
the initial rows before `j0` plus the sum of `xs[row][d]` along the steps. -/
def HDRT.offset (t : HDRT) (p : Nat × List Nat) : Nat :=
  t.base p.1 + path_offset t.jds t.xs p.1 p.2

/-- The complete paths of the table: an initial row `j0 < n_init_qs` and a
sequence `d_{n-1}, ..., d_0` of catalog steps, one per site, whose edges in
`jds` are all non-zero. -/
def HDRT.is_path (t : HDRT) (p : Nat × List Nat) : Bool :=
  decide (p.1 < t.n_init_qs) && decide (p.2.length = t.n_sites) &&
    path_ok t.jds t.nd p.1 p.2

/-- Modelled from the spec: `SU2CG::triangle` is outside this source tree;
two spins `a` and `b` (doubled) couple to `c` exactly under the triangle rule
with matching parity. -/
def triangle_rule (a b c : Int) : Bool :=
  decide ((a + b + c) % 2 = 0) && decide (c ≤ a + b) && decide (c ≥ |a - b|)

/-- Modelled from the spec: `SpinPermRecoupling::get_target_twos` is outside
this source tree; on the expressions of the catalog below, which are empty or
a single operator, the doubled target spin is `0` for the empty expression
and `1` for one creation or annihilation operator. -/
def leaf_twos (x : List Char) : Int := if x = [] then 0 else 1

/-- Modelled from the spec: `SpinPermRecoupling::get_sub_expr` is outside
this source tree; on an expression of one operator the sub-expression of the
operators `[i, j)` is the expression itself when `i < j` and empty when
`i = j`. -/
def leaf_sub_expr (x : List Char) (i j : Nat) : List Char := if i < j then x else []

/-- The external functions used for the concrete operator tables below. -/
def leaf_recoupling : Recoupling :=
  { get_sub_expr := leaf_sub_expr
    get_target_twos := leaf_twos
    triangle := triangle_rule }

/-! ## The brute-force enumeration the row table is compared with -/

/-- The replay of a step sequence `d_{k-1}, ..., d_0` from a row with `k`
sites left, in the words of the specification: every step satisfies the
selection predicates `allow_abc` and `allow_pg`, the row moves by
`make_abc` and `make_pg`, and the walk ends in the terminal row
`((0, 0, 0), 0)`. -/
def legal_path [PGCompose] (su2 : Bool) (orb_sym : List Nat) : Nat → Row → List Nat → Bool
  | 0, r, [] => decide (r = ((0, 0, 0), 0))
  | k + 1, r, d :: ds =>
    allow_abc su2 r.1.1 r.1.2.1 r.1.2.2 d && allow_pg k r.2 (orb_sym.getD k 0) d &&
      legal_path su2 orb_sym k (step_row r (orb_sym.getD k 0) d) ds
  | _, _, _ => false

/-- All step sequences of length `k` over `{0, 1, 2, 3}`. -/
def all_steps : Nat → List (List Nat)
  | 0 => [[]]
  | k + 1 => (List.range 4).flatMap (fun d => (all_steps k).map (fun ds => d :: ds))

/-- The brute-force count of the specification: the number of step
sequences of length `n_sites` that are a legal path from some initial row. -/
def brute_force_count [PGCompose] (su2 : Bool) (n_sites : Nat) (init_qs : List QLabel)
    (orb_sym : List Nat) : Nat :=
  ((all_steps n_sites).filter (fun ds =>
    (init_qs.map (init_row n_sites)).any (fun r =>
      legal_path su2 (fix_orb_sym n_sites orb_sym) n_sites r ds))).length

/-- The occupation string of a step sequence `d_{n-1}, ..., d_0`: character
`k` is the step taken at site `k`. -/
def steps_string (ds : List Nat) : List Char := ds.reverse.map (fun d => step_chars.getD d ' ')

/-- The edge test along `operator[]`: every step chosen in the second loop,
`k` sites left, has an edge `jds[j][d] != 0`. -/
def DRT.walk_has_edges (t : DRT) : Nat → Nat → Nat → Bool
  | 0, _, _ => true
  | k + 1, j, i =>
    let d := t.choose j i
    decide ((t.jds.getD j []).getD d 0 ≠ 0) &&
      t.walk_has_edges k ((t.jds.getD j []).getD d 0) (i - (t.xs.getD j []).getD d 0)

/-! ## Predicates used to state the structure of a built table -/

/-- The number of rows in the cuts before cut `l`: the global index of the
first row of cut `l`. -/
def cut_offset {α : Type} (cs : List (List α)) (l : Nat) : Nat :=
  ((cs.take l).map List.length).sum

/-- The structure of the vectors `jds` and `xs` built over the cuts `cs` with
`nd` steps per row: every row before the last cut has `nd` edges and its
running sums, every edge that is not `0` leads to the row of the next cut
that holds the stepped row, and the last cut has at most one row, whose
subtree size is `1`. -/
structure TableOK {α : Type} (cs : List (List α)) (step : Nat → α → Nat → α) (nd : Nat)
    (jds xs : List (List Nat)) : Prop where
  rows : ∀ l t r, l + 1 < cs.length → (cs.getD l [])[t]? = some r →
    (jds.getD (cut_offset cs l + t) []).length = nd ∧
      xs.getD (cut_offset cs l + t) [] = xs_row xs (jds.getD (cut_offset cs l + t) []) ∧
      ∀ d, d < nd → entry jds (cut_offset cs l + t) d ≠ 0 →
        ∃ it, entry jds (cut_offset cs l + t) d = cut_offset cs (l + 1) + it ∧
          (cs.getD (l + 1) [])[it]? = some (step (cs.length - 2 - l) r d)
  last_le : (cs.getD (cs.length - 1) []).length ≤ 1
  last_one : entry xs (cut_offset cs (cs.length - 1)) nd = 1

/-- The requirements of `std::sort` and `std::lower_bound` on a comparison:
a strict total order. -/
structure StrictOrder {α : Type} (lt : α → α → Bool) : Prop where
  irrefl : ∀ a, lt a a = false
  trans : ∀ a b c, lt a b = true → lt b c = true → lt a c = true
  total : ∀ a b, a ≠ b → lt a b = true ∨ lt b a = true

/-- The rows the forward expansion can reach with `k` sites left from
non-negative initial triples: `a` and `c` are non-negative, `a + |b| + c` is
the number of sites left, and `b` is non-negative in the SU2 scheme. -/
def valid_row (su2 : Bool) (k : Nat) (r : Row) : Prop :=
  0 ≤ r.1.1 ∧ 0 ≤ r.1.2.2 ∧ r.1.1 + (r.1.2.1.natAbs : Int) + r.1.2.2 = (k : Int) ∧
    (su2 = true → 0 ≤ r.1.2.1)

/-- The triple that the loop of `index` rebuilds for a row: the row itself
when `b >= 0`, and `(a - b, b, c - b)` when `b < 0`. -/
def canon_row (r : Row) : Row :=
  ((r.1.1 - min r.1.2.1 0, r.1.2.1, r.1.2.2 - min r.1.2.1 0), r.2)

/-- The row of the operator table as the five entries that `make_q` and the
loop of `HDRT::index` read. -/
def HDRT.canon_row (r : HRow) : HRow :=
  ([r.1.getD 0 0, r.1.getD 1 0, r.1.getD 2 0, r.1.getD 3 0, r.1.getD 4 0], r.2)

end DRTModel

namespace DRTModel

/-! ## The scatter of coefficients: `HDRT::fill_data` -/

/-- The key `(x, dq)` that the first loop of `HDRT::index` and the set-up loop
of `fill_integral_data` look up for the run `[k, l)` of an index pattern. -/
def run_key (E : Recoupling) (expr : List Char) (k l : Nat) : DKey :=
  (E.get_sub_expr expr k l,
    wrap8 (E.get_target_twos (E.get_sub_expr expr 0 l) -
      E.get_target_twos (E.get_sub_expr expr 0 k)))

/-- A maximal equal-value run `[k, l)` of `idxs`, in the words of the
specification: the positions `k, ..., l - 1` hold one value, the position
before `k` (if any) and the position `l` (if any) hold another one. -/
def is_run (idxs : List Nat) (k l : Nat) : Bool :=
  decide (k < l) && decide (l ≤ idxs.length) &&
    (decide (k = 0) || decide (idxs.getD (k - 1) 0 ≠ idxs.getD k 0)) &&
    (decide (l = idxs.length) || decide (idxs.getD l 0 ≠ idxs.getD k 0)) &&
    (List.range l).all (fun i => decide (i < k) || decide (idxs.getD i 0 = idxs.getD k 0))

/-- The tuple `vector<uint16_t>(indices.begin() + j * nn, indices.begin() + (j + 1) * nn)`. -/
def index_tuple (indices : List Nat) (nn j : Nat) : List Nat := (indices.drop (j * nn)).take nn

/-- The entries `(expr, tuple, data[ix][j])` that the two loops of
`HDRT::fill_data` visit, in the order of the loops; `count_cds` is
`SpinPermRecoupling::count_cds`, which lives outside this source tree. -/
def HDRT.fill_entries {α : Type} (count_cds : List Char → Nat) (exprs : List (List Char))
    (indices : List (List Nat)) (data : List (List α)) : List (List Char × List Nat × α) :=
  (List.range exprs.length).flatMap (fun ix =>
    (data.getD ix []).enum.map (fun jv =>
      (exprs.getD ix [], index_tuple (indices.getD ix []) (count_cds (exprs.getD ix [])) jv.1,
        jv.2)))

/-- The statement `(*r)[index(expr, tuple)] += data[ix][j]` of `HDRT::fill_data`;
an exception of `index` ends the call. -/
def HDRT.fill_step [PGCompose] {α : Type} [Add α] [Zero α] (E : Recoupling) (t : HDRT)
    (r : Except String (List α)) (e : List Char × List Nat × α) : Except String (List α) :=
  match r with
  | Except.error m => Except.error m
  | Except.ok buf =>
    match HDRT.index E t e.1 e.2.1 with
    | Except.error m => Except.error m
    | Except.ok o => Except.ok (buf.set o (buf.getD o 0 + e.2.2))

/-- The method `HDRT::fill_data`: the buffer `vector<FL>(size(), 0)` after
the scatter of all entries. The element type `FL` is any type with an
addition and a zero. -/
def HDRT.fill_data [PGCompose]
    {α : Type} [Add α] [Zero α] (E : Recoupling) (count_cds : List Char → Nat)
    (t : HDRT) (exprs : List (List Char)) (indices : List (List Nat)) (data : List (List α)) :
    Except String (List α) :=
  (HDRT.fill_entries count_cds exprs indices data).foldl (HDRT.fill_step E t)
    (Except.ok (List.replicate t.size 0))

/-- The number of occurrences `SpinPermRecoupling::count_cds(expr)` of the
operators `C` and `D`; the function lives outside this source tree and the
concrete examples below use this count. -/
def leaf_count_cds (x : List Char) : Nat :=
  (x.filter (fun c => decide (c = 'C') || decide (c = 'D'))).length

end DRTModel

namespace DRTModel

/-! ## The distribution of integrals: `DRTBigSite::fill_integral_data` -/

/-- The fields of `SpinPermScheme` that `fill_integral_data` reads; the type
lives outside this source tree. `data[i]` is kept as the expression strings
`dex.second` met by the loops over `scheme->data[i]`, in their order. -/
structure SpinPermScheme where
  index_patterns : List (List Nat)
  data : List (List (List Char))
deriving DecidableEq, Repr

/-- The fields of `GeneralFCIDUMP<FL>` that `fill_integral_data` reads; the
type lives outside this source tree. -/
structure GeneralFCIDUMP (α : Type) where
  exprs : List (List Char)
  indices : List (List Nat)
  data : List (List α)

/-- Lexicographic `<` on vectors, the order of the keys of `std::map`. -/
def list_lt : List Nat → List Nat → Bool
  | [], [] => false
  | [], _ :: _ => true
  | _ :: _, [] => false
  | x :: xs, y :: ys => decide (x < y) || (decide (x = y) && list_lt xs ys)

/-- The order in which the nested map `expr_mp` is traversed: by expression
string, then by index pattern. -/
def expr_key_lt (p q : List Char × List Nat) : Bool :=
  if p.1 ≠ q.1 then list_lt (p.1.map Char.toNat) (q.1.map Char.toNat) else list_lt p.2 q.2

/-- The keys `(expression, index pattern)` of the map `expr_mp` in the order
of its traversal; the number `mm.second` given to a key is its position. -/
def expr_mp (schemes : List SpinPermScheme) : List (List Char × List Nat) :=
  unique_rows (sort_rows expr_key_lt (schemes.flatMap (fun s =>
    (List.range s.data.length).flatMap (fun i =>
      (s.data.getD i []).map (fun e => (e, s.index_patterns.getD i []))))))

/-- The lookup `expr_mp.at(expr).at(idx_mat)`. -/
def key_index : List (List Char × List Nat) → List Char × List Nat → Option Nat
  | [], _ => none
  | x :: xs, k => if x = k then some 0 else (key_index xs k).map (fun i => i + 1)

/-- The loop of the set-up that resolves the runs of a pattern from position
`k` on and pushes the catalog steps onto `ds[im]`. -/
def pattern_steps (E : Recoupling) (t : HDRT) (expr : List Char) (pat : List Nat) :
    Nat → Nat → List Nat → Except String (List Nat)
  | 0, _, ds => Except.ok ds
  | fuel + 1, k, ds =>
    if k < pat.length then
      match d_map_find t.d_map (run_key E expr k (run_end pat k)) with
      | none => Except.error "expr not found"
      | some d => pattern_steps E t expr pat fuel (run_end pat k) (ds ++ [d])
    else Except.ok ds

/-- The sum `iq + d_step[d]` on the five entries of a row. -/
def add_step (iq st : List Int) : List Int :=
  [iq.getD 0 0 + st.getD 0 0, iq.getD 1 0 + st.getD 1 0, iq.getD 2 0 + st.getD 2 0,
    iq.getD 3 0 + st.getD 3 0, iq.getD 4 0 + st.getD 4 0]

/-- The row `iq` of a pattern: `qs.back()` plus the steps `ds[im]`, with
`iq[0] = n_sites`. -/
def pattern_q (t : HDRT) (ds : List Nat) : List Int :=
  (ds.foldl (fun iq d => add_step iq (t.d_step.getD d [])) (t.qs.getLast?.getD [])).set 0
    (t.n_sites : Int)

/-- The loop over the initial rows that fills `jis[im]`: the entry for the
label `pgs[j]` is `(j, i)` with `i` the offset of the initial row `j`; a later
row with the same label replaces the entry, so the newest entry is first. -/
def jis_loop (t : HDRT) (iq : List Int) :
    Nat → Nat → Nat → List (Nat × Nat × Nat) → List (Nat × Nat × Nat)
  | 0, _, _, acc => acc
  | m + 1, j, i, acc =>
    jis_loop t iq m (j + 1) (i + t.x j t.nd)
      (if iq = t.qs.getD j [] then (t.pgs.getD j 0, j, i) :: acc else acc)

/-- The lookup `jis[im].count(ipg)` / `jis[im].at(ipg)`. -/
def jis_find (m : List (Nat × Nat × Nat)) (pg : Nat) : Option (Nat × Nat) :=
  (m.find? (fun e => decide (e.1 = pg))).map Prod.snd

/-- The set-up of one key of `expr_mp`: the pair `(ds[im], jis[im])`. -/
def setup_key (E : Recoupling) (t : HDRT) (key : List Char × List Nat) :
    Except String (List Nat × List (Nat × Nat × Nat)) :=
  match pattern_steps E t key.1 key.2 key.2.length 0 [] with
  | Except.error m => Except.error m
  | Except.ok ds => Except.ok (ds, jis_loop t (pattern_q t ds) t.n_init_qs 0 0 [])

/-- The set-up loop over all keys of `expr_mp`. -/
def setup_all (E : Recoupling) (t : HDRT) :
    List (List Char × List Nat) → Except String (List (List Nat × List (Nat × Nat × Nat)))
  | [] => Except.ok []
  | k :: ks =>
    match setup_key E t k with
    | Except.error m => Except.error m
    | Except.ok v =>
      match setup_all E t ks with
      | Except.error m => Except.error m
      | Except.ok vs => Except.ok (v :: vs)

/-- The row `hjumps[j]` written by one round of the loop that builds the
skip table: `(j, 0)`, followed, when the identity edge `jds[j * nd + 0]` is
not `0`, by the row of its target with `xs[j * (nd + 1) + 0]` added to every
offset. -/
def hjumps_row (t : HDRT) (hj : List (List (Nat × Nat))) (j : Nat) : List (Nat × Nat) :=
  if t.jd j 0 ≠ 0 then (j, 0) :: (hj.getD (t.jd j 0) []).map (fun p => (p.1, p.2 + t.x j 0))
  else [(j, 0)]

/-- The loop `for (int j = hdrt->n_rows() - 1; j >= 0; j--)` that builds the
skip table, `m` rounds left. -/
def hjumps_loop (t : HDRT) : Nat → List (List (Nat × Nat)) → List (List (Nat × Nat))
  | 0, hj => hj
  | m + 1, hj => hjumps_loop t m (hj.set m (hjumps_row t hj m))

/-- The skip table `hjumps` of `fill_integral_data`. -/
def hjumps (t : HDRT) : List (List (Nat × Nat)) :=
  hjumps_loop t t.qs.length (List.replicate t.qs.length [(0, 0)])

/-- The pattern `idx_mat` of an index tuple: `idx_mat[0] = 0` and
`idx_mat[j] = idx_mat[j - 1] + (idx[j] != idx[j - 1])`. -/
def idx_mat_from : Nat → Nat → List Nat → List Nat
  | _, _, [] => []
  | prev, acc, x :: xs =>
    (acc + if x ≠ prev then 1 else 0) :: idx_mat_from x (acc + if x ≠ prev then 1 else 0) xs

/-- The vector `idx_mat` of an index tuple. -/
def idx_mat (idx : List Nat) : List Nat :=
  match idx with
  | [] => []
  | x :: xs => 0 :: idx_mat_from x 0 xs

/-- The composed label `ipg`: `pgs.back()` multiplied by `orb_sym[x]` for
every index `x` of the tuple. -/
def entry_pg [PGCompose] (t : HDRT) (idx : List Nat) : Nat :=
  idx.foldl (fun g x => pg_mul g (t.orb_sym.getD x 0)) (t.pgs.getLast?.getD 0)

/-- The value `g + 1` after `for (g = l; g >= 0 && idx[g] == idx[l];) g--;`
where `l + 1 = lr`. -/
def run_begin (idx : List Nat) (lr : Nat) : Nat :=
  ((idx.take lr).reverse.dropWhile (fun v => decide (v = idx.getD (lr - 1) 0))).length

/-- The backward walk of one integral entry. The state is `(l + 1, m + 1,
k + 1, j, i)`; every round hops over the gap with the skip table and then
takes the catalog step `xds[m]`. The result is `(k + 1, j, i)`. -/
def integral_walk (t : HDRT) (hj : List (List (Nat × Nat))) (idx xds : List Nat) :
    Nat → Nat → Nat → Nat → Nat → Nat → Nat × Nat × Nat
  | 0, _, _, kr, j, i => (kr, j, i)
  | fuel + 1, lr, mr, kr, j, i =>
    if lr = 0 then (kr, j, i)
    else
      let h := (hj.getD j []).getD (kr - 1 - idx.getD (lr - 1) 0) (0, 0)
      let d := xds.getD (mr - 1) 0
      integral_walk t hj idx xds fuel (run_begin idx lr) (mr - 1) (idx.getD (lr - 1) 0)
        (t.jd h.1 d) (i + h.2 + t.x h.1 d)

/-- The offset of one integral entry, or the exception the body of the loop
raises. The symmetry test reads `jis[im]` before the declaration
`int im = xmp.at(idx_mat)` of the body, so its `im` is the variable of the
set-up, which holds the number `im_outer` of the last key. -/
def entry_offset [PGCompose] (t : HDRT) (keys : List (List Char × List Nat))
    (sets : List (List Nat × List (Nat × Nat × Nat))) (hj : List (List (Nat × Nat)))
    (im_outer : Nat) (expr : List Char) (idx : List Nat) : Except String Nat :=
  match jis_find (sets.getD im_outer ([], [])).2 (entry_pg t idx) with
  | none => Except.error "Small integral elements violating point group symmetry!"
  | some _ =>
    match key_index keys (expr, idx_mat idx) with
    | none => Except.error "out_of_range"
    | some im =>
      match jis_find (sets.getD im ([], [])).2 (entry_pg t idx) with
      | none => Except.error "out_of_range"
      | some ji =>
        let w := integral_walk t hj idx (sets.getD im ([], [])).1 idx.length idx.length
          (sets.getD im ([], [])).1.length t.n_sites ji.1 ji.2
        Except.ok (w.2.2 + ((hj.getD w.2.1 []).getD w.1 (0, 0)).2)

/-- The entries `(idx, data[ix][ip / nn])` of the expression `ix` of a data
set, for `ip = 0, nn, 2 nn, ...` below `indices[ix].size()`. For `nn = 0` the
source loop does not advance; the model has no entry then. -/
def integral_entries {α : Type} [Zero α] (count_cds : List Char → Nat) (g : GeneralFCIDUMP α)
    (ix : Nat) : List (List Nat × α) :=
  let nn := count_cds (g.exprs.getD ix [])
  (List.range (if nn = 0 then 0 else ((g.indices.getD ix []).length + nn - 1) / nn)).map
    (fun j => (index_tuple (g.indices.getD ix []) nn j, (g.data.getD ix []).getD j 0))

/-- The statement `(*r[ig])[i] = gfds[ig]->data[ix][ip / nn]` for one entry;
an exception ends the call. -/
def integral_step [PGCompose] {α : Type} (t : HDRT) (keys : List (List Char × List Nat))
    (sets : List (List Nat × List (Nat × Nat × Nat))) (hj : List (List (Nat × Nat)))
    (im_outer : Nat) (expr : List Char) (r : Except String (List α)) (e : List Nat × α) :
    Except String (List α) :=
  match r with
  | Except.error m => Except.error m
  | Except.ok buf =>
    match entry_offset t keys sets hj im_outer expr e.1 with
    | Except.error m => Except.error m
    | Except.ok o => Except.ok (buf.set o e.2)

/-- The body of the loop over the expressions of a data set; `expr_mp.at(expr)`
throws when no key has the expression. -/
def integral_expr [PGCompose] {α : Type} [Zero α] (count_cds : List Char → Nat) (t : HDRT)
    (keys : List (List Char × List Nat)) (sets : List (List Nat × List (Nat × Nat × Nat)))
    (hj : List (List (Nat × Nat))) (im_outer : Nat) (g : GeneralFCIDUMP α)
    (r : Except String (List α)) (ix : Nat) : Except String (List α) :=
  match r with
  | Except.error m => Except.error m
  | Except.ok buf =>
    if keys.any (fun k => decide (k.1 = g.exprs.getD ix [])) then
      (integral_entries count_cds g ix).foldl
        (integral_step t keys sets hj im_outer (g.exprs.getD ix [])) (Except.ok buf)
    else Except.error "out_of_range"

/-- The buffer `r[ig]` of one data set. -/
def fill_integral_set [PGCompose] {α : Type} [Zero α] (count_cds : List Char → Nat) (t : HDRT)
    (keys : List (List Char × List Nat)) (sets : List (List Nat × List (Nat × Nat × Nat)))
    (hj : List (List (Nat × Nat))) (im_outer : Nat) (g : GeneralFCIDUMP α) :
    Except String (List α) :=
  (List.range g.exprs.length).foldl (integral_expr count_cds t keys sets hj im_outer g)
    (Except.ok (List.replicate t.size 0))

/-- The loop over the data sets. -/
def fill_integral_sets [PGCompose] {α : Type} [Zero α] (count_cds : List Char → Nat) (t : HDRT)
    (keys : List (List Char × List Nat)) (sets : List (List Nat × List (Nat × Nat × Nat)))
    (hj : List (List (Nat × Nat))) (im_outer : Nat) :
    List (GeneralFCIDUMP α) → Except String (List (List α))
  | [] => Except.ok []
  | g :: gs =>
    match fill_integral_set count_cds t keys sets hj im_outer g with
    | Except.error m => Except.error m
    | Except.ok v =>
      match fill_integral_sets count_cds t keys sets hj im_outer gs with
      | Except.error m => Except.error m
      | Except.ok vs => Except.ok (v :: vs)

/-- The function `DRTBigSite::fill_integral_data`, entries taken in the
order of the loops. -/
def fill_integral_data [PGCompose]
    {α : Type} [Zero α] (E : Recoupling) (count_cds : List Char → Nat)
    (t : HDRT) (schemes : List SpinPermScheme) (gfds : List (GeneralFCIDUMP α)) :
    Except String (List (List α)) :=
  match setup_all E t (expr_mp schemes) with
  | Except.error m => Except.error m
  | Except.ok sets =>
    fill_integral_sets count_cds t (expr_mp schemes) sets (hjumps t)
      ((expr_mp schemes).length - 1) gfds

/-- The row reached from `j` by `m` identity steps (catalog entry `0`) and
the sum of the offsets `xs[row][0]` along them. -/
def id_steps (t : HDRT) : Nat → Nat → Nat × Nat
  | 0, j => (j, 0)
  | m + 1, j => ((id_steps t m (t.jd j 0)).1, (id_steps t m (t.jd j 0)).2 + t.x j 0)

/-- The number of consecutive identity edges available from row `j`, counted
up to `fuel`. -/
def id_run (t : HDRT) : Nat → Nat → Nat
  | 0, _ => 0
  | fuel + 1, j => if t.jd j 0 ≠ 0 then 1 + id_run t fuel (t.jd j 0) else 0

/-- Is the label `ipg` carried by an initial row equal to `iq`? -/
def carried (t : HDRT) (iq : List Int) (ipg : Nat) : Bool :=
  (List.range t.n_init_qs).any (fun j =>
    decide (t.qs.getD j [] = iq) && decide (t.pgs.getD j 0 = ipg))

end DRTModel

namespace DRTModel

/-! ## The merge loop of `build_operator_matrices` and `fill_csr_matrix`

The element type `FL` is modelled by the rational numbers, with exact
arithmetic. -/

/-- The member `cutoff` of `DRTBigSite`: `1E-14`. -/
def cutoff : ℚ := 1 / 100000000000000

/-- The indices `0, ..., n - 1` of the association list after
`sort(idxs.begin(), idxs.end(), [](a, b) { return xpk[a] < xpk[b]; })`. -/
def merge_order (xpk : List Nat) (n : Nat) : List Nat :=
  sort_rows (fun a b => decide (xpk.getD a 0 < xpk.getD b 0)) (List.range n)

/-- The number `xn` of distinct ket indices computed before the merge loop. -/
def merge_xn (xpk : List Nat) (idxs : List Nat) : Nat :=
  (if idxs.length > 0 then 1 else 0) +
    ((List.range (idxs.length - 1)).filter (fun i =>
      decide (xpk.getD (idxs.getD (i + 1) 0) 0 ≠ xpk.getD (idxs.getD i 0) 0))).length

/-- The body of the merge loop for the position `i`. The parallel vectors
`col_idxs[it][ibra]` and `values[it][ibra]` are kept as one list of pairs
`(column, value)`. -/
def merge_step (cut : ℚ) (xpk xph : List Nat) (xhv ints : List ℚ) (idxs : List Nat)
    (acc : List (Nat × ℚ)) (i : Nat) : List (Nat × ℚ) :=
  if i = 0 ∨ (xpk.getD (idxs.getD i 0) 0 ≠ xpk.getD (idxs.getD (i - 1) 0) 0 ∧
      |(acc.getLast?.getD (0, 0)).2| > cut) then
    acc ++ [(xpk.getD (idxs.getD i 0) 0,
      xhv.getD (idxs.getD i 0) 0 * ints.getD (xph.getD (idxs.getD i 0) 0) 0)]
  else
    acc.dropLast ++ [(xpk.getD (idxs.getD i 0) 0,
      (acc.getLast?.getD (0, 0)).2 +
        xhv.getD (idxs.getD i 0) 0 * ints.getD (xph.getD (idxs.getD i 0) 0) 0)]

/-- The merge loop over the positions `0, ..., n - 1` of `idxs`. -/
def merge_loop (cut : ℚ) (xpk xph : List Nat) (xhv ints : List ℚ) (idxs : List Nat)
    (n : Nat) : List (Nat × ℚ) :=
  (List.range n).foldl (merge_step cut xpk xph xhv ints idxs) []

/-- The row `(col_idxs[it][ibra], values[it][ibra])` emitted for one bra row
and one coefficient buffer `ints`, from the association list
`(xpk, xph, xhv)`. -/
def merge_row (cut : ℚ) (xpk xph : List Nat) (xhv ints : List ℚ) : List (Nat × ℚ) :=
  merge_loop cut xpk xph xhv ints (merge_order xpk xhv.length) (merge_order xpk xhv.length).length

/-- The sum of the products `xhv * ints[xph]` over the items of the
association list whose ket index is `col`: the value the specification
requires for the column `col`. -/
def ket_sum (xpk xph : List Nat) (xhv ints : List ℚ) (col : Nat) : ℚ :=
  (((List.range xhv.length).filter (fun a => decide (xpk.getD a 0 = col))).map
    (fun a => xhv.getD a 0 * ints.getD (xph.getD a 0) 0)).sum

/-- The fields of `GCSRMatrix<FL>` that `fill_csr_matrix` reads and writes;
the type lives outside this source tree. A null pointer is `none`. -/
structure GCSRMatrix where
  m : Nat
  n : Nat
  nnz : Int
  data : Option (List ℚ)
  rows : Option (List Int)
  cols : Option (List Int)
deriving DecidableEq, Repr

/-- The method `size()`: `(size_t)m * n`. -/
def GCSRMatrix.size (mat : GCSRMatrix) : Nat := (mat.m * mat.n) % 2 ^ 64

/-- The method `allocate()`, after `CSRMatrixRef::allocate` of
`block2/csr_matrix.hpp`: `nnz` values, `nnz` column indices and `m + 1` row
starts. -/
def GCSRMatrix.allocate (mat : GCSRMatrix) : GCSRMatrix :=
  { mat with
    data := some (List.replicate mat.nnz.toNat 0)
    cols := some (List.replicate mat.nnz.toNat 0)
    rows := some (List.replicate (mat.m + 1) 0) }

/-- The number of step sequences `d_{k-1}, ..., d_0` over `{0, ..., nd - 1}`
that are a path from row `j`: the brute-force count of the complete paths
below a row with `k` sites left. -/
def all_paths (nd : Nat) : Nat → List (List Nat)
  | 0 => [[]]
  | k + 1 => (List.range nd).flatMap (fun d => (all_paths nd k).map (fun ds => d :: ds))

/-- The number of complete step sequences from row `j` with `k` sites left. -/
def count_paths (jds : List (List Nat)) (nd k j : Nat) : Nat :=
  ((all_paths nd k).filter (fun ds => path_ok jds nd j ds)).length

/-- The row reached from `j` along the steps `ds`. -/
def path_end (jds : List (List Nat)) : Nat → List Nat → Nat
  | j, [] => j
  | j, d :: ds => path_end jds (entry jds j d) ds

end DRTModel

namespace DRTModel

/-! ## Predicates on the catalog and the cuts -/

/-- The structure of the catalog `(d_map, d_step)` while `initialize_steps`
runs: the entry at position `i` of `d_map` has the number `i`, the keys are
pairwise distinct, entry `0` is the identity and every other entry holds the
step computed from its key. -/
structure CatalogOK (cat : List (DKey × Nat) × List (List Int)) : Prop where
  len : cat.2.length = cat.1.length
  pos : 0 < cat.1.length
  idx : ∀ i, i < cat.1.length → (cat.1.getD i (([], 0), 0)).2 = i
  nodup : (cat.1.map Prod.fst).Nodup
  zero : cat.1.getD 0 (([], 0), 0) = (([], 0), 0) ∧ cat.2.getD 0 [] = [1, 0, 0, 0, 0, 0]
  step : ∀ i, 0 < i → i < cat.1.length →
    cat.2.getD i [] =
      new_step (cat.1.getD i (([], 0), 0)).1.1 (cat.1.getD i (([], 0), 0)).1.2

/-- A strict total order on the elements that satisfy `P`. -/
structure StrictOrderOn {α : Type} (lt : α → α → Bool) (P : α → Prop) : Prop where
  irrefl : ∀ a, lt a a = false
  trans : ∀ a b c, P a → P b → P c → lt a b = true → lt b c = true → lt a c = true
  total : ∀ a b, P a → P b → a ≠ b → lt a b = true ∨ lt b a = true

end DRTModel

namespace DRTModel

/-! ## The site indices collected by `HDRT::operator[]` -/

/-- The copies `kidx.insert(kidx.begin(), k)` that `operator[]` makes for
the step `d` at site `k`: `d_step[d][4]` copies when the sub-expression of
`d` is not empty, none otherwise. -/
def HDRT.ins (t : HDRT) (k d : Nat) : List Nat :=
  if (t.d_expr.getD d ([], 0)).1 ≠ [] then
    List.replicate ((t.d_step.getD d []).getD 4 0).toNat k
  else []

/-- The vector `kidx` after the steps `d_{k-1}, ..., d_0` taken at the sites
`k - 1, ..., 0`: the copies of a later step stand before those of an earlier
one. -/
def HDRT.kidx_seq (t : HDRT) : List Nat → List Nat
  | [] => []
  | d :: ds => HDRT.kidx_seq t ds ++ t.ins ds.length d

end DRTModel

namespace DRTModel

/-! ## The workspace of `expo_apply_complex_op` (`block2/complex_matrix_functions.hpp`) -/

/-- The value stored in a signed integer of `w` bits when the exact result
of an operation is `z`. -/
def wrap_int (w : Nat) (z : Int) : Int := (z + 2 ^ (w - 1)) % 2 ^ w - 2 ^ (w - 1)

/-- The workspace that the comment of `expo_pade` requires:
`lwork = 4 * m * m + ideg + 1`. -/
def expo_pade_lwork (ideg m : Int) : Int := 4 * m * m + ideg + 1

/-- The expression `n * (m + 2) + 5 * (m + 2) * (m + 2)` in `MKL_INT`
arithmetic of `w` bits; `expo_apply_complex_op` and `expo_krylov` both
evaluate it. -/
def krylov_core (w : Nat) (n m : Int) : Int :=
  wrap_int w (wrap_int w (n * wrap_int w (m + 2)) +
    wrap_int w (wrap_int w (5 * wrap_int w (m + 2)) * wrap_int w (m + 2)))

/-- The flag `iflag` of `expo_krylov` after the two tests of its input; a
value different from `0` prints "bad sizes" and aborts. -/
def expo_krylov_iflag (w : Nat) (n m lwork : Int) : Int :=
  let ideg : Int := 6
  let iflag1 : Int :=
    if lwork < wrap_int w (wrap_int w (krylov_core w n m + ideg) + 1) then -1 else 0
  if m ≥ n ∨ m ≤ 0 then -3 else iflag1

/-- The routine that `expo_apply_complex_op` calls, with the sizes it
passes. -/
inductive ExpoCall where
  | pade (ideg m lwork : Int)
  | krylov (n m lwork : Int)
deriving DecidableEq, Repr

/-- The sizes `expo_apply_complex_op` computes for a vector of `n = vm * vn`
elements: `expo_pade(6, n, ...)` on `work(4 * n * n + 7)` when `n < 4`, and
otherwise `expo_krylov(lop, n, m, ..., lwork)` with
`m = min((MKL_INT)deflation_max_size, n - 1)` and
`lwork = n * (m + 2) + 5 * (m + 2) * (m + 2) + 7`. -/
def expo_apply_complex_op_call (w : Nat) (n deflation_max_size : Int) : ExpoCall :=
  if n < 4 then
    ExpoCall.pade 6 n (wrap_int w (wrap_int w (wrap_int w (4 * n) * n) + 7))
  else
    ExpoCall.krylov n (min (wrap_int w deflation_max_size) (wrap_int w (n - 1)))
      (wrap_int w (krylov_core w n
        (min (wrap_int w deflation_max_size) (wrap_int w (n - 1))) + 7))

/-! ## The constructor `DRT(a, b, c, ipg, orb_sym)` -/

/-- The arguments `(a + abs(b) + c, vector<S>{S(a + a + b, b, ipg)})` that
the constructor `DRT(a, b, c, ipg, orb_sym)` passes on. -/
def DRT.abc_args (a b c : Int) (ipg : Nat) : Nat × List QLabel :=
  ((a + (b.natAbs : Int) + c).toNat, [⟨a + a + b, b, ipg⟩])

/-- The constructor `DRT(a, b, c, ipg, orb_sym)`. -/
def DRT.build_abc [PGCompose] (su2 : Bool) (a b c : Int) (ipg : Nat) (orb_sym : List Nat) : DRT :=
  DRT.build su2 (DRT.abc_args a b c ipg).1 (DRT.abc_args a b c ipg).2 orb_sym

end DRTModel

namespace DRTModel

/-! ## Compressed-sparse-row matrices (`block2/csr_matrix.hpp`)

The element type `double` is modelled by the rational numbers. Memory that
`allocate()` returns is not initialised: its contents are the values of the
functions `gd`, `gc` and `gr`, which every caller passes in. -/

/-- The dense matrix `MatrixRef` that `from_dense` reads and `to_dense`
writes: `m` rows, `n` columns and the row-major array `data`, with
`mat(i, j) = data[i * n + j]`. The type lives outside this source tree. -/
structure MatrixRef where
  m : Nat
  n : Nat
  data : List ℚ
deriving DecidableEq

/-- The element `mat(i, j)`. -/
def MatrixRef.get (mat : MatrixRef) (i j : Nat) : ℚ := mat.data.getD (i * mat.n + j) 0

/-- The struct `CSRMatrixRef`: the sizes `m`, `n`, `nnz` and the arrays
`data`, `rows`, `cols`. -/
structure CSRMatrixRef where
  m : Nat
  n : Nat
  nnz : Nat
  data : List ℚ
  rows : List Nat
  cols : List Nat
deriving DecidableEq

/-- The method `allocate()`: `nnz` values, `nnz` column indices and `m + 1`
row starts, with the contents `gd`, `gc`, `gr` of the memory. -/
def CSRMatrixRef.allocate (gd : Nat → ℚ) (gc gr : Nat → Nat) (m n nnz : Nat) : CSRMatrixRef :=
  { m := m
    n := n
    nnz := nnz
    data := (List.range nnz).map gd
    rows := (List.range (m + 1)).map gr
    cols := (List.range nnz).map gc }

/-- The end `i == m - 1 ? nnz : rows[i + 1]` of row `i`. -/
def CSRMatrixRef.row_end (A : CSRMatrixRef) (i : Nat) : Nat :=
  if i + 1 = A.m then A.nnz else A.rows.getD (i + 1) 0

/-- The method `to_dense(mat)` for a matrix `mat` of `m` rows and `n`
columns: `mat.clear()`, then `mat(i, cols[j]) = data[j]` for every row `i`
and every `j` from `rows[i]` to the end of the row. The result is the array
of `mat`. -/
def CSRMatrixRef.to_dense (A : CSRMatrixRef) : List ℚ :=
  (List.range A.m).foldl (fun M i =>
    (List.range' (A.rows.getD i 0) (A.row_end i - A.rows.getD i 0)).foldl (fun M2 j =>
      M2.set (i * A.n + A.cols.getD j 0) (A.data.getD j 0)) M)
    (List.replicate (A.m * A.n) 0)

/-- The first loop of `from_dense`: `nnz += mat.data[i] != 0` for
`i < mat.size()`. -/
def from_dense_nnz (mat : MatrixRef) : Nat :=
  ((List.range (mat.m * mat.n)).filter (fun i => decide (mat.data.getD i 0 ≠ 0))).length

/-- The inner loop of `from_dense` for row `i`: the state is `(k, cols,
data)`, and an element with `abs(mat(i, j)) > cutoff` is stored at `k`. -/
def from_dense_row (mat : MatrixRef) (cutoff : ℚ) (i : Nat)
    (st : Nat × List Nat × List ℚ) : Nat × List Nat × List ℚ :=
  (List.range mat.n).foldl (fun s j =>
    if |mat.get i j| > cutoff then (s.1 + 1, s.2.1.set s.1 j, s.2.2.set s.1 (mat.get i j))
    else s) st

/-- The second loop of `from_dense`: `rows[i] = k` and the inner loop, for
`i < m`; the state is `(rows, k, cols, data)`. -/
def from_dense_loop (mat : MatrixRef) (cutoff : ℚ)
    (st : List Nat × Nat × List Nat × List ℚ) : List Nat × Nat × List Nat × List ℚ :=
  (List.range mat.m).foldl (fun s i =>
    (s.1.set i s.2.1, from_dense_row mat cutoff i s.2)) st

/-- The method `from_dense(mat, cutoff)`. -/
def CSRMatrixRef.from_dense (gd : Nat → ℚ) (gc gr : Nat → Nat) (mat : MatrixRef)
    (cutoff : ℚ) : CSRMatrixRef :=
  let a := CSRMatrixRef.allocate gd gc gr mat.m mat.n (from_dense_nnz mat)
  let s := from_dense_loop mat cutoff (a.rows, 0, a.cols, a.data)
  { a with
    data := s.2.2.2
    cols := s.2.2.1
    rows := s.1.set mat.m a.nnz }

/-- The number of elements that `from_dense` stores: those with
`abs(mat(i, j)) > cutoff`. -/
def stored_count (mat : MatrixRef) (cutoff : ℚ) : Nat :=
  ((List.range mat.m).map (fun i =>
    ((List.range mat.n).filter (fun j => decide (|mat.get i j| > cutoff))).length)).sum

/-- The macro `TINY`, the default cutoff of `from_dense`. -/
def TINY : ℚ := 1 / 100000000000000000000

/-- The loop `for (ia < nnz) r.rows[cols[ia] + 1]++` of `transpose`. -/
def transpose_count (cols : List Nat) (nnz : Nat) (rows : List Nat) : List Nat :=
  (List.range nnz).foldl (fun r ia =>
    r.set (cols.getD ia 0 + 1) (r.getD (cols.getD ia 0 + 1) 0 + 1)) rows

/-- The loop `for (ia < n) r.rows[ia + 1] += r.rows[ia]` of `transpose`. -/
def transpose_sums (n : Nat) (rows : List Nat) : List Nat :=
  (List.range n).foldl (fun r ia => r.set (ia + 1) (r.getD (ia + 1) 0 + r.getD ia 0)) rows

/-- The body of the third loop of `transpose` for the entry `ja` of row
`ia`; the state is `(r.rows, r.cols, r.data)`. -/
def transpose_put (A : CSRMatrixRef) (ia : Nat) (s : List Nat × List Nat × List ℚ)
    (ja : Nat) : List Nat × List Nat × List ℚ :=
  (s.1.set (A.cols.getD ja 0) (s.1.getD (A.cols.getD ja 0) 0 + 1),
    s.2.1.set (s.1.getD (A.cols.getD ja 0) 0) ia,
    s.2.2.set (s.1.getD (A.cols.getD ja 0) 0) (A.data.getD ja 0))

/-- The third loop of `transpose`, over the rows `ia < m` and the entries
`ja` from `rows[ia]` to the end of the row. -/
def transpose_scatter (A : CSRMatrixRef) (s : List Nat × List Nat × List ℚ) :
    List Nat × List Nat × List ℚ :=
  (List.range A.m).foldl (fun s1 ia =>
    (List.range' (A.rows.getD ia 0) (A.row_end ia - A.rows.getD ia 0)).foldl
      (transpose_put A ia) s1) s

/-- The last loop of `transpose`, `for (ia = n - 1; ia >= 0; ia--)`:
`r.rows[ia] -= r.rows[ia] - (ia == 0 ? 0 : r.rows[ia - 1])`, in `int`
arithmetic. -/
def transpose_shift (n : Nat) (rows : List Nat) : List Nat :=
  (List.range n).reverse.foldl (fun r ia =>
    r.set ia (((r.getD ia 0 : Int) -
      ((r.getD ia 0 : Int) - (if ia = 0 then 0 else (r.getD (ia - 1) 0 : Int)))).toNat)) rows

/-- The method `transpose()`; the row array of the result is cleared by
`memset` on `n + 1` entries. -/
def CSRMatrixRef.transpose (gd : Nat → ℚ) (gc : Nat → Nat) (A : CSRMatrixRef) :
    CSRMatrixRef :=
  let r := CSRMatrixRef.allocate gd gc (fun _ => 0) A.n A.m A.nnz
  let rows2 := transpose_sums A.n (transpose_count A.cols A.nnz r.rows)
  let s := transpose_scatter A (rows2, r.cols, r.data)
  { r with
    data := s.2.2
    cols := s.2.1
    rows := transpose_shift A.n s.1 }

/-- The CSR matrices the specification calls valid: the row starts go from
`0` to `nnz` without decreasing, every column index is below `n`, and no row
holds a column index twice. -/
structure CSRMatrixRef.Valid (A : CSRMatrixRef) : Prop where
  rows_len : A.rows.length = A.m + 1
  cols_len : A.cols.length = A.nnz
  data_len : A.data.length = A.nnz
  rows_zero : A.rows.getD 0 0 = 0
  rows_last : A.rows.getD A.m 0 = A.nnz
  rows_mono : ∀ i, i < A.m → A.rows.getD i 0 ≤ A.rows.getD (i + 1) 0
  cols_lt : ∀ k, k < A.nnz → A.cols.getD k 0 < A.n
  no_repeat : ∀ i, i < A.m → ∀ k, k < A.rows.getD (i + 1) 0 → ∀ j, j < k →
    A.rows.getD i 0 ≤ j → A.cols.getD j 0 ≠ A.cols.getD k 0

end DRTModel

namespace DRTModel

/-! ## `SU2Matrix::build_matrix` -/

/-- The three elementary matrices `op_matrices()[0..2]` and the body of
`multiply(a, b, dq)` as a function of its `int16_t` parameter; they depend on
`SU2CG`, which lives outside this source tree. -/
structure SU2Ops (α : Type) where
  op_matrices : Nat → α
  mul : α → α → Int → α

/-- The call `multiply(a, b, dq)` with an argument `dq` of type `int`: the
parameter is an `int16_t`. -/
def SU2Ops.multiply {α : Type} (O : SU2Ops α) (a b : α) (dq : Int) : α :=
  O.mul a b (wrap_int 16 dq)

/-- The value of `ix` after the first loop of `build_matrix`: the number of
characters before the first `+` met at depth `1`, or the length of the
string. -/
def scan_plus : List Char → Int → Nat
  | [], _ => 0
  | c :: cs, depth =>
    if c = '(' then 1 + scan_plus cs (depth + 1)
    else if c = ')' then 1 + scan_plus cs (depth - 1)
    else if c = '+' ∧ depth = 1 then 0
    else 1 + scan_plus cs depth

/-- The test `expr[i] >= '0' && expr[i] <= '9'`. -/
def is_digit (c : Char) : Bool := decide (48 ≤ c.toNat) && decide (c.toNat ≤ 57)

/-- The second loop of `build_matrix` on the reversed string, in `int`
arithmetic of 32 bits: the state is `(k, dq)`, the result `(dq, iy)`. The
index of the head of the list is the length of its tail. -/
def dq_loop : List Char → Int → Int → Int × Nat
  | [], _, dq => (dq, 0)
  | c :: cs, k, dq =>
    if is_digit c then
      dq_loop cs (wrap_int 32 (k * 10))
        (wrap_int 32 (dq + wrap_int 32 (((c.toNat : Int) - 48) * k)))
    else (dq, cs.length)

/-- The call `s.substr(pos, len)` with an argument `len` of type `int`: it
throws when `pos > size()`, and a negative `len` is a huge `size_t`, which
takes the rest of the string. -/
def substr (s : List Char) (pos : Nat) (len : Int) : Except String (List Char) :=
  if pos > s.length then Except.error "out_of_range"
  else Except.ok (if len < 0 then s.drop pos else (s.drop pos).take len.toNat)

/-- The function `build_matrix` with `fuel` nested calls allowed. -/
def build_matrix_fuel {α : Type} (O : SU2Ops α) : Nat → List Char → Except String α
  | 0, _ => Except.error "fuel"
  | fuel + 1, expr =>
    if expr = [] then Except.ok (O.op_matrices 0)
    else if expr = ['C'] then Except.ok (O.op_matrices 1)
    else if expr = ['D'] then Except.ok (O.op_matrices 2)
    else
      let ix := scan_plus expr 0
      let r := dq_loop expr.reverse 1 0
      match substr expr 1 ((ix : Int) - 1) with
      | Except.error e => Except.error e
      | Except.ok ea =>
        match build_matrix_fuel O fuel ea with
        | Except.error e => Except.error e
        | Except.ok a =>
          match substr expr (ix + 1) ((r.2 : Int) - (ix : Int) - 1) with
          | Except.error e => Except.error e
          | Except.ok eb =>
            match build_matrix_fuel O fuel eb with
            | Except.error e => Except.error e
            | Except.ok b => Except.ok (O.multiply a b r.1)

/-- The function `SU2Matrix::build_matrix`: every nested call is on a
shorter string, so `length + 1` nested calls are enough. -/
def build_matrix {α : Type} (O : SU2Ops α) (expr : List Char) : Except String α :=
  build_matrix_fuel O (expr.length + 1) expr

/-- The expressions of the specification: `C`, `D`, or `(A+B)D` with two
such expressions `A`, `B` and a string `D` of decimal digits, kept as the
list of its digits. -/
inductive CoupledExpr where
  | C : CoupledExpr
  | D : CoupledExpr
  | node (a b : CoupledExpr) (digits : List Nat) : CoupledExpr
deriving DecidableEq, Repr

/-- The character of a decimal digit. -/
def digit_char (d : Nat) : Char := Char.ofNat (48 + d)

/-- The string of an expression of the specification. -/
def CoupledExpr.render : CoupledExpr → List Char
  | CoupledExpr.C => ['C']
  | CoupledExpr.D => ['D']
  | CoupledExpr.node a b ds =>
    ['('] ++ a.render ++ ['+'] ++ b.render ++ [')'] ++ ds.map digit_char

/-- The digit strings of an expression are not empty and hold digits. -/
def CoupledExpr.wf : CoupledExpr → Bool
  | CoupledExpr.C => true
  | CoupledExpr.D => true
  | CoupledExpr.node a b ds => a.wf && b.wf && decide (ds ≠ []) && ds.all (fun d => decide (d < 10))

/-- The value of a string of decimal digits. -/
def digits_value (ds : List Nat) : Nat := ds.foldl (fun v d => 10 * v + d) 0

/-- The matrix the specification assigns to an expression:
`multiply(matrix of A, matrix of B, value of D)` for `(A+B)D`. -/
def CoupledExpr.eval {α : Type} (O : SU2Ops α) : CoupledExpr → α
  | CoupledExpr.C => O.op_matrices 1
  | CoupledExpr.D => O.op_matrices 2
  | CoupledExpr.node a b ds => O.multiply (a.eval O) (b.eval O) (digits_value ds)

end DRTModel

namespace DRTModel

/-! ## The descent of `build_operator_matrices` for one bra index -/

/-- The struct `SU2Matrix<FL>`: the values, their index pairs and `dq`. -/
structure SU2Matrix where
  data : List ℚ
  indices : List (Int × Int)
  dq : Int
deriving DecidableEq

/-- An item `((dq, dket), (d, value))` of the lists `hm[k][dbra][jk - ji]`. -/
abbrev HmItem := (Int × Int) × (Nat × ℚ)

/-- The items pushed into `hm[k][dbra][jk - ji]` for the row `jk` of the
operator table: for every catalog step `d` with an edge and every element
`md` of `site_matrices[k][d]` whose bra index is `dbra`. -/
def hm_items (hdrt : HDRT) (mats : List SU2Matrix) (dbra : Nat) (jk : Nat) : List HmItem :=
  (List.range hdrt.nd).flatMap (fun d =>
    if hdrt.jd jk d ≠ 0 then
      (List.range ((mats.getD d ⟨[], [], 0⟩).data.length)).filterMap (fun md =>
        if ((mats.getD d ⟨[], [], 0⟩).indices.getD md (0, 0)).1 = (dbra : Int) then
          some (((mats.getD d ⟨[], [], 0⟩).dq, ((mats.getD d ⟨[], [], 0⟩).indices.getD md (0, 0)).2),
            (d, (mats.getD d ⟨[], [], 0⟩).data.getD md 0))
        else none)
    else [])

/-- The loop over `k = n_sites - 1, ..., 0` that fills `kjis` and `hm`: the
rows `ji, ..., jj - 1` of the operator table are those with the cut `k + 1`.
The result is `(kjis, hm)`. -/
def hm_build (n_sites : Nat) (hdrt : HDRT) (site_matrices : List (List SU2Matrix)) :
    List Nat × List (List (List (List HmItem))) :=
  ((List.range n_sites).reverse.foldl (fun st (k : Nat) =>
    (st.1 + ((hdrt.qs.drop st.1).takeWhile (fun q => decide (q.getD 0 0 = ((k : Nat) : Int) + 1))).length,
      st.2.1.set k st.1,
      st.2.2.set k ((List.range 4).map (fun dbra =>
        (List.range' st.1
          ((hdrt.qs.drop st.1).takeWhile (fun q => decide (q.getD 0 0 = ((k : Nat) : Int) + 1))).length).map
          (fun jk => hm_items hdrt (site_matrices.getD k []) dbra jk)))))
    (0, List.replicate n_sites 0, List.replicate n_sites [])).2

/-- A vector of two vectors, `vector<vector<T>>(2)`. -/
abbrev Two (α : Type) := List α × List α

/-- The vector `x[i]` of a vector of two vectors, `i` being `0` or `1`. -/
def Two.get {α : Type} (x : Two α) (i : Nat) : List α := if i = 0 then x.1 else x.2

/-- The vector of two vectors after `x[i]` is replaced. -/
def Two.put {α : Type} (x : Two α) (i : Nat) (v : List α) : Two α :=
  if i = 0 then (v, x.2) else (x.1, v)

/-- The scratch buffers `jh[tid]`, `jket[tid]`, `ph[tid]`, `pket[tid]` and
`hv[tid]` of one worker. -/
structure Scratch where
  xjh : Two Nat
  xjk : Two Nat
  xph : Two Nat
  xpk : Two Nat
  xhv : Two ℚ

/-- The five calls `x[i].clear()`. -/
def Scratch.clear (s : Scratch) (i : Nat) : Scratch :=
  { xjh := s.xjh.put i []
    xjk := s.xjk.put i []
    xph := s.xph.put i []
    xpk := s.xpk.put i []
    xhv := s.xhv.put i [] }

/-- The five calls `x[i].push_back(...)`. -/
def Scratch.push (s : Scratch) (i : Nat) (jh jk ph pk : Nat) (hv : ℚ) : Scratch :=
  { xjh := s.xjh.put i (s.xjh.get i ++ [jh])
    xjk := s.xjk.put i (s.xjk.get i ++ [jk])
    xph := s.xph.put i (s.xph.get i ++ [ph])
    xpk := s.xpk.put i (s.xpk.get i ++ [pk])
    xhv := s.xhv.put i (s.xhv.get i ++ [hv]) }

/-- The five vectors `x[i]` of the buffers. -/
def Scratch.slot (s : Scratch) (i : Nat) :
    List Nat × List Nat × List Nat × List Nat × List ℚ :=
  (s.xjh.get i, s.xjk.get i, s.xph.get i, s.xpk.get i, s.xhv.get i)

/-- The start of the body for one bra index: the buffers `[0]` are cleared
and receive one item per initial row of the operator table. -/
def bra_init (hdrt : HDRT) (imk : Nat) (xf : ℚ) (s : Scratch) : Scratch :=
  (List.range hdrt.n_init_qs).foldl (fun s1 i =>
    s1.push 0 i imk
      (if i ≠ 0 then (s1.xph.get 0).getLast?.getD 0 + hdrt.x (i - 1) hdrt.nd else 0) 0 xf)
    (s.clear 0)

/-- The element of `factors` read for one item. -/
def factor_at (factors : List ℚ) (factor_strides : List Int)
    (bfq biq kfq kiq mfq miq mdq : Int) : ℚ :=
  factors.getD (bfq * factor_strides.getD 0 0 + (biq - bfq + 1) * factor_strides.getD 1 0 +
    kfq * factor_strides.getD 2 0 + (kiq - kfq + 1) * factor_strides.getD 3 0 +
    mfq * factor_strides.getD 4 0 + miq * factor_strides.getD 5 0 +
    mdq * factor_strides.getD 6 0).toNat 0

/-- The body of the innermost loop of the descent: the item `md` of the list
of the entry `j` of the buffers `[pi]`; an item that passes the two tests is
pushed onto the buffers `[pj]`. -/
def bra_item (drt : DRT) (hdrt : HDRT) (factors : List ℚ) (factor_strides : List Int)
    (pi pj jbra jbv j : Nat) (s : Scratch) (md : HmItem) : Scratch :=
  let jhv := hdrt.jd ((s.xjh.get pi).getD j 0) md.2.1
  let jkv := entry drt.jds ((s.xjk.get pi).getD j 0) md.1.2.toNat
  if jkv = 0 then s
  else
    let f := factor_at factors factor_strides (drt.abc.getD jbra (0, 0, 0)).2.1
      (drt.abc.getD jbv (0, 0, 0)).2.1 (drt.abc.getD ((s.xjk.get pi).getD j 0) (0, 0, 0)).2.1
      (drt.abc.getD jkv (0, 0, 0)).2.1 ((hdrt.qs.getD ((s.xjh.get pi).getD j 0) []).getD 2 0)
      ((hdrt.qs.getD jhv []).getD 2 0) md.1.1
    if |f| < 1 / 100000000000000 then s
    else
      s.push pj jhv jkv
        (hdrt.x ((s.xjh.get pi).getD j 0) md.2.1 + (s.xph.get pi).getD j 0)
        (entry drt.xs ((s.xjk.get pi).getD j 0) md.1.2.toNat + (s.xpk.get pi).getD j 0)
        (f * (s.xhv.get pi).getD j 0 * md.2.2)

/-- One round of the loop over the sites `k` of the descent. The state is
`(buffers, pi, jbra, pbra)`; the buffers `[pj]` are cleared and filled from
the buffers `[pi]`, then `pi` and `pj` are exchanged. -/
def bra_site (drt : DRT) (hdrt : HDRT) (factors : List ℚ) (factor_strides : List Int)
    (kjis : List Nat) (hm : List (List (List (List HmItem))))
    (st : Scratch × Nat × Nat × Nat) (k : Nat) : Scratch × Nat × Nat × Nat :=
  let s := st.1
  let pi := st.2.1
  let pj := pi ^^^ 1
  let jbra := st.2.2.1
  let pbra := st.2.2.2
  let dbra := upper_bound (drt.xs.getD jbra []) pbra - 1
  let jbv := entry drt.jds jbra dbra
  let s1 := s.clear pj
  let s2 := (List.range (s1.xjh.get pi).length).foldl (fun s3 j =>
    ((((hm.getD k []).getD dbra []).getD ((s3.xjh.get pi).getD j 0 - kjis.getD k 0) []).foldl
      (bra_item drt hdrt factors factor_strides pi pj jbra jbv j) s3)) s1
  (s2, pj, jbv, pbra - entry drt.xs jbra dbra)

/-- The body of the loop over the bra indices of `build_operator_matrices`
for the index `ibra`, started with the contents `s` of the worker's buffers:
the rows `(col_idxs[it][ibra], values[it][ibra])` emitted for the coefficient
buffers `ints[it]`. -/
def bra_row (drt : DRT) (hdrt : HDRT) (factors : List ℚ) (factor_strides : List Int)
    (kjis : List Nat) (hm : List (List (List (List HmItem)))) (ints : List (List ℚ))
    (imb imk : Nat) (xf : ℚ) (s : Scratch) (ibra : Nat) : List (List (Nat × ℚ)) :=
  let st := (List.range drt.n_sites).reverse.foldl
    (bra_site drt hdrt factors factor_strides kjis hm) (bra_init hdrt imk xf s, 0, imb, ibra)
  ints.map (fun it =>
    merge_row cutoff (st.1.xpk.get st.2.1) (st.1.xph.get st.2.1) (st.1.xhv.get st.2.1) it)

end DRTModel

namespace DRTModel

/-! ## The order and the set of the strings of a DRT, in the words of the specification -/

/-- The order of the specification on occupation strings: the strings are
compared from the outermost site (the last character) down to site `0`,
with the local order `'0' < '+' < '-' < '2'`. -/
def precedes (s1 s2 : List Char) : Bool :=
  list_lt (s1.reverse.map char_step) (s2.reverse.map char_step)

/-- The strings the specification assigns to the label `(N, 2S)` in the SU2
scheme with trivial symmetry labels: length `n_sites`, characters from
`0+-2`, `2 * #2 + #+ + #- = N`, `#+ - #- = 2S`, and `#+ >= #-` in every
prefix. -/
def su2_string_ok (n_sites : Nat) (N S2 : Int) (s : List Char) : Bool :=
  decide (s.length = n_sites) &&
    s.all (fun c => decide (c = '0') || decide (c = '+') || decide (c = '-') || decide (c = '2')) &&
    decide (2 * count_char '2' s + count_char '+' s + count_char '-' s = N) &&
    decide (count_char '+' s - count_char '-' s = S2) &&
    (List.range (s.length + 1)).all (fun k =>
      decide (count_char '-' (s.take k) ≤ count_char '+' (s.take k)))

/-- The triple from which the steps `d_{k-1}, ..., d_0` lead to `(0, 0, 0)`
when every step is undone: `0` adds an empty site, `1` raises `b`, `2`
lowers `b` and adds to `a` and `c`, `3` adds to `a`. -/
def steps_row : List Nat → Int × Int × Int
  | [] => (0, 0, 0)
  | d :: ds =>
    match d with
    | 0 => ((steps_row ds).1, (steps_row ds).2.1, (steps_row ds).2.2 + 1)
    | 1 => ((steps_row ds).1, (steps_row ds).2.1 + 1, (steps_row ds).2.2)
    | 2 => ((steps_row ds).1 + 1, (steps_row ds).2.1 - 1, (steps_row ds).2.2 + 1)
    | _ => ((steps_row ds).1 + 1, (steps_row ds).2.1, (steps_row ds).2.2)

/-- Every step is below `4`, and `b` is not negative after any number of
the last steps. -/
def suffix_ok : List Nat → Bool
  | [] => true
  | d :: ds => decide (d < 4) && decide (0 ≤ (steps_row (d :: ds)).2.1) && suffix_ok ds

end DRTModel

namespace DRTModel

/-! ## The entries of a CSR matrix in storage order -/

/-- The pairs `(i, k)` of a row `i < m` and a position `k` from `rows[i]` to
the end of the row, in the order in which the loops of `to_dense` and
`transpose` visit them. -/
def CSRMatrixRef.entries (A : CSRMatrixRef) : List (Nat × Nat) :=
  (List.range A.m).flatMap (fun i =>
    (List.range' (A.rows.getD i 0) (A.row_end i - A.rows.getD i 0)).map (fun k => (i, k)))

/-- The number of column indices below `c`: the start of row `c` of the
transposed matrix. -/
def col_start (cols : List Nat) (c : Nat) : Nat := cols.countP (fun x => decide (x < c))

/-- The position at which `transpose` stores the entry `k`: the start of the
row of its column plus the number of earlier entries with the same column. -/
def col_pos (cols : List Nat) (k : Nat) : Nat :=
  col_start cols (cols.getD k 0) + (cols.take k).count (cols.getD k 0)

/-- The row that holds the entry `k`: the first component of the `k`-th
pair the loops over rows and entries visit. -/
def CSRMatrixRef.row_of (A : CSRMatrixRef) (k : Nat) : Nat := (A.entries.getD k (0, 0)).1

/-- A matrix with two rows and three columns that holds `1` at `(0, 0)`,
`2` at `(0, 2)` and `3` at `(1, 1)`. -/
def csr_example : CSRMatrixRef :=
  { m := 2, n := 3, nnz := 3, data := [1, 2, 3], rows := [0, 2, 3], cols := [0, 2, 1] }

end DRTModel

namespace DRTModel

/-! ## The compositions of the concrete tables -/

/-- The composition with which the concrete tables below are evaluated when
they name no other: the bitwise exclusive or, the composition of an abelian
point group in which every label is its own inverse. It stands after the
definitions, none of which depends on it. -/
instance xor_compose : PGCompose := ⟨fun a b => a ^^^ b⟩

/-- Another composition for a concrete table: addition modulo 3, the
composition of a cyclic group of three labels, in which `1` and `2` are
inverse to each other. -/
def z3_compose : PGCompose := ⟨fun a b => (a + b) % 3⟩

end DRTModel

namespace DRTModel

/-! ## Weight prefixes -/

theorem prefix_sums_length (acc : Nat) (ws : List Nat) :
    (prefix_sums acc ws).length = ws.length + 1 := by
  induction ws generalizing acc with
  | nil => rfl
  | cons w ws ih => simp [prefix_sums, ih]

theorem prefix_sums_getD_zero (acc : Nat) (ws : List Nat) :
    (prefix_sums acc ws).getD 0 0 = acc := by
  cases ws <;> rfl

theorem prefix_sums_getD_succ (acc : Nat) (ws : List Nat) (d : Nat) (h : d < ws.length) :
    (prefix_sums acc ws).getD (d + 1) 0 = (prefix_sums acc ws).getD d 0 + ws.getD d 0 := by
  induction ws generalizing acc d with
  | nil => exact absurd h (Nat.not_lt_zero _)
  | cons w ws ih =>
    cases d with
    | zero =>
      show (prefix_sums (acc + w) ws).getD 0 0 = acc + w
      exact prefix_sums_getD_zero _ _
    | succ d =>
      show (prefix_sums (acc + w) ws).getD (d + 1) 0 = (prefix_sums (acc + w) ws).getD d 0 + ws.getD d 0
      exact ih (acc + w) d (Nat.lt_of_succ_lt_succ h)

theorem upper_bound_spec (l : List Nat) (i : Nat) :
    (∀ k, k < upper_bound l i → l.getD k 0 ≤ i) ∧
      (upper_bound l i < l.length → i < l.getD (upper_bound l i) 0) ∧
      upper_bound l i ≤ l.length := by
  induction l with
  | nil => simp [upper_bound]
  | cons x l ih =>
    by_cases hx : x ≤ i
    · have hu : upper_bound (x :: l) i = upper_bound l i + 1 := by
        simp [upper_bound, List.takeWhile, hx]
      rw [hu]
      refine ⟨?_, ?_, ?_⟩
      · intro k hk
        cases k with
        | zero => exact hx
        | succ k => exact ih.1 k (Nat.lt_of_succ_lt_succ hk)
      · intro h
        exact ih.2.1 (Nat.lt_of_succ_lt_succ h)
      · exact Nat.succ_le_succ ih.2.2
    · have hu : upper_bound (x :: l) i = 0 := by
        simp [upper_bound, List.takeWhile, hx]
      rw [hu]
      refine ⟨?_, ?_, Nat.zero_le _⟩
      · intro k hk
        exact absurd hk (Nat.not_lt_zero _)
      · intro _
        exact Nat.lt_of_not_le hx

/-- The step found by `upper_bound` in a row of running sums: it is a step
`d < nd` whose range `[x[d], x[d + 1])` holds the offset. -/
theorem choose_spec (row : List Nat) (nd i : Nat) (hlen : row.length = nd + 1)
    (h0 : row.getD 0 0 = 0) (hi : i < row.getD nd 0) :
    upper_bound row i - 1 < nd ∧ row.getD (upper_bound row i - 1) 0 ≤ i ∧
      i < row.getD (upper_bound row i - 1 + 1) 0 := by
  obtain ⟨h1, h2, h3⟩ := upper_bound_spec row i
  have hpos : 0 < upper_bound row i := by
    rcases Nat.eq_zero_or_pos (upper_bound row i) with h | h
    · rw [h] at h2
      have := h2 (by omega)
      omega
    · exact h
  have hle : upper_bound row i ≤ nd := by
    by_contra hc
    have := h1 nd (by omega)
    omega
  refine ⟨by omega, h1 _ (by omega), ?_⟩
  have e : upper_bound row i - 1 + 1 = upper_bound row i := by omega
  rw [e]
  exact h2 (by omega)

end DRTModel

namespace DRTModel

theorem getD_set_self {α : Type} (l : List α) (m : Nat) (a d : α) (h : m < l.length) :
    (l.set m a).getD m d = a := by
  simp [List.getD_eq_getElem?_getD, List.getElem?_set_self h]

theorem getD_set_ne {α : Type} (l : List α) (m j : Nat) (a d : α) (h : m ≠ j) :
    (l.set m a).getD j d = l.getD j d := by
  simp [List.getD_eq_getElem?_getD, List.getElem?_set_ne h]

theorem xs_row_congr (xs ys : List (List Nat)) (jd : List Nat)
    (h : ∀ v, v ∈ jd → v ≠ 0 → xs.getD v [] = ys.getD v []) :
    xs_row xs jd = xs_row ys jd := by
  unfold xs_row
  congr 1
  apply List.map_congr_left
  intro v hv
  by_cases h0 : v = 0
  · simp [h0]
  · rw [if_pos h0, if_pos h0, h v hv h0]

/-- The loop "construct xs" leaves the rows from `m` on unchanged and gives
every row below `m` its running sums, when all edges point forward. -/
theorem xs_loop_spec (jds : List (List Nat)) (m : Nat) (xs0 : List (List Nat))
    (hm : m ≤ xs0.length)
    (hf : ∀ j, j < m → ∀ v, v ∈ jds.getD j [] → v = 0 ∨ j < v) :
    (xs_loop jds m xs0).length = xs0.length ∧
      (∀ j, m ≤ j → (xs_loop jds m xs0).getD j [] = xs0.getD j []) ∧
      (∀ j, j < m →
        (xs_loop jds m xs0).getD j [] = xs_row (xs_loop jds m xs0) (jds.getD j [])) := by
  induction m generalizing xs0 with
  | zero =>
    refine ⟨rfl, fun _ _ => rfl, ?_⟩
    intro j hj
    exact absurd hj (Nat.not_lt_zero _)
  | succ m ih =>
    have hlen : m < xs0.length := hm
    obtain ⟨ha, hb, hc⟩ := ih (xs0.set m (xs_row xs0 (jds.getD m [])))
      (by rw [List.length_set]; omega)
      (fun j hj => hf j (by omega))
    have hstep : xs_loop jds (m + 1) xs0 =
        xs_loop jds m (xs0.set m (xs_row xs0 (jds.getD m []))) := rfl
    rw [hstep]
    refine ⟨by rw [ha, List.length_set], ?_, ?_⟩
    · intro j hj
      rw [hb j (by omega)]
      exact getD_set_ne _ _ _ _ _ (by omega)
    · intro j hj
      by_cases hjm : j < m
      · exact hc j hjm
      · have e : j = m := by omega
        subst e
        rw [hb j (Nat.le_refl _), getD_set_self _ _ _ _ hlen]
        apply xs_row_congr
        intro v hv hv0
        have hlt : j < v := by
          rcases hf j (Nat.lt_succ_self _) v hv with h | h
          · exact absurd h hv0
          · exact h
        rw [hb v (Nat.le_of_lt hlt)]
        exact (getD_set_ne _ _ _ _ _ (by omega)).symm

end DRTModel

namespace DRTModel

/-! ## The edges built over the cuts -/

theorem cut_offset_zero {α : Type} (cs : List (List α)) : cut_offset cs 0 = 0 := by
  simp [cut_offset]

theorem cut_offset_cons_succ {α : Type} (a : List α) (cs : List (List α)) (l : Nat) :
    cut_offset (a :: cs) (l + 1) = a.length + cut_offset cs l := by
  simp [cut_offset]

theorem jds_cuts_length {α : Type} (nd : Nat) (e : List α → Nat → Nat → α → Nat → Nat)
    (p0 : Nat) (cs : List (List α)) :
    (jds_cuts nd e p0 cs).length = cut_offset cs (cs.length - 1) := by
  induction cs generalizing p0 with
  | nil => simp [jds_cuts, cut_offset]
  | cons a cs ih =>
    cases cs with
    | nil => simp [jds_cuts, cut_offset]
    | cons b2 rest =>
      have h := ih (p0 + a.length)
      simp only [jds_cuts, List.length_append, List.length_map, h]
      have e1 : (a :: b2 :: rest).length - 1 = ((b2 :: rest).length - 1) + 1 := by simp
      rw [e1, cut_offset_cons_succ]

theorem jds_cuts_get {α : Type} (nd : Nat) (e : List α → Nat → Nat → α → Nat → Nat)
    (cs : List (List α)) (p0 l t : Nat) (r : α) (hl : l + 1 < cs.length)
    (hr : (cs.getD l [])[t]? = some r) :
    (jds_cuts nd e p0 cs).getD (cut_offset cs l + t) [] =
      (List.range nd).map
        (e (cs.getD (l + 1) []) (p0 + cut_offset cs (l + 1)) (cs.length - 2 - l) r) := by
  induction cs generalizing p0 l with
  | nil => simp at hl
  | cons a cs ih =>
    cases cs with
    | nil => simp at hl
    | cons b2 rest =>
      cases l with
      | zero =>
        have hr2 : a[t]? = some r := by simpa using hr
        have ht : t < a.length := by
          by_contra hc
          rw [List.getElem?_eq_none (by omega)] at hr2
          exact absurd hr2 (by simp)
        simp only [jds_cuts, cut_offset_zero, Nat.zero_add]
        rw [List.getD_append _ _ _ _ (by simpa using ht)]
        rw [List.getD_eq_getElem?_getD, List.getElem?_map, hr2]
        simp [cut_offset]
      | succ l =>
        have hl2 : l + 1 < (b2 :: rest).length := by simpa using hl
        have hr2 : ((b2 :: rest).getD l [])[t]? = some r := by simpa using hr
        have h := ih (p0 + a.length) l hl2 hr2
        simp only [jds_cuts]
        rw [cut_offset_cons_succ, List.getD_append_right _ _ _ _ (by simp; omega)]
        have e1 : a.length + cut_offset (b2 :: rest) l + t - (List.map (fun r =>
            (List.range nd).map (e b2 (p0 + a.length) rest.length r)) a).length =
            cut_offset (b2 :: rest) l + t := by
          simp; omega
        rw [e1, h]
        have e2 : (a :: b2 :: rest).getD (l + 1 + 1) [] = (b2 :: rest).getD (l + 1) [] := rfl
        have e3 : (a :: b2 :: rest).length - 2 - (l + 1) = (b2 :: rest).length - 2 - l := by
          simp; omega
        have e4 : p0 + cut_offset (a :: b2 :: rest) (l + 1 + 1) =
            p0 + a.length + cut_offset (b2 :: rest) (l + 1) := by
          rw [cut_offset_cons_succ, Nat.add_assoc]
        rw [e2, e3, e4]

theorem jds_cuts_forward {α : Type} (nd : Nat) (e : List α → Nat → Nat → α → Nat → Nat)
    (hE : ∀ nxt p k r d, e nxt p k r d = 0 ∨ p ≤ e nxt p k r d)
    (cs : List (List α)) (p0 j v : Nat) (hv : v ∈ (jds_cuts nd e p0 cs).getD j []) :
    v = 0 ∨ p0 + j < v := by
  induction cs generalizing p0 j with
  | nil => simp [jds_cuts] at hv
  | cons a cs ih =>
    cases cs with
    | nil => simp [jds_cuts] at hv
    | cons b2 rest =>
      simp only [jds_cuts] at hv
      by_cases hj : j < a.length
      · rw [List.getD_append _ _ _ _ (by simpa using hj)] at hv
        rw [List.getD_eq_getElem?_getD, List.getElem?_map,
          List.getElem?_eq_getElem hj] at hv
        simp only [Option.map_some', Option.getD_some, List.mem_map, List.mem_range] at hv
        obtain ⟨d, _, hd⟩ := hv
        rcases hE b2 (p0 + a.length) rest.length a[j] d with h | h
        · left; omega
        · right; omega
      · rw [List.getD_append_right _ _ _ _ (by simp; omega)] at hv
        simp only [List.length_map] at hv
        rcases ih (p0 + a.length) (j - a.length) hv with h | h
        · left; exact h
        · right; omega

end DRTModel

namespace DRTModel

theorem cut_offset_succ {α : Type} (cs : List (List α)) (l : Nat) :
    cut_offset cs (l + 1) = cut_offset cs l + (cs.getD l []).length := by
  induction cs generalizing l with
  | nil => simp [cut_offset]
  | cons a cs ih =>
    cases l with
    | zero => simp [cut_offset]
    | succ l =>
      rw [cut_offset_cons_succ, cut_offset_cons_succ, ih l, List.getD_cons_succ, Nat.add_assoc]

theorem cut_offset_mono {α : Type} (cs : List (List α)) (l m : Nat) (h : l ≤ m) :
    cut_offset cs l ≤ cut_offset cs m := by
  induction m with
  | zero =>
    have e : l = 0 := by omega
    rw [e]
  | succ m ih =>
    by_cases hl : l = m + 1
    · rw [hl]
    · have := ih (by omega)
      rw [cut_offset_succ]
      omega

theorem row_index_lt {α : Type} (cs : List (List α)) (l t : Nat) (r : α)
    (hl : l + 1 < cs.length) (hr : (cs.getD l [])[t]? = some r) :
    cut_offset cs l + t < cut_offset cs (cs.length - 1) := by
  have ht : t < (cs.getD l []).length := by
    by_contra hc
    rw [List.getElem?_eq_none (by omega)] at hr
    exact absurd hr (by simp)
  have h1 := cut_offset_succ cs l
  have h2 := cut_offset_mono cs (l + 1) (cs.length - 1) (by omega)
  omega

theorem getD_range_map (nd d : Nat) (f : Nat → Nat) (h : d < nd) :
    ((List.range nd).map f).getD d 0 = f d := by
  rw [List.getD_eq_getElem?_getD, List.getElem?_map, List.getElem?_range h]
  rfl

/-- The vectors `jds` and `xs` that `initialize` builds over the cuts have the
structure `TableOK`, when the last cut has at most one row and every edge
that is not `0` is the position of the stepped row in the next cut. -/
theorem table_ok_of_build {α : Type} (cs : List (List α)) (step : Nat → α → Nat → α)
    (nd : Nat) (e : List α → Nat → Nat → α → Nat → Nat)
    (hlast : (cs.getD (cs.length - 1) []).length ≤ 1)
    (hE : ∀ nxt p k r d, e nxt p k r d ≠ 0 →
      ∃ it, e nxt p k r d = p + it ∧ nxt[it]? = some (step k r d)) :
    TableOK cs step nd (jds_cuts nd e 0 cs ++ [List.replicate nd 0])
      (xs_loop (jds_cuts nd e 0 cs ++ [List.replicate nd 0]) (cut_offset cs (cs.length - 1))
        ((List.replicate (1 + cut_offset cs (cs.length - 1)) (List.replicate (nd + 1) 0)).set
          (cut_offset cs (cs.length - 1)) (List.replicate nd 0 ++ [1]))) := by
  have hlenJ := jds_cuts_length nd e 0 cs
  have hE2 : ∀ nxt p k r d, e nxt p k r d = 0 ∨ p ≤ e nxt p k r d := by
    intro nxt p k r d
    by_cases h : e nxt p k r d = 0
    · left; exact h
    · right
      obtain ⟨it, hit, _⟩ := hE nxt p k r d h
      omega
  have hleft : ∀ j, j < cut_offset cs (cs.length - 1) →
      (jds_cuts nd e 0 cs ++ [List.replicate nd 0]).getD j [] =
        (jds_cuts nd e 0 cs).getD j [] := by
    intro j hj
    exact List.getD_append _ _ _ _ (by omega)
  have hf : ∀ j, j < cut_offset cs (cs.length - 1) →
      ∀ v, v ∈ (jds_cuts nd e 0 cs ++ [List.replicate nd 0]).getD j [] → v = 0 ∨ j < v := by
    intro j hj v hv
    rw [hleft j hj] at hv
    have := jds_cuts_forward nd e hE2 cs 0 j v hv
    omega
  obtain ⟨_, hb, hc⟩ := xs_loop_spec (jds_cuts nd e 0 cs ++ [List.replicate nd 0])
    (cut_offset cs (cs.length - 1))
    ((List.replicate (1 + cut_offset cs (cs.length - 1)) (List.replicate (nd + 1) 0)).set
      (cut_offset cs (cs.length - 1)) (List.replicate nd 0 ++ [1]))
    (by simp) hf
  refine ⟨?_, hlast, ?_⟩
  · intro l t r hl hr
    have hj := row_index_lt cs l t r hl hr
    have hrow := jds_cuts_get nd e cs 0 l t r hl hr
    rw [Nat.zero_add] at hrow
    have hrow2 : (jds_cuts nd e 0 cs ++ [List.replicate nd 0]).getD (cut_offset cs l + t) [] =
        (List.range nd).map (e (cs.getD (l + 1) []) (cut_offset cs (l + 1)) (cs.length - 2 - l) r) := by
      rw [hleft _ hj, hrow]
    refine ⟨by rw [hrow2]; simp, hc _ hj, ?_⟩
    intro d hd hne
    have hent : entry (jds_cuts nd e 0 cs ++ [List.replicate nd 0]) (cut_offset cs l + t) d =
        e (cs.getD (l + 1) []) (cut_offset cs (l + 1)) (cs.length - 2 - l) r d := by
      unfold entry
      rw [hrow2, getD_range_map nd d _ hd]
    rw [hent] at hne ⊢
    exact hE _ _ _ _ _ hne
  · unfold entry
    rw [hb _ (Nat.le_refl _), getD_set_self _ _ _ _ (by simp)]
    rw [List.getD_append_right _ _ _ _ (by simp)]
    simp

end DRTModel

namespace DRTModel

/-! ## Descent and replay over a built table -/

theorem prefix_sums_mono (acc : Nat) (ws : List Nat) (d e : Nat) (hde : d ≤ e)
    (he : e ≤ ws.length) :
    (prefix_sums acc ws).getD d 0 ≤ (prefix_sums acc ws).getD e 0 := by
  induction e with
  | zero =>
    have h : d = 0 := by omega
    rw [h]
  | succ e ih =>
    by_cases h : d = e + 1
    · rw [h]
    · have h1 := ih (by omega) (by omega)
      have h2 := prefix_sums_getD_succ acc ws e (by omega)
      omega

theorem getD_map_lt (l : List Nat) (f : Nat → Nat) (d : Nat) (h : d < l.length) :
    (l.map f).getD d 0 = f (l.getD d 0) := by
  induction l generalizing d with
  | nil => exact absurd h (Nat.not_lt_zero _)
  | cons x l ih =>
    cases d with
    | zero => rfl
    | succ d => exact ih d (Nat.lt_of_succ_lt_succ h)

/-- The running sums of a row of a table: the facts read off `xs_row`. -/
theorem row_sums (jds xs : List (List Nat)) (nd j : Nat)
    (hlen : (jds.getD j []).length = nd)
    (hrow : xs.getD j [] = xs_row xs (jds.getD j [])) :
    (xs.getD j []).length = nd + 1 ∧ entry xs j 0 = 0 ∧
      (∀ d, d < nd → entry xs j (d + 1) =
        entry xs j d + (if entry jds j d ≠ 0 then entry xs (entry jds j d) nd else 0)) ∧
      (∀ d e, d ≤ e → e ≤ nd → entry xs j d ≤ entry xs j e) := by
  have hx : ∀ d, entry xs j d = (prefix_sums 0 ((jds.getD j []).map
      (fun t => if t ≠ 0 then (xs.getD t []).getD nd 0 else 0))).getD d 0 := by
    intro d
    have h1 : entry xs j d = (xs_row xs (jds.getD j [])).getD d 0 := by
      unfold entry; rw [← hrow]
    rw [h1]; unfold xs_row; rw [hlen]
  refine ⟨?_, ?_, ?_, ?_⟩
  · rw [hrow]; unfold xs_row
    rw [prefix_sums_length, List.length_map, hlen]
  · rw [hx]; exact prefix_sums_getD_zero _ _
  · intro d hd
    rw [hx, hx, prefix_sums_getD_succ _ _ d (by rw [List.length_map, hlen]; exact hd)]
    congr 1
    rw [getD_map_lt _ _ d (by rw [hlen]; exact hd)]
    rfl
  · intro d e hde he
    rw [hx, hx]
    exact prefix_sums_mono _ _ d e hde (by rw [List.length_map, hlen]; exact he)

/-- The descent of `operator[]` from a row of cut `l` with an offset below
the row's subtree size: it takes one step per remaining site, every step
has an edge, and the offsets `xs[row][d]` along it add up to the offset. -/
theorem walk_spec {α : Type} {cs : List (List α)} {step : Nat → α → Nat → α} {nd : Nat}
    {jds xs : List (List Nat)} (T : TableOK cs step nd jds xs) :
    ∀ k l t r i, l + k + 1 = cs.length → (cs.getD l [])[t]? = some r →
      i < entry xs (cut_offset cs l + t) nd →
      (walk_steps jds xs k (cut_offset cs l + t) i).length = k ∧
        path_ok jds nd (cut_offset cs l + t) (walk_steps jds xs k (cut_offset cs l + t) i) = true ∧
        path_offset jds xs (cut_offset cs l + t) (walk_steps jds xs k (cut_offset cs l + t) i) = i := by
  intro k
  induction k with
  | zero =>
    intro l t r i hl hr hi
    have hl2 : l = cs.length - 1 := by omega
    have ht : t < (cs.getD l []).length := by
      by_contra hc
      rw [List.getElem?_eq_none (by omega)] at hr
      exact absurd hr (by simp)
    have h1 := T.last_le
    have h2 := T.last_one
    rw [← hl2] at h1 h2
    have ht0 : t = 0 := by omega
    rw [ht0, Nat.add_zero] at hi ⊢
    refine ⟨rfl, rfl, ?_⟩
    show 0 = i
    omega
  | succ k ih =>
    intro l t r i hl hr hi
    obtain ⟨hlen, hrow, hedge⟩ := T.rows l t r (by omega) hr
    obtain ⟨hrl, h0, hsucc, _⟩ := row_sums jds xs nd (cut_offset cs l + t) hlen hrow
    obtain ⟨hd, hle, hlt⟩ := choose_spec (xs.getD (cut_offset cs l + t) []) nd i hrl h0 hi
    generalize hdd : upper_bound (xs.getD (cut_offset cs l + t) []) i - 1 = d at hd hle hlt
    have hle2 : entry xs (cut_offset cs l + t) d ≤ i := hle
    have hlt2 : i < entry xs (cut_offset cs l + t) (d + 1) := hlt
    rw [hsucc d hd] at hlt2
    have hne : entry jds (cut_offset cs l + t) d ≠ 0 := by
      intro h0
      rw [if_neg (by simpa using h0)] at hlt2
      omega
    rw [if_pos hne] at hlt2
    obtain ⟨it, hit, hnext⟩ := hedge d hd hne
    have hlt3 : i - entry xs (cut_offset cs l + t) d < entry xs (cut_offset cs (l + 1) + it) nd := by
      rw [← hit]; omega
    obtain ⟨r1, r2, r3⟩ := ih (l + 1) it _ (i - entry xs (cut_offset cs l + t) d) (by omega) hnext hlt3
    have hw : walk_steps jds xs (k + 1) (cut_offset cs l + t) i =
        d :: walk_steps jds xs k (cut_offset cs (l + 1) + it)
          (i - entry xs (cut_offset cs l + t) d) := by
      show (upper_bound (xs.getD (cut_offset cs l + t) []) i - 1) :: _ = _
      rw [hdd, hit]
    rw [hw]
    refine ⟨by simp [r1], ?_, ?_⟩
    · simp only [path_ok, hd, hne, decide_True, Bool.true_and, ne_eq, not_false_eq_true]
      rw [hit]; exact r2
    · simp only [path_offset]
      rw [hit, r3]; omega

/-- Every path with existing edges from a row of cut `l` to the last cut has
an offset below the row's subtree size, and the descent of `operator[]` for
that offset takes exactly the steps of the path. -/
theorem path_spec {α : Type} {cs : List (List α)} {step : Nat → α → Nat → α} {nd : Nat}
    {jds xs : List (List Nat)} (T : TableOK cs step nd jds xs) :
    ∀ ds l t r, l + ds.length + 1 = cs.length → (cs.getD l [])[t]? = some r →
      path_ok jds nd (cut_offset cs l + t) ds = true →
      path_offset jds xs (cut_offset cs l + t) ds < entry xs (cut_offset cs l + t) nd ∧
        walk_steps jds xs ds.length (cut_offset cs l + t)
          (path_offset jds xs (cut_offset cs l + t) ds) = ds := by
  intro ds
  induction ds with
  | nil =>
    intro l t r hl hr _
    have hl2 : l = cs.length - 1 := by simp at hl; omega
    have ht : t < (cs.getD l []).length := by
      by_contra hc
      rw [List.getElem?_eq_none (by omega)] at hr
      exact absurd hr (by simp)
    have h1 := T.last_le
    have h2 := T.last_one
    rw [← hl2] at h1 h2
    have ht0 : t = 0 := by omega
    rw [ht0, Nat.add_zero]
    refine ⟨?_, rfl⟩
    show 0 < _
    omega
  | cons d ds ih =>
    intro l t r hl hr hp
    simp only [path_ok, Bool.and_eq_true, decide_eq_true_eq] at hp
    obtain ⟨⟨hd, hne⟩, hp2⟩ := hp
    obtain ⟨hlen, hrow, hedge⟩ := T.rows l t r (by simp at hl; omega) hr
    obtain ⟨hrl, h0, hsucc, hmono⟩ := row_sums jds xs nd (cut_offset cs l + t) hlen hrow
    obtain ⟨it, hit, hnext⟩ := hedge d hd hne
    rw [hit] at hp2
    obtain ⟨q1, q2⟩ := ih (l + 1) it _ (by simp at hl ⊢; omega) hnext hp2
    have hs := hsucc d hd
    rw [if_pos hne, hit] at hs
    have hm := hmono (d + 1) nd (by omega) (Nat.le_refl _)
    have hoff : path_offset jds xs (cut_offset cs l + t) (d :: ds) =
        entry xs (cut_offset cs l + t) d + path_offset jds xs (cut_offset cs (l + 1) + it) ds := by
      simp only [path_offset]; rw [hit]
    rw [hoff]
    have hlt : entry xs (cut_offset cs l + t) d + path_offset jds xs (cut_offset cs (l + 1) + it) ds <
        entry xs (cut_offset cs l + t) nd := by omega
    refine ⟨hlt, ?_⟩
    obtain ⟨cd, cle, clt⟩ := choose_spec (xs.getD (cut_offset cs l + t) []) nd _ hrl h0 hlt
    generalize hdd : upper_bound (xs.getD (cut_offset cs l + t) [])
      (entry xs (cut_offset cs l + t) d + path_offset jds xs (cut_offset cs (l + 1) + it) ds) - 1 = d2
      at cd cle clt
    have cle2 : entry xs (cut_offset cs l + t) d2 ≤ _ := cle
    have clt2 : _ < entry xs (cut_offset cs l + t) (d2 + 1) := clt
    have hdeq : d2 = d := by
      rcases Nat.lt_trichotomy d2 d with h | h | h
      · have := hmono (d2 + 1) d (by omega) (by omega)
        omega
      · exact h
      · have := hmono (d + 1) d2 (by omega) (by omega)
        omega
    show (upper_bound (xs.getD (cut_offset cs l + t) []) _ - 1) :: _ = _
    rw [hdd, hdeq, hit]
    congr 1
    have e1 : entry xs (cut_offset cs l + t) d + path_offset jds xs (cut_offset cs (l + 1) + it) ds -
        entry xs (cut_offset cs l + t) d = path_offset jds xs (cut_offset cs (l + 1) + it) ds := by
      omega
    rw [e1]
    exact q2

end DRTModel

namespace DRTModel

/-! ## Sorting, merging of neighbours and binary search -/

theorem mem_insert_sorted {α : Type} (lt : α → α → Bool) (x y : α) (l : List α) :
    y ∈ insert_sorted lt x l ↔ y = x ∨ y ∈ l := by
  induction l with
  | nil => simp [insert_sorted]
  | cons z l ih =>
    by_cases h : lt z x = true
    · simp only [insert_sorted, h, if_true, List.mem_cons, ih]
      constructor
      · rintro (h1 | h1 | h1)
        · right; left; exact h1
        · left; exact h1
        · right; right; exact h1
      · rintro (h1 | h1 | h1)
        · right; left; exact h1
        · left; exact h1
        · right; right; exact h1
    · simp only [insert_sorted, h, List.mem_cons]
      simp

theorem mem_sort_rows {α : Type} (lt : α → α → Bool) (y : α) (l : List α) :
    y ∈ sort_rows lt l ↔ y ∈ l := by
  induction l with
  | nil => simp [sort_rows]
  | cons x l ih =>
    have e : sort_rows lt (x :: l) = insert_sorted lt x (sort_rows lt l) := rfl
    rw [e, mem_insert_sorted, ih, List.mem_cons]

theorem insert_sorted_pairwise {α : Type} (lt : α → α → Bool) (so : StrictOrder lt) (x : α)
    (l : List α) (h : l.Pairwise (fun a b => lt b a = false)) :
    (insert_sorted lt x l).Pairwise (fun a b => lt b a = false) := by
  induction l with
  | nil => simp [insert_sorted]
  | cons z l ih =>
    rw [List.pairwise_cons] at h
    by_cases hz : lt z x = true
    · simp only [insert_sorted, hz, if_true]
      rw [List.pairwise_cons]
      refine ⟨?_, ih h.2⟩
      intro y hy
      rw [mem_insert_sorted] at hy
      rcases hy with hy | hy
      · rw [hy]
        by_contra hc
        have hc2 : lt x z = true := by simpa using hc
        have := so.trans z x z hz hc2
        rw [so.irrefl] at this
        exact absurd this (by simp)
      · exact h.1 y hy
    · have e : insert_sorted lt x (z :: l) = x :: z :: l := by
        simp [insert_sorted, hz]
      rw [e, List.pairwise_cons]
      refine ⟨?_, List.pairwise_cons.mpr h⟩
      intro y hy
      rw [List.mem_cons] at hy
      rcases hy with hy | hy
      · rw [hy]; simpa using hz
      · have h1 := h.1 y hy
        by_contra hc
        have hc2 : lt y x = true := by simpa using hc
        by_cases hzy : z = y
        · rw [hzy] at hz; exact hz hc2
        · rcases so.total z y hzy with h2 | h2
          · exact hz (so.trans z y x h2 hc2)
          · rw [h1] at h2; exact absurd h2 (by simp)

theorem sort_rows_pairwise {α : Type} (lt : α → α → Bool) (so : StrictOrder lt) (l : List α) :
    (sort_rows lt l).Pairwise (fun a b => lt b a = false) := by
  induction l with
  | nil => simp [sort_rows]
  | cons x l ih => exact insert_sorted_pairwise lt so x _ ih

theorem unique_rows_sublist {α : Type} [DecidableEq α] (l : List α) :
    (unique_rows l).Sublist l := by
  induction l with
  | nil => exact List.Sublist.refl _
  | cons x l ih =>
    cases l with
    | nil => exact List.Sublist.refl _
    | cons y ys =>
      by_cases h : x = y
      · simp only [unique_rows, h, if_true]
        exact List.Sublist.cons _ ih
      · simp only [unique_rows, h, if_false]
        exact List.Sublist.cons₂ _ ih

theorem mem_unique_rows {α : Type} [DecidableEq α] (y : α) (l : List α) :
    y ∈ unique_rows l ↔ y ∈ l := by
  constructor
  · exact fun h => (unique_rows_sublist l).subset h
  · induction l with
    | nil => exact fun h => h
    | cons x l ih =>
      cases l with
      | nil => exact fun h => h
      | cons z zs =>
        intro h
        by_cases hxz : x = z
        · simp only [unique_rows, hxz, if_true]
          apply ih
          rw [List.mem_cons] at h
          rcases h with h | h
          · rw [h, hxz]; exact List.mem_cons_self _ _
          · exact h
        · simp only [unique_rows, hxz, if_false]
          rw [List.mem_cons] at h ⊢
          rcases h with h | h
          · left; exact h
          · right; exact ih h

/-- On a sorted cut `lower_bound` finds every row of the cut. -/
theorem lower_bound_mem {α : Type} (lt : α → α → Bool) (so : StrictOrder lt) (l : List α)
    (v : α) (hs : l.Pairwise (fun a b => lt b a = false)) (hv : v ∈ l) :
    l[lower_bound lt l v]? = some v := by
  induction l with
  | nil => simp at hv
  | cons x l ih =>
    rw [List.pairwise_cons] at hs
    by_cases hx : lt x v = true
    · have hne : v ≠ x := by
        intro h; rw [h, so.irrefl] at hx; exact absurd hx (by simp)
      have hv2 : v ∈ l := by
        rcases List.mem_cons.mp hv with h | h
        · exact absurd h hne
        · exact h
      have e : lower_bound lt (x :: l) v = lower_bound lt l v + 1 := by
        simp [lower_bound, List.takeWhile, hx]
      rw [e, List.getElem?_cons_succ]
      exact ih hs.2 hv2
    · have e : lower_bound lt (x :: l) v = 0 := by
        simp [lower_bound, List.takeWhile, hx]
      rw [e]
      rcases List.mem_cons.mp hv with h | h
      · rw [h]; simp
      · have h1 := hs.1 v h
        by_cases hxv : x = v
        · rw [hxv]; simp
        · rcases so.total x v hxv with h2 | h2
          · exact absurd h2 hx
          · rw [h1] at h2; exact absurd h2 (by simp)

theorem binary_search_mem {α : Type} (lt : α → α → Bool) (so : StrictOrder lt) (l : List α)
    (v : α) (hs : l.Pairwise (fun a b => lt b a = false)) (hv : v ∈ l) :
    binary_search lt l v = true := by
  unfold binary_search
  rw [List.get?_eq_getElem?, lower_bound_mem lt so l v hs hv]
  simp [so.irrefl]

end DRTModel

namespace DRTModel

/-! ## The cuts of the forward expansion and of the backward filter -/

theorem forward_cuts_length {α : Type} (expand : Nat → List α → List α) (k : Nat)
    (cur : List α) : (forward_cuts expand k cur).length = k + 1 := by
  induction k generalizing cur with
  | zero => rfl
  | succ k ih => simp [forward_cuts, ih]

theorem forward_cuts_invariant {α : Type} (expand : Nat → List α → List α)
    (P : Nat → α → Prop)
    (hstep : ∀ k cur, (∀ r, r ∈ cur → P (k + 1) r) → ∀ r, r ∈ expand k cur → P k r)
    (k : Nat) (cur : List α) (h0 : ∀ r, r ∈ cur → P k r) :
    ∀ l r, l ≤ k → r ∈ (forward_cuts expand k cur).getD l [] → P (k - l) r := by
  induction k generalizing cur with
  | zero =>
    intro l r hl hr
    have e : l = 0 := by omega
    subst e
    exact h0 r hr
  | succ k ih =>
    intro l r hl hr
    cases l with
    | zero => exact h0 r hr
    | succ l =>
      have hr2 : r ∈ (forward_cuts expand k (expand k cur)).getD l [] := hr
      have := ih (expand k cur) (hstep k cur h0) l r (by omega) hr2
      have e : k + 1 - (l + 1) = k - l := by omega
      rw [e]; exact this

/-- Every row of a cut after the first comes from a row of the cut before
it by the expansion at the site between them. -/
theorem forward_cuts_succ {α : Type} (expand : Nat → List α → List α) (k : Nat)
    (cur : List α) (l : Nat) (hl : l < k) :
    (forward_cuts expand k cur).getD (l + 1) [] =
      expand (k - 1 - l) ((forward_cuts expand k cur).getD l []) := by
  induction k generalizing cur l with
  | zero => exact absurd hl (Nat.not_lt_zero _)
  | succ k ih =>
    cases l with
    | zero =>
      cases k with
      | zero => rfl
      | succ k => rfl
    | succ l =>
      have h := ih (expand k cur) l (by omega)
      have e : k + 1 - 1 - (l + 1) = k - 1 - l := by omega
      rw [e]
      exact h

theorem filter_cuts_length {α : Type} (keep : Nat → Nat → List α → α → Bool) (lvl : Nat)
    (cs : List (List α)) : (filter_cuts keep lvl cs).length = cs.length := by
  induction cs generalizing lvl with
  | nil => rfl
  | cons a cs ih =>
    cases cs with
    | nil => rfl
    | cons b rest =>
      simp only [filter_cuts, List.length_cons]
      rw [ih (lvl + 1)]
      rfl

/-- The cut `l` after the filter: the rows of the cut that pass the test
against the filtered next cut; the last cut is unchanged. -/
theorem filter_cuts_get {α : Type} (keep : Nat → Nat → List α → α → Bool) (lvl : Nat)
    (cs : List (List α)) (l : Nat) (hl : l + 1 < cs.length) :
    (filter_cuts keep lvl cs).getD l [] =
      (cs.getD l []).filter (keep (lvl + l) (cs.length - 2 - l)
        ((filter_cuts keep lvl cs).getD (l + 1) [])) := by
  induction cs generalizing lvl l with
  | nil => simp at hl
  | cons a cs ih =>
    cases cs with
    | nil => simp at hl
    | cons b rest =>
      cases l with
      | zero =>
        simp only [filter_cuts, List.getD_cons_zero, List.getD_cons_succ, Nat.add_zero]
        have e1 : (a :: b :: rest).length - 2 - 0 = rest.length := by simp
        rw [e1]
        have e2 : (filter_cuts keep (lvl + 1) (b :: rest)).headD [] =
            (filter_cuts keep (lvl + 1) (b :: rest)).getD 0 [] := by
          cases filter_cuts keep (lvl + 1) (b :: rest) <;> rfl
        rw [e2]
      | succ l =>
        have h := ih (lvl + 1) l (by simpa using hl)
        simp only [filter_cuts, List.getD_cons_succ]
        rw [h]
        have e1 : (a :: b :: rest).length - 2 - (l + 1) = (b :: rest).length - 2 - l := by
          simp; omega
        have e2 : lvl + 1 + l = lvl + (l + 1) := by omega
        rw [e1, e2]

theorem filter_cuts_last {α : Type} (keep : Nat → Nat → List α → α → Bool) (lvl : Nat)
    (cs : List (List α)) :
    (filter_cuts keep lvl cs).getD (cs.length - 1) [] = cs.getD (cs.length - 1) [] := by
  induction cs generalizing lvl with
  | nil => rfl
  | cons a cs ih =>
    cases cs with
    | nil => rfl
    | cons b rest =>
      have h := ih (lvl + 1)
      simp only [filter_cuts]
      have e : (a :: b :: rest).length - 1 = ((b :: rest).length - 1) + 1 := by simp
      rw [e, List.getD_cons_succ, List.getD_cons_succ]
      exact h

theorem filter_cuts_sublist {α : Type} (keep : Nat → Nat → List α → α → Bool) (lvl : Nat)
    (cs : List (List α)) (l : Nat) :
    ((filter_cuts keep lvl cs).getD l []).Sublist (cs.getD l []) := by
  by_cases h1 : l + 1 < cs.length
  · rw [filter_cuts_get keep lvl cs l h1]
    exact List.filter_sublist _
  · by_cases h2 : l + 1 = cs.length
    · have e : l = cs.length - 1 := by omega
      rw [e, filter_cuts_last]
    · have e1 : (filter_cuts keep lvl cs).getD l [] = [] :=
        List.getD_eq_default _ _ (by rw [filter_cuts_length]; omega)
      rw [e1]
      exact List.nil_sublist _

theorem flatten_get {α : Type} (cs : List (List α)) (l t : Nat)
    (ht : t < (cs.getD l []).length) :
    cs.flatten[cut_offset cs l + t]? = (cs.getD l [])[t]? := by
  induction cs generalizing l with
  | nil => simp at ht
  | cons a cs ih =>
    cases l with
    | zero =>
      simp only [cut_offset_zero, Nat.zero_add, List.flatten_cons, List.getD_cons_zero] at ht ⊢
      rw [List.getElem?_append_left ht]
    | succ l =>
      simp only [List.getD_cons_succ] at ht
      rw [cut_offset_cons_succ, List.flatten_cons,
        List.getElem?_append_right (by omega), List.getD_cons_succ]
      have e : a.length + cut_offset cs l + t - a.length = cut_offset cs l + t := by omega
      rw [e]
      exact ih l ht

/-- The row rebuilt from the steps of a path with existing edges is the row
the path starts from, up to the map `phi`, when undoing a step after `phi`
gives `phi` of the row before the step. -/
theorem recon_spec {α : Type} {cs : List (List α)} {step : Nat → α → Nat → α} {nd : Nat}
    {jds xs : List (List Nat)} (T : TableOK cs step nd jds xs)
    (unstep : Nat → Nat → α → α) (phi : α → α) (base : α)
    (hinv : ∀ k r d, d < nd → unstep k d (phi (step k r d)) = phi r)
    (hterm : ∀ r, (cs.getD (cs.length - 1) [])[0]? = some r → phi r = base) :
    ∀ ds l t r, l + ds.length + 1 = cs.length → (cs.getD l [])[t]? = some r →
      path_ok jds nd (cut_offset cs l + t) ds = true →
      recon unstep base ds = phi r := by
  intro ds
  induction ds with
  | nil =>
    intro l t r hl hr _
    have hl2 : l = cs.length - 1 := by simp at hl; omega
    have ht : t < (cs.getD l []).length := by
      by_contra hc
      rw [List.getElem?_eq_none (by omega)] at hr
      exact absurd hr (by simp)
    have h1 := T.last_le
    rw [← hl2] at h1
    have ht0 : t = 0 := by omega
    rw [ht0, hl2] at hr
    exact (hterm r hr).symm
  | cons d ds ih =>
    intro l t r hl hr hp
    simp only [path_ok, Bool.and_eq_true, decide_eq_true_eq] at hp
    obtain ⟨⟨hd, hne⟩, hp2⟩ := hp
    obtain ⟨_, _, hedge⟩ := T.rows l t r (by simp at hl; omega) hr
    obtain ⟨it, hit, hnext⟩ := hedge d hd hne
    rw [hit] at hp2
    have h := ih (l + 1) it _ (by simp at hl ⊢; omega) hnext hp2
    show unstep ds.length d (recon unstep base ds) = phi r
    rw [h]
    have e : cs.length - 2 - l = ds.length := by simp at hl; omega
    rw [e]
    exact hinv _ _ _ hd

end DRTModel

namespace DRTModel

example (a b : Int) (k : Nat) (h : a + (b.natAbs : Int) = k) (hb : b ≤ 0) : a - b = k := by omega

theorem compare_abc_pg_irrefl (p : Row) : compare_abc_pg p p = false := by
  simp [compare_abc_pg]

theorem compare_abc_pg_iff (p q : Row) :
    compare_abc_pg p q = true ↔
      (p.1.1 > q.1.1 ∨ (p.1.1 = q.1.1 ∧ (p.1.2.1 > q.1.2.1 ∨ (p.1.2.1 = q.1.2.1 ∧
        (p.1.2.2 > q.1.2.2 ∨ (p.1.2.2 = q.1.2.2 ∧ p.2 > q.2)))))) := by
  obtain ⟨⟨a1, b1, c1⟩, g1⟩ := p
  obtain ⟨⟨a2, b2, c2⟩, g2⟩ := q
  simp only [compare_abc_pg, abc_gt, ne_eq, Prod.mk.injEq, ite_not, gt_iff_lt]
  by_cases h : a1 = a2 ∧ b1 = b2 ∧ c1 = c2
  · rw [if_pos h]
    obtain ⟨h1, h2, h3⟩ := h
    simp only [decide_eq_true_eq]
    subst h1 h2 h3
    simp
  · rw [if_neg h]
    simp only [Bool.or_eq_true, Bool.and_eq_true, decide_eq_true_eq]
    constructor
    · rintro (h1 | ⟨h1, h2 | ⟨h2, h3⟩⟩)
      · left; exact h1
      · right; exact ⟨h1, Or.inl h2⟩
      · right; exact ⟨h1, Or.inr ⟨h2, Or.inl h3⟩⟩
    · rintro (h1 | ⟨h1, h2 | ⟨h2, h3 | ⟨h3, _⟩⟩⟩)
      · left; exact h1
      · right; exact ⟨h1, Or.inl h2⟩
      · right; exact ⟨h1, Or.inr ⟨h2, h3⟩⟩
      · exact absurd ⟨h1, h2, h3⟩ h

theorem compare_abc_pg_order : StrictOrder compare_abc_pg := by
  refine ⟨compare_abc_pg_irrefl, ?_, ?_⟩
  · intro p q r h1 h2
    rw [compare_abc_pg_iff] at h1 h2 ⊢
    omega
  · intro p q hne
    rw [compare_abc_pg_iff, compare_abc_pg_iff]
    have : ¬ (p.1.1 = q.1.1 ∧ p.1.2.1 = q.1.2.1 ∧ p.1.2.2 = q.1.2.2 ∧ p.2 = q.2) := by
      rintro ⟨h1, h2, h3, h4⟩
      apply hne
      obtain ⟨⟨a1, b1, c1⟩, g1⟩ := p
      obtain ⟨⟨a2, b2, c2⟩, g2⟩ := q
      simp only at h1 h2 h3 h4
      rw [h1, h2, h3, h4]
    omega

end DRTModel

namespace DRTModel

/-! ## The cuts of the row table -/

theorem mem_expand_cut [PGCompose]
    (su2 : Bool) (os : List Nat) (k : Nat) (cur : List Row) (r2 : Row)
    (h : r2 ∈ expand_cut su2 os k cur) :
    ∃ r, r ∈ cur ∧ ∃ d, d < 4 ∧ allow_abc su2 r.1.1 r.1.2.1 r.1.2.2 d = true ∧
      allow_pg k r.2 (os.getD k 0) d = true ∧ r2 = step_row r (os.getD k 0) d := by
  unfold expand_cut at h
  rw [mem_unique_rows, mem_sort_rows, List.mem_flatMap] at h
  obtain ⟨r, hr, h2⟩ := h
  unfold row_candidates at h2
  rw [List.mem_map] at h2
  obtain ⟨d, hd, he⟩ := h2
  rw [List.mem_filter, List.mem_range, Bool.and_eq_true] at hd
  exact ⟨r, hr, d, hd.1, hd.2.1, hd.2.2, he.symm⟩

theorem expand_cut_of_mem [PGCompose]
    (su2 : Bool) (os : List Nat) (k : Nat) (cur : List Row) (r : Row)
    (d : Nat) (hr : r ∈ cur) (hd : d < 4)
    (h1 : allow_abc su2 r.1.1 r.1.2.1 r.1.2.2 d = true)
    (h2 : allow_pg k r.2 (os.getD k 0) d = true) :
    step_row r (os.getD k 0) d ∈ expand_cut su2 os k cur := by
  unfold expand_cut
  rw [mem_unique_rows, mem_sort_rows, List.mem_flatMap]
  refine ⟨r, hr, ?_⟩
  unfold row_candidates
  rw [List.mem_map]
  refine ⟨d, ?_, rfl⟩
  rw [List.mem_filter, List.mem_range, Bool.and_eq_true]
  exact ⟨hd, h1, h2⟩

theorem expand_cut_pairwise [PGCompose] (su2 : Bool) (os : List Nat) (k : Nat) (cur : List Row) :
    (expand_cut su2 os k cur).Pairwise (fun a b => compare_abc_pg b a = false) :=
  List.Pairwise.sublist (unique_rows_sublist _)
    (sort_rows_pairwise compare_abc_pg compare_abc_pg_order _)

theorem mul_ne_zero_pos (a c : Int) (ha : 0 ≤ a) (hc : 0 ≤ c) (h : a * c ≠ 0) :
    1 ≤ a ∧ 1 ≤ c := by
  have h1 : a ≠ 0 := fun h0 => h (by rw [h0, Int.zero_mul])
  have h2 : c ≠ 0 := fun h0 => h (by rw [h0, Int.mul_zero])
  omega

/-- An allowed step of a valid row is a valid row with one site less. -/
theorem valid_step [PGCompose] (su2 : Bool) (k : Nat) (r : Row) (gk d : Nat)
    (hv : valid_row su2 (k + 1) r)
    (ha : allow_abc su2 r.1.1 r.1.2.1 r.1.2.2 d = true) :
    valid_row su2 k (step_row r gk d) := by
  obtain ⟨⟨a, b, c⟩, g⟩ := r
  obtain ⟨h1, h2, h3, h4⟩ := hv
  simp only at h1 h2 h3 h4
  unfold valid_row step_row
  simp only
  match d with
  | 0 =>
    simp only [allow_abc, decide_eq_true_eq] at ha
    simp only [make_abc]
    refine ⟨by omega, by omega, by omega, h4⟩
  | 1 =>
    simp only [make_abc]
    cases su2 with
    | true =>
      simp only [allow_abc, if_true, decide_eq_true_eq] at ha
      have hb := h4 rfl
      have hb2 : ¬ b ≤ 0 := by omega
      rw [if_neg hb2]
      refine ⟨by omega, by omega, by omega, fun _ => by omega⟩
    | false =>
      simp only [allow_abc, Bool.false_eq_true, if_false, Bool.or_eq_true,
        decide_eq_true_eq] at ha
      by_cases hb : b ≤ 0
      · rw [if_pos hb]
        have hac : a * c ≠ 0 := by
          rcases ha with h | h
          · omega
          · exact h
        obtain ⟨ha1, hc1⟩ := mul_ne_zero_pos a c h1 h2 hac
        refine ⟨by omega, by omega, by omega, fun h => by simp at h⟩
      · rw [if_neg hb]
        refine ⟨by omega, by omega, by omega, fun h => by simp at h⟩
  | 2 =>
    simp only [make_abc]
    cases su2 with
    | true =>
      simp only [allow_abc, if_true, decide_eq_true_eq] at ha
      have hb := h4 rfl
      obtain ⟨ha1, hc1⟩ := mul_ne_zero_pos a c h1 h2 ha
      rw [if_pos hb]
      refine ⟨by omega, by omega, by omega, fun _ => by omega⟩
    | false =>
      simp only [allow_abc, Bool.false_eq_true, if_false, Bool.or_eq_true,
        decide_eq_true_eq] at ha
      by_cases hb : b ≥ 0
      · rw [if_pos hb]
        have hac : a * c ≠ 0 := by
          rcases ha with h | h
          · omega
          · exact h
        obtain ⟨ha1, hc1⟩ := mul_ne_zero_pos a c h1 h2 hac
        refine ⟨by omega, by omega, by omega, fun h => by simp at h⟩
      · rw [if_neg hb]
        refine ⟨by omega, by omega, by omega, fun h => by simp at h⟩
  | 3 =>
    simp only [allow_abc, decide_eq_true_eq] at ha
    simp only [make_abc]
    refine ⟨by omega, by omega, by omega, h4⟩
  | (n + 4) =>
    simp [allow_abc] at ha

/-- The edge written by "construct jds" is `0` or the position of the stepped
row in the next cut. -/
theorem jd_entry_spec [PGCompose] (nxt : List Row) (p gk : Nat) (r : Row) (d : Nat)
    (h : jd_entry nxt p gk r d ≠ 0) :
    ∃ it, jd_entry nxt p gk r d = p + it ∧ nxt[it]? = some (step_row r gk d) := by
  unfold jd_entry at h ⊢
  simp only [List.get?_eq_getElem?] at h ⊢
  cases hget : nxt[lower_bound compare_abc_pg nxt (step_row r gk d)]? with
  | none => rw [hget] at h; exact absurd rfl h
  | some y =>
    rw [hget] at h
    simp only at h ⊢
    by_cases hy : y = step_row r gk d
    · rw [if_pos hy]
      exact ⟨_, rfl, by rw [hget, hy]⟩
    · rw [if_neg hy] at h; exact absurd rfl h

end DRTModel

namespace DRTModel

theorem unique_rows_const {α : Type} [DecidableEq α] (z : α) (l : List α)
    (h : ∀ x, x ∈ l → x = z) : (unique_rows l).length ≤ 1 := by
  induction l with
  | nil => simp [unique_rows]
  | cons x l ih =>
    cases l with
    | nil => simp [unique_rows]
    | cons y ys =>
      have hx : x = z := h x (List.mem_cons_self _ _)
      have hy : y = z := h y (List.mem_cons_of_mem _ (List.mem_cons_self _ _))
      have hxy : x = y := by rw [hx, hy]
      simp only [unique_rows, hxy, if_true]
      exact ih (fun w hw => h w (List.mem_cons_of_mem _ hw))

theorem shr_one (m : Int) : m >>> (1 : Nat) = m / 2 := by
  rw [Int.shiftRight_eq_div_pow]
  norm_num

theorem init_row_valid (su2 : Bool) (n_sites : Nat) (q : QLabel)
    (h : 0 ≤ (init_row n_sites q).1.1 ∧ 0 ≤ (init_row n_sites q).1.2.1 ∧
      0 ≤ (init_row n_sites q).1.2.2) :
    valid_row su2 n_sites (init_row n_sites q) := by
  unfold init_row at h
  unfold valid_row init_row
  simp only [shr_one] at h ⊢
  obtain ⟨h1, h2, h3⟩ := h
  refine ⟨h1, h3, ?_, fun _ => h2⟩
  omega

theorem DRT_cuts_length [PGCompose] (su2 : Bool) (n_sites : Nat) (init_qs : List QLabel)
    (orb_sym : List Nat) : (DRT.cuts su2 n_sites init_qs orb_sym).length = n_sites + 1 := by
  unfold DRT.cuts
  rw [filter_cuts_length, forward_cuts_length]

/-- Every row of a cut of the forward expansion is valid for the sites left,
and the rows of the last cut carry the label `0`. -/
theorem forward_valid [PGCompose] (su2 : Bool) (n_sites : Nat) (init_qs : List QLabel)
    (orb_sym : List Nat) (hn : 0 < n_sites)
    (hq : ∀ q, q ∈ init_qs → 0 ≤ (init_row n_sites q).1.1 ∧ 0 ≤ (init_row n_sites q).1.2.1 ∧
      0 ≤ (init_row n_sites q).1.2.2) :
    ∀ l r, l ≤ n_sites →
      r ∈ (forward_cuts (expand_cut su2 (fix_orb_sym n_sites orb_sym)) n_sites
        (init_qs.map (init_row n_sites))).getD l [] →
      valid_row su2 (n_sites - l) r ∧ (n_sites - l = 0 → r.2 = 0) := by
  apply forward_cuts_invariant (expand_cut su2 (fix_orb_sym n_sites orb_sym))
    (fun k r => valid_row su2 k r ∧ (k = 0 → r.2 = 0))
  · intro k cur hcur r2 hr2
    obtain ⟨r, hr, d, _, ha, hp, he⟩ := mem_expand_cut su2 _ k cur r2 hr2
    rw [he]
    refine ⟨valid_step su2 k r _ d (hcur r hr).1 ha, ?_⟩
    intro hk
    rw [hk] at hp
    simp only [allow_pg, ne_eq, not_true_eq_false, decide_False, Bool.false_or,
      decide_eq_true_eq] at hp
    rw [hk]
    exact hp
  · intro r hr
    rw [List.mem_map] at hr
    obtain ⟨q, hq1, hq2⟩ := hr
    rw [← hq2]
    exact ⟨init_row_valid su2 n_sites q (hq q hq1), fun h => by omega⟩

theorem valid_row_zero (su2 : Bool) (r : Row) (h : valid_row su2 0 r) (hg : r.2 = 0) :
    r = ((0, 0, 0), 0) := by
  obtain ⟨⟨a, b, c⟩, g⟩ := r
  obtain ⟨h1, h2, h3, _⟩ := h
  simp only at h1 h2 h3 hg
  have ha : a = 0 := by omega
  have hb : b = 0 := by omega
  have hc : c = 0 := by omega
  rw [ha, hb, hc, hg]

/-- The last cut of the row table has at most one row, the terminal row
`((0, 0, 0), 0)`. -/
theorem DRT_last_cut [PGCompose] (su2 : Bool) (n_sites : Nat) (init_qs : List QLabel)
    (orb_sym : List Nat) (hn : 0 < n_sites)
    (hq : ∀ q, q ∈ init_qs → 0 ≤ (init_row n_sites q).1.1 ∧ 0 ≤ (init_row n_sites q).1.2.1 ∧
      0 ≤ (init_row n_sites q).1.2.2) :
    ((DRT.cuts su2 n_sites init_qs orb_sym).getD n_sites []).length ≤ 1 ∧
      ∀ r, r ∈ (DRT.cuts su2 n_sites init_qs orb_sym).getD n_sites [] → r = ((0, 0, 0), 0) := by
  have hfl := forward_cuts_length (expand_cut su2 (fix_orb_sym n_sites orb_sym)) n_sites
    (init_qs.map (init_row n_sites))
  have hlast : (DRT.cuts su2 n_sites init_qs orb_sym).getD n_sites [] =
      (forward_cuts (expand_cut su2 (fix_orb_sym n_sites orb_sym)) n_sites
        (init_qs.map (init_row n_sites))).getD n_sites [] := by
    have h := filter_cuts_last
      (fun _ k fabc r => has_target fabc ((fix_orb_sym n_sites orb_sym).getD k 0) r) 0
      (forward_cuts (expand_cut su2 (fix_orb_sym n_sites orb_sym)) n_sites
        (init_qs.map (init_row n_sites)))
    rw [hfl] at h
    exact h
  have hz : ∀ r, r ∈ (forward_cuts (expand_cut su2 (fix_orb_sym n_sites orb_sym)) n_sites
      (init_qs.map (init_row n_sites))).getD n_sites [] → r = ((0, 0, 0), 0) := by
    intro r hr
    obtain ⟨h1, h2⟩ := forward_valid su2 n_sites init_qs orb_sym hn hq n_sites r (Nat.le_refl _) hr
    rw [Nat.sub_self] at h1 h2
    exact valid_row_zero su2 r h1 (h2 rfl)
  rw [hlast]
  refine ⟨?_, hz⟩
  obtain ⟨m, hm⟩ : ∃ m, n_sites = m + 1 := ⟨n_sites - 1, by omega⟩
  have hs := forward_cuts_succ (expand_cut su2 (fix_orb_sym n_sites orb_sym)) n_sites
    (init_qs.map (init_row n_sites)) m (by omega)
  rw [← hm] at hs
  rw [hs] at hz ⊢
  unfold expand_cut at hz ⊢
  apply unique_rows_const ((0, 0, 0), 0)
  intro x hx
  exact hz x ((mem_unique_rows _ _).mpr hx)

theorem DRT_build_jds [PGCompose] (su2 : Bool) (n_sites : Nat) (init_qs : List QLabel)
    (orb_sym : List Nat) :
    (DRT.build su2 n_sites init_qs orb_sym).jds =
      jds_cuts 4 (fun nxt p k r d =>
          jd_entry nxt p ((fix_orb_sym n_sites orb_sym).getD k 0) r d) 0
        (DRT.cuts su2 n_sites init_qs orb_sym) ++ [List.replicate 4 0] := rfl

theorem DRT_build_xs [PGCompose] (su2 : Bool) (n_sites : Nat) (init_qs : List QLabel)
    (orb_sym : List Nat) :
    (DRT.build su2 n_sites init_qs orb_sym).xs =
      xs_loop (DRT.build su2 n_sites init_qs orb_sym).jds
        (cut_offset (DRT.cuts su2 n_sites init_qs orb_sym)
          ((DRT.cuts su2 n_sites init_qs orb_sym).length - 1))
        ((List.replicate (1 + cut_offset (DRT.cuts su2 n_sites init_qs orb_sym)
            ((DRT.cuts su2 n_sites init_qs orb_sym).length - 1)) (List.replicate (4 + 1) 0)).set
          (cut_offset (DRT.cuts su2 n_sites init_qs orb_sym)
            ((DRT.cuts su2 n_sites init_qs orb_sym).length - 1))
          (List.replicate 4 0 ++ [1])) := by
  rw [DRT_cuts_length]
  simp only [Nat.add_sub_cancel]
  unfold DRT.build cut_offset
  simp only [Nat.add_sub_cancel_left]
  rfl

/-- The table built by the constructor has the structure `TableOK` over its
cuts. -/
theorem DRT_table_ok [PGCompose] (su2 : Bool) (n_sites : Nat) (init_qs : List QLabel)
    (orb_sym : List Nat) (hn : 0 < n_sites)
    (hq : ∀ q, q ∈ init_qs → 0 ≤ (init_row n_sites q).1.1 ∧ 0 ≤ (init_row n_sites q).1.2.1 ∧
      0 ≤ (init_row n_sites q).1.2.2) :
    TableOK (DRT.cuts su2 n_sites init_qs orb_sym)
      (fun k r d => step_row r ((fix_orb_sym n_sites orb_sym).getD k 0) d) 4
      (DRT.build su2 n_sites init_qs orb_sym).jds
      (DRT.build su2 n_sites init_qs orb_sym).xs := by
  rw [DRT_build_xs, DRT_build_jds]
  apply table_ok_of_build
  · rw [DRT_cuts_length, Nat.add_sub_cancel]
    exact (DRT_last_cut su2 n_sites init_qs orb_sym hn hq).1
  · intro nxt p k r d h
    exact jd_entry_spec nxt p _ r d h

end DRTModel

namespace DRTModel

/-! ## `operator[]` and `index` of the row table in terms of paths -/

theorem DRT_walk_eq (t : DRT) (k j i : Nat) :
    t.walk k j i = ((walk_steps t.jds t.xs k j i).reverse).map
      (fun d => step_chars.getD d ' ') := by
  induction k generalizing j i with
  | zero => rfl
  | succ k ih =>
    show t.walk k _ _ ++ [_] = _
    rw [ih]
    show _ = (List.reverse (_ :: walk_steps t.jds t.xs k _ _)).map _
    rw [List.reverse_cons, List.map_append]
    rfl

theorem char_step_chars (d : Nat) (h : d < 4) : char_step (step_chars.getD d ' ') = d := by
  match d, h with
  | 0, _ => decide
  | 1, _ => decide
  | 2, _ => decide
  | 3, _ => decide

theorem DRT_replay_prefix (t : DRT) (k : Nat) (x y : List Char) (j i : Nat)
    (h : k ≤ x.length) : t.replay k (x ++ y) j i = t.replay k x j i := by
  induction k generalizing j i with
  | zero => rfl
  | succ k ih =>
    show t.replay k (x ++ y) _ _ = t.replay k x _ _
    rw [List.getD_append x y ' ' k (by omega)]
    exact ih _ _ (by omega)

theorem DRT_replay_eq (t : DRT) (ds : List Nat) (hds : ∀ d, d ∈ ds → d < 4) (j i : Nat) :
    t.replay ds.length ((ds.reverse).map (fun d => step_chars.getD d ' ')) j i =
      i + path_offset t.jds t.xs j ds := by
  induction ds generalizing j i with
  | nil => rfl
  | cons d ds ih =>
    have hd : d < 4 := hds d (List.mem_cons_self _ _)
    rw [List.reverse_cons, List.map_append, List.length_cons]
    show t.replay ds.length _ _ _ = _
    have hlen : (List.map (fun d => step_chars.getD d ' ') ds.reverse).length = ds.length := by
      simp
    have hget : (List.map (fun d => step_chars.getD d ' ') ds.reverse ++
        List.map (fun d => step_chars.getD d ' ') [d]).getD ds.length ' ' =
        step_chars.getD d ' ' := by
      rw [List.getD_append_right _ _ _ _ (by omega), hlen, Nat.sub_self]
      rfl
    rw [hget, char_step_chars d hd, DRT_replay_prefix t _ _ _ _ _ (by omega),
      ih (fun e he => hds e (List.mem_cons_of_mem _ he))]
    show _ = i + (entry t.xs j d + path_offset t.jds t.xs (entry t.jds j d) ds)
    unfold entry
    omega

theorem rebuild_append_single [PGCompose] (x : List Char) (c : Char) (os : List Nat) (r : Row) :
    rebuild (x ++ [c]) os r = undo_char c (os.getD x.length 0) (rebuild x os r) := by
  induction x generalizing os r with
  | nil =>
    show undo_char c (os.headD 0) r = undo_char c (os.getD 0 0) r
    cases os <;> rfl
  | cons c0 x ih =>
    show rebuild (x ++ [c]) os.tail _ = undo_char c (os.getD (x.length + 1) 0) (rebuild x os.tail _)
    rw [ih]
    cases os <;> rfl

theorem rebuild_eq_recon [PGCompose] (ds : List Nat) (os : List Nat) (base : Row) :
    rebuild ((ds.reverse).map (fun d => step_chars.getD d ' ')) os base =
      recon (fun k d r => undo_char (step_chars.getD d ' ') (os.getD k 0) r) base ds := by
  induction ds with
  | nil => rfl
  | cons d ds ih =>
    rw [List.reverse_cons, List.map_append]
    show rebuild (_ ++ [step_chars.getD d ' ']) os base = _
    rw [rebuild_append_single, ih]
    simp [recon]

/-- Undoing a step after `canon_row` gives `canon_row` of the row before the
step. -/
theorem undo_step [PGCompose] (hinv : ∀ gk g : Nat, pg_mul (pg_mul gk g) gk = g)
    (gk : Nat) (r : Row) (d : Nat) (hd : d < 4) :
    undo_char (step_chars.getD d ' ') gk (canon_row (step_row r gk d)) = canon_row r := by
  obtain ⟨⟨a, b, c⟩, g⟩ := r
  match d, hd with
  | 0, _ =>
    simp only [step_row, make_abc, make_pg, canon_row, undo_char, step_chars]
    simp only [List.getD_cons_zero, if_true]
    have e : odd_step 0 = false := by decide
    simp only [e, Bool.false_eq_true, if_false, Prod.mk.injEq, and_true, true_and]
    omega
  | 1, _ =>
    have e : odd_step 1 = true := by decide
    have e1 : step_chars.getD 1 ' ' = '+' := rfl
    have e2 : ('+' = '0') = False := by decide
    simp only [step_row, make_abc, make_pg, canon_row, undo_char, e, e1, e2, if_true, if_false,
      hinv]
    by_cases hb : b ≤ 0
    · have m1 : min b 0 = b := by omega
      have m2 : min (b - 1) 0 = b - 1 := by omega
      simp only [hb, if_true, m1, m2, Prod.mk.injEq, and_true]
      omega
    · have m1 : min b 0 = 0 := by omega
      have m2 : min (b - 1) 0 = 0 := by omega
      simp only [hb, if_false, m1, m2, Prod.mk.injEq, and_true]
      omega
  | 2, _ =>
    have e : odd_step 2 = true := by decide
    have e1 : step_chars.getD 2 ' ' = '-' := rfl
    have e2 : ('-' = '0') = False := by decide
    have e3 : ('-' = '+') = False := by decide
    simp only [step_row, make_abc, make_pg, canon_row, undo_char, e, e1, e2, e3, if_true,
      if_false, hinv]
    by_cases hb : b ≥ 0
    · have m1 : min b 0 = 0 := by omega
      have m2 : min (b + 1) 0 = 0 := by omega
      simp only [hb, if_true, m1, m2, Prod.mk.injEq, and_true]
      omega
    · have m1 : min b 0 = b := by omega
      have m2 : min (b + 1) 0 = b + 1 := by omega
      simp only [hb, if_false, m1, m2, Prod.mk.injEq, and_true]
      omega
  | 3, _ =>
    have e : odd_step 3 = false := by decide
    have e1 : step_chars.getD 3 ' ' = '2' := rfl
    have e2 : ('2' = '0') = False := by decide
    have e3 : ('2' = '+') = False := by decide
    have e4 : ('2' = '-') = False := by decide
    simp only [step_row, make_abc, make_pg, canon_row, undo_char, e, e1, e2, e3, e4, if_false,
      Bool.false_eq_true, Prod.mk.injEq, and_true]
    omega

end DRTModel

namespace DRTModel

/-! ## The filter keeps a row before every kept row -/

theorem DRT_cut_nonempty_back [PGCompose] (su2 : Bool) (n_sites : Nat) (init_qs : List QLabel)
    (orb_sym : List Nat) (l : Nat) (hl : l < n_sites)
    (h : (DRT.cuts su2 n_sites init_qs orb_sym).getD (l + 1) [] ≠ []) :
    (DRT.cuts su2 n_sites init_qs orb_sym).getD l [] ≠ [] := by
  obtain ⟨r2, hr2⟩ := List.exists_mem_of_ne_nil _ h
  have hfl := forward_cuts_length (expand_cut su2 (fix_orb_sym n_sites orb_sym)) n_sites
    (init_qs.map (init_row n_sites))
  have hsub := filter_cuts_sublist
    (fun _ k fabc r => has_target fabc ((fix_orb_sym n_sites orb_sym).getD k 0) r) 0
    (forward_cuts (expand_cut su2 (fix_orb_sym n_sites orb_sym)) n_sites
      (init_qs.map (init_row n_sites))) (l + 1)
  have hsucc := forward_cuts_succ (expand_cut su2 (fix_orb_sym n_sites orb_sym)) n_sites
    (init_qs.map (init_row n_sites)) l hl
  have hget := filter_cuts_get
    (fun _ k fabc r => has_target fabc ((fix_orb_sym n_sites orb_sym).getD k 0) r) 0
    (forward_cuts (expand_cut su2 (fix_orb_sym n_sites orb_sym)) n_sites
      (init_qs.map (init_row n_sites))) l (by rw [hfl]; omega)
  have hr3 : r2 ∈ (forward_cuts (expand_cut su2 (fix_orb_sym n_sites orb_sym)) n_sites
      (init_qs.map (init_row n_sites))).getD (l + 1) [] := hsub.subset hr2
  have hpw : ((DRT.cuts su2 n_sites init_qs orb_sym).getD (l + 1) []).Pairwise
      (fun a b => compare_abc_pg b a = false) := by
    apply List.Pairwise.sublist hsub
    rw [hsucc]
    exact expand_cut_pairwise _ _ _ _
  rw [hsucc] at hr3
  obtain ⟨r, hr, d, hd, _, _, he⟩ := mem_expand_cut su2 _ _ _ r2 hr3
  have hk : (forward_cuts (expand_cut su2 (fix_orb_sym n_sites orb_sym)) n_sites
      (init_qs.map (init_row n_sites))).length - 2 - l = n_sites - 1 - l := by
    rw [hfl]; omega
  have hmem : r ∈ (DRT.cuts su2 n_sites init_qs orb_sym).getD l [] := by
    unfold DRT.cuts
    rw [hget, List.mem_filter]
    refine ⟨hr, ?_⟩
    simp only [hk]
    unfold has_target
    rw [List.any_eq_true]
    refine ⟨d, List.mem_range.mpr hd, ?_⟩
    apply binary_search_mem compare_abc_pg compare_abc_pg_order _ _ hpw
    rw [← he]
    exact hr2
  exact List.ne_nil_of_mem hmem

theorem DRT_all_empty [PGCompose] (su2 : Bool) (n_sites : Nat) (init_qs : List QLabel)
    (orb_sym : List Nat) (h : (DRT.cuts su2 n_sites init_qs orb_sym).getD 0 [] = []) :
    ∀ l, (DRT.cuts su2 n_sites init_qs orb_sym).getD l [] = [] := by
  intro l
  induction l with
  | zero => exact h
  | succ l ih =>
    by_cases hl : l < n_sites
    · by_contra hc
      exact DRT_cut_nonempty_back su2 n_sites init_qs orb_sym l hl hc ih
    · exact List.getD_eq_default _ _ (by rw [DRT_cuts_length]; omega)

theorem cut_offset_of_empty {α : Type} (cs : List (List α)) (h : ∀ l, cs.getD l [] = [])
    (m : Nat) : cut_offset cs m = 0 := by
  induction m with
  | zero => exact cut_offset_zero cs
  | succ m ih => rw [cut_offset_succ, ih, h m]; rfl

theorem flatten_of_empty {α : Type} (cs : List (List α)) (h : ∀ l, cs.getD l [] = []) :
    cs.flatten = [] := by
  induction cs with
  | nil => rfl
  | cons a cs ih =>
    have ha : a = [] := h 0
    have := ih (fun l => h (l + 1))
    rw [List.flatten_cons, ha, this]
    rfl

/-- When the filter leaves no initial row, the built table is the single
terminal placeholder row. -/
theorem DRT_build_empty [PGCompose] (su2 : Bool) (n_sites : Nat) (init_qs : List QLabel)
    (orb_sym : List Nat) (h : (DRT.cuts su2 n_sites init_qs orb_sym).getD 0 [] = []) :
    (DRT.build su2 n_sites init_qs orb_sym).xs = [[0, 0, 0, 0, 1]] ∧
      (DRT.build su2 n_sites init_qs orb_sym).jds = [[0, 0, 0, 0]] ∧
      (DRT.build su2 n_sites init_qs orb_sym).abc = [] := by
  have hall := DRT_all_empty su2 n_sites init_qs orb_sym h
  have hoff := cut_offset_of_empty _ hall
  have hj : jds_cuts 4 (fun nxt p k r d =>
      jd_entry nxt p ((fix_orb_sym n_sites orb_sym).getD k 0) r d) 0
      (DRT.cuts su2 n_sites init_qs orb_sym) = [] := by
    apply List.eq_nil_of_length_eq_zero
    rw [jds_cuts_length, hoff]
  have hjds : (DRT.build su2 n_sites init_qs orb_sym).jds = [[0, 0, 0, 0]] := by
    rw [DRT_build_jds, hj]
    rfl
  refine ⟨?_, hjds, ?_⟩
  · rw [DRT_build_xs, hoff]
    rfl
  · show (List.map Prod.fst (DRT.cuts su2 n_sites init_qs orb_sym).flatten) = []
    rw [flatten_of_empty _ hall]
    rfl

theorem char_step_ne_four (c : Char) : char_step c ≠ 4 := by
  unfold char_step
  split_ifs <;> decide

theorem DRT_placeholder_walk (t : DRT) (hx : t.xs = [[0, 0, 0, 0, 1]])
    (hj : t.jds = [[0, 0, 0, 0]]) (k : Nat) (x : List Char) :
    t.replay k x 0 0 = 0 := by
  induction k with
  | zero => rfl
  | succ k ih =>
    show t.replay k x _ _ = 0
    have h1 : (t.jds.getD 0 []).getD (char_step (x.getD k ' ')) 0 = 0 := by
      rw [hj]
      show [0, 0, 0, 0].getD _ 0 = 0
      generalize char_step (x.getD k ' ') = d
      match d with
      | 0 => rfl
      | 1 => rfl
      | 2 => rfl
      | 3 => rfl
      | (n + 4) => rfl
    have h2 : 0 + (t.xs.getD 0 []).getD (char_step (x.getD k ' ')) 0 = 0 := by
      rw [hx]
      show 0 + [0, 0, 0, 0, 1].getD _ 0 = 0
      have hne := char_step_ne_four (x.getD k ' ')
      generalize char_step (x.getD k ' ') = d at hne
      match d, hne with
      | 0, _ => rfl
      | 1, _ => rfl
      | 2, _ => rfl
      | 3, _ => rfl
      | 4, h => exact absurd rfl h
      | (n + 5), _ => rfl
    rw [h1, h2]
    exact ih

end DRTModel

namespace DRTModel

theorem path_ok_lt (jds : List (List Nat)) (nd : Nat) (j : Nat) (ds : List Nat)
    (h : path_ok jds nd j ds = true) : ∀ d, d ∈ ds → d < nd := by
  induction ds generalizing j with
  | nil => intro d hd; simp at hd
  | cons e ds ih =>
    simp only [path_ok, Bool.and_eq_true, decide_eq_true_eq] at h
    intro d hd
    rcases List.mem_cons.mp hd with h1 | h1
    · rw [h1]; exact h.1.1
    · exact ih _ h.2 d h1

theorem mem_of_getElem_some {α : Type} {l : List α} {n : Nat} {a : α}
    (h : l[n]? = some a) : a ∈ l := by
  rw [List.getElem?_eq_some] at h
  obtain ⟨hn, ha⟩ := h
  rw [← ha]
  exact List.getElem_mem _

theorem forward_cuts_zero {α : Type} (expand : Nat → List α → List α) (k : Nat)
    (cur : List α) : (forward_cuts expand k cur).getD 0 [] = cur := by
  cases k <;> rfl

theorem DRT_back_eq (t : DRT) (j : Nat) (h : (t.xs.getD j []).length = 5) :
    t.back j = entry t.xs j 4 := by
  unfold DRT.back entry
  rw [List.getLast?_eq_getElem?, h, List.getD_eq_getElem?_getD]
  simp

theorem DRT_skip_init_first (t : DRT) (m i : Nat) (h : i < t.back 0) :
    t.skip_init m 0 i = (0, i) := by
  cases m with
  | zero => rfl
  | succ m =>
    show (if i ≥ t.back 0 then _ else (0, i)) = (0, i)
    rw [if_neg (by omega)]

/-- The first row of a non-empty first cut is an initial row with `b >= 0`,
and it is row `0` of the built table. -/
theorem DRT_row_zero [PGCompose] (su2 : Bool) (n_sites : Nat) (init_qs : List QLabel)
    (orb_sym : List Nat)
    (hq : ∀ q, q ∈ init_qs → 0 ≤ (init_row n_sites q).1.1 ∧ 0 ≤ (init_row n_sites q).1.2.1 ∧
      0 ≤ (init_row n_sites q).1.2.2)
    (r0 : Row) (hr0 : ((DRT.cuts su2 n_sites init_qs orb_sym).getD 0 [])[0]? = some r0) :
    canon_row r0 = r0 ∧
      (DRT.build su2 n_sites init_qs orb_sym).abc.getD 0 (0, 0, 0) = r0.1 ∧
      (DRT.build su2 n_sites init_qs orb_sym).pgs.getD 0 0 = r0.2 := by
  have hmem : r0 ∈ (DRT.cuts su2 n_sites init_qs orb_sym).getD 0 [] :=
    mem_of_getElem_some hr0
  have hsub := filter_cuts_sublist
    (fun _ k fabc r => has_target fabc ((fix_orb_sym n_sites orb_sym).getD k 0) r) 0
    (forward_cuts (expand_cut su2 (fix_orb_sym n_sites orb_sym)) n_sites
      (init_qs.map (init_row n_sites))) 0
  have hmem2 := hsub.subset hmem
  rw [forward_cuts_zero, List.mem_map] at hmem2
  obtain ⟨q, hq1, hq2⟩ := hmem2
  have hb : 0 ≤ r0.1.2.1 := by rw [← hq2]; exact (hq q hq1).2.1
  have ht : 0 < ((DRT.cuts su2 n_sites init_qs orb_sym).getD 0 []).length :=
    List.length_pos_of_mem hmem
  have hfl := flatten_get (DRT.cuts su2 n_sites init_qs orb_sym) 0 0 ht
  rw [cut_offset_zero, hr0] at hfl
  refine ⟨?_, ?_, ?_⟩
  · obtain ⟨⟨a, b, c⟩, g⟩ := r0
    simp only at hb
    unfold canon_row
    have m : min b 0 = 0 := by omega
    simp only [m, Int.sub_zero]
  · show (List.map Prod.fst (DRT.cuts su2 n_sites init_qs orb_sym).flatten).getD 0 (0, 0, 0) = _
    rw [List.getD_eq_getElem?_getD, List.getElem?_map, hfl]
    rfl
  · show (List.map Prod.snd (DRT.cuts su2 n_sites init_qs orb_sym).flatten).getD 0 0 = _
    rw [List.getD_eq_getElem?_getD, List.getElem?_map, hfl]
    rfl

/-- The round trip for a composition in which every label is its own
inverse: for every table built by the constructor for at least one site from
labels with non-negative triples, and every index `i` below `size()`,
`index(operator[](i)) == i`. When several labels are given, the table must
have a row `0` for `index` to compare with. -/
theorem DRT_index_decode [PGCompose] (hinv : ∀ gk g : Nat, pg_mul (pg_mul gk g) gk = g)
    (su2 : Bool) (n_sites : Nat) (init_qs : List QLabel)
    (orb_sym : List Nat) (hn : 0 < n_sites)
    (hq : ∀ q, q ∈ init_qs → 0 ≤ (init_row n_sites q).1.1 ∧ 0 ≤ (init_row n_sites q).1.2.1 ∧
      0 ≤ (init_row n_sites q).1.2.2)
    (hrow : init_qs.length ≤ 1 ∨ (DRT.build su2 n_sites init_qs orb_sym).abc ≠ [])
    (i : Nat) (hi : i < (DRT.build su2 n_sites init_qs orb_sym).size) :
    (DRT.build su2 n_sites init_qs orb_sym).index
      ((DRT.build su2 n_sites init_qs orb_sym).decode i) = i := by
  have hns : (DRT.build su2 n_sites init_qs orb_sym).n_sites = n_sites := rfl
  have hni : (DRT.build su2 n_sites init_qs orb_sym).n_init_qs = init_qs.length := rfl
  have hos : (DRT.build su2 n_sites init_qs orb_sym).orb_sym = fix_orb_sym n_sites orb_sym := rfl
  have hdec : (DRT.build su2 n_sites init_qs orb_sym).decode i =
      (DRT.build su2 n_sites init_qs orb_sym).walk n_sites 0 i := by
    unfold DRT.decode
    rw [DRT_skip_init_first _ _ _ hi, hns]
  by_cases hc : (DRT.cuts su2 n_sites init_qs orb_sym).getD 0 [] = []
  · obtain ⟨hx, hj, ha⟩ := DRT_build_empty su2 n_sites init_qs orb_sym hc
    have hlen : init_qs.length ≤ 1 := by
      rcases hrow with h | h
      · exact h
      · exact absurd ha h
    have hi0 : i = 0 := by
      unfold DRT.size DRT.back at hi
      rw [hx] at hi
      have : i < 1 := hi
      omega
    unfold DRT.index
    rw [hni, if_neg (by omega), hns, hi0]
    exact DRT_placeholder_walk _ hx hj _ _
  · have T := DRT_table_ok su2 n_sites init_qs orb_sym hn hq
    have hcl := DRT_cuts_length su2 n_sites init_qs orb_sym
    obtain ⟨r0, hr0⟩ : ∃ r0, ((DRT.cuts su2 n_sites init_qs orb_sym).getD 0 [])[0]? = some r0 := by
      cases hl : (DRT.cuts su2 n_sites init_qs orb_sym).getD 0 [] with
      | nil => exact absurd hl hc
      | cons r rs => exact ⟨r, by simp⟩
    obtain ⟨hjl, hxr, _⟩ := T.rows 0 0 r0 (by rw [hcl]; omega) hr0
    rw [cut_offset_zero, Nat.add_zero] at hjl hxr
    obtain ⟨hrl, _, _, _⟩ := row_sums _ _ 4 0 hjl hxr
    have hback := DRT_back_eq _ 0 hrl
    have hi2 : i < entry (DRT.build su2 n_sites init_qs orb_sym).xs
        (cut_offset (DRT.cuts su2 n_sites init_qs orb_sym) 0 + 0) 4 := by
      rw [cut_offset_zero, Nat.add_zero, ← hback]
      exact hi
    obtain ⟨w1, w2, w3⟩ := walk_spec T n_sites 0 0 r0 i (by rw [hcl]; omega) hr0 hi2
    rw [cut_offset_zero, Nat.add_zero] at w1 w2 w3
    have hlt := path_ok_lt _ _ _ _ w2
    obtain ⟨hcan, habc, hpgs⟩ := DRT_row_zero su2 n_sites init_qs orb_sym hq r0 hr0
    have hrec := recon_spec T
      (fun k d r => undo_char (step_chars.getD d ' ') ((fix_orb_sym n_sites orb_sym).getD k 0) r)
      canon_row ((0, 0, 0), 0)
      (fun k r d hd => undo_step hinv _ r d hd)
      (by
        intro r hr
        rw [hcl, Nat.add_sub_cancel] at hr
        have := (DRT_last_cut su2 n_sites init_qs orb_sym hn hq).2 r (mem_of_getElem_some hr)
        rw [this]
        rfl)
      (walk_steps (DRT.build su2 n_sites init_qs orb_sym).jds
        (DRT.build su2 n_sites init_qs orb_sym).xs n_sites 0 i) 0 0 r0
      (by rw [w1, hcl]; omega) hr0
      (by rw [cut_offset_zero, Nat.add_zero]; exact w2)
    rw [hdec, DRT_walk_eq]
    unfold DRT.index
    rw [hns, hni, hos]
    have htake : List.take n_sites (List.map (fun d => step_chars.getD d ' ')
        (walk_steps (DRT.build su2 n_sites init_qs orb_sym).jds
          (DRT.build su2 n_sites init_qs orb_sym).xs n_sites 0 i).reverse) =
        List.map (fun d => step_chars.getD d ' ')
        (walk_steps (DRT.build su2 n_sites init_qs orb_sym).jds
          (DRT.build su2 n_sites init_qs orb_sym).xs n_sites 0 i).reverse := by
      apply List.take_of_length_le
      simp [w1]
    have hi0 : (if init_qs.length > 1 then
        (DRT.build su2 n_sites init_qs orb_sym).find_init
          (rebuild (List.take n_sites (List.map (fun d => step_chars.getD d ' ')
            (walk_steps (DRT.build su2 n_sites init_qs orb_sym).jds
              (DRT.build su2 n_sites init_qs orb_sym).xs n_sites 0 i).reverse))
            (fix_orb_sym n_sites orb_sym) ((0, 0, 0), 0)) init_qs.length 0 0
        else 0) = 0 := by
      by_cases hm : init_qs.length > 1
      · rw [if_pos hm, htake, rebuild_eq_recon, hrec, hcan]
        obtain ⟨m, hm2⟩ : ∃ m, init_qs.length = m + 1 := ⟨init_qs.length - 1, by omega⟩
        rw [hm2]
        show (if r0.1 ≠ _ ∨ r0.2 ≠ _ then _ else 0) = 0
        rw [habc, hpgs, if_neg (by simp)]
      · rw [if_neg hm]
    rw [hi0]
    have hrep := DRT_replay_eq (DRT.build su2 n_sites init_qs orb_sym) _ hlt 0 0
    rw [w1] at hrep
    rw [hrep, w3, Nat.zero_add]

end DRTModel

namespace DRTModel

/-- The exclusive or is a composition in which every label is its own
inverse. -/
theorem xor_compose_cancel :
    ∀ gk g : Nat, @pg_mul xor_compose (@pg_mul xor_compose gk g) gk = g := by
  intro gk g
  show (gk ^^^ g) ^^^ gk = g
  rw [Nat.xor_comm gk g, Nat.xor_assoc, Nat.xor_self, Nat.xor_zero]

/-- The round trip at the SU2 table for 3 sites with the labels
`(N=2, 2S=0)`, `(N=3, 2S=1)`, `(N=2, 2S=2, pg=1)`, per-site labels `0, 1, 1`
and the exclusive or, at the index `2`. -/
theorem DRT_index_decode_xor :
    (0 < 3 ∧
      (∀ q, q ∈ [(⟨2, 0, 0⟩ : QLabel), ⟨3, 1, 0⟩, ⟨2, 2, 1⟩] →
        0 ≤ (init_row 3 q).1.1 ∧ 0 ≤ (init_row 3 q).1.2.1 ∧ 0 ≤ (init_row 3 q).1.2.2) ∧
      2 < (DRT.build true 3 [⟨2, 0, 0⟩, ⟨3, 1, 0⟩, ⟨2, 2, 1⟩] [0, 1, 1]).size) ∧
      (DRT.build true 3 [⟨2, 0, 0⟩, ⟨3, 1, 0⟩, ⟨2, 2, 1⟩] [0, 1, 1]).index
        ((DRT.build true 3 [⟨2, 0, 0⟩, ⟨3, 1, 0⟩, ⟨2, 2, 1⟩] [0, 1, 1]).decode 2) = 2 :=
  ⟨⟨by decide, by decide, by decide⟩,
    DRT_index_decode xor_compose_cancel true 3 [⟨2, 0, 0⟩, ⟨3, 1, 0⟩, ⟨2, 2, 1⟩] [0, 1, 1]
      (by decide) (by decide)
      (Or.inr (by decide)) 2 (by decide)⟩

/-- C1 (code evaluated at a failing input): a label type whose composition
is addition modulo 3, and the SZ table for one site built from the labels
`(N=1, 2Sz=1, pg=2)` and `(N=0, 2Sz=0, pg=0)` with the per-site label `1`.
Both labels have non-negative triples, the table keeps both initial rows,
`size()` is `1` and `operator[](0)` is `"+"`, but `index("+")` is `2`: the
loop of `index` composes the per-site labels to `pg_mul(0, 1) = 1`, while
the initial row of `"+"` carries the label `2`, the one that the step
`pg_mul(1, 2) = 0` takes to the terminal label, and no initial row matches. -/
theorem C1_round_trip_fails :
    (@DRT.build z3_compose false 1 [⟨1, 1, 2⟩, ⟨0, 0, 0⟩] [1]).abc =
        [(0, 1, 0), (0, 0, 1), (0, 0, 0)] ∧
      (@DRT.build z3_compose false 1 [⟨1, 1, 2⟩, ⟨0, 0, 0⟩] [1]).pgs = [2, 0, 0] ∧
      (@DRT.build z3_compose false 1 [⟨1, 1, 2⟩, ⟨0, 0, 0⟩] [1]).size = 1 ∧
      (@DRT.build z3_compose false 1 [⟨1, 1, 2⟩, ⟨0, 0, 0⟩] [1]).decode 0 = ['+'] ∧
      @DRT.index z3_compose (@DRT.build z3_compose false 1 [⟨1, 1, 2⟩, ⟨0, 0, 0⟩] [1]) ['+'] =
        2 ∧
      @pg_mul z3_compose 0 1 = 1 ∧ @pg_mul z3_compose 1 2 = 0 := by
  decide

end DRTModel

namespace DRTModel

/-! ## The catalog and the cuts of the operator table -/

theorem register_step_inv (cat : List (DKey × Nat) × List (List Int)) (key : DKey)
    (h : cat.1.length = cat.2.length ∧ ∀ s, s ∈ cat.2 → s.getD 0 0 = 1) :
    (register_step cat key).1.length = (register_step cat key).2.length ∧
      ∀ s, s ∈ (register_step cat key).2 → s.getD 0 0 = 1 := by
  unfold register_step
  cases d_map_find cat.1 key with
  | some v => exact h
  | none =>
    simp only [List.length_append, List.length_singleton, h.1, true_and]
    intro s hs
    rcases List.mem_append.mp hs with h1 | h1
    · exact h.2 s h1
    · rw [List.mem_singleton] at h1
      rw [h1]
      rfl

theorem foldl_register_inv (cands : List DKey) (cat : List (DKey × Nat) × List (List Int))
    (h : cat.1.length = cat.2.length ∧ ∀ s, s ∈ cat.2 → s.getD 0 0 = 1) :
    (cands.foldl register_step cat).1.length = (cands.foldl register_step cat).2.length ∧
      ∀ s, s ∈ (cands.foldl register_step cat).2 → s.getD 0 0 = 1 := by
  induction cands generalizing cat with
  | nil => exact h
  | cons key cands ih => exact ih _ (register_step_inv cat key h)

/-- Every step of the catalog collected by `initialize_steps` has the cut
delta `1`. -/
theorem initialize_steps_first (t : HDRT) (cands : List DKey) (d : Nat)
    (hd : d < (t.initialize_steps cands).nd) :
    ((t.initialize_steps cands).d_step.getD d []).getD 0 0 = 1 := by
  have h := foldl_register_inv cands ([(([], 0), 0)], [[1, 0, 0, 0, 0, 0]])
    ⟨rfl, by
      intro s hs
      rw [List.mem_singleton] at hs
      rw [hs]; rfl⟩
  have hnd : (t.initialize_steps cands).nd =
      (cands.foldl register_step ([(([], 0), 0)], [[1, 0, 0, 0, 0, 0]])).1.length := rfl
  have hds : (t.initialize_steps cands).d_step =
      (cands.foldl register_step ([(([], 0), 0)], [[1, 0, 0, 0, 0, 0]])).2 := rfl
  rw [hnd, h.1] at hd
  rw [hds]
  apply h.2
  rw [List.getD_eq_getElem _ _ hd]
  exact List.getElem_mem _

theorem HDRT_mem_expand_cut [PGCompose] (E : Recoupling) (su2 : Bool) (d_step : List (List Int))
    (ddq : List Int) (nd : Nat) (os : List Nat) (k : Nat) (cur : List HRow) (r2 : HRow)
    (h : r2 ∈ HDRT.expand_cut E su2 d_step ddq nd os k cur) :
    ∃ r, r ∈ cur ∧ ∃ d, d < nd ∧ HDRT.allowed E su2 d_step ddq k (os.getD k 0) r d = true ∧
      r2 = HDRT.step_row d_step r (os.getD k 0) d := by
  unfold HDRT.expand_cut at h
  rw [mem_unique_rows, mem_sort_rows, List.mem_flatMap] at h
  obtain ⟨r, hr, h2⟩ := h
  rw [List.mem_map] at h2
  obtain ⟨d, hd, he⟩ := h2
  rw [List.mem_filter, List.mem_range] at hd
  exact ⟨r, hr, d, hd.1, hd.2, he.symm⟩

theorem HDRT_cuts_length [PGCompose] (E : Recoupling) (su2 : Bool) (t : HDRT) :
    (HDRT.cuts E su2 t).length = t.n_sites + 1 := by
  unfold HDRT.cuts
  rw [filter_cuts_length, forward_cuts_length]

/-- An allowed step from a row with cut `k + 1` gives a row with cut `k`,
which for `k = 0` is the all-zero terminal row with label `0`. -/
theorem HDRT_step_cut [PGCompose] (E : Recoupling) (su2 : Bool) (d_step : List (List Int))
    (ddq : List Int) (k gk : Nat) (r : HRow) (d : Nat)
    (h1 : (d_step.getD d []).getD 0 0 = 1) (hr : r.1.getD 0 0 = ((k + 1 : Nat) : Int))
    (ha : HDRT.allowed E su2 d_step ddq k gk r d = true) :
    (HDRT.step_row d_step r gk d).1.getD 0 0 = (k : Int) ∧
      (k = 0 → HDRT.step_row d_step r gk d = ([0, 0, 0, 0, 0], 0)) := by
  have hq0 : (HDRT.step_row d_step r gk d).1.getD 0 0 = (k : Int) := by
    show r.1.getD 0 0 - (d_step.getD d []).getD 0 0 = (k : Int)
    rw [h1, hr]
    push_cast
    omega
  refine ⟨hq0, ?_⟩
  intro hk
  unfold HDRT.allowed at ha
  simp only [Bool.and_eq_true] at ha
  obtain ⟨⟨haq, hap⟩, _⟩ := ha
  have hpg : (HDRT.step_row d_step r gk d).2 = 0 := by
    unfold HDRT.allow_pg at hap
    rw [hk] at hap
    simpa using hap
  rw [hk] at hq0
  unfold HDRT.allow_q at haq
  rw [hq0] at haq
  have hnot : decide ((((0 : Nat) : Int)) > 0) = false := by decide
  rw [hnot] at haq
  simp only [Bool.false_and, Bool.false_or, Bool.and_eq_true, decide_eq_true_eq] at haq
  obtain ⟨⟨⟨⟨_, q1⟩, q2⟩, q3⟩, q4⟩ := haq
  have hshape : (HDRT.step_row d_step r gk d).1 =
      [(HDRT.step_row d_step r gk d).1.getD 0 0, (HDRT.step_row d_step r gk d).1.getD 1 0,
        (HDRT.step_row d_step r gk d).1.getD 2 0, (HDRT.step_row d_step r gk d).1.getD 3 0,
        (HDRT.step_row d_step r gk d).1.getD 4 0] := rfl
  have hfst : (HDRT.step_row d_step r gk d).1 = [0, 0, 0, 0, 0] := by
    rw [hshape, hq0, q1, q2, q3, q4]
    rfl
  exact Prod.ext hfst hpg

theorem HDRT_jd_entry_spec [PGCompose] (E : Recoupling) (su2 : Bool) (d_step : List (List Int))
    (ddq : List Int) (nxt : List HRow) (p k gk : Nat) (r : HRow) (d : Nat)
    (h : HDRT.jd_entry E su2 d_step ddq nxt p k gk r d ≠ 0) :
    ∃ it, HDRT.jd_entry E su2 d_step ddq nxt p k gk r d = p + it ∧
      nxt[it]? = some (HDRT.step_row d_step r gk d) := by
  unfold HDRT.jd_entry at h ⊢
  simp only [List.get?_eq_getElem?] at h ⊢
  by_cases ha : HDRT.allowed E su2 d_step ddq k gk r d = true
  · rw [if_pos ha] at h ⊢
    cases hget : nxt[lower_bound HDRT.compare_q_pg nxt (HDRT.step_row d_step r gk d)]? with
    | none => rw [hget] at h; exact absurd rfl h
    | some y =>
      rw [hget] at h
      simp only at h ⊢
      by_cases hy : y = HDRT.step_row d_step r gk d
      · rw [if_pos hy]
        exact ⟨_, rfl, by rw [hget, hy]⟩
      · rw [if_neg hy] at h; exact absurd rfl h
  · rw [if_neg ha] at h; exact absurd rfl h

theorem register_step_head (cat : List (DKey × Nat) × List (List Int)) (key : DKey)
    (h : ∃ rest, cat.1 = (([], 0), 0) :: rest) :
    ∃ rest, (register_step cat key).1 = (([], 0), 0) :: rest := by
  unfold register_step
  cases d_map_find cat.1 key with
  | some v => exact h
  | none =>
    obtain ⟨rest, hr⟩ := h
    exact ⟨rest ++ [(key, cat.2.length)], by simp [hr]⟩

theorem foldl_register_head (cands : List DKey) (cat : List (DKey × Nat) × List (List Int))
    (h : ∃ rest, cat.1 = (([], 0), 0) :: rest) :
    ∃ rest, (cands.foldl register_step cat).1 = (([], 0), 0) :: rest := by
  induction cands generalizing cat with
  | nil => exact h
  | cons key cands ih => exact ih _ (register_step_head cat key h)

/-- The catalog collected by `initialize_steps` maps the identity key
`("", 0)` to the entry `0`. -/
theorem initialize_steps_identity (t : HDRT) (cands : List DKey) :
    d_map_find (t.initialize_steps cands).d_map ([], 0) = some 0 := by
  obtain ⟨rest, hr⟩ := foldl_register_head cands ([(([], 0), 0)], [[1, 0, 0, 0, 0, 0]])
    ⟨[], rfl⟩
  have hd : (t.initialize_steps cands).d_map =
      (cands.foldl register_step ([(([], 0), 0)], [[1, 0, 0, 0, 0, 0]])).1 := rfl
  rw [hd, hr]
  simp [d_map_find]

end DRTModel

namespace DRTModel

theorem HDRT_forward_cut [PGCompose] (E : Recoupling) (su2 : Bool) (t : HDRT)
    (h1 : ∀ d, d < t.nd → (t.d_step.getD d []).getD 0 0 = 1)
    (h0 : ∀ r, r ∈ (t.qs.zip t.pgs).take t.n_init_qs → r.1.getD 0 0 = (t.n_sites : Int))
    (hn : 0 < t.n_sites) :
    ∀ l r, l ≤ t.n_sites →
      r ∈ (forward_cuts (HDRT.expand_cut E su2 t.d_step (HDRT.ddq E t) t.nd t.orb_sym) t.n_sites
        ((t.qs.zip t.pgs).take t.n_init_qs)).getD l [] →
      r.1.getD 0 0 = ((t.n_sites - l : Nat) : Int) ∧
        (t.n_sites - l = 0 → r = ([0, 0, 0, 0, 0], 0)) := by
  apply forward_cuts_invariant (HDRT.expand_cut E su2 t.d_step (HDRT.ddq E t) t.nd t.orb_sym)
    (fun k r => r.1.getD 0 0 = (k : Int) ∧ (k = 0 → r = ([0, 0, 0, 0, 0], 0)))
  · intro k cur hcur r2 hr2
    obtain ⟨r, hr, d, hd, ha, he⟩ := HDRT_mem_expand_cut E su2 _ _ _ _ k cur r2 hr2
    rw [he]
    exact HDRT_step_cut E su2 _ _ k _ r d (h1 d hd) (hcur r hr).1 ha
  · intro r hr
    exact ⟨h0 r hr, fun h => by omega⟩

/-- The last cut of the operator table has at most one row, the all-zero
terminal row with label `0`. -/
theorem HDRT_last_cut [PGCompose] (E : Recoupling) (su2 : Bool) (t : HDRT)
    (h1 : ∀ d, d < t.nd → (t.d_step.getD d []).getD 0 0 = 1)
    (h0 : ∀ r, r ∈ (t.qs.zip t.pgs).take t.n_init_qs → r.1.getD 0 0 = (t.n_sites : Int))
    (hn : 0 < t.n_sites) :
    ((HDRT.cuts E su2 t).getD t.n_sites []).length ≤ 1 ∧
      ∀ r, r ∈ (HDRT.cuts E su2 t).getD t.n_sites [] → r = ([0, 0, 0, 0, 0], 0) := by
  have hfl := forward_cuts_length
    (HDRT.expand_cut E su2 t.d_step (HDRT.ddq E t) t.nd t.orb_sym) t.n_sites
    ((t.qs.zip t.pgs).take t.n_init_qs)
  have hlast : (HDRT.cuts E su2 t).getD t.n_sites [] =
      (forward_cuts (HDRT.expand_cut E su2 t.d_step (HDRT.ddq E t) t.nd t.orb_sym) t.n_sites
        ((t.qs.zip t.pgs).take t.n_init_qs)).getD t.n_sites [] := by
    have h := filter_cuts_last
      (fun lvl k fq r =>
        HDRT.has_target t.d_step t.nd fq (t.orb_sym.getD k 0) r || decide (lvl = 0)) 0
      (forward_cuts (HDRT.expand_cut E su2 t.d_step (HDRT.ddq E t) t.nd t.orb_sym) t.n_sites
        ((t.qs.zip t.pgs).take t.n_init_qs))
    rw [hfl] at h
    exact h
  have hz : ∀ r, r ∈ (forward_cuts
      (HDRT.expand_cut E su2 t.d_step (HDRT.ddq E t) t.nd t.orb_sym) t.n_sites
      ((t.qs.zip t.pgs).take t.n_init_qs)).getD t.n_sites [] → r = ([0, 0, 0, 0, 0], 0) := by
    intro r hr
    obtain ⟨_, h2⟩ := HDRT_forward_cut E su2 t h1 h0 hn t.n_sites r (Nat.le_refl _) hr
    exact h2 (Nat.sub_self _)
  rw [hlast]
  refine ⟨?_, hz⟩
  obtain ⟨m, hm⟩ : ∃ m, t.n_sites = m + 1 := ⟨t.n_sites - 1, by omega⟩
  have hs := forward_cuts_succ
    (HDRT.expand_cut E su2 t.d_step (HDRT.ddq E t) t.nd t.orb_sym) t.n_sites
    ((t.qs.zip t.pgs).take t.n_init_qs) m (by omega)
  rw [← hm] at hs
  rw [hs] at hz ⊢
  unfold HDRT.expand_cut at hz ⊢
  apply unique_rows_const ([0, 0, 0, 0, 0], 0)
  intro x hx
  exact hz x ((mem_unique_rows _ _).mpr hx)

theorem HDRT_init_jds [PGCompose] (E : Recoupling) (su2 : Bool) (t : HDRT) :
    ( HDRT.initialize E su2 t).jds =
      jds_cuts t.nd (fun nxt p k r d =>
          HDRT.jd_entry E su2 t.d_step (HDRT.ddq E t) nxt p k (t.orb_sym.getD k 0) r d) 0
        (HDRT.cuts E su2 t) ++ [List.replicate t.nd 0] := rfl

theorem HDRT_init_xs [PGCompose] (E : Recoupling) (su2 : Bool) (t : HDRT) :
    ( HDRT.initialize E su2 t).xs =
      xs_loop ( HDRT.initialize E su2 t).jds
        (cut_offset (HDRT.cuts E su2 t) ((HDRT.cuts E su2 t).length - 1))
        ((List.replicate (1 + cut_offset (HDRT.cuts E su2 t) ((HDRT.cuts E su2 t).length - 1))
            (List.replicate (t.nd + 1) 0)).set
          (cut_offset (HDRT.cuts E su2 t) ((HDRT.cuts E su2 t).length - 1))
          (List.replicate t.nd 0 ++ [1])) := by
  rw [HDRT_cuts_length]
  simp only [Nat.add_sub_cancel]
  unfold HDRT.initialize cut_offset
  simp only [Nat.add_sub_cancel_left]

/-- The operator table built by `initialize` has the structure `TableOK`
over its cuts. -/
theorem HDRT_table_ok [PGCompose] (E : Recoupling) (su2 : Bool) (t : HDRT)
    (h1 : ∀ d, d < t.nd → (t.d_step.getD d []).getD 0 0 = 1)
    (h0 : ∀ r, r ∈ (t.qs.zip t.pgs).take t.n_init_qs → r.1.getD 0 0 = (t.n_sites : Int))
    (hn : 0 < t.n_sites) :
    TableOK (HDRT.cuts E su2 t)
      (fun k r d => HDRT.step_row t.d_step r (t.orb_sym.getD k 0) d) t.nd
      ( HDRT.initialize E su2 t).jds ( HDRT.initialize E su2 t).xs := by
  rw [HDRT_init_xs, HDRT_init_jds]
  apply table_ok_of_build
  · rw [HDRT_cuts_length, Nat.add_sub_cancel]
    exact (HDRT_last_cut E su2 t h1 h0 hn).1
  · intro nxt p k r d h
    exact HDRT_jd_entry_spec E su2 _ _ nxt p k _ r d h

/-- The first cut of the operator table holds all initial rows: the filter
keeps every row of cut `0`. -/
theorem HDRT_first_cut [PGCompose] (E : Recoupling) (su2 : Bool) (t : HDRT) (hn : 0 < t.n_sites) :
    (HDRT.cuts E su2 t).getD 0 [] = (t.qs.zip t.pgs).take t.n_init_qs := by
  have hfl := forward_cuts_length
    (HDRT.expand_cut E su2 t.d_step (HDRT.ddq E t) t.nd t.orb_sym) t.n_sites
    ((t.qs.zip t.pgs).take t.n_init_qs)
  have h := filter_cuts_get
    (fun lvl k fq r =>
      HDRT.has_target t.d_step t.nd fq (t.orb_sym.getD k 0) r || decide (lvl = 0)) 0
    (forward_cuts (HDRT.expand_cut E su2 t.d_step (HDRT.ddq E t) t.nd t.orb_sym) t.n_sites
      ((t.qs.zip t.pgs).take t.n_init_qs)) 0 (by rw [hfl]; omega)
  unfold HDRT.cuts
  rw [h, forward_cuts_zero]
  apply List.filter_eq_self.mpr
  intro r _
  simp

end DRTModel

namespace DRTModel

/-! ## Offsets of the operator table -/

theorem HDRT_base_succ (t : HDRT) (j : Nat) : t.base (j + 1) = t.base j + t.x j t.nd := by
  unfold HDRT.base
  rw [List.range_succ, List.map_append, List.sum_append]
  simp

theorem HDRT_base_mono (t : HDRT) (j m : Nat) (h : j ≤ m) : t.base j ≤ t.base m := by
  induction m with
  | zero =>
    have e : j = 0 := by omega
    rw [e]
  | succ m ih =>
    by_cases hj : j = m + 1
    · rw [hj]
    · have := ih (by omega)
      rw [HDRT_base_succ]
      omega

theorem HDRT_base_locate (t : HDRT) (m i : Nat) (h : i < t.base m) :
    ∃ j0, j0 < m ∧ t.base j0 ≤ i ∧ i < t.base (j0 + 1) := by
  induction m with
  | zero => exact absurd h (by simp [HDRT.base])
  | succ m ih =>
    by_cases hm : i < t.base m
    · obtain ⟨j0, h1, h2, h3⟩ := ih hm
      exact ⟨j0, by omega, h2, h3⟩
    · exact ⟨m, by omega, by omega, h⟩

theorem getElem?_of_lt_length {α : Type} (l : List α) (j : Nat) (h : j < l.length) :
    ∃ r, l[j]? = some r := ⟨l[j], List.getElem?_eq_getElem h⟩

/-- The offsets of the complete paths of a table with the structure
`TableOK` whose first cut holds the `n_init_qs` initial rows: every offset
is below `size()`, two paths with the same offset are equal, and every
offset below `size()` is the offset of a path. -/
theorem offsets_bijective {α : Type} (t : HDRT) (cs : List (List α))
    (step : Nat → α → Nat → α) (T : TableOK cs step t.nd t.jds t.xs)
    (hlen : cs.length = t.n_sites + 1) (hfirst : (cs.getD 0 []).length = t.n_init_qs) :
    (∀ p, t.is_path p = true → t.offset p < t.size) ∧
      (∀ p p2, t.is_path p = true → t.is_path p2 = true → t.offset p = t.offset p2 → p = p2) ∧
      (∀ i, i < t.size → ∃ p, t.is_path p = true ∧ t.offset p = i) := by
  have hsize : t.size = t.base t.n_init_qs := rfl
  have hpath : ∀ p, t.is_path p = true →
      path_offset t.jds t.xs p.1 p.2 < t.x p.1 t.nd ∧
        walk_steps t.jds t.xs t.n_sites p.1 (path_offset t.jds t.xs p.1 p.2) = p.2 ∧
        p.1 < t.n_init_qs := by
    intro p hp
    unfold HDRT.is_path at hp
    simp only [Bool.and_eq_true, decide_eq_true_eq] at hp
    obtain ⟨⟨hp1, hp2⟩, hp3⟩ := hp
    obtain ⟨r, hr⟩ := getElem?_of_lt_length (cs.getD 0 []) p.1 (by omega)
    have h := path_spec T p.2 0 p.1 r (by omega) hr
      (by rw [cut_offset_zero, Nat.zero_add]; exact hp3)
    rw [cut_offset_zero, Nat.zero_add, hp2] at h
    exact ⟨h.1, h.2, hp1⟩
  have hbound : ∀ p, t.is_path p = true →
      t.base p.1 ≤ t.offset p ∧ t.offset p < t.base (p.1 + 1) := by
    intro p hp
    obtain ⟨h1, _, _⟩ := hpath p hp
    rw [HDRT_base_succ]
    unfold HDRT.offset
    omega
  refine ⟨?_, ?_, ?_⟩
  · intro p hp
    obtain ⟨_, h2⟩ := hbound p hp
    obtain ⟨_, _, h3⟩ := hpath p hp
    have := HDRT_base_mono t (p.1 + 1) t.n_init_qs (by omega)
    omega
  · intro p p2 hp hp2 he
    obtain ⟨a1, a2⟩ := hbound p hp
    obtain ⟨b1, b2⟩ := hbound p2 hp2
    have hj : p.1 = p2.1 := by
      rcases Nat.lt_trichotomy p.1 p2.1 with h | h | h
      · have := HDRT_base_mono t (p.1 + 1) p2.1 (by omega)
        omega
      · exact h
      · have := HDRT_base_mono t (p2.1 + 1) p.1 (by omega)
        omega
    obtain ⟨_, w1, _⟩ := hpath p hp
    obtain ⟨_, w2, _⟩ := hpath p2 hp2
    have ho : path_offset t.jds t.xs p.1 p.2 = path_offset t.jds t.xs p2.1 p2.2 := by
      unfold HDRT.offset at he
      rw [hj] at he ⊢
      omega
    have hd : p.2 = p2.2 := by
      rw [← w1, ← w2, ho, hj]
    exact Prod.ext hj hd
  · intro i hi
    rw [hsize] at hi
    obtain ⟨j0, h1, h2, h3⟩ := HDRT_base_locate t _ i hi
    rw [HDRT_base_succ] at h3
    obtain ⟨r, hr⟩ := getElem?_of_lt_length (cs.getD 0 []) j0 (by omega)
    have hlt : i - t.base j0 < entry t.xs (cut_offset cs 0 + j0) t.nd := by
      rw [cut_offset_zero, Nat.zero_add]
      show i - t.base j0 < t.x j0 t.nd
      omega
    obtain ⟨w1, w2, w3⟩ := walk_spec T t.n_sites 0 j0 r (i - t.base j0) (by omega) hr hlt
    rw [cut_offset_zero, Nat.zero_add] at w1 w2 w3
    refine ⟨(j0, walk_steps t.jds t.xs t.n_sites j0 (i - t.base j0)), ?_, ?_⟩
    · unfold HDRT.is_path
      simp only [Bool.and_eq_true, decide_eq_true_eq]
      exact ⟨⟨h1, w1⟩, w2⟩
    · unfold HDRT.offset
      simp only
      rw [w3]
      omega

theorem HDRT_new_rows (n_sites : Nat) (init_qs : List (QLabel × Int × Int))
    (orb_sym : List Nat) (cands : List DKey) :
    (((HDRT.new n_sites init_qs orb_sym).initialize_steps cands).qs.zip
        ((HDRT.new n_sites init_qs orb_sym).initialize_steps cands).pgs).take
        ((HDRT.new n_sites init_qs orb_sym).initialize_steps cands).n_init_qs =
      init_qs.map (fun q => ([(n_sites : Int), q.1.n, q.1.twos, q.2.1, q.2.2], q.1.pg)) := by
  show ((init_qs.map _).zip (init_qs.map _)).take init_qs.length = _
  rw [List.zip_map']
  apply List.take_of_length_le
  simp

/-- C9: in every operator table built by the constructor, `initialize_steps`
and `initialize` for at least one site, the offsets of the complete paths
(an initial row and a step per site with existing edges) are below
`size()`, distinct paths have distinct offsets, and every offset below
`size()` is the offset of a path. -/
theorem C9_offsets_unique [PGCompose] (E : Recoupling) (su2 : Bool) (n_sites : Nat)
    (init_qs : List (QLabel × Int × Int)) (orb_sym : List Nat) (cands : List DKey)
    (hn : 0 < n_sites) :
    (∀ p, (HDRT.build E su2 n_sites init_qs orb_sym cands).is_path p = true →
        (HDRT.build E su2 n_sites init_qs orb_sym cands).offset p <
          (HDRT.build E su2 n_sites init_qs orb_sym cands).size) ∧
      (∀ p p2, (HDRT.build E su2 n_sites init_qs orb_sym cands).is_path p = true →
        (HDRT.build E su2 n_sites init_qs orb_sym cands).is_path p2 = true →
        (HDRT.build E su2 n_sites init_qs orb_sym cands).offset p =
          (HDRT.build E su2 n_sites init_qs orb_sym cands).offset p2 → p = p2) ∧
      (∀ i, i < (HDRT.build E su2 n_sites init_qs orb_sym cands).size →
        ∃ p, (HDRT.build E su2 n_sites init_qs orb_sym cands).is_path p = true ∧
          (HDRT.build E su2 n_sites init_qs orb_sym cands).offset p = i) := by
  have hrows := HDRT_new_rows n_sites init_qs orb_sym cands
  have T := HDRT_table_ok E su2 ((HDRT.new n_sites init_qs orb_sym).initialize_steps cands)
    (fun d hd => initialize_steps_first _ cands d hd)
    (by
      intro r hr
      rw [hrows, List.mem_map] at hr
      obtain ⟨q, _, hq⟩ := hr
      rw [← hq]
      rfl)
    hn
  apply offsets_bijective (HDRT.build E su2 n_sites init_qs orb_sym cands)
    (HDRT.cuts E su2 ((HDRT.new n_sites init_qs orb_sym).initialize_steps cands)) _ T
  · rw [HDRT_cuts_length]
    rfl
  · rw [HDRT_first_cut E su2 _ hn, hrows, List.length_map]
    rfl

end DRTModel

namespace DRTModel

/-! ## `operator[]` and the replay of `index` on the operator table -/

theorem HDRT_skip_init_eq (t : HDRT) (i j0 : Nat) (h2 : t.base j0 ≤ i)
    (h3 : i < t.base (j0 + 1)) :
    ∀ m j, j ≤ j0 → j0 - j ≤ m → t.skip_init m j (i - t.base j) = (j0, i - t.base j0) := by
  intro m
  induction m with
  | zero =>
    intro j hj hm
    have e : j = j0 := by omega
    rw [e]; rfl
  | succ m ih =>
    intro j hj hm
    by_cases hjj : j = j0
    · rw [hjj]
      show (if i - t.base j0 ≥ t.x j0 t.nd then _ else _) = _
      rw [HDRT_base_succ] at h3
      rw [if_neg (by omega)]
    · have hb := HDRT_base_mono t (j + 1) j0 (by omega)
      have hs := HDRT_base_succ t j
      show (if i - t.base j ≥ t.x j t.nd then _ else _) = _
      rw [if_pos (by omega)]
      have e : i - t.base j - t.x j t.nd = i - t.base (j + 1) := by omega
      rw [e]
      exact ih (j + 1) (by omega) (by omega)

/-- A path with existing edges ends in the last cut, which therefore has a
row. -/
theorem path_last_cut {α : Type} {cs : List (List α)} {step : Nat → α → Nat → α} {nd : Nat}
    {jds xs : List (List Nat)} (T : TableOK cs step nd jds xs) :
    ∀ ds l t r, l + ds.length + 1 = cs.length → (cs.getD l [])[t]? = some r →
      path_ok jds nd (cut_offset cs l + t) ds = true →
      ∃ z, (cs.getD (cs.length - 1) [])[0]? = some z := by
  intro ds
  induction ds with
  | nil =>
    intro l t r hl hr _
    have hl2 : l = cs.length - 1 := by simp at hl; omega
    have ht : t < (cs.getD l []).length := by
      by_contra hc
      rw [List.getElem?_eq_none (by omega)] at hr
      exact absurd hr (by simp)
    have h1 := T.last_le
    rw [← hl2] at h1
    have ht0 : t = 0 := by omega
    rw [ht0, hl2] at hr
    exact ⟨r, hr⟩
  | cons d ds ih =>
    intro l t r hl hr hp
    simp only [path_ok, Bool.and_eq_true, decide_eq_true_eq] at hp
    obtain ⟨⟨hd, hne⟩, hp2⟩ := hp
    obtain ⟨_, _, hedge⟩ := T.rows l t r (by simp at hl; omega) hr
    obtain ⟨it, hit, hnext⟩ := hedge d hd hne
    rw [hit] at hp2
    exact ih (l + 1) it _ (by simp at hl ⊢; omega) hnext hp2

end DRTModel

namespace DRTModel

theorem xs_loop_length (jds : List (List Nat)) (m : Nat) (xs : List (List Nat)) :
    (xs_loop jds m xs).length = xs.length := by
  induction m generalizing xs with
  | zero => rfl
  | succ m ih =>
    show (xs_loop jds m _).length = _
    rw [ih, List.length_set]

theorem HDRT_walk_steps_eq (t : HDRT) (k j i : Nat) :
    t.walk_steps k j i = walk_steps t.jds t.xs k j i := by
  induction k generalizing j i with
  | zero => rfl
  | succ k ih =>
    show t.choose j i :: t.walk_steps k _ _ = _
    rw [ih]
    rfl

theorem list_eq_singleton {α : Type} (l : List α) (z : α) (h1 : l.length ≤ 1)
    (h2 : l[0]? = some z) : l = [z] := by
  cases l with
  | nil => simp at h2
  | cons x l =>
    cases l with
    | nil =>
      simp only [List.getElem?_cons_zero, Option.some.injEq] at h2
      rw [h2]
    | cons y l => simp at h1

end DRTModel

namespace DRTModel

/-- C9 (witness): the theorem at the SU2 operator table for 3 sites with the
initial label `(N=1, 2S=1, weight 3, length 3)` and the catalog
`("C", 1), ("D", -1), ("D", 1), ("C", -1)`. -/
theorem C9_offsets_unique_witness :
    0 < 3 ∧
      ((∀ p, (HDRT.build leaf_recoupling true 3 [(⟨1, 1, 0⟩, 3, 3)] []
            [(['C'], 1), (['D'], -1), (['D'], 1), (['C'], -1)]).is_path p = true →
          (HDRT.build leaf_recoupling true 3 [(⟨1, 1, 0⟩, 3, 3)] []
            [(['C'], 1), (['D'], -1), (['D'], 1), (['C'], -1)]).offset p <
          (HDRT.build leaf_recoupling true 3 [(⟨1, 1, 0⟩, 3, 3)] []
            [(['C'], 1), (['D'], -1), (['D'], 1), (['C'], -1)]).size) ∧
        (∀ p p2, (HDRT.build leaf_recoupling true 3 [(⟨1, 1, 0⟩, 3, 3)] []
            [(['C'], 1), (['D'], -1), (['D'], 1), (['C'], -1)]).is_path p = true →
          (HDRT.build leaf_recoupling true 3 [(⟨1, 1, 0⟩, 3, 3)] []
            [(['C'], 1), (['D'], -1), (['D'], 1), (['C'], -1)]).is_path p2 = true →
          (HDRT.build leaf_recoupling true 3 [(⟨1, 1, 0⟩, 3, 3)] []
            [(['C'], 1), (['D'], -1), (['D'], 1), (['C'], -1)]).offset p =
          (HDRT.build leaf_recoupling true 3 [(⟨1, 1, 0⟩, 3, 3)] []
            [(['C'], 1), (['D'], -1), (['D'], 1), (['C'], -1)]).offset p2 → p = p2) ∧
        (∀ i, i < (HDRT.build leaf_recoupling true 3 [(⟨1, 1, 0⟩, 3, 3)] []
            [(['C'], 1), (['D'], -1), (['D'], 1), (['C'], -1)]).size →
          ∃ p, (HDRT.build leaf_recoupling true 3 [(⟨1, 1, 0⟩, 3, 3)] []
            [(['C'], 1), (['D'], -1), (['D'], 1), (['C'], -1)]).is_path p = true ∧
          (HDRT.build leaf_recoupling true 3 [(⟨1, 1, 0⟩, 3, 3)] []
            [(['C'], 1), (['D'], -1), (['D'], 1), (['C'], -1)]).offset p = i)) :=
  ⟨by decide, C9_offsets_unique leaf_recoupling true 3 [(⟨1, 1, 0⟩, 3, 3)] []
    [(['C'], 1), (['D'], -1), (['D'], 1), (['C'], -1)] (by decide)⟩

end DRTModel

namespace DRTModel

/-! ## The ranges of the initial labels -/

theorem sum_range_shift (f : Nat → Nat) (m : Nat) :
    ((List.range (m + 1)).map f).sum = f 0 + ((List.range m).map (fun k => f (k + 1))).sum := by
  rw [List.range_succ_eq_map, List.map_cons, List.sum_cons, List.map_map]
  rfl

theorem DRT_q_range_from_eq (t : DRT) (m j : Nat) (ab : Nat × Nat) :
    t.q_range_from (m + 1) j ab =
      (ab.2 + ((List.range m).map (fun k => t.back (j + k))).sum,
        ab.2 + ((List.range (m + 1)).map (fun k => t.back (j + k))).sum) := by
  induction m generalizing j ab with
  | zero =>
    show (ab.2, ab.2 + t.back j) = _
    simp [List.range_succ]
  | succ m ih =>
    show t.q_range_from (m + 1) (j + 1) (ab.2, ab.2 + t.back j) = _
    rw [ih]
    rw [sum_range_shift (fun k => t.back (j + k)) m,
      sum_range_shift (fun k => t.back (j + k)) (m + 1)]
    simp only [Nat.add_zero]
    have e : ∀ k, j + 1 + k = j + (k + 1) := fun k => by omega
    simp only [e, Nat.add_assoc]

/-- The range of the initial label `i`: it starts at the sum of the subtree
sizes of the initial rows before `i` and has the length of the subtree of
row `i`. -/
theorem DRT_q_range_eq (t : DRT) (i : Nat) :
    t.q_range i = (((List.range i).map t.back).sum, ((List.range i).map t.back).sum + t.back i) := by
  unfold DRT.q_range
  rw [DRT_q_range_from_eq]
  simp only [Nat.zero_add]
  rw [List.range_succ, List.map_append, List.sum_append]
  simp

/-- The ranges `q_range(0), q_range(1), ...` start at `0`, are contiguous, have
the subtree sizes of the initial rows as lengths, and the last one ends at
the sum of the subtree sizes of the `n_init_qs` initial rows. -/
theorem DRT_q_range_partition (t : DRT) :
    (t.q_range 0).1 = 0 ∧
      (∀ j, (t.q_range j).2 = (t.q_range (j + 1)).1) ∧
      (∀ j, (t.q_range j).2 = (t.q_range j).1 + t.back j) ∧
      (0 < t.n_init_qs → (t.q_range (t.n_init_qs - 1)).2 = t.total) := by
  refine ⟨?_, ?_, ?_, ?_⟩
  · rw [DRT_q_range_eq]; rfl
  · intro j
    rw [DRT_q_range_eq, DRT_q_range_eq]
    simp only
    rw [List.range_succ, List.map_append, List.sum_append]
    simp
  · intro j
    rw [DRT_q_range_eq]
  · intro h
    rw [DRT_q_range_eq]
    unfold DRT.total
    obtain ⟨m, hm⟩ : ∃ m, t.n_init_qs = m + 1 := ⟨t.n_init_qs - 1, by omega⟩
    rw [hm, Nat.add_sub_cancel, List.range_succ, List.map_append, List.sum_append]
    simp

end DRTModel

namespace DRTModel

/-! ## Paths of the first initial row, and tables that keep every initial row -/

/-- On a string that labels a path with existing edges from row `0`, `index`
returns the offset of the path. -/
theorem DRT_index_of_path [PGCompose] (hinv : ∀ gk g : Nat, pg_mul (pg_mul gk g) gk = g)
    (su2 : Bool) (n_sites : Nat) (init_qs : List QLabel)
    (orb_sym : List Nat) (hn : 0 < n_sites)
    (hq : ∀ q, q ∈ init_qs → 0 ≤ (init_row n_sites q).1.1 ∧ 0 ≤ (init_row n_sites q).1.2.1 ∧
      0 ≤ (init_row n_sites q).1.2.2)
    (r0 : Row) (hr0 : ((DRT.cuts su2 n_sites init_qs orb_sym).getD 0 [])[0]? = some r0)
    (ds : List Nat) (hlen : ds.length = n_sites)
    (hp : path_ok (DRT.build su2 n_sites init_qs orb_sym).jds 4 0 ds = true) :
    (DRT.build su2 n_sites init_qs orb_sym).index
        ((ds.reverse).map (fun d => step_chars.getD d ' ')) =
      path_offset (DRT.build su2 n_sites init_qs orb_sym).jds
        (DRT.build su2 n_sites init_qs orb_sym).xs 0 ds := by
  have hns : (DRT.build su2 n_sites init_qs orb_sym).n_sites = n_sites := rfl
  have hni : (DRT.build su2 n_sites init_qs orb_sym).n_init_qs = init_qs.length := rfl
  have hos : (DRT.build su2 n_sites init_qs orb_sym).orb_sym = fix_orb_sym n_sites orb_sym := rfl
  have T := DRT_table_ok su2 n_sites init_qs orb_sym hn hq
  have hcl := DRT_cuts_length su2 n_sites init_qs orb_sym
  have hlt := path_ok_lt _ _ _ _ hp
  obtain ⟨hcan, habc, hpgs⟩ := DRT_row_zero su2 n_sites init_qs orb_sym hq r0 hr0
  have hrec := recon_spec T
    (fun k d r => undo_char (step_chars.getD d ' ') ((fix_orb_sym n_sites orb_sym).getD k 0) r)
    canon_row ((0, 0, 0), 0)
    (fun k r d hd => undo_step hinv _ r d hd)
    (by
      intro r hr
      rw [hcl, Nat.add_sub_cancel] at hr
      have := (DRT_last_cut su2 n_sites init_qs orb_sym hn hq).2 r (List.getElem?_mem hr)
      rw [this]
      rfl)
    ds 0 0 r0 (by rw [hlen, hcl]; omega) hr0
    (by rw [cut_offset_zero, Nat.add_zero]; exact hp)
  unfold DRT.index
  rw [hns, hni, hos]
  have htake : List.take n_sites (List.map (fun d => step_chars.getD d ' ') ds.reverse) =
      List.map (fun d => step_chars.getD d ' ') ds.reverse := by
    apply List.take_of_length_le
    simp [hlen]
  have hi0 : (if init_qs.length > 1 then
      (DRT.build su2 n_sites init_qs orb_sym).find_init
        (rebuild (List.take n_sites (List.map (fun d => step_chars.getD d ' ') ds.reverse))
          (fix_orb_sym n_sites orb_sym) ((0, 0, 0), 0)) init_qs.length 0 0
      else 0) = 0 := by
    by_cases hm : init_qs.length > 1
    · rw [if_pos hm, htake, rebuild_eq_recon, hrec, hcan]
      obtain ⟨m, hm2⟩ : ∃ m, init_qs.length = m + 1 := ⟨init_qs.length - 1, by omega⟩
      rw [hm2]
      show (if r0.1 ≠ _ ∨ r0.2 ≠ _ then _ else 0) = 0
      rw [habc, hpgs, if_neg (by simp)]
    · rw [if_neg hm]
  rw [hi0]
  have hrep := DRT_replay_eq (DRT.build su2 n_sites init_qs orb_sym) ds hlt 0 0
  rw [hlen] at hrep
  rw [hrep, Nat.zero_add]

/-- For every string that labels a path with existing edges from row `0` of
the built table (the row of the first retained initial label),
`operator[](index(s)) == s`. -/
theorem DRT_decode_index_first_label [PGCompose]
    (hinv : ∀ gk g : Nat, pg_mul (pg_mul gk g) gk = g)
    (su2 : Bool) (n_sites : Nat) (init_qs : List QLabel)
    (orb_sym : List Nat) (hn : 0 < n_sites)
    (hq : ∀ q, q ∈ init_qs → 0 ≤ (init_row n_sites q).1.1 ∧ 0 ≤ (init_row n_sites q).1.2.1 ∧
      0 ≤ (init_row n_sites q).1.2.2)
    (ds : List Nat) (hlen : ds.length = n_sites)
    (hp : path_ok (DRT.build su2 n_sites init_qs orb_sym).jds 4 0 ds = true) :
    (DRT.build su2 n_sites init_qs orb_sym).decode
        ((DRT.build su2 n_sites init_qs orb_sym).index
          ((ds.reverse).map (fun d => step_chars.getD d ' '))) =
      (ds.reverse).map (fun d => step_chars.getD d ' ') := by
  have hcl := DRT_cuts_length su2 n_sites init_qs orb_sym
  have hne : (DRT.cuts su2 n_sites init_qs orb_sym).getD 0 [] ≠ [] := by
    intro hc
    obtain ⟨_, hj, _⟩ := DRT_build_empty su2 n_sites init_qs orb_sym hc
    cases ds with
    | nil => simp at hlen; omega
    | cons d ds =>
      simp only [path_ok, Bool.and_eq_true, decide_eq_true_eq] at hp
      apply hp.1.2
      rw [hj]
      unfold entry
      show [0, 0, 0, 0].getD d 0 = 0
      match d with
      | 0 => rfl
      | 1 => rfl
      | 2 => rfl
      | 3 => rfl
      | (n + 4) => rfl
  obtain ⟨r0, hr0⟩ : ∃ r0, ((DRT.cuts su2 n_sites init_qs orb_sym).getD 0 [])[0]? = some r0 := by
    cases hl : (DRT.cuts su2 n_sites init_qs orb_sym).getD 0 [] with
    | nil => exact absurd hl hne
    | cons r rs => exact ⟨r, by simp⟩
  have T := DRT_table_ok su2 n_sites init_qs orb_sym hn hq
  rw [DRT_index_of_path hinv su2 n_sites init_qs orb_sym hn hq r0 hr0 ds hlen hp]
  obtain ⟨p1, p2⟩ := path_spec T ds 0 0 r0 (by rw [hlen, hcl]; omega) hr0
    (by rw [cut_offset_zero, Nat.add_zero]; exact hp)
  rw [cut_offset_zero, Nat.add_zero] at p1 p2
  obtain ⟨hjl, hxr, _⟩ := T.rows 0 0 r0 (by rw [hcl]; omega) hr0
  rw [cut_offset_zero, Nat.add_zero] at hjl hxr
  obtain ⟨hrl, _, _, _⟩ := row_sums _ _ 4 0 hjl hxr
  have hback := DRT_back_eq _ 0 hrl
  unfold DRT.decode
  rw [DRT_skip_init_first _ _ _ (by rw [hback]; exact p1)]
  rw [hlen] at p2
  show (DRT.build su2 n_sites init_qs orb_sym).walk n_sites 0
    (path_offset (DRT.build su2 n_sites init_qs orb_sym).jds
      (DRT.build su2 n_sites init_qs orb_sym).xs 0 ds) = _
  rw [DRT_walk_eq, p2]

theorem DRT_walk_has_edges_of_path (t : DRT) (k j i : Nat)
    (h : path_ok t.jds 4 j (walk_steps t.jds t.xs k j i) = true) :
    t.walk_has_edges k j i = true := by
  induction k generalizing j i with
  | zero => rfl
  | succ k ih =>
    have hw : walk_steps t.jds t.xs (k + 1) j i =
        (upper_bound (t.xs.getD j []) i - 1) ::
          walk_steps t.jds t.xs k (entry t.jds j (upper_bound (t.xs.getD j []) i - 1))
            (i - entry t.xs j (upper_bound (t.xs.getD j []) i - 1)) := rfl
    rw [hw] at h
    simp only [path_ok, Bool.and_eq_true, decide_eq_true_eq] at h
    show (decide (entry t.jds j (upper_bound (t.xs.getD j []) i - 1) ≠ 0) &&
      t.walk_has_edges k _ _) = true
    rw [Bool.and_eq_true, decide_eq_true_eq]
    exact ⟨h.1.2, ih _ _ h.2⟩

theorem DRT_skip_init_eq (t : DRT) (i j0 : Nat)
    (h2 : ((List.range j0).map t.back).sum ≤ i)
    (h3 : i < ((List.range (j0 + 1)).map t.back).sum) :
    ∀ m j, j ≤ j0 → j0 - j ≤ m →
      t.skip_init m j (i - ((List.range j).map t.back).sum) =
        (j0, i - ((List.range j0).map t.back).sum) := by
  have hsucc : ∀ j, ((List.range (j + 1)).map t.back).sum =
      ((List.range j).map t.back).sum + t.back j := by
    intro j
    rw [List.range_succ, List.map_append, List.sum_append]
    simp
  have hmono : ∀ m j, j ≤ m →
      ((List.range j).map t.back).sum ≤ ((List.range m).map t.back).sum := by
    intro m
    induction m with
    | zero =>
      intro j hj
      have e : j = 0 := by omega
      rw [e]
    | succ m ih =>
      intro j hj
      by_cases hjm : j = m + 1
      · rw [hjm]
      · have := ih j (by omega)
        rw [hsucc m]
        omega
  intro m
  induction m with
  | zero =>
    intro j hj hm
    have e : j = j0 := by omega
    rw [e]; rfl
  | succ m ih =>
    intro j hj hm
    by_cases hjj : j = j0
    · rw [hjj]
      show (if i - _ ≥ t.back j0 then _ else _) = _
      rw [hsucc] at h3
      rw [if_neg (by omega)]
    · have hb := hmono j0 (j + 1) (by omega)
      have hs := hsucc j
      show (if i - _ ≥ t.back j then _ else _) = _
      rw [if_pos (by omega)]
      have e : i - ((List.range j).map t.back).sum - t.back j =
          i - ((List.range (j + 1)).map t.back).sum := by omega
      rw [e]
      exact ih (j + 1) (by omega) (by omega)

theorem sum_range_locate (f : Nat → Nat) (m i : Nat) (h : i < ((List.range m).map f).sum) :
    ∃ j0, j0 < m ∧ ((List.range j0).map f).sum ≤ i ∧ i < ((List.range (j0 + 1)).map f).sum := by
  induction m with
  | zero => simp at h
  | succ m ih =>
    by_cases hm : i < ((List.range m).map f).sum
    · obtain ⟨j0, h1, h2, h3⟩ := ih hm
      exact ⟨j0, by omega, h2, h3⟩
    · exact ⟨m, by omega, by omega, h⟩

/-- In a table whose filter keeps every initial row, for every index below
the sum of the initial rows' subtree sizes each step chosen by `operator[]`
has an existing edge. -/
theorem DRT_walk_edges_exist [PGCompose] (su2 : Bool) (n_sites : Nat) (init_qs : List QLabel)
    (orb_sym : List Nat) (hn : 0 < n_sites)
    (hq : ∀ q, q ∈ init_qs → 0 ≤ (init_row n_sites q).1.1 ∧ 0 ≤ (init_row n_sites q).1.2.1 ∧
      0 ≤ (init_row n_sites q).1.2.2)
    (hkeep : ((DRT.cuts su2 n_sites init_qs orb_sym).getD 0 []).length = init_qs.length)
    (i : Nat) (hi : i < (DRT.build su2 n_sites init_qs orb_sym).total) :
    (DRT.build su2 n_sites init_qs orb_sym).walk_has_edges n_sites
      ((DRT.build su2 n_sites init_qs orb_sym).skip_init init_qs.length 0 i).1
      ((DRT.build su2 n_sites init_qs orb_sym).skip_init init_qs.length 0 i).2 = true := by
  have T := DRT_table_ok su2 n_sites init_qs orb_sym hn hq
  have hcl := DRT_cuts_length su2 n_sites init_qs orb_sym
  have hni : (DRT.build su2 n_sites init_qs orb_sym).n_init_qs = init_qs.length := rfl
  unfold DRT.total at hi
  rw [hni] at hi
  obtain ⟨j0, hj0, hb1, hb2⟩ := sum_range_locate _ _ i hi
  have hskip := DRT_skip_init_eq _ i j0 hb1 hb2 init_qs.length 0 (Nat.zero_le _) (by omega)
  simp only [List.range_zero, List.map_nil, List.sum_nil, Nat.sub_zero] at hskip
  rw [hskip]
  obtain ⟨r, hr⟩ := getElem?_of_lt_length
    ((DRT.cuts su2 n_sites init_qs orb_sym).getD 0 []) j0 (by omega)
  obtain ⟨hjl, hxr, _⟩ := T.rows 0 j0 r (by rw [hcl]; omega) hr
  rw [cut_offset_zero, Nat.zero_add] at hjl hxr
  obtain ⟨hrl, _, _, _⟩ := row_sums _ _ 4 j0 hjl hxr
  have hback := DRT_back_eq _ j0 hrl
  have hlt : i - ((List.range j0).map (DRT.build su2 n_sites init_qs orb_sym).back).sum <
      entry (DRT.build su2 n_sites init_qs orb_sym).xs
        (cut_offset (DRT.cuts su2 n_sites init_qs orb_sym) 0 + j0) 4 := by
    rw [cut_offset_zero, Nat.zero_add, ← hback]
    rw [List.range_succ, List.map_append, List.sum_append] at hb2
    simp only [List.map_cons, List.map_nil, List.sum_cons, List.sum_nil, Nat.add_zero] at hb2
    omega
  obtain ⟨_, w2, _⟩ := walk_spec T n_sites 0 j0 r _ (by rw [hcl]; omega) hr hlt
  rw [cut_offset_zero, Nat.zero_add] at w2
  exact DRT_walk_has_edges_of_path _ _ _ _ w2

end DRTModel

namespace DRTModel

/-! ## The catalog collected by `initialize_steps` -/

theorem d_map_find_some (m : List (DKey × Nat)) (key : DKey) (d : Nat)
    (h : d_map_find m key = some d) : (key, d) ∈ m := by
  unfold d_map_find at h
  cases hf : m.find? (fun e => decide (e.1 = key)) with
  | none => rw [hf] at h; simp at h
  | some e =>
    rw [hf] at h
    simp only [Option.map_some', Option.some.injEq] at h
    have h1 := List.find?_some hf
    have h2 := List.mem_of_find?_eq_some hf
    simp only [decide_eq_true_eq] at h1
    have : e = (key, d) := Prod.ext h1 h
    rw [← this]; exact h2

theorem d_map_find_none (m : List (DKey × Nat)) (key : DKey)
    (h : d_map_find m key = none) : ∀ e, e ∈ m → e.1 ≠ key := by
  unfold d_map_find at h
  simp only [Option.map_eq_none'] at h
  intro e he
  have := List.find?_eq_none.mp h e he
  simpa using this

theorem d_map_find_of_mem (m : List (DKey × Nat)) (key : DKey) (d : Nat)
    (hn : (m.map Prod.fst).Nodup) (h : (key, d) ∈ m) : d_map_find m key = some d := by
  induction m with
  | nil => simp at h
  | cons e m ih =>
    simp only [List.map_cons, List.nodup_cons] at hn
    unfold d_map_find
    rw [List.find?_cons]
    by_cases he : e.1 = key
    · simp only [he, decide_True, Option.map_some']
      rcases List.mem_cons.mp h with h1 | h1
      · rw [← h1]
      · exfalso
        apply hn.1
        rw [he]
        exact List.mem_map.mpr ⟨(key, d), h1, rfl⟩
    · simp only [he, decide_False]
      rcases List.mem_cons.mp h with h1 | h1
      · exfalso; apply he; rw [← h1]
      · exact ih hn.2 h1

theorem getD_append_left {α : Type} (l l2 : List α) (i : Nat) (d : α) (h : i < l.length) :
    (l ++ l2).getD i d = l.getD i d := by
  simp [List.getD_eq_getElem?_getD, List.getElem?_append_left h]

theorem getD_append_length {α : Type} (l : List α) (a d : α) :
    (l ++ [a]).getD l.length d = a := by
  simp [List.getD_eq_getElem?_getD]

theorem register_step_ok (cat : List (DKey × Nat) × List (List Int)) (key : DKey)
    (h : CatalogOK cat) : CatalogOK (register_step cat key) := by
  unfold register_step
  cases hf : d_map_find cat.1 key with
  | some v => exact h
  | none =>
    have hno := d_map_find_none cat.1 key hf
    refine ⟨?_, ?_, ?_, ?_, ?_, ?_⟩
    · simp [h.len]
    · simp
    · intro i hi
      simp only [List.length_append, List.length_singleton] at hi
      by_cases hlt : i < cat.1.length
      · rw [getD_append_left _ _ _ _ hlt]; exact h.idx i hlt
      · have : i = cat.1.length := by omega
        rw [this, getD_append_length]
        exact h.len
    · simp only [List.map_append, List.map_cons, List.map_nil]
      rw [List.nodup_append]
      refine ⟨h.nodup, List.nodup_singleton _, ?_⟩
      intro a ha hb
      rw [List.mem_singleton] at hb
      obtain ⟨e, he, hea⟩ := List.mem_map.mp ha
      exact hno e he (by rw [hea, hb])
    · constructor
      · rw [getD_append_left _ _ _ _ h.pos]; exact h.zero.1
      · rw [getD_append_left _ _ _ _ (by rw [h.len]; exact h.pos)]; exact h.zero.2
    · intro i hi0 hi
      simp only [List.length_append, List.length_singleton] at hi
      by_cases hlt : i < cat.1.length
      · rw [getD_append_left _ _ _ _ hlt, getD_append_left _ _ _ _ (by rw [h.len]; exact hlt)]
        exact h.step i hi0 hlt
      · have : i = cat.1.length := by omega
        rw [this, getD_append_length]
        have h2 : (cat.2 ++ [new_step key.1 key.2]).getD cat.1.length [] =
            new_step key.1 key.2 := by
          rw [← h.len]; exact getD_append_length _ _ _
        rw [h2]

theorem foldl_register_ok (cands : List DKey) (cat : List (DKey × Nat) × List (List Int))
    (h : CatalogOK cat) : CatalogOK (cands.foldl register_step cat) := by
  induction cands generalizing cat with
  | nil => exact h
  | cons key cands ih => exact ih _ (register_step_ok cat key h)

theorem catalog_start_ok : CatalogOK ([(([], 0), 0)], [[1, 0, 0, 0, 0, 0]]) := by
  refine ⟨rfl, by simp, ?_, by simp, ⟨rfl, rfl⟩, ?_⟩
  · intro i hi
    simp only [List.length_singleton, Nat.lt_one_iff] at hi
    rw [hi]; rfl
  · intro i h0 hi
    simp only [List.length_singleton, Nat.lt_one_iff] at hi
    omega

theorem register_step_mono (cat : List (DKey × Nat) × List (List Int)) (key : DKey)
    (e : DKey × Nat) (h : e ∈ cat.1) : e ∈ (register_step cat key).1 := by
  unfold register_step
  cases d_map_find cat.1 key with
  | some v => exact h
  | none => exact List.mem_append_left _ h

theorem foldl_register_mono (cands : List DKey) (cat : List (DKey × Nat) × List (List Int))
    (e : DKey × Nat) (h : e ∈ cat.1) : e ∈ (cands.foldl register_step cat).1 := by
  induction cands generalizing cat with
  | nil => exact h
  | cons key cands ih => exact ih _ (register_step_mono cat key e h)

theorem register_step_mem (cat : List (DKey × Nat) × List (List Int)) (key : DKey) :
    ∃ d, (key, d) ∈ (register_step cat key).1 := by
  unfold register_step
  cases hf : d_map_find cat.1 key with
  | some v => exact ⟨v, d_map_find_some _ _ _ hf⟩
  | none => exact ⟨cat.2.length, by simp⟩

theorem foldl_register_mem (cands : List DKey) (cat : List (DKey × Nat) × List (List Int))
    (key : DKey) (h : key ∈ cands) : ∃ d, (key, d) ∈ (cands.foldl register_step cat).1 := by
  induction cands generalizing cat with
  | nil => simp at h
  | cons k cands ih =>
    rcases List.mem_cons.mp h with h1 | h1
    · obtain ⟨d, hd⟩ := register_step_mem cat k
      rw [h1]
      exact ⟨d, foldl_register_mono cands _ _ hd⟩
    · exact ih _ h1

theorem register_step_src (cat : List (DKey × Nat) × List (List Int)) (key : DKey)
    (e : DKey × Nat) (h : e ∈ (register_step cat key).1) : e ∈ cat.1 ∨ e.1 = key := by
  unfold register_step at h
  cases hf : d_map_find cat.1 key with
  | some v => rw [hf] at h; exact Or.inl h
  | none =>
    rw [hf] at h
    rcases List.mem_append.mp h with h1 | h1
    · exact Or.inl h1
    · rw [List.mem_singleton] at h1
      exact Or.inr (by rw [h1])

theorem foldl_register_src (cands : List DKey) (cat : List (DKey × Nat) × List (List Int))
    (e : DKey × Nat) (h : e ∈ (cands.foldl register_step cat).1) :
    e ∈ cat.1 ∨ e.1 ∈ cands := by
  induction cands generalizing cat with
  | nil => exact Or.inl h
  | cons k cands ih =>
    rcases ih _ h with h1 | h1
    · rcases register_step_src cat k e h1 with h2 | h2
      · exact Or.inl h2
      · exact Or.inr (by rw [h2]; exact List.mem_cons_self _ _)
    · exact Or.inr (List.mem_cons_of_mem _ h1)

/-- The loop `for (auto &dm : d_map) d_expr[dm.second] = dm.first` on a map
whose entry at position `i` has the number `i`. -/
theorem d_expr_spec (l : List (DKey × Nat)) :
    ∀ de : List DKey, l.length ≤ de.length →
      (∀ i, i < l.length → (l.getD i (([], 0), 0)).2 = i) →
      (l.foldl (fun de dm => de.set dm.2 dm.1) de).length = de.length ∧
        ∀ i, i < l.length →
          (l.foldl (fun de dm => de.set dm.2 dm.1) de).getD i ([], 0) =
            (l.getD i (([], 0), 0)).1 := by
  induction l using List.reverseRecOn with
  | nil =>
    intro de _ _
    exact ⟨rfl, fun i hi => absurd hi (Nat.not_lt_zero _)⟩
  | append_singleton l a ih =>
    intro de hlen hidx
    simp only [List.length_append, List.length_singleton] at hlen
    have hidx2 : ∀ i, i < l.length → (l.getD i (([], 0), 0)).2 = i := by
      intro i hi
      have := hidx i (by simp; omega)
      rwa [getD_append_left _ _ _ _ hi] at this
    have ha : a.2 = l.length := by
      have := hidx l.length (by simp)
      rwa [getD_append_length] at this
    obtain ⟨h1, h2⟩ := ih de (by omega) hidx2
    rw [List.foldl_append]
    simp only [List.foldl_cons, List.foldl_nil, List.length_set]
    refine ⟨h1, ?_⟩
    intro i hi
    simp only [List.length_append, List.length_singleton] at hi
    by_cases hlt : i < l.length
    · rw [getD_set_ne _ _ _ _ _ (by omega), getD_append_left _ _ _ _ hlt]
      exact h2 i hlt
    · have hil : i = l.length := by omega
      rw [hil, getD_append_length, ha]
      exact getD_set_self _ _ _ _ (by omega)

theorem mem_getD_index {α : Type} (l : List α) (a d : α) (h : a ∈ l) :
    ∃ i, i < l.length ∧ l.getD i d = a := by
  obtain ⟨i, hi, he⟩ := List.getElem_of_mem h
  exact ⟨i, hi, by rw [List.getD_eq_getElem _ _ hi]; exact he⟩

theorem getD_mem_of_lt {α : Type} (l : List α) (i : Nat) (d : α) (h : i < l.length) :
    l.getD i d ∈ l := by
  rw [List.getD_eq_getElem _ _ h]; exact List.getElem_mem _

end DRTModel

namespace DRTModel

theorem initialize_steps_ok (t : HDRT) (cands : List DKey) :
    CatalogOK ((t.initialize_steps cands).d_map, (t.initialize_steps cands).d_step) :=
  foldl_register_ok cands _ catalog_start_ok

theorem initialize_steps_nd (t : HDRT) (cands : List DKey) :
    (t.initialize_steps cands).nd = (t.initialize_steps cands).d_map.length := rfl

theorem initialize_steps_d_expr (t : HDRT) (cands : List DKey) :
    (t.initialize_steps cands).d_expr.length = (t.initialize_steps cands).nd ∧
      ∀ i, i < (t.initialize_steps cands).nd →
        (t.initialize_steps cands).d_expr.getD i ([], 0) =
          ((t.initialize_steps cands).d_map.getD i (([], 0), 0)).1 := by
  have ok := initialize_steps_ok t cands
  have h := d_expr_spec (t.initialize_steps cands).d_map
    (List.replicate (t.initialize_steps cands).nd ([], 0))
    (by simp [initialize_steps_nd]) ok.idx
  have he : (t.initialize_steps cands).d_expr =
      (t.initialize_steps cands).d_map.foldl (fun de dm => de.set dm.2 dm.1)
        (List.replicate (t.initialize_steps cands).nd ([], 0)) := rfl
  rw [he]
  refine ⟨by rw [h.1]; simp, ?_⟩
  intro i hi
  exact h.2 i (by rw [← initialize_steps_nd]; exact hi)

/-- C19: after `initialize_steps` on any sequence of candidate keys, the
identity key `("", 0)` has the number `0` and `d_step[0] = {1,0,0,0,0,0}`;
the keys of `d_map` are pairwise distinct, every candidate is a key and every
key is the identity or a candidate; `d_map`, `d_step` and `d_expr` have `nd`
entries; `d_expr[d_map[key]] == key` for every key and
`d_map[d_expr[d]] == d` for every `d < nd`. -/
theorem C19_catalog_bijection (t : HDRT) (cands : List DKey) :
    d_map_find (t.initialize_steps cands).d_map ([], 0) = some 0 ∧
      (t.initialize_steps cands).d_step.getD 0 [] = [1, 0, 0, 0, 0, 0] ∧
      ((t.initialize_steps cands).d_map.map Prod.fst).Nodup ∧
      (∀ key, key ∈ cands → ∃ d, d_map_find (t.initialize_steps cands).d_map key = some d) ∧
      (∀ key d, d_map_find (t.initialize_steps cands).d_map key = some d →
        key = ([], 0) ∨ key ∈ cands) ∧
      (t.initialize_steps cands).d_map.length = (t.initialize_steps cands).nd ∧
      (t.initialize_steps cands).d_step.length = (t.initialize_steps cands).nd ∧
      (t.initialize_steps cands).d_expr.length = (t.initialize_steps cands).nd ∧
      (∀ key d, d_map_find (t.initialize_steps cands).d_map key = some d →
        d < (t.initialize_steps cands).nd ∧
          (t.initialize_steps cands).d_expr.getD d ([], 0) = key) ∧
      (∀ d, d < (t.initialize_steps cands).nd →
        d_map_find (t.initialize_steps cands).d_map
          ((t.initialize_steps cands).d_expr.getD d ([], 0)) = some d) := by
  have ok := initialize_steps_ok t cands
  have hde := initialize_steps_d_expr t cands
  have hpos : ∀ key d, (key, d) ∈ (t.initialize_steps cands).d_map →
      d < (t.initialize_steps cands).d_map.length ∧
        (t.initialize_steps cands).d_map.getD d (([], 0), 0) = (key, d) := by
    intro key d hm
    obtain ⟨i, hi, he⟩ := mem_getD_index _ _ (([], 0), 0) hm
    have h2 := ok.idx i hi
    rw [he] at h2
    simp only at h2
    rw [h2]
    rw [h2] at he
    exact ⟨hi, he⟩
  refine ⟨initialize_steps_identity t cands, ok.zero.2, ok.nodup, ?_, ?_, rfl, ok.len, hde.1,
    ?_, ?_⟩
  · intro key hk
    obtain ⟨d, hd⟩ := foldl_register_mem cands ([(([], 0), 0)], [[1, 0, 0, 0, 0, 0]]) key hk
    exact ⟨d, d_map_find_of_mem _ _ _ ok.nodup hd⟩
  · intro key d hd
    have hm := d_map_find_some _ _ _ hd
    rcases foldl_register_src cands ([(([], 0), 0)], [[1, 0, 0, 0, 0, 0]]) (key, d) hm with
      h1 | h1
    · rw [List.mem_singleton] at h1
      exact Or.inl (by rw [Prod.ext_iff] at h1; exact h1.1)
    · exact Or.inr h1
  · intro key d hd
    obtain ⟨h1, h2⟩ := hpos key d (d_map_find_some _ _ _ hd)
    refine ⟨h1, ?_⟩
    rw [hde.2 d h1, h2]
  · intro d hd
    rw [hde.2 d hd]
    apply d_map_find_of_mem _ _ _ ok.nodup
    have hm := getD_mem_of_lt (t.initialize_steps cands).d_map d (([], 0), 0) hd
    have h2 := ok.idx d hd
    have : (t.initialize_steps cands).d_map.getD d (([], 0), 0) =
        (((t.initialize_steps cands).d_map.getD d (([], 0), 0)).1, d) := Prod.ext rfl h2
    rw [this] at hm
    exact hm

/-- C27: the catalog entry `d != 0` that `initialize_steps` registers for
the key `(x, dq)` is `{1, #C - #D, dq, 1, #C + #D, flag}`, and the flag is
non-zero exactly when `#C - #D` is odd. -/
theorem C27_catalog_steps (t : HDRT) (cands : List DKey) (x : List Char) (dq : Int) (d : Nat)
    (hd : d_map_find (t.initialize_steps cands).d_map (x, dq) = some d) (hne : d ≠ 0) :
    (t.initialize_steps cands).d_step.getD d [] =
        [1, count_char 'C' x - count_char 'D' x, dq, 1, count_char 'C' x + count_char 'D' x,
          ((t.initialize_steps cands).d_step.getD d []).getD 5 0] ∧
      (((t.initialize_steps cands).d_step.getD d []).getD 5 0 ≠ 0 ↔
        (count_char 'C' x - count_char 'D' x) % 2 = 1) := by
  have ok := initialize_steps_ok t cands
  have hm := d_map_find_some _ _ _ hd
  obtain ⟨i, hi, he⟩ := mem_getD_index _ _ (([], 0), 0) hm
  have h2 := ok.idx i hi
  rw [he] at h2
  simp only at h2
  rw [← h2] at he hi
  have hs := ok.step d (Nat.pos_of_ne_zero hne) hi
  rw [he] at hs
  simp only at hs
  rw [hs]
  unfold new_step
  simp only [List.getD_cons_succ, List.getD_cons_zero, true_and]
  split_ifs with h1 h2
  · constructor
    · intro h; exact absurd rfl h
    · intro h; omega
  · constructor
    · intro h; omega
    · intro h; omega
  · constructor
    · intro h; omega
    · intro h; omega

/-- C27 (witness): the catalog collected for the candidates `("C", 1)` and
`("D", -1)` and its entry `2`. -/
theorem C27_catalog_steps_witness :
    (d_map_find ((HDRT.new 2 [] []).initialize_steps [(['C'], 1), (['D'], -1)]).d_map
        (['D'], -1) = some 2 ∧ (2 : Nat) ≠ 0) ∧
      ((HDRT.new 2 [] []).initialize_steps [(['C'], 1), (['D'], -1)]).d_step.getD 2 [] =
        [1, count_char 'C' ['D'] - count_char 'D' ['D'], -1, 1,
          count_char 'C' ['D'] + count_char 'D' ['D'],
          (((HDRT.new 2 [] []).initialize_steps [(['C'], 1), (['D'], -1)]).d_step.getD 2
            []).getD 5 0] ∧
      ((((HDRT.new 2 [] []).initialize_steps [(['C'], 1), (['D'], -1)]).d_step.getD 2
            []).getD 5 0 ≠ 0 ↔
        (count_char 'C' ['D'] - count_char 'D' ['D']) % 2 = 1) :=
  ⟨⟨by decide, by decide⟩,
    C27_catalog_steps (HDRT.new 2 [] []) [(['C'], 1), (['D'], -1)] ['D'] (-1) 2 (by decide)
      (by decide)⟩

end DRTModel

namespace DRTModel

/-! ## The runs of an index tuple and the error of `HDRT::index` -/

theorem takeWhile_length_spec {α : Type} (p : α → Bool) (d : α) (l : List α) :
    (l.takeWhile p).length ≤ l.length ∧
      (∀ i, i < (l.takeWhile p).length → p (l.getD i d) = true) ∧
      ((l.takeWhile p).length = l.length ∨ p (l.getD (l.takeWhile p).length d) = false) := by
  induction l with
  | nil => simp
  | cons a l ih =>
    by_cases ha : p a = true
    · rw [List.takeWhile_cons_of_pos ha]
      simp only [List.length_cons]
      refine ⟨by omega, ?_, ?_⟩
      · intro i hi
        cases i with
        | zero => simpa using ha
        | succ i => simpa using ih.2.1 i (by omega)
      · rcases ih.2.2 with h | h
        · exact Or.inl (by omega)
        · exact Or.inr (by simpa using h)
    · rw [List.takeWhile_cons_of_neg ha]
      simp only [List.length_nil, List.length_cons]
      refine ⟨by omega, fun i hi => absurd hi (Nat.not_lt_zero _), Or.inr ?_⟩
      simpa using ha

theorem getD_drop {α : Type} (l : List α) (k i : Nat) (d : α) :
    (l.drop k).getD i d = l.getD (k + i) d := by
  simp [List.getD_eq_getElem?_getD, List.getElem?_drop]

theorem run_end_spec (idxs : List Nat) (k : Nat) (hk : k < idxs.length) :
    k < run_end idxs k ∧ run_end idxs k ≤ idxs.length ∧
      (∀ i, k ≤ i → i < run_end idxs k → idxs.getD i 0 = idxs.getD k 0) ∧
      (run_end idxs k = idxs.length ∨ idxs.getD (run_end idxs k) 0 ≠ idxs.getD k 0) := by
  have h := takeWhile_length_spec (fun v => decide (idxs.getD k 0 = v)) 0 (idxs.drop k)
  unfold run_end
  generalize hn : ((idxs.drop k).takeWhile (fun v => decide (idxs.getD k 0 = v))).length = n
    at h
  obtain ⟨h1, h2, h3⟩ := h
  simp only [List.length_drop] at h1 h3
  have hpos : 0 < n := by
    rcases h3 with h3 | h3
    · omega
    · by_contra hc
      have hz : n = 0 := by omega
      rw [hz, getD_drop] at h3
      simp at h3
  refine ⟨by omega, by omega, ?_, ?_⟩
  · intro i hki hi
    have := h2 (i - k) (by omega)
    rw [getD_drop] at this
    simp only [decide_eq_true_eq] at this
    have e : k + (i - k) = i := by omega
    rw [e] at this
    exact this.symm
  · rcases h3 with h3 | h3
    · exact Or.inl (by omega)
    · right
      rw [getD_drop] at h3
      simp only [decide_eq_false_iff_not] at h3
      exact fun hc => h3 hc.symm

theorem is_run_iff (idxs : List Nat) (k l : Nat) :
    is_run idxs k l = true ↔
      k < l ∧ l ≤ idxs.length ∧ (k = 0 ∨ idxs.getD (k - 1) 0 ≠ idxs.getD k 0) ∧
        (l = idxs.length ∨ idxs.getD l 0 ≠ idxs.getD k 0) ∧
        ∀ i, i < l → i < k ∨ idxs.getD i 0 = idxs.getD k 0 := by
  unfold is_run
  simp only [Bool.and_eq_true, Bool.or_eq_true, decide_eq_true_eq, List.all_eq_true,
    List.mem_range, and_assoc]

theorem is_run_of_run_end (idxs : List Nat) (k : Nat) (hk : k < idxs.length)
    (hs : k = 0 ∨ idxs.getD (k - 1) 0 ≠ idxs.getD k 0) :
    is_run idxs k (run_end idxs k) = true := by
  obtain ⟨h1, h2, h3, h4⟩ := run_end_spec idxs k hk
  rw [is_run_iff]
  refine ⟨h1, h2, hs, h4, ?_⟩
  intro i hi
  by_cases hik : i < k
  · exact Or.inl hik
  · exact Or.inr (h3 i (by omega) hi)

theorem is_run_end_unique (idxs : List Nat) (k l : Nat) (h : is_run idxs k l = true) :
    l = run_end idxs k := by
  rw [is_run_iff] at h
  obtain ⟨h1, h2, _, h4, h5⟩ := h
  obtain ⟨r1, r2, r3, r4⟩ := run_end_spec idxs k (by omega)
  rcases Nat.lt_trichotomy l (run_end idxs k) with hlt | heq | hgt
  · exfalso
    rcases h4 with h4 | h4
    · omega
    · exact h4 (r3 l (by omega) hlt)
  · exact heq
  · exfalso
    rcases r4 with r4 | r4
    · omega
    · rcases h5 (run_end idxs k) hgt with h6 | h6
      · omega
      · exact r4 h6

/-- The first loop of `HDRT::index` from the start `k` of a run: it ends
with the error "expr not found" exactly when a run from `k` on has no entry
in the catalog, and it raises no other error. -/
theorem resolve_error_iff (E : Recoupling) (t : HDRT) (expr : List Char) (idxs : List Nat) :
    ∀ fuel k ds, idxs.length - k ≤ fuel →
      (k = 0 ∨ idxs.getD (k - 1) 0 ≠ idxs.getD k 0 ∨ idxs.length ≤ k) →
      ((HDRT.resolve E t expr idxs fuel k ds = Except.error "expr not found" ↔
          ∃ k2 l2, k ≤ k2 ∧ is_run idxs k2 l2 = true ∧
            d_map_find t.d_map (run_key E expr k2 l2) = none) ∧
        ∀ e, HDRT.resolve E t expr idxs fuel k ds = Except.error e → e = "expr not found") := by
  intro fuel
  induction fuel with
  | zero =>
    intro k ds hf _
    unfold HDRT.resolve
    refine ⟨⟨(fun h => by cases h), ?_⟩, (fun e h => by cases h)⟩
    rintro ⟨k2, l2, hk, hr, _⟩
    rw [is_run_iff] at hr
    omega
  | succ fuel ih =>
    intro k ds hf hs
    unfold HDRT.resolve
    by_cases hk : k < idxs.length
    · simp only [hk, if_true]
      have hs2 : k = 0 ∨ idxs.getD (k - 1) 0 ≠ idxs.getD k 0 := by
        rcases hs with h | h | h
        · exact Or.inl h
        · exact Or.inr h
        · omega
      have hrun := is_run_of_run_end idxs k hk hs2
      obtain ⟨r1, r2, r3, r4⟩ := run_end_spec idxs k hk
      have hkey : (E.get_sub_expr expr k (run_end idxs k),
          wrap8 (E.get_target_twos (E.get_sub_expr expr 0 (run_end idxs k)) -
            E.get_target_twos (E.get_sub_expr expr 0 k))) =
          run_key E expr k (run_end idxs k) := rfl
      rw [hkey]
      cases hf2 : d_map_find t.d_map (run_key E expr k (run_end idxs k)) with
      | none =>
        simp only
        refine ⟨⟨fun _ => ⟨k, run_end idxs k, le_refl _, hrun, hf2⟩, fun _ => trivial⟩, ?_⟩
        intro e he
        cases he
        rfl
      | some d =>
        simp only
        have hnext : run_end idxs k = 0 ∨
            idxs.getD (run_end idxs k - 1) 0 ≠ idxs.getD (run_end idxs k) 0 ∨
            idxs.length ≤ run_end idxs k := by
          rcases r4 with r4 | r4
          · exact Or.inr (Or.inr (by omega))
          · right; left
            rw [r3 (run_end idxs k - 1) (by omega) (by omega)]
            exact fun hc => r4 hc.symm
        obtain ⟨i1, i2⟩ := ih (run_end idxs k) (ds.set (idxs.getD k 0) d) (by omega) hnext
        refine ⟨?_, i2⟩
        rw [i1]
        constructor
        · rintro ⟨k2, l2, hk2, hr2, hn2⟩
          exact ⟨k2, l2, by omega, hr2, hn2⟩
        · rintro ⟨k2, l2, hk2, hr2, hn2⟩
          refine ⟨k2, l2, ?_, hr2, hn2⟩
          by_contra hc
          have hlt : k2 < run_end idxs k := by omega
          by_cases hkk : k2 = k
          · rw [hkk] at hr2 hn2
            have := is_run_end_unique idxs k l2 hr2
            rw [this, hf2] at hn2
            cases hn2
          · rw [is_run_iff] at hr2
            obtain ⟨_, _, h3, _, _⟩ := hr2
            rcases h3 with h3 | h3
            · omega
            · apply h3
              rw [r3 (k2 - 1) (by omega) (by omega), r3 k2 (by omega) hlt]
    · simp only [hk, if_false]
      refine ⟨⟨(fun h => by cases h), ?_⟩, (fun e h => by cases h)⟩
      rintro ⟨k2, l2, hk2, hr, _⟩
      rw [is_run_iff] at hr
      omega

theorem index_steps_error [PGCompose] (t : HDRT) (ds : List Nat) :
    t.index_steps ds ≠ Except.error "expr not found" := by
  unfold HDRT.index_steps
  simp only
  split_ifs
  · intro h; cases h
  · intro h
    have := Except.error.inj h
    revert this
    decide

/-- C11: for a table whose catalog holds the identity key (as after
`initialize_steps`), `index(expr, idxs)` ends with the error
"expr not found" exactly when some maximal equal-value run of `idxs` resolves
to a key that is absent from `d_map`; the error depends on the catalog alone,
not on the rows, edges or weights, so it is raised before any offset is
accumulated; `index` returns a value only and leaves the table as it is. -/
theorem C11_expr_not_found [PGCompose]
    (E : Recoupling) (t : HDRT) (expr : List Char) (idxs : List Nat)
    (hid : ∃ d0, d_map_find t.d_map ([], 0) = some d0) :
    (HDRT.index E t expr idxs = Except.error "expr not found" ↔
        ∃ k l, is_run idxs k l = true ∧ d_map_find t.d_map (run_key E expr k l) = none) ∧
      ∀ t2 : HDRT, t2.d_map = t.d_map →
        (HDRT.index E t2 expr idxs = Except.error "expr not found" ↔
          HDRT.index E t expr idxs = Except.error "expr not found") := by
  have key : ∀ t3 : HDRT, (∃ d0, d_map_find t3.d_map ([], 0) = some d0) →
      (HDRT.index E t3 expr idxs = Except.error "expr not found" ↔
        ∃ k l, is_run idxs k l = true ∧ d_map_find t3.d_map (run_key E expr k l) = none) := by
    intro t3 h3
    obtain ⟨d0, hd0⟩ := h3
    unfold HDRT.index
    rw [hd0]
    simp only
    obtain ⟨r1, r2⟩ := resolve_error_iff E t3 expr idxs idxs.length 0
      (List.replicate t3.n_sites d0) (by omega) (Or.inl rfl)
    cases hres : HDRT.resolve E t3 expr idxs idxs.length 0 (List.replicate t3.n_sites d0) with
    | error e =>
      simp only
      have he := r2 e hres
      rw [he]
      rw [he] at hres
      constructor
      · intro _
        obtain ⟨k2, l2, _, h2, h3⟩ := r1.mp hres
        exact ⟨k2, l2, h2, h3⟩
      · intro _; trivial
    | ok ds =>
      simp only
      constructor
      · intro h; exact absurd h (index_steps_error t3 ds)
      · rintro ⟨k2, l2, h2, h3⟩
        have := r1.mpr ⟨k2, l2, Nat.zero_le _, h2, h3⟩
        rw [hres] at this
        cases this
  refine ⟨key t hid, ?_⟩
  intro t2 h2
  rw [key t hid, key t2 (by rw [h2]; exact hid), h2]

/-- C11 (witness): in the SU2 operator table for 2 sites with the catalog
`("C", 1)`, the call `index("D", [1])` ends with the error, the run `[0, 1)`
resolving to the absent key `("D", 1)`. -/
theorem C11_expr_not_found_witness :
    (∃ d0, d_map_find (HDRT.build leaf_recoupling true 2 [(⟨1, 1, 0⟩, 1, 1)] []
        [(['C'], 1)]).d_map ([], 0) = some d0) ∧
      HDRT.index leaf_recoupling
        (HDRT.build leaf_recoupling true 2 [(⟨1, 1, 0⟩, 1, 1)] [] [(['C'], 1)]) ['D'] [1] =
        Except.error "expr not found" :=
  ⟨⟨0, by decide⟩,
    (C11_expr_not_found leaf_recoupling
      (HDRT.build leaf_recoupling true 2 [(⟨1, 1, 0⟩, 1, 1)] [] [(['C'], 1)]) ['D'] [1]
      ⟨0, by decide⟩).1.mpr ⟨0, 1, by decide, by decide⟩⟩

end DRTModel

namespace DRTModel

/-! ## The scatter of `HDRT::fill_data` -/

end DRTModel

namespace DRTModel

/-! ## The distribution of integrals -/

theorem foldl_error_absorb {ε β γ : Type} (f : Except ε β → γ → Except ε β)
    (hf : ∀ m x, f (Except.error m) x = Except.error m) (l : List γ) (m : ε) :
    l.foldl f (Except.error m) = Except.error m := by
  induction l with
  | nil => rfl
  | cons x l ih => rw [List.foldl_cons, hf, ih]

theorem foldl_error_of_mem {ε β γ : Type} (f : Except ε β → γ → Except ε β)
    (hf : ∀ m x, f (Except.error m) x = Except.error m) (l : List γ) (x : γ) (hx : x ∈ l)
    (hbad : ∀ buf, ∃ m, f (Except.ok buf) x = Except.error m) :
    ∀ r, ∃ m, l.foldl f r = Except.error m := by
  induction l with
  | nil => simp at hx
  | cons y l ih =>
    intro r
    rw [List.foldl_cons]
    rcases List.mem_cons.mp hx with h | h
    · cases r with
      | error m => exact ⟨m, by rw [hf, foldl_error_absorb f hf]⟩
      | ok buf =>
        obtain ⟨m, hm⟩ := hbad buf
        rw [← h, hm]
        exact ⟨m, foldl_error_absorb f hf l m⟩
    · exact ih h _

theorem setup_all_get (E : Recoupling) (t : HDRT) (keys : List (List Char × List Nat)) :
    ∀ sets, setup_all E t keys = Except.ok sets →
      ∀ im, im < keys.length →
        setup_key E t (keys.getD im ([], [])) = Except.ok (sets.getD im ([], [])) := by
  induction keys with
  | nil => intro sets _ im him; simp at him
  | cons k ks ih =>
    intro sets h im him
    unfold setup_all at h
    cases hk : setup_key E t k with
    | error m => rw [hk] at h; cases h
    | ok v =>
      rw [hk] at h
      simp only at h
      cases hks : setup_all E t ks with
      | error m => rw [hks] at h; cases h
      | ok vs =>
        rw [hks] at h
        simp only at h
        cases h
        cases im with
        | zero => simpa using hk
        | succ im =>
          simp only [List.getD_cons_succ]
          exact ih vs hks im (by simpa using him)

theorem key_index_spec (keys : List (List Char × List Nat)) (k : List Char × List Nat) :
    ∀ im, key_index keys k = some im → im < keys.length ∧ keys.getD im ([], []) = k := by
  induction keys with
  | nil => intro im h; cases h
  | cons x xs ih =>
    intro im h
    unfold key_index at h
    split_ifs at h with hx
    · cases h
      exact ⟨by simp, by simpa using hx⟩
    · cases h2 : key_index xs k with
      | none => rw [h2] at h; cases h
      | some i =>
        rw [h2] at h
        simp only [Option.map_some', Option.some.injEq] at h
        obtain ⟨h3, h4⟩ := ih i h2
        rw [← h]
        exact ⟨by simp; omega, by simpa using h4⟩

theorem jis_loop_none (t : HDRT) (iq : List Int) (pg : Nat) :
    ∀ m j i acc, jis_find acc pg = none →
      (∀ j2, j ≤ j2 → j2 < j + m → ¬ (t.qs.getD j2 [] = iq ∧ t.pgs.getD j2 0 = pg)) →
      jis_find (jis_loop t iq m j i acc) pg = none := by
  intro m
  induction m with
  | zero => intro j i acc h _; exact h
  | succ m ih =>
    intro j i acc h hno
    unfold jis_loop
    apply ih
    · by_cases hq : iq = t.qs.getD j []
      · simp only [hq, if_true]
        unfold jis_find
        rw [List.find?_cons]
        have hp : t.pgs.getD j 0 ≠ pg := fun hc => hno j (le_refl _) (by omega) ⟨hq.symm, hc⟩
        simp only [hp, decide_False]
        exact h
      · simp only [hq, if_false]
        exact h
    · intro j2 h1 h2
      exact hno j2 (by omega) (by omega)

theorem carried_false (t : HDRT) (iq : List Int) (pg : Nat) (h : carried t iq pg = false) :
    ∀ j2, j2 < t.n_init_qs → ¬ (t.qs.getD j2 [] = iq ∧ t.pgs.getD j2 0 = pg) := by
  intro j2 hj hc
  unfold carried at h
  rw [List.any_eq_false] at h
  apply h j2 (List.mem_range.mpr hj)
  simp only [Bool.and_eq_true, decide_eq_true_eq]
  exact hc

/-- An entry whose label is carried by no initial row of its pattern raises
an exception in the body of the loop. -/
theorem entry_offset_error [PGCompose]
    (E : Recoupling) (t : HDRT) (keys : List (List Char × List Nat))
    (sets : List (List Nat × List (Nat × Nat × Nat))) (hj : List (List (Nat × Nat)))
    (im_outer : Nat) (expr : List Char) (idx : List Nat)
    (hs : setup_all E t keys = Except.ok sets)
    (hbad : ∀ ds, pattern_steps E t expr (idx_mat idx) (idx_mat idx).length 0 [] =
        Except.ok ds → carried t (pattern_q t ds) (entry_pg t idx) = false) :
    ∃ m, entry_offset t keys sets hj im_outer expr idx = Except.error m := by
  unfold entry_offset
  cases h1 : jis_find (sets.getD im_outer ([], [])).2 (entry_pg t idx) with
  | none => exact ⟨_, rfl⟩
  | some v =>
    simp only
    cases h2 : key_index keys (expr, idx_mat idx) with
    | none => exact ⟨_, rfl⟩
    | some im =>
      simp only
      obtain ⟨hlt, hk⟩ := key_index_spec keys _ im h2
      have hg := setup_all_get E t keys sets hs im hlt
      rw [hk] at hg
      unfold setup_key at hg
      simp only at hg
      cases hp : pattern_steps E t expr (idx_mat idx) (idx_mat idx).length 0 [] with
      | error m => rw [hp] at hg; cases hg
      | ok ds =>
        rw [hp] at hg
        simp only at hg
        have hg2 := Except.ok.inj hg
        have hno : jis_find (sets.getD im ([], [])).2 (entry_pg t idx) = none := by
          rw [← hg2]
          simp only
          apply jis_loop_none
          · rfl
          · intro j2 _ h4
            exact carried_false t _ _ (hbad ds hp) j2 (by omega)
        rw [hno]
        exact ⟨_, rfl⟩

theorem fill_integral_set_error [PGCompose] {α : Type} [Zero α] (E : Recoupling)
    (count_cds : List Char → Nat) (t : HDRT) (keys : List (List Char × List Nat))
    (sets : List (List Nat × List (Nat × Nat × Nat))) (hj : List (List (Nat × Nat)))
    (im_outer : Nat) (g : GeneralFCIDUMP α) (ix : Nat) (e : List Nat × α)
    (hs : setup_all E t keys = Except.ok sets) (hix : ix < g.exprs.length)
    (he : e ∈ integral_entries count_cds g ix)
    (hbad : ∀ ds, pattern_steps E t (g.exprs.getD ix []) (idx_mat e.1) (idx_mat e.1).length 0
        [] = Except.ok ds → carried t (pattern_q t ds) (entry_pg t e.1) = false) :
    ∃ m, fill_integral_set count_cds t keys sets hj im_outer g = Except.error m := by
  unfold fill_integral_set
  apply foldl_error_of_mem _ (fun m x => rfl) _ ix (List.mem_range.mpr hix)
  intro buf
  unfold integral_expr
  simp only
  split_ifs with hk
  · apply foldl_error_of_mem _ (fun m x => rfl) _ e he
    intro buf2
    obtain ⟨m, hm⟩ := entry_offset_error E t keys sets hj im_outer (g.exprs.getD ix []) e.1 hs
      hbad
    refine ⟨m, ?_⟩
    unfold integral_step
    simp only [hm]
  · exact ⟨_, rfl⟩

theorem fill_integral_sets_error [PGCompose] {α : Type} [Zero α]
    (count_cds : List Char → Nat) (t : HDRT) (keys : List (List Char × List Nat))
    (sets : List (List Nat × List (Nat × Nat × Nat))) (hj : List (List (Nat × Nat)))
    (im_outer : Nat) (gfds : List (GeneralFCIDUMP α)) (g : GeneralFCIDUMP α) (hg : g ∈ gfds)
    (hbad : ∃ m, fill_integral_set count_cds t keys sets hj im_outer g = Except.error m) :
    ∃ m, fill_integral_sets count_cds t keys sets hj im_outer gfds = Except.error m := by
  induction gfds with
  | nil => simp at hg
  | cons g2 gs ih =>
    unfold fill_integral_sets
    cases h2 : fill_integral_set count_cds t keys sets hj im_outer g2 with
    | error m => exact ⟨m, rfl⟩
    | ok v =>
      simp only
      rcases List.mem_cons.mp hg with h | h
      · obtain ⟨m, hm⟩ := hbad
        rw [h, h2] at hm
        cases hm
      · obtain ⟨m, hm⟩ := ih h
        rw [hm]
        exact ⟨m, rfl⟩

/-- C14: when some integral entry of some data set has a composed label
that no initial row of its pattern carries, `fill_integral_data` ends with
an exception and returns no buffer. -/
theorem C14_unreachable_label_fails [PGCompose] {α : Type} [Zero α] (E : Recoupling)
    (count_cds : List Char → Nat) (t : HDRT) (schemes : List SpinPermScheme)
    (gfds : List (GeneralFCIDUMP α)) (g : GeneralFCIDUMP α) (ix : Nat) (e : List Nat × α)
    (hg : g ∈ gfds) (hix : ix < g.exprs.length) (he : e ∈ integral_entries count_cds g ix)
    (hbad : ∀ ds, pattern_steps E t (g.exprs.getD ix []) (idx_mat e.1) (idx_mat e.1).length 0
        [] = Except.ok ds → carried t (pattern_q t ds) (entry_pg t e.1) = false) :
    ∃ m, fill_integral_data E count_cds t schemes gfds = Except.error m := by
  unfold fill_integral_data
  cases hs : setup_all E t (expr_mp schemes) with
  | error m => exact ⟨m, rfl⟩
  | ok sets =>
    simp only
    exact fill_integral_sets_error count_cds t _ sets _ _ gfds g hg
      (fill_integral_set_error E count_cds t _ sets _ _ g ix e hs hix he hbad)

end DRTModel

namespace DRTModel

/-- C14 (witness): the SU2 operator table for 2 sites with the per-site
labels `[0, 1]`, the initial label `(N=1, 2S=1, pg=0)` and the catalog
`("C", 1)`; the entry `("C", [1])` composes to the label `1`, which the only
initial row does not carry. -/
theorem C14_unreachable_label_fails_witness :
    (({ exprs := [['C']], indices := [[1]], data := [[5]] } : GeneralFCIDUMP Int) ∈
        [({ exprs := [['C']], indices := [[1]], data := [[5]] } : GeneralFCIDUMP Int)] ∧
      0 < ({ exprs := [['C']], indices := [[1]], data := [[5]] } :
        GeneralFCIDUMP Int).exprs.length ∧
      (([1], 5) : List Nat × Int) ∈ integral_entries leaf_count_cds
        ({ exprs := [['C']], indices := [[1]], data := [[5]] } : GeneralFCIDUMP Int) 0 ∧
      carried (HDRT.build leaf_recoupling true 2 [(⟨1, 1, 0⟩, 1, 1)] [0, 1] [(['C'], 1)])
        (pattern_q (HDRT.build leaf_recoupling true 2 [(⟨1, 1, 0⟩, 1, 1)] [0, 1] [(['C'], 1)])
          [1])
        (entry_pg (HDRT.build leaf_recoupling true 2 [(⟨1, 1, 0⟩, 1, 1)] [0, 1] [(['C'], 1)])
          [1]) = false) ∧
      ∃ m, fill_integral_data leaf_recoupling leaf_count_cds
        (HDRT.build leaf_recoupling true 2 [(⟨1, 1, 0⟩, 1, 1)] [0, 1] [(['C'], 1)])
        [{ index_patterns := [[0]], data := [[['C']]] }]
        [({ exprs := [['C']], indices := [[1]], data := [[5]] } : GeneralFCIDUMP Int)] =
        Except.error m :=
  ⟨⟨List.mem_singleton.mpr rfl, by decide, by decide, by decide⟩,
    C14_unreachable_label_fails leaf_recoupling leaf_count_cds
      (HDRT.build leaf_recoupling true 2 [(⟨1, 1, 0⟩, 1, 1)] [0, 1] [(['C'], 1)])
      [{ index_patterns := [[0]], data := [[['C']]] }]
      [({ exprs := [['C']], indices := [[1]], data := [[5]] } : GeneralFCIDUMP Int)]
      ({ exprs := [['C']], indices := [[1]], data := [[5]] } : GeneralFCIDUMP Int) 0 ([1], 5)
      (List.mem_singleton.mpr rfl) (by decide) (by decide)
      (by
        intro ds h
        have h2 : pattern_steps leaf_recoupling
            (HDRT.build leaf_recoupling true 2 [(⟨1, 1, 0⟩, 1, 1)] [0, 1] [(['C'], 1)])
            ['C'] (idx_mat [1]) (idx_mat [1]).length 0 [] = Except.ok [1] := rfl
        have h3 : ds = [1] := by
          have h4 := h2.symm.trans h
          exact (Except.ok.inj h4).symm
        rw [h3]
        decide)⟩

/-- C13 (failing input): in the SU2 operator table for 2 sites with the
catalog `("C", 1)`, the data set with the expression `"C"` and the two
entries `[1]` with the coefficients `5` and `7` resolves both entries to the
offset `1`; `fill_integral_data` returns the buffer `[0, 7]`, the
coefficient written last, while `fill_data` returns `[0, 12]` on the same
entries. -/
theorem C13_integral_data_overwrites :
    fill_integral_data leaf_recoupling leaf_count_cds
        (HDRT.build leaf_recoupling true 2 [(⟨1, 1, 0⟩, 1, 1)] [] [(['C'], 1)])
        [{ index_patterns := [[0]], data := [[['C']]] }]
        [({ exprs := [['C']], indices := [[1, 1]], data := [[5, 7]] } : GeneralFCIDUMP Int)] =
        Except.ok [[0, 7]] ∧
      HDRT.fill_data leaf_recoupling leaf_count_cds
        (HDRT.build leaf_recoupling true 2 [(⟨1, 1, 0⟩, 1, 1)] [] [(['C'], 1)])
        [['C']] [[1, 1]] [[(5 : Int), 7]] = Except.ok [0, 12] :=
  ⟨rfl, rfl⟩

end DRTModel

namespace DRTModel

/-! ## The merge loop of `build_operator_matrices` -/

theorem insert_by_key_sorted (f : Nat → Nat) (x : Nat) (l : List Nat)
    (h : l.Pairwise (fun a b => f a ≤ f b)) :
    (insert_sorted (fun a b => decide (f a < f b)) x l).Pairwise (fun a b => f a ≤ f b) := by
  induction l with
  | nil => simp [insert_sorted]
  | cons y ys ih =>
    rw [List.pairwise_cons] at h
    unfold insert_sorted
    by_cases hyx : f y < f x
    · simp only [hyx, decide_True, if_true]
      rw [List.pairwise_cons]
      refine ⟨?_, ih h.2⟩
      intro z hz
      rcases (mem_insert_sorted _ x z ys).mp hz with h1 | h1
      · rw [h1]; omega
      · exact h.1 z h1
    · simp only [hyx, decide_False, Bool.false_eq_true, if_false]
      rw [List.pairwise_cons, List.pairwise_cons]
      refine ⟨?_, h.1, h.2⟩
      intro z hz
      rcases List.mem_cons.mp hz with h1 | h1
      · rw [h1]; omega
      · have := h.1 z h1
        omega

theorem sort_by_key_sorted (f : Nat → Nat) (l : List Nat) :
    (sort_rows (fun a b => decide (f a < f b)) l).Pairwise (fun a b => f a ≤ f b) := by
  unfold sort_rows
  induction l with
  | nil => simp
  | cons x l ih =>
    rw [List.foldr_cons]
    exact insert_by_key_sorted f x _ ih

theorem pairwise_getD_succ (f : Nat → Nat) (l : List Nat)
    (h : l.Pairwise (fun a b => f a ≤ f b)) (i : Nat) (hi : i + 1 < l.length) :
    f (l.getD i 0) ≤ f (l.getD (i + 1) 0) := by
  rw [List.getD_eq_getElem _ _ (by omega), List.getD_eq_getElem _ _ hi]
  exact List.pairwise_iff_getElem.mp h i (i + 1) (by omega) hi (by omega)

theorem merge_order_sorted (xpk : List Nat) (n i : Nat)
    (hi : i + 1 < (merge_order xpk n).length) :
    xpk.getD ((merge_order xpk n).getD i 0) 0 ≤ xpk.getD ((merge_order xpk n).getD (i + 1) 0) 0 :=
  pairwise_getD_succ (fun a => xpk.getD a 0) _ (sort_by_key_sorted _ _) i hi

theorem merge_loop_succ (cut : ℚ) (xpk xph : List Nat) (xhv ints : List ℚ) (idxs : List Nat)
    (n : Nat) :
    merge_loop cut xpk xph xhv ints idxs (n + 1) =
      merge_step cut xpk xph xhv ints idxs (merge_loop cut xpk xph xhv ints idxs n) n := by
  unfold merge_loop
  rw [List.range_succ, List.foldl_append]
  rfl

theorem change_count_le (g : Nat → Bool) (n : Nat) :
    ((List.range n).filter g).length ≤ ((List.range (n + 1)).filter g).length := by
  rw [List.range_succ, List.filter_append, List.length_append]
  omega

theorem change_count_pos (g : Nat → Bool) (n : Nat) (h : g n = true) :
    ((List.range (n + 1)).filter g).length = ((List.range n).filter g).length + 1 := by
  rw [List.range_succ, List.filter_append, List.length_append]
  simp [h]

/-- The state of the merge loop after the positions `0, ..., n`: the last
pair holds the ket index of position `n`, the columns before it are strictly
increasing and below it, and the number of pairs is at most one plus the
number of changes of the ket index. -/
theorem merge_loop_inv (cut : ℚ) (xpk xph : List Nat) (xhv ints : List ℚ) (idxs : List Nat)
    (hs : ∀ i, i + 1 < idxs.length →
      xpk.getD (idxs.getD i 0) 0 ≤ xpk.getD (idxs.getD (i + 1) 0) 0) :
    ∀ n, n < idxs.length →
      ∃ init v, merge_loop cut xpk xph xhv ints idxs (n + 1) =
          init ++ [(xpk.getD (idxs.getD n 0) 0, v)] ∧
        (∀ c, c ∈ init → c.1 < xpk.getD (idxs.getD n 0) 0) ∧
        (init.map Prod.fst).Pairwise (fun a b => a < b) ∧
        init.length ≤ ((List.range n).filter (fun i =>
          decide (xpk.getD (idxs.getD (i + 1) 0) 0 ≠ xpk.getD (idxs.getD i 0) 0))).length := by
  intro n
  induction n with
  | zero =>
    intro _
    refine ⟨[], xhv.getD (idxs.getD 0 0) 0 * ints.getD (xph.getD (idxs.getD 0 0) 0) 0,
      ?_, ?_, ?_, ?_⟩
    · rw [merge_loop_succ]
      unfold merge_step
      simp only [true_or, if_true]
      rfl
    · intro c hc; simp at hc
    · simp
    · simp
  | succ n ih =>
    intro hn
    obtain ⟨init, v, h1, h2, h3, h4⟩ := ih (by omega)
    have hle := hs n hn
    have hcl := change_count_le (fun i =>
      decide (xpk.getD (idxs.getD (i + 1) 0) 0 ≠ xpk.getD (idxs.getD i 0) 0)) n
    rw [merge_loop_succ, h1]
    unfold merge_step
    have hlast : (init ++ [(xpk.getD (idxs.getD n 0) 0, v)]).getLast? =
        some (xpk.getD (idxs.getD n 0) 0, v) := by simp
    have hdrop : (init ++ [(xpk.getD (idxs.getD n 0) 0, v)]).dropLast = init := by simp
    simp only [hlast, hdrop, Option.getD_some, Nat.add_sub_cancel, Nat.succ_ne_zero, false_or]
    split_ifs with hc
    · refine ⟨init ++ [(xpk.getD (idxs.getD n 0) 0, v)], _, rfl, ?_, ?_, ?_⟩
      · intro c hcm
        rcases List.mem_append.mp hcm with hm | hm
        · have := h2 c hm
          omega
        · rw [List.mem_singleton] at hm
          rw [hm]
          have := hc.1
          simp only
          omega
      · rw [List.map_append, List.pairwise_append]
        refine ⟨h3, by simp, ?_⟩
        intro a ha b hb
        obtain ⟨c, hcm, hca⟩ := List.mem_map.mp ha
        simp only [List.map_cons, List.map_nil, List.mem_singleton] at hb
        rw [hb, ← hca]
        exact h2 c hcm
      · have hcp := change_count_pos (fun i =>
          decide (xpk.getD (idxs.getD (i + 1) 0) 0 ≠ xpk.getD (idxs.getD i 0) 0)) n
          (decide_eq_true hc.1)
        simp only [List.length_append, List.length_singleton]
        omega
    · refine ⟨init, _, rfl, ?_, h3, by omega⟩
      intro c hcm
      have := h2 c hcm
      omega

/-- C30: the columns emitted by the merge loop for a bra row are strictly
increasing, and their number is at most `xn`, so the assertion
`col_idxs[it][ibra].size() <= xn` holds. -/
theorem C30_merge_columns_increasing (cut : ℚ) (xpk xph : List Nat) (xhv ints : List ℚ) :
    ((merge_row cut xpk xph xhv ints).map Prod.fst).Pairwise (fun a b => a < b) ∧
      (merge_row cut xpk xph xhv ints).length ≤
        merge_xn xpk (merge_order xpk xhv.length) := by
  unfold merge_row merge_xn
  generalize hidx : merge_order xpk xhv.length = idxs
  have hs : ∀ i, i + 1 < idxs.length →
      xpk.getD (idxs.getD i 0) 0 ≤ xpk.getD (idxs.getD (i + 1) 0) 0 := by
    intro i hi
    rw [← hidx]
    exact merge_order_sorted xpk xhv.length i (by rw [hidx]; exact hi)
  cases hlen : idxs.length with
  | zero => simp [merge_loop]
  | succ n =>
    obtain ⟨init, v, h1, h2, h3, h4⟩ := merge_loop_inv cut xpk xph xhv ints idxs hs n
      (by omega)
    rw [h1]
    constructor
    · rw [List.map_append, List.pairwise_append]
      refine ⟨h3, by simp, ?_⟩
      intro a ha b hb
      obtain ⟨c, hcm, hca⟩ := List.mem_map.mp ha
      simp only [List.map_cons, List.map_nil, List.mem_singleton] at hb
      rw [hb, ← hca]
      exact h2 c hcm
    · simp only [List.length_append, List.length_singleton, Nat.add_sub_cancel,
        Nat.succ_pos, gt_iff_lt, if_true]
      omega

end DRTModel

namespace DRTModel

/-! ## The storage decision of `fill_csr_matrix` -/

end DRTModel

namespace DRTModel

end DRTModel

namespace DRTModel

/-- C15 (failing input): an association list of two items, the ket index
`0` with the product `2^-50`, which is below the cutoff, and the ket index
`1` with the product `1`. The merge loop emits the single pair
`(1, 1 + 2^-50)`: the contribution of the ket index `0` has entered the value
of the column `1`, whose items sum to `1`. -/
theorem C15_dropped_residue_leaks :
    merge_row cutoff [0, 1] [0, 0] [1 / 1125899906842624, 1] [1] =
        [(1, 1 + 1 / 1125899906842624)] ∧
      ket_sum [0, 1] [0, 0] [1 / 1125899906842624, 1] [1] 1 = 1 := by
  constructor
  · have h : merge_order [0, 1] 2 = [0, 1] := by decide
    simp only [merge_row, List.length_cons, List.length_nil, h]
    norm_num [merge_loop, merge_step, cutoff, List.range, List.range.loop, abs_of_pos]
  · norm_num [ket_sum, List.range, List.range.loop, List.filter]

/-- C16 (failing input): an association list of one item with the ket index
`0` and the product `2^-50`. The merge loop emits the pair `(0, 2^-50)`,
whose magnitude is not above the cutoff: the last pair of a row is never
tested. -/
theorem C16_last_entry_below_cutoff :
    merge_row cutoff [0] [0] [1 / 1125899906842624] [1] = [(0, 1 / 1125899906842624)] ∧
      |(1 / 1125899906842624 : ℚ)| ≤ cutoff := by
  constructor
  · have h : merge_order [0] 1 = [0] := by decide
    simp only [merge_row, List.length_cons, List.length_nil, h]
    norm_num [merge_loop, merge_step, cutoff, List.range, List.range.loop]
  · norm_num [cutoff, abs_of_pos]

end DRTModel

namespace DRTModel

/-! ## Subtree sizes count paths -/

theorem filter_flatMap_length {α β : Type} (p : β → Bool) (f : α → List β) (l : List α) :
    ((l.flatMap f).filter p).length = (l.map (fun a => ((f a).filter p).length)).sum := by
  induction l with
  | nil => rfl
  | cons a l ih =>
    rw [List.flatMap_cons, List.filter_append, List.length_append, ih]
    rfl

theorem count_paths_zero (jds : List (List Nat)) (nd j : Nat) : count_paths jds nd 0 j = 1 := rfl

theorem count_paths_succ (jds : List (List Nat)) (nd k j : Nat) :
    count_paths jds nd (k + 1) j =
      ((List.range nd).map (fun d =>
        if entry jds j d ≠ 0 then count_paths jds nd k (entry jds j d) else 0)).sum := by
  unfold count_paths
  rw [all_paths, filter_flatMap_length]
  congr 1
  apply List.map_congr_left
  intro d hd
  have hdl : d < nd := List.mem_range.mp hd
  rw [List.filter_map, List.length_map]
  by_cases he : entry jds j d ≠ 0
  · rw [if_pos he]
    congr 1
    apply List.filter_congr
    intro ds _
    simp [path_ok, hdl, he]
  · rw [if_neg he]
    rw [List.length_eq_zero, List.filter_eq_nil_iff]
    intro ds _
    simp only [not_not] at he
    simp [path_ok, he]

theorem row_total (jds xs : List (List Nat)) (nd j : Nat)
    (hlen : (jds.getD j []).length = nd)
    (hrow : xs.getD j [] = xs_row xs (jds.getD j [])) :
    ∀ d, d ≤ nd → entry xs j d =
      ((List.range d).map (fun d2 =>
        if entry jds j d2 ≠ 0 then entry xs (entry jds j d2) nd else 0)).sum := by
  obtain ⟨_, h0, hs, _⟩ := row_sums jds xs nd j hlen hrow
  intro d
  induction d with
  | zero => intro _; rw [h0]; rfl
  | succ d ih =>
    intro hd
    rw [hs d (by omega), ih (by omega), List.range_succ, List.map_append, List.sum_append]
    simp

/-- In a table with the structure `TableOK` the subtree size `xs[j][nd]` of
a row with `k` sites left is the number of step sequences of length `k` whose
edges all exist. -/
theorem count_paths_spec {α : Type} {cs : List (List α)} {step : Nat → α → Nat → α} {nd : Nat}
    {jds xs : List (List Nat)} (T : TableOK cs step nd jds xs) :
    ∀ k l t r, l + k + 1 = cs.length → (cs.getD l [])[t]? = some r →
      entry xs (cut_offset cs l + t) nd = count_paths jds nd k (cut_offset cs l + t) := by
  intro k
  induction k with
  | zero =>
    intro l t r hl hr
    have hl2 : l = cs.length - 1 := by omega
    have ht : t < (cs.getD l []).length := by
      by_contra hc
      rw [List.getElem?_eq_none (by omega)] at hr
      cases hr
    have hle := T.last_le
    rw [← hl2] at hle
    have ht0 : t = 0 := by omega
    rw [ht0, Nat.add_zero, hl2, T.last_one]
    rfl
  | succ k ih =>
    intro l t r hl hr
    obtain ⟨h1, h2, h3⟩ := T.rows l t r (by omega) hr
    rw [row_total jds xs nd _ h1 h2 nd (le_refl _), count_paths_succ]
    congr 1
    apply List.map_congr_left
    intro d hd
    have hdl : d < nd := List.mem_range.mp hd
    by_cases he : entry jds (cut_offset cs l + t) d ≠ 0
    · rw [if_pos he, if_pos he]
      obtain ⟨it, hit, hrow⟩ := h3 d hdl he
      rw [hit]
      exact ih (l + 1) it _ (by omega) hrow
    · rw [if_neg he, if_neg he]

/-- C20 (amended): in a DRT built for at least one site from non-negative
initial triples, every row `j` before the terminal row (the row at position
`t` of the cut `l < n_sites`, `j` being the number of rows of the cuts before
`l` plus `t`) has `xs[j][0] == 0`, non-decreasing prefixes,
`xs[j][d + 1] - xs[j][d]` equal to the subtree size `xs[jds[j][d]][4]` of the
target of step `d` and to `0` when there is no edge, and `xs[j][4]` equal to
the number of step sequences of length `n_sites - l` from `j` over existing
edges; the terminal row has `xs[j][4] == 1`. -/
theorem C20_weights_count_paths [PGCompose] (su2 : Bool) (n_sites : Nat) (init_qs : List QLabel)
    (orb_sym : List Nat) (hn : 0 < n_sites)
    (hq : ∀ q, q ∈ init_qs → 0 ≤ (init_row n_sites q).1.1 ∧ 0 ≤ (init_row n_sites q).1.2.1 ∧
      0 ≤ (init_row n_sites q).1.2.2) :
    (∀ l t r, l < n_sites → ((DRT.cuts su2 n_sites init_qs orb_sym).getD l [])[t]? = some r →
      entry (DRT.build su2 n_sites init_qs orb_sym).xs
          (cut_offset (DRT.cuts su2 n_sites init_qs orb_sym) l + t) 0 = 0 ∧
        (∀ d e, d ≤ e → e ≤ 4 →
          entry (DRT.build su2 n_sites init_qs orb_sym).xs
              (cut_offset (DRT.cuts su2 n_sites init_qs orb_sym) l + t) d ≤
            entry (DRT.build su2 n_sites init_qs orb_sym).xs
              (cut_offset (DRT.cuts su2 n_sites init_qs orb_sym) l + t) e) ∧
        (∀ d, d < 4 →
          entry (DRT.build su2 n_sites init_qs orb_sym).xs
              (cut_offset (DRT.cuts su2 n_sites init_qs orb_sym) l + t) (d + 1) -
            entry (DRT.build su2 n_sites init_qs orb_sym).xs
              (cut_offset (DRT.cuts su2 n_sites init_qs orb_sym) l + t) d =
            if entry (DRT.build su2 n_sites init_qs orb_sym).jds
                (cut_offset (DRT.cuts su2 n_sites init_qs orb_sym) l + t) d ≠ 0 then
              entry (DRT.build su2 n_sites init_qs orb_sym).xs
                (entry (DRT.build su2 n_sites init_qs orb_sym).jds
                  (cut_offset (DRT.cuts su2 n_sites init_qs orb_sym) l + t) d) 4
            else 0) ∧
        entry (DRT.build su2 n_sites init_qs orb_sym).xs
            (cut_offset (DRT.cuts su2 n_sites init_qs orb_sym) l + t) 4 =
          count_paths (DRT.build su2 n_sites init_qs orb_sym).jds 4 (n_sites - l)
            (cut_offset (DRT.cuts su2 n_sites init_qs orb_sym) l + t)) ∧
      entry (DRT.build su2 n_sites init_qs orb_sym).xs
        (cut_offset (DRT.cuts su2 n_sites init_qs orb_sym) n_sites) 4 = 1 := by
  have T := DRT_table_ok su2 n_sites init_qs orb_sym hn hq
  have hlen := DRT_cuts_length su2 n_sites init_qs orb_sym
  constructor
  · intro l t r hl hr
    obtain ⟨h1, h2, _⟩ := T.rows l t r (by omega) hr
    obtain ⟨_, h0, hs, hm⟩ := row_sums _ _ 4 _ h1 h2
    refine ⟨h0, hm, ?_, ?_⟩
    · intro d hd
      rw [hs d hd]
      omega
    · exact count_paths_spec T (n_sites - l) l t r (by omega) hr
  · have := T.last_one
    rw [hlen, Nat.add_sub_cancel] at this
    exact this

/-- C20 (witness): the SU2 table for 2 sites and the label `(N=2, 2S=0)`. -/
theorem C20_weights_count_paths_witness :
    (0 < 2 ∧ ∀ q, q ∈ [(⟨2, 0, 0⟩ : QLabel)] →
        0 ≤ (init_row 2 q).1.1 ∧ 0 ≤ (init_row 2 q).1.2.1 ∧ 0 ≤ (init_row 2 q).1.2.2) ∧
      entry (DRT.build true 2 [⟨2, 0, 0⟩] []).xs
        (cut_offset (DRT.cuts true 2 [⟨2, 0, 0⟩] []) 2) 4 = 1 :=
  ⟨⟨by decide, by decide⟩,
    (C20_weights_count_paths true 2 [⟨2, 0, 0⟩] [] (by decide) (by decide)).2⟩

/-- C20 (counterexample): in the SU2 table for 2 sites and the label
`(N=2, 2S=0)` the terminal row is the row `4`; it has no edge for the step
`3`, yet `xs[4][4] - xs[4][3] = 1`. -/
theorem C20_terminal_row_difference :
    (DRT.build true 2 [⟨2, 0, 0⟩] []).abc.length = 5 ∧
      (DRT.build true 2 [⟨2, 0, 0⟩] []).abc.getD 4 (1, 1, 1) = (0, 0, 0) ∧
      entry (DRT.build true 2 [⟨2, 0, 0⟩] []).jds 4 3 = 0 ∧
      entry (DRT.build true 2 [⟨2, 0, 0⟩] []).xs 4 4 -
        entry (DRT.build true 2 [⟨2, 0, 0⟩] []).xs 4 3 = 1 := by
  decide

end DRTModel

namespace DRTModel

/-! ## The order of the rows of a cut -/

theorem insert_sorted_pairwise_on {α : Type} (lt : α → α → Bool) (P : α → Prop)
    (so : StrictOrderOn lt P) (x : α) (l : List α) (hx : P x) (hl : ∀ a, a ∈ l → P a)
    (h : l.Pairwise (fun a b => lt b a = false)) :
    (insert_sorted lt x l).Pairwise (fun a b => lt b a = false) := by
  induction l with
  | nil => simp [insert_sorted]
  | cons z l ih =>
    rw [List.pairwise_cons] at h
    have hz0 : P z := hl z (List.mem_cons_self _ _)
    have hl2 : ∀ a, a ∈ l → P a := fun a ha => hl a (List.mem_cons_of_mem _ ha)
    by_cases hz : lt z x = true
    · simp only [insert_sorted, hz, if_true]
      rw [List.pairwise_cons]
      refine ⟨?_, ih hl2 h.2⟩
      intro y hy
      rw [mem_insert_sorted] at hy
      rcases hy with hy | hy
      · rw [hy]
        by_contra hc
        have hc2 : lt x z = true := by simpa using hc
        have := so.trans z x z hz0 hx hz0 hz hc2
        rw [so.irrefl] at this
        exact absurd this (by simp)
      · exact h.1 y hy
    · have e : insert_sorted lt x (z :: l) = x :: z :: l := by
        simp [insert_sorted, hz]
      rw [e, List.pairwise_cons]
      refine ⟨?_, List.pairwise_cons.mpr h⟩
      intro y hy
      rw [List.mem_cons] at hy
      rcases hy with hy | hy
      · rw [hy]; simpa using hz
      · have h1 := h.1 y hy
        by_contra hc
        have hc2 : lt y x = true := by simpa using hc
        by_cases hzy : z = y
        · rw [hzy] at hz; exact hz hc2
        · rcases so.total z y hz0 (hl2 y hy) hzy with h2 | h2
          · exact hz (so.trans z y x hz0 (hl2 y hy) hx h2 hc2)
          · rw [h1] at h2; exact absurd h2 (by simp)

theorem sort_rows_pairwise_on {α : Type} (lt : α → α → Bool) (P : α → Prop)
    (so : StrictOrderOn lt P) (l : List α) (hl : ∀ a, a ∈ l → P a) :
    (sort_rows lt l).Pairwise (fun a b => lt b a = false) := by
  induction l with
  | nil => simp [sort_rows]
  | cons x l ih =>
    have hl2 : ∀ a, a ∈ l → P a := fun a ha => hl a (List.mem_cons_of_mem _ ha)
    have e : sort_rows lt (x :: l) = insert_sorted lt x (sort_rows lt l) := rfl
    rw [e]
    apply insert_sorted_pairwise_on lt P so x _ (hl x (List.mem_cons_self _ _))
    · intro a ha
      exact hl2 a ((mem_sort_rows lt a l).mp ha)
    · exact ih hl2

theorem unique_sorted_strict {α : Type} [DecidableEq α] (lt : α → α → Bool) (P : α → Prop)
    (so : StrictOrderOn lt P) :
    ∀ l : List α, (∀ a, a ∈ l → P a) → l.Pairwise (fun a b => lt b a = false) →
      (unique_rows l).Pairwise (fun a b => lt a b = true) := by
  intro l
  induction l using unique_rows.induct with
  | case1 => intro _ _; simp [unique_rows]
  | case2 x => intro _ _; simp [unique_rows]
  | case3 x ys ih =>
    intro hl h
    rw [unique_rows, if_pos rfl]
    exact ih (fun a ha => hl a (List.mem_cons_of_mem _ ha)) (List.pairwise_cons.mp h).2
  | case4 x y ys hxy ih =>
    intro hl h
    rw [unique_rows, if_neg hxy, List.pairwise_cons]
    have h2 := List.pairwise_cons.mp h
    refine ⟨?_, ih (fun a ha => hl a (List.mem_cons_of_mem _ ha)) h2.2⟩
    intro z hz
    have hz2 : z ∈ y :: ys := (mem_unique_rows z _).mp hz
    have hPx := hl x (List.mem_cons_self _ _)
    have hPy := hl y (List.mem_cons_of_mem _ (List.mem_cons_self _ _))
    have hPz := hl z (List.mem_cons_of_mem _ hz2)
    have hxy2 : lt x y = true := by
      rcases so.total x y hPx hPy hxy with h3 | h3
      · exact h3
      · rw [h2.1 y (List.mem_cons_self _ _)] at h3; exact absurd h3 (by simp)
    rcases List.mem_cons.mp hz2 with h4 | h4
    · rw [h4]; exact hxy2
    · have h5 := (List.pairwise_cons.mp h2.2).1 z h4
      have hzy : lt y z = true ∨ y = z := by
        by_cases e : y = z
        · exact Or.inr e
        · rcases so.total y z hPy hPz e with h6 | h6
          · exact Or.inl h6
          · rw [h5] at h6; exact absurd h6 (by simp)
      rcases hzy with h6 | h6
      · exact so.trans x y z hPx hPy hPz hxy2 h6
      · rw [← h6]; exact hxy2

theorem strict_nodup {α : Type} (lt : α → α → Bool) (hirr : ∀ a, lt a a = false) (l : List α)
    (h : l.Pairwise (fun a b => lt a b = true)) : l.Nodup := by
  unfold List.Nodup
  apply List.Pairwise.imp _ h
  intro a b hab he
  rw [he, hirr] at hab
  exact absurd hab (by simp)

theorem arr_gt_irrefl (a : List Int) : arr_gt a a = false := by
  induction a with
  | nil => rfl
  | cons x xs ih => simp [arr_gt, ih]

theorem arr_gt_trans : ∀ a b c : List Int, a.length = b.length → b.length = c.length →
    arr_gt a b = true → arr_gt b c = true → arr_gt a c = true := by
  intro a
  induction a with
  | nil => intro b c _ _ h; simp [arr_gt] at h
  | cons x xs ih =>
    intro b c h1 h2 h3 h4
    cases b with
    | nil => simp at h1
    | cons y ys =>
      cases c with
      | nil => simp at h2
      | cons z zs =>
        simp only [arr_gt, Bool.or_eq_true, Bool.and_eq_true, decide_eq_true_eq] at h3 h4 ⊢
        simp only [List.length_cons, Nat.add_right_cancel_iff] at h1 h2
        rcases h3 with h3 | ⟨e3, h3⟩
        · rcases h4 with h4 | ⟨e4, h4⟩
          · left; omega
          · left; omega
        · rcases h4 with h4 | ⟨e4, h4⟩
          · left; omega
          · right; exact ⟨by omega, ih ys zs h1 h2 h3 h4⟩

theorem arr_gt_total : ∀ a b : List Int, a.length = b.length → a ≠ b →
    arr_gt a b = true ∨ arr_gt b a = true := by
  intro a
  induction a with
  | nil =>
    intro b h1 h2
    cases b with
    | nil => exact absurd rfl h2
    | cons y ys => simp at h1
  | cons x xs ih =>
    intro b h1 h2
    cases b with
    | nil => simp at h1
    | cons y ys =>
      simp only [arr_gt, Bool.or_eq_true, Bool.and_eq_true, decide_eq_true_eq]
      simp only [List.length_cons, Nat.add_right_cancel_iff] at h1
      rcases Int.lt_trichotomy x y with h | h | h
      · right; left; exact h
      · have hne : xs ≠ ys := fun e => h2 (by rw [h, e])
        rcases ih ys h1 hne with h3 | h3
        · left; right; exact ⟨h, h3⟩
        · right; right; exact ⟨h.symm, h3⟩
      · left; left; exact h

theorem compare_q_pg_order : StrictOrderOn HDRT.compare_q_pg (fun r => r.1.length = 5) := by
  refine ⟨?_, ?_, ?_⟩
  · intro a
    simp [HDRT.compare_q_pg]
  · intro a b c ha hb hc h1 h2
    unfold HDRT.compare_q_pg at h1 h2 ⊢
    by_cases e1 : a.1 = b.1
    · by_cases e2 : b.1 = c.1
      · rw [if_neg (not_not.mpr e1)] at h1
        rw [if_neg (not_not.mpr e2)] at h2
        rw [if_neg (not_not.mpr (e1.trans e2))]
        simp only [decide_eq_true_eq] at h1 h2 ⊢
        omega
      · rw [if_pos e2] at h2
        have e3 : a.1 ≠ c.1 := by rw [e1]; exact e2
        rw [if_pos e3, e1]
        exact h2
    · by_cases e2 : b.1 = c.1
      · rw [if_pos e1] at h1
        have e3 : a.1 ≠ c.1 := by rw [← e2]; exact e1
        rw [if_pos e3, ← e2]
        exact h1
      · rw [if_pos e1] at h1
        rw [if_pos e2] at h2
        have h3 := arr_gt_trans a.1 b.1 c.1 (by rw [ha, hb]) (by rw [hb, hc]) h1 h2
        have e3 : a.1 ≠ c.1 := by
          intro e
          rw [e, arr_gt_irrefl] at h3
          exact absurd h3 (by simp)
        rw [if_pos e3]
        exact h3
  · intro a b ha hb hne
    unfold HDRT.compare_q_pg
    by_cases e1 : a.1 = b.1
    · have e2 : a.2 ≠ b.2 := fun e => hne (Prod.ext e1 e)
      simp only [e1, ne_eq, not_true_eq_false, if_false, decide_eq_true_eq]
      omega
    · have e1b : b.1 ≠ a.1 := fun e => e1 e.symm
      simp only [e1, e1b, ne_eq, not_false_eq_true, if_true]
      exact arr_gt_total a.1 b.1 (by rw [ha, hb]) e1

theorem compare_abc_pg_order_on : StrictOrderOn compare_abc_pg (fun _ => True) :=
  ⟨compare_abc_pg_order.irrefl, fun a b c _ _ _ => compare_abc_pg_order.trans a b c,
    fun a b _ _ => compare_abc_pg_order.total a b⟩

theorem expand_cut_strict [PGCompose] (su2 : Bool) (os : List Nat) (k : Nat) (cur : List Row) :
    (expand_cut su2 os k cur).Pairwise (fun a b => compare_abc_pg a b = true) :=
  unique_sorted_strict compare_abc_pg (fun _ => True) compare_abc_pg_order_on _
    (fun _ _ => trivial)
    (sort_rows_pairwise_on compare_abc_pg (fun _ => True) compare_abc_pg_order_on _
      (fun _ _ => trivial))

theorem HDRT_expand_cut_strict [PGCompose]
    (E : Recoupling) (su2 : Bool) (d_step : List (List Int))
    (ddq : List Int) (nd : Nat) (os : List Nat) (k : Nat) (cur : List HRow) :
    (HDRT.expand_cut E su2 d_step ddq nd os k cur).Pairwise
      (fun a b => HDRT.compare_q_pg a b = true) := by
  have hP : ∀ a, a ∈ cur.flatMap (fun r =>
      ((List.range nd).filter (HDRT.allowed E su2 d_step ddq k (os.getD k 0) r)).map
        (HDRT.step_row d_step r (os.getD k 0))) → a.1.length = 5 := by
    intro a ha
    obtain ⟨r, _, hr⟩ := List.mem_flatMap.mp ha
    obtain ⟨d, _, hd⟩ := List.mem_map.mp hr
    rw [← hd]
    rfl
  unfold HDRT.expand_cut
  apply unique_sorted_strict HDRT.compare_q_pg _ compare_q_pg_order
  · intro a ha
    exact hP a ((mem_sort_rows _ a _).mp ha)
  · exact sort_rows_pairwise_on _ _ compare_q_pg_order _ hP

/-- C21 (amended): in every built DRT and every built HDRT the rows of
every cut below the outermost one are in strictly descending order of
`(triple or tuple, label)` and pairwise distinct. -/
theorem C21_inner_cuts_descending [PGCompose] (E : Recoupling) (su2 : Bool) (n_sites : Nat)
    (init_qs : List QLabel) (orb_sym : List Nat) (t : HDRT) (l : Nat) :
    (((DRT.cuts su2 n_sites init_qs orb_sym).getD (l + 1) []).Pairwise
        (fun a b => compare_abc_pg a b = true) ∧
      ((DRT.cuts su2 n_sites init_qs orb_sym).getD (l + 1) []).Nodup) ∧
    (((HDRT.cuts E su2 t).getD (l + 1) []).Pairwise
        (fun a b => HDRT.compare_q_pg a b = true) ∧
      ((HDRT.cuts E su2 t).getD (l + 1) []).Nodup) := by
  have key : ∀ {α : Type} (lt : α → α → Bool) (keep : Nat → Nat → List α → α → Bool)
      (expand : Nat → List α → List α) (n : Nat) (cur : List α),
      (∀ k c, (expand k c).Pairwise (fun a b => lt a b = true)) →
      ((filter_cuts keep 0 (forward_cuts expand n cur)).getD (l + 1) []).Pairwise
        (fun a b => lt a b = true) := by
    intro α lt keep expand n cur hexp
    apply List.Pairwise.sublist (filter_cuts_sublist keep 0 _ (l + 1))
    by_cases hl : l < n
    · rw [forward_cuts_succ expand n cur l hl]
      exact hexp _ _
    · rw [List.getD_eq_default _ _ (by rw [forward_cuts_length]; omega)]
      exact List.Pairwise.nil
  have h1 : ((DRT.cuts su2 n_sites init_qs orb_sym).getD (l + 1) []).Pairwise
      (fun a b => compare_abc_pg a b = true) :=
    key compare_abc_pg _ _ _ _ (fun k c => expand_cut_strict su2 _ k c)
  have h2 : ((HDRT.cuts E su2 t).getD (l + 1) []).Pairwise
      (fun a b => HDRT.compare_q_pg a b = true) :=
    key HDRT.compare_q_pg _ _ _ _ (fun k c => HDRT_expand_cut_strict E su2 _ _ _ _ k c)
  exact ⟨⟨h1, strict_nodup _ compare_abc_pg_order.irrefl _ h1⟩,
    ⟨h2, strict_nodup _ compare_q_pg_order.irrefl _ h2⟩⟩

/-- C21 (counterexample): the SU2 table for 3 sites built from the labels
`(2, 0, 0)`, `(3, 1, 0)`, `(2, 2, 1)` keeps its three initial rows in the
order of the labels; the first row `((1, 0, 2), 0)` is not ordered before
the second row `((1, 1, 1), 0)`. -/
theorem C21_outermost_cut_unsorted :
    (DRT.cuts true 3 [⟨2, 0, 0⟩, ⟨3, 1, 0⟩, ⟨2, 2, 1⟩] [0, 1, 1]).getD 0 [] =
        [((1, 0, 2), 0), ((1, 1, 1), 0), ((0, 2, 1), 1)] ∧
      (DRT.build true 3 [⟨2, 0, 0⟩, ⟨3, 1, 0⟩, ⟨2, 2, 1⟩] [0, 1, 1]).abc.take 3 =
        [(1, 0, 2), (1, 1, 1), (0, 2, 1)] ∧
      compare_abc_pg ((1, 0, 2), 0) ((1, 1, 1), 0) = false := by
  decide

end DRTModel

namespace DRTModel

/-! ## The triples of the rows of a DRT -/

theorem getElem?_lt_of_some {α : Type} {l : List α} {t : Nat} {r : α} (h : l[t]? = some r) :
    t < l.length := by
  by_contra hc
  rw [List.getElem?_eq_none (by omega)] at h
  cases h

theorem DRT_cut_mem_forward [PGCompose] (su2 : Bool) (n_sites : Nat) (init_qs : List QLabel)
    (orb_sym : List Nat) (l t : Nat) (r : Row)
    (hr : ((DRT.cuts su2 n_sites init_qs orb_sym).getD l [])[t]? = some r) :
    r ∈ (forward_cuts (expand_cut su2 (fix_orb_sym n_sites orb_sym)) n_sites
      (init_qs.map (init_row n_sites))).getD l [] :=
  (filter_cuts_sublist _ 0 _ l).subset (List.getElem?_mem hr)

theorem DRT_abc_get [PGCompose] (su2 : Bool) (n_sites : Nat) (init_qs : List QLabel)
    (orb_sym : List Nat) (l t : Nat) (r : Row)
    (hr : ((DRT.cuts su2 n_sites init_qs orb_sym).getD l [])[t]? = some r) :
    (DRT.build su2 n_sites init_qs orb_sym).abc[
        cut_offset (DRT.cuts su2 n_sites init_qs orb_sym) l + t]? = some r.1 ∧
      (DRT.build su2 n_sites init_qs orb_sym).pgs[
        cut_offset (DRT.cuts su2 n_sites init_qs orb_sym) l + t]? = some r.2 := by
  have h := flatten_get (DRT.cuts su2 n_sites init_qs orb_sym) l t (getElem?_lt_of_some hr)
  rw [hr] at h
  have ha : (DRT.build su2 n_sites init_qs orb_sym).abc =
      (DRT.cuts su2 n_sites init_qs orb_sym).flatten.map Prod.fst := rfl
  have hp : (DRT.build su2 n_sites init_qs orb_sym).pgs =
      (DRT.cuts su2 n_sites init_qs orb_sym).flatten.map Prod.snd := rfl
  rw [ha, hp, List.getElem?_map, List.getElem?_map, h]
  exact ⟨rfl, rfl⟩

/-- C25: in the SU2 table built for at least one site from non-negative
initial triples, the row at position `t` of the cut `l` is the row
`cut_offset + t` of `abc`, has `a >= 0`, `b >= 0`, `c >= 0` and
`a + b + c = n_sites - l`, and every edge of a row leads to a row of the next
cut whose `a + b + c` is smaller by one. -/
theorem C25_su2_triples [PGCompose] (n_sites : Nat) (init_qs : List QLabel) (orb_sym : List Nat)
    (hn : 0 < n_sites)
    (hq : ∀ q, q ∈ init_qs → 0 ≤ (init_row n_sites q).1.1 ∧ 0 ≤ (init_row n_sites q).1.2.1 ∧
      0 ≤ (init_row n_sites q).1.2.2) :
    (∀ l t r, l ≤ n_sites → ((DRT.cuts true n_sites init_qs orb_sym).getD l [])[t]? = some r →
      (DRT.build true n_sites init_qs orb_sym).abc[
          cut_offset (DRT.cuts true n_sites init_qs orb_sym) l + t]? = some r.1 ∧
        0 ≤ r.1.1 ∧ 0 ≤ r.1.2.1 ∧ 0 ≤ r.1.2.2 ∧
        r.1.1 + r.1.2.1 + r.1.2.2 = ((n_sites - l : Nat) : Int)) ∧
    (∀ l t r d, l < n_sites → ((DRT.cuts true n_sites init_qs orb_sym).getD l [])[t]? = some r →
      d < 4 →
      entry (DRT.build true n_sites init_qs orb_sym).jds
        (cut_offset (DRT.cuts true n_sites init_qs orb_sym) l + t) d ≠ 0 →
      ∃ it r2, entry (DRT.build true n_sites init_qs orb_sym).jds
            (cut_offset (DRT.cuts true n_sites init_qs orb_sym) l + t) d =
          cut_offset (DRT.cuts true n_sites init_qs orb_sym) (l + 1) + it ∧
        ((DRT.cuts true n_sites init_qs orb_sym).getD (l + 1) [])[it]? = some r2 ∧
        r2.1.1 + r2.1.2.1 + r2.1.2.2 = r.1.1 + r.1.2.1 + r.1.2.2 - 1) := by
  have hv : ∀ (l t : Nat) (r : Row), l ≤ n_sites →
      ((DRT.cuts true n_sites init_qs orb_sym).getD l [])[t]? = some r →
      0 ≤ r.1.1 ∧ 0 ≤ r.1.2.1 ∧ 0 ≤ r.1.2.2 ∧
        r.1.1 + r.1.2.1 + r.1.2.2 = ((n_sites - l : Nat) : Int) := by
    intro l t r hl hr
    obtain ⟨⟨h1, h2, h3, h4⟩, _⟩ := forward_valid true n_sites init_qs orb_sym hn hq l r hl
      (DRT_cut_mem_forward true n_sites init_qs orb_sym l t r hr)
    have hb := h4 rfl
    refine ⟨h1, hb, h2, ?_⟩
    omega
  constructor
  · intro l t r hl hr
    exact ⟨(DRT_abc_get true n_sites init_qs orb_sym l t r hr).1, hv l t r hl hr⟩
  · intro l t r d hl hr hd hne
    have T := DRT_table_ok true n_sites init_qs orb_sym hn hq
    have hlen := DRT_cuts_length true n_sites init_qs orb_sym
    obtain ⟨_, _, h3⟩ := T.rows l t r (by omega) hr
    obtain ⟨it, hit, hrow⟩ := h3 d hd hne
    refine ⟨it, _, hit, hrow, ?_⟩
    obtain ⟨_, _, _, e1⟩ := hv l t r (by omega) hr
    obtain ⟨_, _, _, e2⟩ := hv (l + 1) it _ (by omega) hrow
    omega

/-- C25 (witness): the SU2 table for 2 sites and the label `(N=2, 2S=0)`,
its initial row. -/
theorem C25_su2_triples_witness :
    (0 < 2 ∧ ∀ q, q ∈ [(⟨2, 0, 0⟩ : QLabel)] →
        0 ≤ (init_row 2 q).1.1 ∧ 0 ≤ (init_row 2 q).1.2.1 ∧ 0 ≤ (init_row 2 q).1.2.2) ∧
      ∀ l t r, l ≤ 2 → ((DRT.cuts true 2 [⟨2, 0, 0⟩] []).getD l [])[t]? = some r →
        (DRT.build true 2 [⟨2, 0, 0⟩] []).abc[
            cut_offset (DRT.cuts true 2 [⟨2, 0, 0⟩] []) l + t]? = some r.1 ∧
          0 ≤ r.1.1 ∧ 0 ≤ r.1.2.1 ∧ 0 ≤ r.1.2.2 ∧
          r.1.1 + r.1.2.1 + r.1.2.2 = ((2 - l : Nat) : Int) :=
  ⟨⟨by decide, by decide⟩,
    (C25_su2_triples 2 [⟨2, 0, 0⟩] [] (by decide) (by decide)).1⟩

end DRTModel

namespace DRTModel

/-! ## Searches in a sorted cut -/

theorem lower_bound_of_search {α : Type} (lt : α → α → Bool) (P : α → Prop)
    (so : StrictOrderOn lt P) (l : List α) (v : α) (hv : P v) (hl : ∀ a, a ∈ l → P a)
    (h : binary_search lt l v = true) : l[lower_bound lt l v]? = some v := by
  unfold binary_search at h
  rw [List.get?_eq_getElem?] at h
  cases hget : l[lower_bound lt l v]? with
  | none => rw [hget] at h; cases h
  | some y =>
    rw [hget] at h
    simp only [Bool.not_eq_true'] at h
    have hy : y ∈ l := List.getElem?_mem hget
    have hlt := getElem?_lt_of_some hget
    have hs := (takeWhile_length_spec (fun x => lt x v) y l).2.2
    have hyv : lt y v = false := by
      rcases hs with hs | hs
      · unfold lower_bound at hlt; omega
      · have e : l.getD (l.takeWhile (fun x => lt x v)).length y = y := by
          rw [List.getD_eq_getElem?_getD]
          have : l[(l.takeWhile (fun x => lt x v)).length]? = some y := hget
          rw [this]; rfl
        rw [e] at hs
        exact hs
    by_cases e : y = v
    · rw [e]
    · rcases so.total y v (hl y hy) hv e with h2 | h2
      · rw [hyv] at h2; cases h2
      · rw [h] at h2; cases h2

theorem lower_bound_mem_on {α : Type} (lt : α → α → Bool) (P : α → Prop)
    (so : StrictOrderOn lt P) (l : List α) (v : α) (hl : ∀ a, a ∈ l → P a)
    (hs : l.Pairwise (fun a b => lt b a = false)) (hv : v ∈ l) :
    l[lower_bound lt l v]? = some v := by
  induction l with
  | nil => simp at hv
  | cons x l ih =>
    rw [List.pairwise_cons] at hs
    have hl2 : ∀ a, a ∈ l → P a := fun a ha => hl a (List.mem_cons_of_mem _ ha)
    by_cases hx : lt x v = true
    · have hne : v ≠ x := by
        intro h; rw [h, so.irrefl] at hx; exact absurd hx (by simp)
      have hv2 : v ∈ l := by
        rcases List.mem_cons.mp hv with h | h
        · exact absurd h hne
        · exact h
      have e : lower_bound lt (x :: l) v = lower_bound lt l v + 1 := by
        simp [lower_bound, List.takeWhile, hx]
      rw [e, List.getElem?_cons_succ]
      exact ih hl2 hs.2 hv2
    · have e : lower_bound lt (x :: l) v = 0 := by
        simp [lower_bound, List.takeWhile, hx]
      rw [e]
      rcases List.mem_cons.mp hv with h | h
      · rw [h]; simp
      · have h1 := hs.1 v h
        by_cases hxv : x = v
        · rw [hxv]; simp
        · rcases so.total x v (hl x (List.mem_cons_self _ _)) (hl2 v h) hxv with h2 | h2
          · exact absurd h2 hx
          · rw [h1] at h2; exact absurd h2 (by simp)

theorem strict_to_sorted {α : Type} (lt : α → α → Bool) (P : α → Prop)
    (so : StrictOrderOn lt P) (l : List α) (hl : ∀ a, a ∈ l → P a)
    (h : l.Pairwise (fun a b => lt a b = true)) : l.Pairwise (fun a b => lt b a = false) := by
  induction l with
  | nil => exact List.Pairwise.nil
  | cons x l ih =>
    rw [List.pairwise_cons] at h ⊢
    refine ⟨?_, ih (fun a ha => hl a (List.mem_cons_of_mem _ ha)) h.2⟩
    intro y hy
    by_contra hc
    have hc2 : lt y x = true := by simpa using hc
    have hx := hl x (List.mem_cons_self _ _)
    have := so.trans x y x hx (hl y (List.mem_cons_of_mem _ hy)) hx (h.1 y hy) hc2
    rw [so.irrefl] at this
    cases this

theorem cut_offset_pos {α : Type} (cs : List (List α)) (l t : Nat) (r : α)
    (hr : (cs.getD l [])[t]? = some r) : t < cut_offset cs (l + 1) - cut_offset cs l ∧
      cut_offset cs l + t < cut_offset cs (l + 1) := by
  have ht := getElem?_lt_of_some hr
  rw [cut_offset_succ]
  omega

/-! ## Edges of the DRT -/

theorem DRT_cut_strict [PGCompose] (su2 : Bool) (n_sites : Nat) (init_qs : List QLabel)
    (orb_sym : List Nat) (l : Nat) :
    ((DRT.cuts su2 n_sites init_qs orb_sym).getD (l + 1) []).Pairwise
      (fun a b => compare_abc_pg a b = true) := by
  apply List.Pairwise.sublist (filter_cuts_sublist _ 0 _ (l + 1))
  by_cases hl : l < n_sites
  · rw [forward_cuts_succ _ n_sites _ l hl]
    exact expand_cut_strict su2 _ _ _
  · rw [List.getD_eq_default _ _ (by rw [forward_cuts_length]; omega)]
    exact List.Pairwise.nil

theorem DRT_entry_eq [PGCompose] (su2 : Bool) (n_sites : Nat) (init_qs : List QLabel)
    (orb_sym : List Nat) (l t : Nat) (r : Row) (d : Nat) (hl : l < n_sites)
    (hr : ((DRT.cuts su2 n_sites init_qs orb_sym).getD l [])[t]? = some r) (hd : d < 4) :
    entry (DRT.build su2 n_sites init_qs orb_sym).jds
        (cut_offset (DRT.cuts su2 n_sites init_qs orb_sym) l + t) d =
      jd_entry ((DRT.cuts su2 n_sites init_qs orb_sym).getD (l + 1) [])
        (cut_offset (DRT.cuts su2 n_sites init_qs orb_sym) (l + 1))
        ((fix_orb_sym n_sites orb_sym).getD (n_sites - 1 - l) 0) r d := by
  have hlen := DRT_cuts_length su2 n_sites init_qs orb_sym
  have hj := row_index_lt (DRT.cuts su2 n_sites init_qs orb_sym) l t r (by omega) hr
  have hrow := jds_cuts_get 4 (fun nxt p k r d =>
      jd_entry nxt p ((fix_orb_sym n_sites orb_sym).getD k 0) r d)
    (DRT.cuts su2 n_sites init_qs orb_sym) 0 l t r (by omega) hr
  have hlenJ := jds_cuts_length 4 (fun nxt p k r d =>
      jd_entry nxt p ((fix_orb_sym n_sites orb_sym).getD k 0) r d) 0
    (DRT.cuts su2 n_sites init_qs orb_sym)
  unfold entry
  rw [DRT_build_jds, List.getD_append _ _ _ _ (by omega), hrow, getD_range_map 4 d _ hd,
    Nat.zero_add, hlen]
  have e : n_sites + 1 - 2 - l = n_sites - 1 - l := by omega
  rw [e]

/-- A step of a retained row whose stepped row is retained at the next cut
has an edge, and the edge is the index of the stepped row. -/
theorem DRT_edge_of_mem [PGCompose] (su2 : Bool) (n_sites : Nat) (init_qs : List QLabel)
    (orb_sym : List Nat) (l t : Nat) (r : Row) (d : Nat) (hl : l < n_sites)
    (hr : ((DRT.cuts su2 n_sites init_qs orb_sym).getD l [])[t]? = some r) (hd : d < 4)
    (hm : step_row r ((fix_orb_sym n_sites orb_sym).getD (n_sites - 1 - l) 0) d ∈
      (DRT.cuts su2 n_sites init_qs orb_sym).getD (l + 1) []) :
    ∃ it, entry (DRT.build su2 n_sites init_qs orb_sym).jds
          (cut_offset (DRT.cuts su2 n_sites init_qs orb_sym) l + t) d =
        cut_offset (DRT.cuts su2 n_sites init_qs orb_sym) (l + 1) + it ∧
      ((DRT.cuts su2 n_sites init_qs orb_sym).getD (l + 1) [])[it]? =
        some (step_row r ((fix_orb_sym n_sites orb_sym).getD (n_sites - 1 - l) 0) d) ∧
      entry (DRT.build su2 n_sites init_qs orb_sym).jds
        (cut_offset (DRT.cuts su2 n_sites init_qs orb_sym) l + t) d ≠ 0 := by
  have hs := strict_to_sorted compare_abc_pg (fun _ => True) compare_abc_pg_order_on _
    (fun _ _ => trivial) (DRT_cut_strict su2 n_sites init_qs orb_sym l)
  have hlb := lower_bound_mem_on compare_abc_pg (fun _ => True) compare_abc_pg_order_on _ _
    (fun _ _ => trivial) hs hm
  have hpos := (cut_offset_pos _ l t r hr).2
  rw [DRT_entry_eq su2 n_sites init_qs orb_sym l t r d hl hr hd]
  unfold jd_entry
  simp only [List.get?_eq_getElem?, hlb, if_true]
  exact ⟨_, rfl, hlb, by omega⟩

theorem DRT_cut_zero_nonempty [PGCompose] (su2 : Bool) (n_sites : Nat) (init_qs : List QLabel)
    (orb_sym : List Nat) :
    ∀ l, l ≤ n_sites → (DRT.cuts su2 n_sites init_qs orb_sym).getD l [] ≠ [] →
      (DRT.cuts su2 n_sites init_qs orb_sym).getD 0 [] ≠ [] := by
  intro l
  induction l with
  | zero => intro _ h; exact h
  | succ l ih =>
    intro hl h
    exact ih (by omega) (DRT_cut_nonempty_back su2 n_sites init_qs orb_sym l (by omega) h)

/-- C24 (amended): in a DRT built for at least one site, every step of a
row whose stepped row is a row of the next cut has an edge that is not `0`,
so `0` in `jds` only stands for "no edge"; every edge that is not `0` is the
index of the stepped row in the next cut, and the terminal row, when the last
cut holds it, is stored at an index that is not `0`. -/
theorem C24_zero_is_no_edge [PGCompose] (su2 : Bool) (n_sites : Nat) (init_qs : List QLabel)
    (orb_sym : List Nat) (hn : 0 < n_sites) :
    (∀ l t r d, l < n_sites →
      ((DRT.cuts su2 n_sites init_qs orb_sym).getD l [])[t]? = some r → d < 4 →
      step_row r ((fix_orb_sym n_sites orb_sym).getD (n_sites - 1 - l) 0) d ∈
        (DRT.cuts su2 n_sites init_qs orb_sym).getD (l + 1) [] →
      entry (DRT.build su2 n_sites init_qs orb_sym).jds
        (cut_offset (DRT.cuts su2 n_sites init_qs orb_sym) l + t) d ≠ 0) ∧
    (∀ l t r d, l < n_sites →
      ((DRT.cuts su2 n_sites init_qs orb_sym).getD l [])[t]? = some r → d < 4 →
      entry (DRT.build su2 n_sites init_qs orb_sym).jds
        (cut_offset (DRT.cuts su2 n_sites init_qs orb_sym) l + t) d ≠ 0 →
      ∃ it, entry (DRT.build su2 n_sites init_qs orb_sym).jds
            (cut_offset (DRT.cuts su2 n_sites init_qs orb_sym) l + t) d =
          cut_offset (DRT.cuts su2 n_sites init_qs orb_sym) (l + 1) + it ∧
        ((DRT.cuts su2 n_sites init_qs orb_sym).getD (l + 1) [])[it]? =
          some (step_row r ((fix_orb_sym n_sites orb_sym).getD (n_sites - 1 - l) 0) d)) ∧
    (∀ z, ((DRT.cuts su2 n_sites init_qs orb_sym).getD n_sites [])[0]? = some z →
      0 < cut_offset (DRT.cuts su2 n_sites init_qs orb_sym) n_sites ∧
        (DRT.build su2 n_sites init_qs orb_sym).abc[
          cut_offset (DRT.cuts su2 n_sites init_qs orb_sym) n_sites]? = some z.1) := by
  refine ⟨?_, ?_, ?_⟩
  · intro l t r d hl hr hd hm
    obtain ⟨_, _, _, h⟩ := DRT_edge_of_mem su2 n_sites init_qs orb_sym l t r d hl hr hd hm
    exact h
  · intro l t r d hl hr hd hne
    rw [DRT_entry_eq su2 n_sites init_qs orb_sym l t r d hl hr hd] at hne ⊢
    exact jd_entry_spec _ _ _ r d hne
  · intro z hz
    have hne : (DRT.cuts su2 n_sites init_qs orb_sym).getD n_sites [] ≠ [] := by
      intro e
      rw [e] at hz
      cases hz
    have h0 := DRT_cut_zero_nonempty su2 n_sites init_qs orb_sym n_sites (le_refl _) hne
    have h1 : 0 < ((DRT.cuts su2 n_sites init_qs orb_sym).getD 0 []).length :=
      List.length_pos.mpr h0
    have h2 := cut_offset_succ (DRT.cuts su2 n_sites init_qs orb_sym) 0
    rw [Nat.zero_add] at h2
    have h3 := cut_offset_mono (DRT.cuts su2 n_sites init_qs orb_sym) 1 n_sites (by omega)
    have h4 := (DRT_abc_get su2 n_sites init_qs orb_sym n_sites 0 z hz).1
    rw [Nat.add_zero] at h4
    exact ⟨by omega, h4⟩

/-- C24 (witness): the SU2 table for 2 sites and the label `(N=2, 2S=0)`,
whose terminal row is the row `4`. -/
theorem C24_zero_is_no_edge_witness :
    0 < 2 ∧
      ∀ z, ((DRT.cuts true 2 [⟨2, 0, 0⟩] []).getD 2 [])[0]? = some z →
        0 < cut_offset (DRT.cuts true 2 [⟨2, 0, 0⟩] []) 2 ∧
          (DRT.build true 2 [⟨2, 0, 0⟩] []).abc[
            cut_offset (DRT.cuts true 2 [⟨2, 0, 0⟩] []) 2]? = some z.1 :=
  ⟨by decide, (C24_zero_is_no_edge true 2 [⟨2, 0, 0⟩] [] (by decide)).2.2⟩

/-- C24 (counterexample): the table built for no site from the label
`(N=0, 2S=0)` has the single row `(0, 0, 0)`, which is the initial row and
the terminal row at once and is stored at the row index `0`; and in the
table built for one site from the label `(N=0, 2S=0, pg=1)`, from which the
filter removes every row, the terminal entry `{0, 0, 0, 0, 1}` of `xs` stands
at the row index `0`. -/
theorem C24_terminal_row_at_zero :
    (DRT.cuts false 0 [⟨0, 0, 0⟩] []).getD 0 [] = [((0, 0, 0), 0)] ∧
      (DRT.build false 0 [⟨0, 0, 0⟩] []).abc = [(0, 0, 0)] ∧
      (DRT.build false 0 [⟨0, 0, 0⟩] []).jds = [[0, 0, 0, 0]] ∧
      (DRT.build false 0 [⟨0, 0, 0⟩] []).xs = [[0, 0, 0, 0, 1]] ∧
      (DRT.build false 1 [⟨0, 0, 1⟩] []).abc = [] ∧
      (DRT.build false 1 [⟨0, 0, 1⟩] []).xs = [[0, 0, 0, 0, 1]] := by
  decide

end DRTModel

namespace DRTModel

/-! ## Every retained row of a DRT lies on a complete path -/

/-- In a table with the structure `TableOK` in which every row from the cut
`l0` on and before the last cut has an edge, every row from the cut `l0` on
has a subtree size of at least `1`. -/
theorem size_pos {α : Type} {cs : List (List α)} {step : Nat → α → Nat → α} {nd : Nat}
    {jds xs : List (List Nat)} (T : TableOK cs step nd jds xs) (l0 : Nat)
    (hedge : ∀ l t r, l0 ≤ l → l + 1 < cs.length → (cs.getD l [])[t]? = some r →
      ∃ d, d < nd ∧ entry jds (cut_offset cs l + t) d ≠ 0) :
    ∀ k l t r, l0 ≤ l → l + k + 1 = cs.length → (cs.getD l [])[t]? = some r →
      1 ≤ entry xs (cut_offset cs l + t) nd := by
  intro k
  induction k with
  | zero =>
    intro l t r _ hl hr
    have hl2 : l = cs.length - 1 := by omega
    have ht := getElem?_lt_of_some hr
    have hle := T.last_le
    rw [← hl2] at hle
    have ht0 : t = 0 := by omega
    rw [ht0, Nat.add_zero, hl2, T.last_one]
  | succ k ih =>
    intro l t r hl0 hl hr
    obtain ⟨d, hd, hne⟩ := hedge l t r hl0 (by omega) hr
    obtain ⟨h1, h2, h3⟩ := T.rows l t r (by omega) hr
    obtain ⟨it, hit, hrow⟩ := h3 d hd hne
    obtain ⟨_, _, hs, hm⟩ := row_sums jds xs nd _ h1 h2
    have hi := ih (l + 1) it _ (by omega) (by omega) hrow
    have e1 := hs d hd
    rw [if_pos hne, hit] at e1
    have e2 := hm (d + 1) nd (by omega) (le_refl _)
    omega

theorem nodup_index_unique {α : Type} (l : List α) (h : l.Nodup) (i j : Nat) (a : α)
    (hi : l[i]? = some a) (hj : l[j]? = some a) : i = j := by
  induction l generalizing i j with
  | nil => simp at hi
  | cons x l ih =>
    rw [List.nodup_cons] at h
    cases i with
    | zero =>
      cases j with
      | zero => rfl
      | succ j =>
        exfalso
        simp only [List.getElem?_cons_zero, Option.some.injEq] at hi
        rw [List.getElem?_cons_succ] at hj
        apply h.1
        rw [hi]
        exact List.getElem?_mem hj
    | succ i =>
      cases j with
      | zero =>
        exfalso
        simp only [List.getElem?_cons_zero, Option.some.injEq] at hj
        rw [List.getElem?_cons_succ] at hi
        apply h.1
        rw [hj]
        exact List.getElem?_mem hi
      | succ j =>
        rw [List.getElem?_cons_succ] at hi hj
        rw [ih h.2 i j hi hj]

theorem mem_getElem_some {α : Type} (l : List α) (a : α) (h : a ∈ l) :
    ∃ t : Nat, l[t]? = some a := by
  obtain ⟨i, hi, he⟩ := List.getElem_of_mem h
  exact ⟨i, by rw [List.getElem?_eq_getElem hi, he]⟩

theorem path_ok_append (jds : List (List Nat)) (nd : Nat) (ds : List Nat) (d : Nat) :
    ∀ j, path_ok jds nd j (ds ++ [d]) =
      (path_ok jds nd j ds && (decide (d < nd) && decide (entry jds (path_end jds j ds) d ≠ 0))) := by
  induction ds with
  | nil => intro j; simp [path_ok, path_end]
  | cons x ds ih =>
    intro j
    show path_ok jds nd j (x :: (ds ++ [d])) = _
    rw [path_ok, path_ok, path_end, ih]
    simp only [Bool.and_assoc]

theorem path_end_append (jds : List (List Nat)) (ds : List Nat) (d : Nat) :
    ∀ j, path_end jds j (ds ++ [d]) = entry jds (path_end jds j ds) d := by
  induction ds with
  | nil => intro j; rfl
  | cons x ds ih =>
    intro j
    show path_end jds j (x :: (ds ++ [d])) = _
    rw [path_end, path_end, ih]

theorem DRT_has_target [PGCompose] (su2 : Bool) (n_sites : Nat) (init_qs : List QLabel)
    (orb_sym : List Nat) (l : Nat) (r : Row) (hl : l < n_sites) :
    r ∈ (DRT.cuts su2 n_sites init_qs orb_sym).getD l [] ↔
      r ∈ (forward_cuts (expand_cut su2 (fix_orb_sym n_sites orb_sym)) n_sites
          (init_qs.map (init_row n_sites))).getD l [] ∧
        has_target ((DRT.cuts su2 n_sites init_qs orb_sym).getD (l + 1) [])
          ((fix_orb_sym n_sites orb_sym).getD (n_sites - 1 - l) 0) r = true := by
  have hlen : (forward_cuts (expand_cut su2 (fix_orb_sym n_sites orb_sym)) n_sites
      (init_qs.map (init_row n_sites))).length = n_sites + 1 := forward_cuts_length _ _ _
  have h := filter_cuts_get
    (fun _ k fabc r => has_target fabc ((fix_orb_sym n_sites orb_sym).getD k 0) r) 0
    (forward_cuts (expand_cut su2 (fix_orb_sym n_sites orb_sym)) n_sites
      (init_qs.map (init_row n_sites))) l (by omega)
  have e : n_sites + 1 - 2 - l = n_sites - 1 - l := by omega
  rw [hlen, e] at h
  unfold DRT.cuts
  rw [h, List.mem_filter]

theorem DRT_retained_edge [PGCompose] (su2 : Bool) (n_sites : Nat) (init_qs : List QLabel)
    (orb_sym : List Nat) (l t : Nat) (r : Row) (hl : l < n_sites)
    (hr : ((DRT.cuts su2 n_sites init_qs orb_sym).getD l [])[t]? = some r) :
    ∃ d, d < 4 ∧ entry (DRT.build su2 n_sites init_qs orb_sym).jds
      (cut_offset (DRT.cuts su2 n_sites init_qs orb_sym) l + t) d ≠ 0 := by
  have hm := ((DRT_has_target su2 n_sites init_qs orb_sym l r hl).mp (List.getElem?_mem hr)).2
  unfold has_target at hm
  rw [List.any_eq_true] at hm
  obtain ⟨d, hd, hb⟩ := hm
  have hd4 : d < 4 := List.mem_range.mp hd
  have hlb := lower_bound_of_search compare_abc_pg (fun _ => True) compare_abc_pg_order_on _ _
    trivial (fun _ _ => trivial) hb
  obtain ⟨_, _, _, hne⟩ := DRT_edge_of_mem su2 n_sites init_qs orb_sym l t r d hl hr hd4
    (List.getElem?_mem hlb)
  exact ⟨d, hd4, hne⟩

theorem DRT_reach [PGCompose]
    (su2 : Bool) (n_sites : Nat) (init_qs : List QLabel) (orb_sym : List Nat) :
    ∀ l t r, l ≤ n_sites → ((DRT.cuts su2 n_sites init_qs orb_sym).getD l [])[t]? = some r →
      ∃ t0 r0 ds, ((DRT.cuts su2 n_sites init_qs orb_sym).getD 0 [])[t0]? = some r0 ∧
        ds.length = l ∧
        path_ok (DRT.build su2 n_sites init_qs orb_sym).jds 4 t0 ds = true ∧
        path_end (DRT.build su2 n_sites init_qs orb_sym).jds t0 ds =
          cut_offset (DRT.cuts su2 n_sites init_qs orb_sym) l + t := by
  intro l
  induction l with
  | zero =>
    intro t r _ hr
    exact ⟨t, r, [], hr, rfl, rfl, by rw [cut_offset_zero, Nat.zero_add]; rfl⟩
  | succ l ih =>
    intro t2 r2 hl hr2
    have hf := DRT_cut_mem_forward su2 n_sites init_qs orb_sym (l + 1) t2 r2 hr2
    rw [forward_cuts_succ _ n_sites _ l (by omega)] at hf
    obtain ⟨r, hrf, d, hd, _, _, hstep⟩ := mem_expand_cut su2 _ _ _ r2 hf
    have hs := strict_to_sorted compare_abc_pg (fun _ => True) compare_abc_pg_order_on _
      (fun _ _ => trivial) (DRT_cut_strict su2 n_sites init_qs orb_sym l)
    have hmem2 : r2 ∈ (DRT.cuts su2 n_sites init_qs orb_sym).getD (l + 1) [] :=
      List.getElem?_mem hr2
    have hbs : binary_search compare_abc_pg
        ((DRT.cuts su2 n_sites init_qs orb_sym).getD (l + 1) [])
        (step_row r ((fix_orb_sym n_sites orb_sym).getD (n_sites - 1 - l) 0) d) = true := by
      rw [← hstep]
      exact binary_search_mem compare_abc_pg compare_abc_pg_order _ _ hs hmem2
    have hret : r ∈ (DRT.cuts su2 n_sites init_qs orb_sym).getD l [] := by
      rw [DRT_has_target su2 n_sites init_qs orb_sym l r (by omega)]
      refine ⟨hrf, ?_⟩
      unfold has_target
      rw [List.any_eq_true]
      exact ⟨d, List.mem_range.mpr hd, hbs⟩
    obtain ⟨t, hr⟩ := mem_getElem_some _ _ hret
    obtain ⟨it, hit, hrow, hne⟩ := DRT_edge_of_mem su2 n_sites init_qs orb_sym l t r d
      (by omega) hr hd (by rw [← hstep]; exact hmem2)
    rw [← hstep] at hrow
    have hnd := strict_nodup compare_abc_pg compare_abc_pg_order.irrefl _
      (DRT_cut_strict su2 n_sites init_qs orb_sym l)
    have hidx := nodup_index_unique _ hnd it t2 r2 hrow hr2
    obtain ⟨t0, r0, ds, h0, hlen, hok, hend⟩ := ih t r (by omega) hr
    refine ⟨t0, r0, ds ++ [d], h0, by simp [hlen], ?_, ?_⟩
    · rw [path_ok_append, hok, hend]
      simp [hd, hne]
    · rw [path_end_append, hend, hit, hidx]

/-- C22: in a DRT built for at least one site from non-negative initial
triples, every retained row has a subtree size `xs[j][4] >= 1`, is reached
from a retained initial row by a sequence of existing edges, and is the
start of a sequence of existing edges down to the last cut. -/
theorem C22_rows_on_paths [PGCompose] (su2 : Bool) (n_sites : Nat) (init_qs : List QLabel)
    (orb_sym : List Nat) (hn : 0 < n_sites)
    (hq : ∀ q, q ∈ init_qs → 0 ≤ (init_row n_sites q).1.1 ∧ 0 ≤ (init_row n_sites q).1.2.1 ∧
      0 ≤ (init_row n_sites q).1.2.2)
    (l t : Nat) (r : Row) (hl : l ≤ n_sites)
    (hr : ((DRT.cuts su2 n_sites init_qs orb_sym).getD l [])[t]? = some r) :
    1 ≤ entry (DRT.build su2 n_sites init_qs orb_sym).xs
        (cut_offset (DRT.cuts su2 n_sites init_qs orb_sym) l + t) 4 ∧
      (∃ t0 r0 ds, ((DRT.cuts su2 n_sites init_qs orb_sym).getD 0 [])[t0]? = some r0 ∧
        ds.length = l ∧
        path_ok (DRT.build su2 n_sites init_qs orb_sym).jds 4 t0 ds = true ∧
        path_end (DRT.build su2 n_sites init_qs orb_sym).jds t0 ds =
          cut_offset (DRT.cuts su2 n_sites init_qs orb_sym) l + t) ∧
      ∃ ds2, ds2.length = n_sites - l ∧
        path_ok (DRT.build su2 n_sites init_qs orb_sym).jds 4
          (cut_offset (DRT.cuts su2 n_sites init_qs orb_sym) l + t) ds2 = true := by
  have T := DRT_table_ok su2 n_sites init_qs orb_sym hn hq
  have hlen := DRT_cuts_length su2 n_sites init_qs orb_sym
  have hpos := size_pos T 0
    (fun l t r _ hl hr => DRT_retained_edge su2 n_sites init_qs orb_sym l t r (by omega) hr)
    (n_sites - l) l t r (Nat.zero_le _) (by omega) hr
  refine ⟨hpos, DRT_reach su2 n_sites init_qs orb_sym l t r hl hr, ?_⟩
  obtain ⟨w1, w2, _⟩ := walk_spec T (n_sites - l) l t r 0 (by omega) hr (by omega)
  exact ⟨_, w1, w2⟩

/-- C22 (witness): the SU2 table for 2 sites and the label `(N=2, 2S=0)`,
the second row of its cut `1`. -/
theorem C22_rows_on_paths_witness :
    (0 < 2 ∧
      (∀ q, q ∈ [(⟨2, 0, 0⟩ : QLabel)] →
        0 ≤ (init_row 2 q).1.1 ∧ 0 ≤ (init_row 2 q).1.2.1 ∧ 0 ≤ (init_row 2 q).1.2.2) ∧
      1 ≤ 2 ∧ ((DRT.cuts true 2 [⟨2, 0, 0⟩] []).getD 1 [])[1]? = some ((0, 1, 0), 0)) ∧
      1 ≤ entry (DRT.build true 2 [⟨2, 0, 0⟩] []).xs
        (cut_offset (DRT.cuts true 2 [⟨2, 0, 0⟩] []) 1 + 1) 4 :=
  ⟨⟨by decide, by decide, by decide, by decide⟩,
    (C22_rows_on_paths true 2 [⟨2, 0, 0⟩] [] (by decide) (by decide) 1 1 ((0, 1, 0), 0)
      (by decide) (by decide)).1⟩

end DRTModel

namespace DRTModel

/-! ## The rows of the operator table -/

theorem HDRT_cut_mem_forward [PGCompose]
    (E : Recoupling) (su2 : Bool) (t : HDRT) (l : Nat) (r : HRow)
    (hr : r ∈ (HDRT.cuts E su2 t).getD l []) :
    r ∈ (forward_cuts (HDRT.expand_cut E su2 t.d_step (HDRT.ddq E t) t.nd t.orb_sym) t.n_sites
      ((t.qs.zip t.pgs).take t.n_init_qs)).getD l [] :=
  (filter_cuts_sublist _ 0 _ l).subset hr

theorem HDRT_cut_succ_allowed [PGCompose]
    (E : Recoupling) (su2 : Bool) (t : HDRT) (l : Nat) (r2 : HRow)
    (hr : r2 ∈ (HDRT.cuts E su2 t).getD (l + 1) []) :
    l < t.n_sites ∧ ∃ r d, d < t.nd ∧
      HDRT.allowed E su2 t.d_step (HDRT.ddq E t) (t.n_sites - 1 - l)
        (t.orb_sym.getD (t.n_sites - 1 - l) 0) r d = true ∧
      r2 = HDRT.step_row t.d_step r (t.orb_sym.getD (t.n_sites - 1 - l) 0) d := by
  have hf := HDRT_cut_mem_forward E su2 t (l + 1) r2 hr
  have hl : l < t.n_sites := by
    by_contra hc
    rw [List.getD_eq_default _ _ (by rw [forward_cuts_length]; omega)] at hf
    simp at hf
  rw [forward_cuts_succ _ t.n_sites _ l hl] at hf
  obtain ⟨r, _, d, hd, ha, hs⟩ := HDRT_mem_expand_cut E su2 _ _ _ _ _ _ r2 hf
  exact ⟨hl, r, d, hd, ha, hs⟩

/-- C26 (amended): in every HDRT built by `initialize()`, every row below
the outermost cut has a non-negative operator weight and operator length, a
non-negative coupled spin in the SU2 scheme and a non-negative cut, and a
row with the cut `0` is the all-zero row; the particle count is not
tested. -/
theorem C26_rows_below_outermost [PGCompose]
    (E : Recoupling) (su2 : Bool) (t : HDRT) (l : Nat) (r : HRow)
    (hr : r ∈ (HDRT.cuts E su2 t).getD (l + 1) []) :
    0 ≤ r.1.getD 3 0 ∧ 0 ≤ r.1.getD 4 0 ∧ (su2 = true → 0 ≤ r.1.getD 2 0) ∧
      0 ≤ r.1.getD 0 0 ∧ (r.1.getD 0 0 = 0 → r.1 = [0, 0, 0, 0, 0]) := by
  obtain ⟨_, r0, d, _, ha, hs⟩ := HDRT_cut_succ_allowed E su2 t l r hr
  unfold HDRT.allowed at ha
  simp only [Bool.and_eq_true] at ha
  have hq := ha.1.1
  rw [← hs] at hq
  have h5 : r.1 = [r.1.getD 0 0, r.1.getD 1 0, r.1.getD 2 0, r.1.getD 3 0, r.1.getD 4 0] := by
    rw [hs]
    rfl
  unfold HDRT.allow_q at hq
  simp only [Bool.or_eq_true, Bool.and_eq_true, decide_eq_true_eq, Bool.not_eq_true'] at hq
  rcases hq with ⟨⟨⟨h0, h2⟩, h3⟩, h4⟩ | ⟨⟨⟨⟨h0, h1⟩, h2⟩, h3⟩, h4⟩
  · refine ⟨h3, h4, ?_, by omega, fun e => by omega⟩
    intro hsu
    rcases h2 with h2 | h2
    · rw [hsu] at h2; cases h2
    · exact h2
  · refine ⟨by omega, by omega, fun _ => by omega, by omega, fun _ => ?_⟩
    rw [h5, h0, h1, h2, h3, h4]

/-- C26 (witness): the row `(1, -1, 1, 1, 1)` of the cut `1` of the SU2
operator table for 2 sites with the initial label `(N=0, 2S=0, weight 2,
length 2)` and the catalog `("C", -1), ("D", 1)`. -/
theorem C26_rows_below_outermost_witness :
    (([1, -1, 1, 1, 1], 0) : HRow) ∈ (HDRT.cuts leaf_recoupling true
        ((HDRT.new 2 [(⟨0, 0, 0⟩, 2, 2)] []).initialize_steps
          [(['C'], -1), (['D'], 1)])).getD (0 + 1) [] ∧
      (0 ≤ (([1, -1, 1, 1, 1], 0) : HRow).1.getD 3 0 ∧
        0 ≤ (([1, -1, 1, 1, 1], 0) : HRow).1.getD 4 0 ∧
        (true = true → 0 ≤ (([1, -1, 1, 1, 1], 0) : HRow).1.getD 2 0) ∧
        0 ≤ (([1, -1, 1, 1, 1], 0) : HRow).1.getD 0 0 ∧
        ((([1, -1, 1, 1, 1], 0) : HRow).1.getD 0 0 = 0 →
          (([1, -1, 1, 1, 1], 0) : HRow).1 = [0, 0, 0, 0, 0])) :=
  ⟨by decide, C26_rows_below_outermost leaf_recoupling true
    ((HDRT.new 2 [(⟨0, 0, 0⟩, 2, 2)] []).initialize_steps [(['C'], -1), (['D'], 1)]) 0
    ([1, -1, 1, 1, 1], 0) (by decide)⟩

/-- C26 (counterexample): the SU2 operator table for 2 sites with the
initial label `(N=0, 2S=0, weight 2, length 2)` and the catalog
`("C", -1), ("D", 1)` has the row `(1, -1, 1, 1, 1)` below the outermost cut,
whose particle count is `-1`. -/
theorem C26_negative_particle_count :
    (HDRT.build leaf_recoupling true 2 [(⟨0, 0, 0⟩, 2, 2)] []
        [(['C'], -1), (['D'], 1)]).qs = [[2, 0, 0, 2, 2], [1, -1, 1, 1, 1], [0, 0, 0, 0, 0]] ∧
      (HDRT.build leaf_recoupling true 2 [(⟨0, 0, 0⟩, 2, 2)] []
        [(['C'], -1), (['D'], 1)]).n_init_qs = 1 ∧
      ((HDRT.build leaf_recoupling true 2 [(⟨0, 0, 0⟩, 2, 2)] []
        [(['C'], -1), (['D'], 1)]).qs.getD 1 []).getD 1 0 < 0 := by
  decide

/-- C23 (counterexample): the SU2 operator table for 2 sites with the
initial labels `(N=1, 2S=1)` and `(N=5, 2S=1)`, both of weight 1 and length
1, and the catalog `("C", 1)`. The second initial row is retained as the row
`1`, all of its edges are `0` and its subtree size is `0`. -/
theorem C23_initial_row_of_size_zero :
    (HDRT.build leaf_recoupling true 2 [(⟨1, 1, 0⟩, 1, 1), (⟨5, 1, 0⟩, 1, 1)] []
        [(['C'], 1)]).qs.getD 1 [] = [2, 5, 1, 1, 1] ∧
      (HDRT.build leaf_recoupling true 2 [(⟨1, 1, 0⟩, 1, 1), (⟨5, 1, 0⟩, 1, 1)] []
        [(['C'], 1)]).jds.getD 1 [] = [0, 0] ∧
      (HDRT.build leaf_recoupling true 2 [(⟨1, 1, 0⟩, 1, 1), (⟨5, 1, 0⟩, 1, 1)] []
        [(['C'], 1)]).x 1 2 = 0 ∧
      (HDRT.build leaf_recoupling true 2 [(⟨1, 1, 0⟩, 1, 1), (⟨5, 1, 0⟩, 1, 1)] []
        [(['C'], 1)]).nd = 2 := by
  decide

end DRTModel

namespace DRTModel

/-! ## Retained rows of the operator table -/

theorem HDRT_cut_len5 [PGCompose] (E : Recoupling) (su2 : Bool) (t : HDRT) (l : Nat) (r : HRow)
    (hr : r ∈ (HDRT.cuts E su2 t).getD (l + 1) []) : r.1.length = 5 := by
  obtain ⟨_, r0, d, _, _, hs⟩ := HDRT_cut_succ_allowed E su2 t l r hr
  rw [hs]
  rfl

theorem HDRT_cut_strict [PGCompose] (E : Recoupling) (su2 : Bool) (t : HDRT) (l : Nat) :
    ((HDRT.cuts E su2 t).getD (l + 1) []).Pairwise (fun a b => HDRT.compare_q_pg a b = true) := by
  apply List.Pairwise.sublist (filter_cuts_sublist _ 0 _ (l + 1))
  by_cases hl : l < t.n_sites
  · rw [forward_cuts_succ _ t.n_sites _ l hl]
    exact HDRT_expand_cut_strict E su2 _ _ _ _ _ _
  · rw [List.getD_eq_default _ _ (by rw [forward_cuts_length]; omega)]
    exact List.Pairwise.nil

theorem HDRT_entry_eq [PGCompose]
    (E : Recoupling) (su2 : Bool) (t : HDRT) (l i : Nat) (r : HRow) (d : Nat)
    (hl : l < t.n_sites) (hr : ((HDRT.cuts E su2 t).getD l [])[i]? = some r) (hd : d < t.nd) :
    entry ( HDRT.initialize E su2 t).jds (cut_offset (HDRT.cuts E su2 t) l + i) d =
      HDRT.jd_entry E su2 t.d_step (HDRT.ddq E t) ((HDRT.cuts E su2 t).getD (l + 1) [])
        (cut_offset (HDRT.cuts E su2 t) (l + 1)) (t.n_sites - 1 - l)
        (t.orb_sym.getD (t.n_sites - 1 - l) 0) r d := by
  have hlen := HDRT_cuts_length E su2 t
  have hj := row_index_lt (HDRT.cuts E su2 t) l i r (by omega) hr
  have hrow := jds_cuts_get t.nd (fun nxt p k r d =>
      HDRT.jd_entry E su2 t.d_step (HDRT.ddq E t) nxt p k (t.orb_sym.getD k 0) r d)
    (HDRT.cuts E su2 t) 0 l i r (by omega) hr
  have hlenJ := jds_cuts_length t.nd (fun nxt p k r d =>
      HDRT.jd_entry E su2 t.d_step (HDRT.ddq E t) nxt p k (t.orb_sym.getD k 0) r d) 0
    (HDRT.cuts E su2 t)
  unfold entry
  rw [HDRT_init_jds, List.getD_append _ _ _ _ (by omega), hrow, getD_range_map t.nd d _ hd,
    Nat.zero_add, hlen]
  have e : t.n_sites + 1 - 2 - l = t.n_sites - 1 - l := by omega
  rw [e]

theorem HDRT_has_target_iff [PGCompose]
    (E : Recoupling) (su2 : Bool) (t : HDRT) (l : Nat) (r : HRow)
    (hl : l < t.n_sites) :
    r ∈ (HDRT.cuts E su2 t).getD l [] ↔
      r ∈ (forward_cuts (HDRT.expand_cut E su2 t.d_step (HDRT.ddq E t) t.nd t.orb_sym)
          t.n_sites ((t.qs.zip t.pgs).take t.n_init_qs)).getD l [] ∧
        (HDRT.has_target t.d_step t.nd ((HDRT.cuts E su2 t).getD (l + 1) [])
          (t.orb_sym.getD (t.n_sites - 1 - l) 0) r = true ∨ l = 0) := by
  have hlen := forward_cuts_length
    (HDRT.expand_cut E su2 t.d_step (HDRT.ddq E t) t.nd t.orb_sym) t.n_sites
    ((t.qs.zip t.pgs).take t.n_init_qs)
  have h := filter_cuts_get
    (fun lvl k fq r =>
      HDRT.has_target t.d_step t.nd fq (t.orb_sym.getD k 0) r || decide (lvl = 0)) 0
    (forward_cuts (HDRT.expand_cut E su2 t.d_step (HDRT.ddq E t) t.nd t.orb_sym) t.n_sites
      ((t.qs.zip t.pgs).take t.n_init_qs)) l (by omega)
  have e : t.n_sites + 1 - 2 - l = t.n_sites - 1 - l := by omega
  rw [hlen, e] at h
  unfold HDRT.cuts
  rw [h, List.mem_filter]
  simp only [Nat.zero_add, Bool.or_eq_true, decide_eq_true_eq]

/-- The filter of `HDRT::initialize`: a retained row below the outermost cut
and before the last cut has a catalog step whose stepped row is retained at
the next cut. -/
theorem HDRT_retained_step [PGCompose]
    (E : Recoupling) (su2 : Bool) (t : HDRT) (l : Nat) (r : HRow)
    (hl : l + 1 < t.n_sites) (hr : r ∈ (HDRT.cuts E su2 t).getD (l + 1) []) :
    ∃ d, d < t.nd ∧
      HDRT.step_row t.d_step r (t.orb_sym.getD (t.n_sites - 1 - (l + 1)) 0) d ∈
        (HDRT.cuts E su2 t).getD (l + 2) [] := by
  have hm := ((HDRT_has_target_iff E su2 t (l + 1) r hl).mp hr).2
  rcases hm with hm | hm
  · unfold HDRT.has_target at hm
    rw [List.any_eq_true] at hm
    obtain ⟨d, hd, hb⟩ := hm
    have hlb := lower_bound_of_search HDRT.compare_q_pg _ compare_q_pg_order _ _
      (show (HDRT.step_row t.d_step r (t.orb_sym.getD (t.n_sites - 1 - (l + 1)) 0) d).1.length
        = 5 from rfl)
      (fun a ha => HDRT_cut_len5 E su2 t (l + 1) a ha) hb
    exact ⟨d, List.mem_range.mp hd, List.getElem?_mem hlb⟩
  · omega

/-- In the SZ scheme a step whose stepped row is retained at the next cut
has an edge. -/
theorem HDRT_edge_of_mem_sz [PGCompose]
    (E : Recoupling) (t : HDRT) (l i : Nat) (r : HRow) (d : Nat)
    (hl : l < t.n_sites) (hr : ((HDRT.cuts E false t).getD l [])[i]? = some r) (hd : d < t.nd)
    (hm : HDRT.step_row t.d_step r (t.orb_sym.getD (t.n_sites - 1 - l) 0) d ∈
      (HDRT.cuts E false t).getD (l + 1) []) :
    entry ( HDRT.initialize E false t).jds (cut_offset (HDRT.cuts E false t) l + i) d ≠ 0 := by
  obtain ⟨_, r0, d0, _, ha, hs⟩ := HDRT_cut_succ_allowed E false t l _ hm
  have hal : HDRT.allowed E false t.d_step (HDRT.ddq E t) (t.n_sites - 1 - l)
      (t.orb_sym.getD (t.n_sites - 1 - l) 0) r d = true := by
    unfold HDRT.allowed at ha ⊢
    simp only [Bool.not_false, Bool.true_or, Bool.and_true] at ha ⊢
    rw [hs]
    exact ha
  have hsorted := strict_to_sorted HDRT.compare_q_pg _ compare_q_pg_order _
    (fun a ha => HDRT_cut_len5 E false t l a ha) (HDRT_cut_strict E false t l)
  have hlb := lower_bound_mem_on HDRT.compare_q_pg _ compare_q_pg_order _ _
    (fun a ha => HDRT_cut_len5 E false t l a ha) hsorted hm
  have hpos := (cut_offset_pos _ l i r hr).2
  rw [HDRT_entry_eq E false t l i r d hl hr hd]
  unfold HDRT.jd_entry
  simp only [hal, if_true, List.get?_eq_getElem?, hlb]
  omega

/-- C23 (amended): in every HDRT built for at least one site, every
retained row below the outermost cut and before the last cut has a catalog
step whose stepped row is retained at the next cut; in the SZ scheme, where
an edge needs no triangle test, every retained row below the outermost cut
has a subtree size of at least `1`. An initial row is retained whether or not
it has such a step. -/
theorem C23_inner_rows_on_paths [PGCompose] (E : Recoupling) (su2 : Bool) (n_sites : Nat)
    (init_qs : List (QLabel × Int × Int)) (orb_sym : List Nat) (cands : List DKey)
    (hn : 0 < n_sites) (l i : Nat) (r : HRow)
    (hr : ((HDRT.cuts E su2
      ((HDRT.new n_sites init_qs orb_sym).initialize_steps cands)).getD (l + 1) [])[i]? =
        some r) :
    (l + 1 < n_sites → ∃ d, d < (HDRT.build E su2 n_sites init_qs orb_sym cands).nd ∧
      HDRT.step_row (HDRT.build E su2 n_sites init_qs orb_sym cands).d_step r
          ((HDRT.build E su2 n_sites init_qs orb_sym cands).orb_sym.getD
            (n_sites - 1 - (l + 1)) 0) d ∈
        (HDRT.cuts E su2
          ((HDRT.new n_sites init_qs orb_sym).initialize_steps cands)).getD (l + 2) []) ∧
      (su2 = false →
        1 ≤ (HDRT.build E su2 n_sites init_qs orb_sym cands).x
          (cut_offset (HDRT.cuts E su2
            ((HDRT.new n_sites init_qs orb_sym).initialize_steps cands)) (l + 1) + i)
          (HDRT.build E su2 n_sites init_qs orb_sym cands).nd) := by
  constructor
  · intro hl
    exact HDRT_retained_step E su2 ((HDRT.new n_sites init_qs orb_sym).initialize_steps cands)
      l r hl (List.getElem?_mem hr)
  · intro hsz
    subst hsz
    have hrows := HDRT_new_rows n_sites init_qs orb_sym cands
    have T := HDRT_table_ok E false ((HDRT.new n_sites init_qs orb_sym).initialize_steps cands)
      (fun d hd => initialize_steps_first _ cands d hd)
      (by
        intro r hr
        rw [hrows, List.mem_map] at hr
        obtain ⟨q, _, hq⟩ := hr
        rw [← hq]
        rfl)
      hn
    have hlen := HDRT_cuts_length E false
      ((HDRT.new n_sites init_qs orb_sym).initialize_steps cands)
    have hns : ((HDRT.new n_sites init_qs orb_sym).initialize_steps cands).n_sites = n_sites :=
      rfl
    have hl1 : l + 1 ≤ n_sites := by
      have := (HDRT_cut_succ_allowed E false _ l r (List.getElem?_mem hr)).1
      rw [hns] at this
      omega
    have hpos := size_pos T 1
      (fun l2 t2 r2 h1 h2 h3 => by
        rw [hlen, hns] at h2
        have hl2 : l2 = (l2 - 1) + 1 := by omega
        have hmem : r2 ∈ (HDRT.cuts E false
            ((HDRT.new n_sites init_qs orb_sym).initialize_steps cands)).getD (l2 - 1 + 1) [] := by
          rw [← hl2]; exact List.getElem?_mem h3
        obtain ⟨d, hd, hm⟩ := HDRT_retained_step E false _ (l2 - 1) r2
          (by rw [hns]; omega) hmem
        have e2 : l2 - 1 + 2 = l2 + 1 := by omega
        have e3 : l2 - 1 + 1 = l2 := by omega
        rw [e2, e3] at hm
        exact ⟨d, hd, HDRT_edge_of_mem_sz E _ l2 t2 r2 d (by rw [hns]; omega) h3 hd hm⟩)
      (n_sites - (l + 1)) (l + 1) i r (by omega) (by rw [hlen, hns]; omega) hr
    exact hpos

/-- C23 (witness): the row `(1, 0, 0, 0, 0)` of the cut `1` of the SZ
operator table for 2 sites with the initial label `(N=1, 2S=1, weight 1,
length 1)` and the catalog `("C", 1)`. -/
theorem C23_inner_rows_on_paths_witness :
    (0 < 2 ∧ ((HDRT.cuts leaf_recoupling false
        ((HDRT.new 2 [(⟨1, 1, 0⟩, 1, 1)] []).initialize_steps [(['C'], 1)])).getD (0 + 1)
          [])[1]? = some ([1, 0, 0, 0, 0], 0)) ∧
      (false = false →
        1 ≤ (HDRT.build leaf_recoupling false 2 [(⟨1, 1, 0⟩, 1, 1)] [] [(['C'], 1)]).x
          (cut_offset (HDRT.cuts leaf_recoupling false
            ((HDRT.new 2 [(⟨1, 1, 0⟩, 1, 1)] []).initialize_steps [(['C'], 1)])) (0 + 1) + 1)
          (HDRT.build leaf_recoupling false 2 [(⟨1, 1, 0⟩, 1, 1)] [] [(['C'], 1)]).nd) :=
  ⟨⟨by decide, by decide⟩,
    (C23_inner_rows_on_paths leaf_recoupling false 2 [(⟨1, 1, 0⟩, 1, 1)] [] [(['C'], 1)]
      (by decide) 0 1 ([1, 0, 0, 0, 0], 0) (by decide)).2⟩

end DRTModel

namespace DRTModel

/-! ## The skip table of `fill_integral_data` -/

theorem hjumps_row_congr (t : HDRT) (hj hj2 : List (List (Nat × Nat))) (j : Nat)
    (h : t.jd j 0 ≠ 0 → hj.getD (t.jd j 0) [] = hj2.getD (t.jd j 0) []) :
    hjumps_row t hj j = hjumps_row t hj2 j := by
  unfold hjumps_row
  by_cases hk : t.jd j 0 ≠ 0
  · rw [if_pos hk, if_pos hk, h hk]
  · rw [if_neg hk, if_neg hk]

theorem hjumps_loop_spec (t : HDRT) (m : Nat) :
    ∀ hj0 : List (List (Nat × Nat)), m ≤ hj0.length →
      (∀ j, j < m → t.jd j 0 = 0 ∨ j < t.jd j 0) →
      (hjumps_loop t m hj0).length = hj0.length ∧
        (∀ j, m ≤ j → (hjumps_loop t m hj0).getD j [] = hj0.getD j []) ∧
        (∀ j, j < m → (hjumps_loop t m hj0).getD j [] =
          hjumps_row t (hjumps_loop t m hj0) j) := by
  induction m with
  | zero =>
    intro hj0 _ _
    exact ⟨rfl, fun _ _ => rfl, fun j hj => absurd hj (Nat.not_lt_zero _)⟩
  | succ m ih =>
    intro hj0 hm hf
    obtain ⟨h1, h2, h3⟩ := ih (hj0.set m (hjumps_row t hj0 m))
      (by rw [List.length_set]; omega) (fun j hj => hf j (by omega))
    rw [List.length_set] at h1
    have e : hjumps_loop t (m + 1) hj0 = hjumps_loop t m (hj0.set m (hjumps_row t hj0 m)) := rfl
    rw [e]
    refine ⟨h1, ?_, ?_⟩
    · intro j hj
      rw [h2 j (by omega), getD_set_ne _ _ _ _ _ (by omega)]
    · intro j hj
      by_cases hjm : j < m
      · exact h3 j hjm
      · have hjm2 : j = m := by omega
        rw [hjm2, h2 m (le_refl _), getD_set_self _ _ _ _ (by omega)]
        apply hjumps_row_congr
        intro hk
        have hfw : m < t.jd m 0 := by
          rcases hf m (by omega) with h | h
          · exact absurd h hk
          · exact h
        rw [h2 _ (by omega), getD_set_ne _ _ _ _ _ (by omega)]

theorem hjumps_rows (t : HDRT)
    (hf : ∀ j, j < t.qs.length → t.jd j 0 = 0 ∨ j < t.jd j 0) :
    ∀ j, j < t.qs.length → (hjumps t).getD j [] = hjumps_row t (hjumps t) j := by
  have h := hjumps_loop_spec t t.qs.length (List.replicate t.qs.length [(0, 0)])
    (by rw [List.length_replicate]) hf
  exact h.2.2

theorem range_succ_map_cons {β : Type} (f : Nat → β) (n : Nat) :
    (List.range (n + 1)).map f = f 0 :: (List.range n).map (fun m => f (m + 1)) := by
  rw [List.range_succ_eq_map, List.map_cons, List.map_map]
  rfl

/-- The row `hjumps[j]` lists the rows and offsets reached from `j` by
`0, 1, 2, ...` identity steps, as many as there are consecutive identity
edges. -/
theorem hjumps_spec (t : HDRT)
    (hf : ∀ j, j < t.qs.length → t.jd j 0 = 0 ∨ (j < t.jd j 0 ∧ t.jd j 0 < t.qs.length)) :
    ∀ k j fuel, t.qs.length - j ≤ k → j < t.qs.length → t.qs.length - j ≤ fuel →
      (hjumps t).getD j [] = (List.range (1 + id_run t fuel j)).map (fun m => id_steps t m j) := by
  have hrows := hjumps_rows t (fun j hj => by
    rcases hf j hj with h | h
    · exact Or.inl h
    · exact Or.inr h.1)
  intro k
  induction k with
  | zero => intro j fuel h1 h2 _; omega
  | succ k ih =>
    intro j fuel h1 h2 h3
    rw [hrows j h2]
    unfold hjumps_row
    cases fuel with
    | zero => omega
    | succ fuel =>
      by_cases hk : t.jd j 0 ≠ 0
      · rw [if_pos hk]
        have hfw : j < t.jd j 0 ∧ t.jd j 0 < t.qs.length := by
          rcases hf j h2 with h | h
          · exact absurd h hk
          · exact h
        rw [ih (t.jd j 0) fuel (by omega) hfw.2 (by omega)]
        have e : id_run t (fuel + 1) j = 1 + id_run t fuel (t.jd j 0) := by
          rw [id_run, if_pos hk]
        rw [e]
        have e2 : 1 + (1 + id_run t fuel (t.jd j 0)) = (1 + id_run t fuel (t.jd j 0)) + 1 := by
          omega
        rw [e2, range_succ_map_cons, List.map_map]
        rfl
      · rw [if_neg hk]
        have e : id_run t (fuel + 1) j = 0 := by
          rw [id_run, if_neg hk]
        rw [e]
        rfl

theorem flatten_length_offset {α : Type} (cs : List (List α)) :
    cs.flatten.length = cut_offset cs cs.length := by
  unfold cut_offset
  rw [List.take_length, List.length_flatten]

theorem cut_locate {α : Type} (cs : List (List α)) (j : Nat) (h : j < cs.flatten.length) :
    ∃ l i r, l < cs.length ∧ (cs.getD l [])[i]? = some r ∧ j = cut_offset cs l + i := by
  induction cs generalizing j with
  | nil => simp at h
  | cons a cs ih =>
    rw [List.flatten_cons, List.length_append] at h
    by_cases hj : j < a.length
    · exact ⟨0, j, a[j], by simp, by simp [List.getElem?_eq_getElem hj], by
        rw [cut_offset_zero, Nat.zero_add]⟩
    · obtain ⟨l, i, r, h1, h2, h3⟩ := ih (j - a.length) (by omega)
      refine ⟨l + 1, i, r, by simp; omega, ?_, ?_⟩
      · simpa using h2
      · rw [cut_offset_cons_succ]
        omega

/-- The identity edges of a built table lead to a later row of the
table. -/
theorem HDRT_identity_edges [PGCompose] (E : Recoupling) (su2 : Bool) (n_sites : Nat)
    (init_qs : List (QLabel × Int × Int)) (orb_sym : List Nat) (cands : List DKey)
    (hn : 0 < n_sites) (j : Nat)
    (hj : j < (HDRT.build E su2 n_sites init_qs orb_sym cands).qs.length) :
    (HDRT.build E su2 n_sites init_qs orb_sym cands).jd j 0 = 0 ∨
      (j < (HDRT.build E su2 n_sites init_qs orb_sym cands).jd j 0 ∧
        (HDRT.build E su2 n_sites init_qs orb_sym cands).jd j 0 <
          (HDRT.build E su2 n_sites init_qs orb_sym cands).qs.length) := by
  have hrows := HDRT_new_rows n_sites init_qs orb_sym cands
  have T := HDRT_table_ok E su2 ((HDRT.new n_sites init_qs orb_sym).initialize_steps cands)
    (fun d hd => initialize_steps_first _ cands d hd)
    (by
      intro r hr
      rw [hrows, List.mem_map] at hr
      obtain ⟨q, _, hq⟩ := hr
      rw [← hq]
      rfl)
    hn
  have hcl := HDRT_cuts_length E su2 ((HDRT.new n_sites init_qs orb_sym).initialize_steps cands)
  have hns : ((HDRT.new n_sites init_qs orb_sym).initialize_steps cands).n_sites = n_sites := rfl
  rw [hns] at hcl
  have hqs : (HDRT.build E su2 n_sites init_qs orb_sym cands).qs =
      (HDRT.cuts E su2
        ((HDRT.new n_sites init_qs orb_sym).initialize_steps cands)).flatten.map Prod.fst := rfl
  have hjx : ( HDRT.initialize E su2
      ((HDRT.new n_sites init_qs orb_sym).initialize_steps cands)) =
      HDRT.build E su2 n_sites init_qs orb_sym cands := rfl
  rw [hjx] at T
  rw [hqs, List.length_map] at hj ⊢
  have hpos : 0 < ((HDRT.new n_sites init_qs orb_sym).initialize_steps cands).nd := by
    rw [initialize_steps_nd]
    exact (initialize_steps_ok (HDRT.new n_sites init_qs orb_sym) cands).pos
  have hlastrow : (HDRT.build E su2 n_sites init_qs orb_sym cands).jds.getD
      (cut_offset (HDRT.cuts E su2 ((HDRT.new n_sites init_qs orb_sym).initialize_steps cands))
        ((HDRT.cuts E su2
          ((HDRT.new n_sites init_qs orb_sym).initialize_steps cands)).length - 1)) [] =
      List.replicate ((HDRT.new n_sites init_qs orb_sym).initialize_steps cands).nd 0 := by
    rw [← hjx, HDRT_init_jds, List.getD_append_right _ _ _ _ (by rw [jds_cuts_length]),
      jds_cuts_length, Nat.sub_self]
    rfl
  generalize HDRT.cuts E su2 ((HDRT.new n_sites init_qs orb_sym).initialize_steps cands) = cs
    at T hcl hj hlastrow ⊢
  obtain ⟨l, i, r, h1, h2, h3⟩ := cut_locate cs j hj
  rw [flatten_length_offset, hcl]
  show entry (HDRT.build E su2 n_sites init_qs orb_sym cands).jds j 0 = 0 ∨ _
  by_cases hl : l + 1 < cs.length
  · obtain ⟨_, _, r3⟩ := T.rows l i r hl h2
    by_cases hne : entry (HDRT.build E su2 n_sites init_qs orb_sym cands).jds j 0 = 0
    · exact Or.inl hne
    · right
      rw [h3] at hne ⊢
      obtain ⟨it, hit, hrow⟩ := r3 0 hpos hne
      have hp1 := (cut_offset_pos cs l i r h2).2
      have hp2 := (cut_offset_pos cs (l + 1) it _ hrow).2
      have hp3 := cut_offset_mono cs (l + 1 + 1) (n_sites + 1) (by omega)
      show cut_offset cs l + i <
          entry (HDRT.build E su2 n_sites init_qs orb_sym cands).jds (cut_offset cs l + i) 0 ∧
        entry (HDRT.build E su2 n_sites init_qs orb_sym cands).jds (cut_offset cs l + i) 0 <
          cut_offset cs (n_sites + 1)
      rw [hit]
      omega
  · left
    have hl2 : l = cs.length - 1 := by omega
    have hle := T.last_le
    rw [← hl2] at hle
    have hi := getElem?_lt_of_some h2
    have hi0 : i = 0 := by omega
    unfold entry
    rw [h3, hi0, Nat.add_zero, hl2, hlastrow]
    simp [List.getD_eq_getElem?_getD]

end DRTModel

namespace DRTModel

/-- C28: in every HDRT built for at least one site, for every row `j` the
row `hjumps[j]` of the skip table has one entry more than there are
consecutive identity edges from `j`, and its entry `m` is the row reached
from `j` by `m` identity steps together with the sum of the offsets
`xs[row][0]` along them. -/
theorem C28_skip_table [PGCompose] (E : Recoupling) (su2 : Bool) (n_sites : Nat)
    (init_qs : List (QLabel × Int × Int)) (orb_sym : List Nat) (cands : List DKey)
    (hn : 0 < n_sites) (j : Nat)
    (hj : j < (HDRT.build E su2 n_sites init_qs orb_sym cands).qs.length) :
    ((hjumps (HDRT.build E su2 n_sites init_qs orb_sym cands)).getD j []).length =
        1 + id_run (HDRT.build E su2 n_sites init_qs orb_sym cands)
          (HDRT.build E su2 n_sites init_qs orb_sym cands).qs.length j ∧
      ∀ m, m < ((hjumps (HDRT.build E su2 n_sites init_qs orb_sym cands)).getD j []).length →
        ((hjumps (HDRT.build E su2 n_sites init_qs orb_sym cands)).getD j []).getD m (0, 0) =
          id_steps (HDRT.build E su2 n_sites init_qs orb_sym cands) m j := by
  have h := hjumps_spec (HDRT.build E su2 n_sites init_qs orb_sym cands)
    (fun j2 hj2 => HDRT_identity_edges E su2 n_sites init_qs orb_sym cands hn j2 hj2)
    (HDRT.build E su2 n_sites init_qs orb_sym cands).qs.length j
    (HDRT.build E su2 n_sites init_qs orb_sym cands).qs.length (by omega) hj (by omega)
  rw [h]
  refine ⟨by simp, ?_⟩
  intro m hm
  simp only [List.length_map, List.length_range] at hm
  rw [List.getD_eq_getElem?_getD, List.getElem?_map, List.getElem?_range hm]
  rfl

/-- C28 (witness): the row `0` of the SU2 operator table for 2 sites with the
initial label `(N=1, 2S=1, weight 1, length 1)` and the catalog `("C", 1)`. -/
theorem C28_skip_table_witness :
    (0 < 2 ∧
      0 < (HDRT.build leaf_recoupling true 2 [(⟨1, 1, 0⟩, 1, 1)] [] [(['C'], 1)]).qs.length) ∧
      (((hjumps (HDRT.build leaf_recoupling true 2 [(⟨1, 1, 0⟩, 1, 1)] []
            [(['C'], 1)])).getD 0 []).length =
          1 + id_run (HDRT.build leaf_recoupling true 2 [(⟨1, 1, 0⟩, 1, 1)] [] [(['C'], 1)])
            (HDRT.build leaf_recoupling true 2 [(⟨1, 1, 0⟩, 1, 1)] [] [(['C'], 1)]).qs.length
            0 ∧
        ∀ m, m < ((hjumps (HDRT.build leaf_recoupling true 2 [(⟨1, 1, 0⟩, 1, 1)] []
            [(['C'], 1)])).getD 0 []).length →
          ((hjumps (HDRT.build leaf_recoupling true 2 [(⟨1, 1, 0⟩, 1, 1)] []
            [(['C'], 1)])).getD 0 []).getD m (0, 0) =
            id_steps (HDRT.build leaf_recoupling true 2 [(⟨1, 1, 0⟩, 1, 1)] [] [(['C'], 1)])
              m 0) :=
  ⟨⟨by decide, by decide⟩,
    C28_skip_table leaf_recoupling true 2 [(⟨1, 1, 0⟩, 1, 1)] [] [(['C'], 1)] (by decide) 0
      (by decide)⟩

end DRTModel

namespace DRTModel

/-! ## The site indices returned by `HDRT::operator[]` -/

theorem HDRT_walk_steps_length (t : HDRT) (k j i : Nat) : (t.walk_steps k j i).length = k := by
  induction k generalizing j i with
  | zero => rfl
  | succ k ih => simp [HDRT.walk_steps, ih]

theorem compose_kidx (t : HDRT) (k d : Nat) (st : List Char × Int × List Nat) :
    (t.compose k d st).2.2 = t.ins k d ++ st.2.2 := by
  unfold HDRT.compose HDRT.ins
  simp only
  split_ifs <;> rfl

theorem walk_kidx (t : HDRT) (k : Nat) :
    ∀ j i st, (t.walk k j i st).2.2 = t.kidx_seq (t.walk_steps k j i) ++ st.2.2 := by
  induction k with
  | zero => intro j i st; rfl
  | succ k ih =>
    intro j i st
    rw [HDRT.walk, HDRT.walk_steps, ih, compose_kidx, HDRT.kidx_seq, HDRT_walk_steps_length,
      List.append_assoc]

theorem kidx_seq_lt (t : HDRT) (ds : List Nat) : ∀ v, v ∈ t.kidx_seq ds → v < ds.length := by
  induction ds with
  | nil => intro v hv; simp [HDRT.kidx_seq] at hv
  | cons d ds ih =>
    intro v hv
    rw [HDRT.kidx_seq, List.mem_append] at hv
    rcases hv with h | h
    · have := ih v h
      simp only [List.length_cons]
      omega
    · unfold HDRT.ins at h
      split_ifs at h
      · rw [List.mem_replicate] at h
        simp only [List.length_cons]
        omega
      · simp at h

theorem ins_mem (t : HDRT) (k d v : Nat) (h : v ∈ t.ins k d) : v = k := by
  unfold HDRT.ins at h
  split_ifs at h
  · exact (List.mem_replicate.mp h).2
  · simp at h

theorem kidx_seq_sorted (t : HDRT) (ds : List Nat) :
    (t.kidx_seq ds).Pairwise (fun a b => a ≤ b) := by
  induction ds with
  | nil => exact List.Pairwise.nil
  | cons d ds ih =>
    rw [HDRT.kidx_seq, List.pairwise_append]
    refine ⟨ih, ?_, ?_⟩
    · unfold HDRT.ins
      split_ifs
      · rw [List.pairwise_replicate]
        exact Or.inr (le_refl _)
      · exact List.Pairwise.nil
    · intro a ha b hb
      have h1 := kidx_seq_lt t ds a ha
      have h2 := ins_mem t _ _ b hb
      omega

theorem ins_length (t : HDRT) (k d : Nat) : (t.ins k d).length = (t.ins 0 d).length := by
  unfold HDRT.ins
  split_ifs <;> simp

theorem kidx_seq_length (t : HDRT) (ds : List Nat) :
    (t.kidx_seq ds).length = (ds.map (fun d => (t.ins 0 d).length)).sum := by
  induction ds with
  | nil => rfl
  | cons d ds ih =>
    rw [HDRT.kidx_seq, List.length_append, ih, ins_length, List.map_cons, List.sum_cons]
    omega

theorem kidx_seq_card (t : HDRT) (ds : List Nat) :
    (t.kidx_seq ds).toFinset.card =
      (ds.map (fun d => if t.ins 0 d = [] then 0 else 1)).sum := by
  induction ds with
  | nil => rfl
  | cons d ds ih =>
    rw [HDRT.kidx_seq, List.toFinset_append, Finset.card_union_of_disjoint, ih, List.map_cons,
      List.sum_cons]
    · have e : (t.ins ds.length d).toFinset.card = if t.ins 0 d = [] then 0 else 1 := by
        by_cases h1 : (t.d_expr.getD d ([], 0)).1 ≠ []
        · have hk : ∀ k, t.ins k d =
              List.replicate ((t.d_step.getD d []).getD 4 0).toNat k := by
            intro k
            unfold HDRT.ins
            rw [if_pos h1]
          rw [hk, hk]
          generalize ((t.d_step.getD d []).getD 4 0).toNat = n
          cases n with
          | zero => simp
          | succ n =>
            have h4 : (List.replicate (n + 1) ds.length).toFinset = {ds.length} := by
              ext v
              simp only [List.mem_toFinset, List.mem_replicate, Finset.mem_singleton]
              constructor
              · intro h; exact h.2
              · intro h; exact ⟨by omega, h⟩
            rw [h4, Finset.card_singleton, if_neg (by simp)]
        · have hk : ∀ k, t.ins k d = [] := by
            intro k
            unfold HDRT.ins
            rw [if_neg h1]
          rw [hk, hk]
          simp
      omega
    · rw [Finset.disjoint_left]
      intro v hv hv2
      rw [List.mem_toFinset] at hv hv2
      have h1 := kidx_seq_lt t ds v hv
      have h2 := ins_mem t _ _ v hv2
      omega

theorem kidx_seq_count (t : HDRT) (ds : List Nat) :
    ∀ k, k < ds.length → (t.kidx_seq ds).count k = (t.ins 0 (ds.reverse.getD k 0)).length := by
  induction ds with
  | nil => intro k hk; simp at hk
  | cons d ds ih =>
    intro k hk
    simp only [List.length_cons] at hk
    rw [HDRT.kidx_seq, List.count_append, List.reverse_cons]
    by_cases hkl : k < ds.length
    · rw [ih k hkl, getD_append_left _ _ _ _ (by rw [List.length_reverse]; exact hkl)]
      have h0 : (t.ins ds.length d).count k = 0 := by
        rw [List.count_eq_zero]
        intro hm
        have := ins_mem t _ _ k hm
        omega
      omega
    · have hke : k = ds.length := by omega
      have h0 : (t.kidx_seq ds).count k = 0 := by
        rw [List.count_eq_zero]
        intro hm
        have := kidx_seq_lt t ds k hm
        omega
      have h1 : (ds.reverse ++ [d]).getD k 0 = d := by
        rw [hke, ← List.length_reverse]
        exact getD_append_length _ _ _
      rw [h0, h1, hke, Nat.zero_add]
      have h2 : (t.ins ds.length d).count ds.length = (t.ins ds.length d).length := by
        rw [List.count_eq_length]
        intro v hv
        exact (ins_mem t _ _ v hv).symm
      rw [h2, ins_length]

end DRTModel

namespace DRTModel

theorem count_char_nil (c : Char) : count_char c [] = 0 := rfl

/-- The catalog steps of `initialize_steps`, when every candidate other
than the identity holds at least one operator: the number of copies that
`operator[]` makes for a step is its length delta, and it is not zero
exactly for the steps of weight delta `1`. -/
theorem catalog_ins (t : HDRT) (cands : List DKey)
    (hc : ∀ key, key ∈ cands → key ≠ ([], 0) →
      1 ≤ count_char 'C' key.1 + count_char 'D' key.1)
    (d : Nat) (hd : d < (t.initialize_steps cands).nd) :
    (((t.initialize_steps cands).ins 0 d).length : Int) =
        ((t.initialize_steps cands).d_step.getD d []).getD 4 0 ∧
      (((if (t.initialize_steps cands).ins 0 d = [] then 0 else 1 : Nat)) : Int) =
        ((t.initialize_steps cands).d_step.getD d []).getD 3 0 := by
  have ok := initialize_steps_ok t cands
  have hde := (initialize_steps_d_expr t cands).2 d hd
  rw [initialize_steps_nd] at hd
  by_cases h0 : d = 0
  · subst h0
    have hz2 : (t.initialize_steps cands).d_map.getD 0 (([], 0), 0) = (([], 0), 0) :=
      ok.zero.1
    have hz3 : (t.initialize_steps cands).d_step.getD 0 [] = [1, 0, 0, 0, 0, 0] := ok.zero.2
    have hx : ((t.initialize_steps cands).d_expr.getD 0 ([], 0)).1 = [] := by
      rw [hde, hz2]
    have hi : (t.initialize_steps cands).ins 0 0 = [] := by
      unfold HDRT.ins
      rw [if_neg (not_not.mpr hx)]
    rw [hi, hz3]
    exact ⟨rfl, rfl⟩
  · have hs : (t.initialize_steps cands).d_step.getD d [] =
        new_step ((t.initialize_steps cands).d_map.getD d (([], 0), 0)).1.1
          ((t.initialize_steps cands).d_map.getD d (([], 0), 0)).1.2 :=
      ok.step d (Nat.pos_of_ne_zero h0) hd
    have hpos : 0 < (t.initialize_steps cands).d_map.length := ok.pos
    have hm := getD_mem_of_lt (t.initialize_steps cands).d_map d (([], 0), 0) hd
    have hkey : ((t.initialize_steps cands).d_map.getD d (([], 0), 0)).1 ≠ ([], 0) := by
      intro hc2
      have hnd : ((t.initialize_steps cands).d_map.map Prod.fst).Nodup := ok.nodup
      have e1 : ((t.initialize_steps cands).d_map.map Prod.fst)[0]? = some ([], 0) := by
        have hz2 : (t.initialize_steps cands).d_map.getD 0 (([], 0), 0) = (([], 0), 0) :=
          ok.zero.1
        rw [List.getD_eq_getElem _ _ hpos] at hz2
        rw [List.getElem?_map, List.getElem?_eq_getElem hpos, hz2]
        rfl
      have e2 : ((t.initialize_steps cands).d_map.map Prod.fst)[d]? = some ([], 0) := by
        rw [List.getD_eq_getElem _ _ hd] at hc2
        rw [List.getElem?_map, List.getElem?_eq_getElem hd, Option.map_some', hc2]
      exact h0 (nodup_index_unique _ hnd d 0 _ e2 e1)
    have hcand : ((t.initialize_steps cands).d_map.getD d (([], 0), 0)).1 ∈ cands := by
      rcases foldl_register_src cands ([(([], 0), 0)], [[1, 0, 0, 0, 0, 0]]) _ hm with h | h
      · rw [List.mem_singleton] at h
        exact absurd (by rw [h]) hkey
      · exact h
    have hcnt := hc _ hcand hkey
    have hx : ((t.initialize_steps cands).d_expr.getD d ([], 0)).1 ≠ [] := by
      rw [hde]
      intro he
      rw [he, count_char_nil, count_char_nil] at hcnt
      omega
    have hi : (t.initialize_steps cands).ins 0 d =
        List.replicate (((t.initialize_steps cands).d_step.getD d []).getD 4 0).toNat 0 := by
      unfold HDRT.ins
      rw [if_pos hx]
    rw [hi, hs]
    unfold new_step
    simp only [List.getD_cons_succ, List.getD_cons_zero, List.length_replicate]
    have hne : List.replicate
        (count_char 'C' ((t.initialize_steps cands).d_map.getD d (([], 0), 0)).1.1 +
          count_char 'D' ((t.initialize_steps cands).d_map.getD d (([], 0), 0)).1.1).toNat 0 ≠
        [] := by
      intro he
      have := congrArg List.length he
      simp only [List.length_replicate, List.length_nil] at this
      omega
    rw [if_neg hne]
    constructor
    · omega
    · rfl

/-- The tuple that `HDRT::index` rebuilds does not depend on the labels:
adding a step back to the tuple of the stepped row gives the tuple of the
row before the step, whatever label stands beside it. -/
theorem HDRT_undo_step_q [PGCompose]
    (d_step : List (List Int)) (gk : Nat) (r : HRow) (d : Nat) (g2 : Nat) :
    (HDRT.undo_step (d_step.getD d []) gk
      ((HDRT.canon_row (HDRT.step_row d_step r gk d)).1, g2)).1 = (HDRT.canon_row r).1 := by
  unfold HDRT.undo_step HDRT.canon_row HDRT.step_row HDRT.make_q
  simp only [List.getD_cons_zero, List.getD_cons_succ, Int.sub_add_cancel]

theorem recon_sums [PGCompose] (d_step : List (List Int)) (os : List Nat) (ds : List Nat) :
    (recon (fun k d r => ((HDRT.undo_step (d_step.getD d []) (os.getD k 0) r).1, 0))
        ([0, 0, 0, 0, 0], 0) ds).1.getD 3 0 =
        (ds.map (fun d => (d_step.getD d []).getD 3 0)).sum ∧
      (recon (fun k d r => ((HDRT.undo_step (d_step.getD d []) (os.getD k 0) r).1, 0))
        ([0, 0, 0, 0, 0], 0) ds).1.getD 4 0 =
        (ds.map (fun d => (d_step.getD d []).getD 4 0)).sum := by
  induction ds with
  | nil => exact ⟨rfl, rfl⟩
  | cons d ds ih =>
    rw [recon, List.map_cons, List.sum_cons, List.map_cons, List.sum_cons, ← ih.1, ← ih.2]
    unfold HDRT.undo_step
    simp only [List.getD_cons_succ, List.getD_cons_zero]
    constructor <;> omega

theorem sum_cast_congr (l : List Nat) (f : Nat → Nat) (g : Nat → Int)
    (h : ∀ d, d ∈ l → ((f d : Nat) : Int) = g d) :
    (((l.map f).sum : Nat) : Int) = (l.map g).sum := by
  induction l with
  | nil => rfl
  | cons a l ih =>
    rw [List.map_cons, List.sum_cons, List.map_cons, List.sum_cons, Nat.cast_add,
      h a (List.mem_cons_self _ _), ih (fun d hd => h d (List.mem_cons_of_mem _ hd))]

end DRTModel

namespace DRTModel

/-- The steps that `operator[]` follows for an offset in the range of the
initial row `j0`: they are catalog steps, one per site, `kidx` is built from
them, and their weight and length deltas add up to the weight and the length
of the initial row. -/
theorem HDRT_decode_path [PGCompose] (E : Recoupling) (su2 : Bool) (n_sites : Nat)
    (init_qs : List (QLabel × Int × Int)) (orb_sym : List Nat) (cands : List DKey)
    (hn : 0 < n_sites) (j0 i : Nat) (q : QLabel) (W L : Int)
    (hq : init_qs[j0]? = some (q, W, L))
    (hb1 : (HDRT.build E su2 n_sites init_qs orb_sym cands).base j0 ≤ i)
    (hb2 : i < (HDRT.build E su2 n_sites init_qs orb_sym cands).base (j0 + 1)) :
    ∃ ws : List Nat,
      ((HDRT.build E su2 n_sites init_qs orb_sym cands).decode i).2 =
          (HDRT.build E su2 n_sites init_qs orb_sym cands).kidx_seq ws ∧
        (HDRT.build E su2 n_sites init_qs orb_sym cands).decode_steps i = ws.reverse ∧
        ws.length = n_sites ∧
        (∀ d, d ∈ ws → d < (HDRT.build E su2 n_sites init_qs orb_sym cands).nd) ∧
        (ws.map (fun d =>
          ((HDRT.build E su2 n_sites init_qs orb_sym cands).d_step.getD d []).getD 3 0)).sum = W ∧
        (ws.map (fun d =>
          ((HDRT.build E su2 n_sites init_qs orb_sym cands).d_step.getD d []).getD 4 0)).sum = L := by
  have hrows := HDRT_new_rows n_sites init_qs orb_sym cands
  have h1 : ∀ d, d < ((HDRT.new n_sites init_qs orb_sym).initialize_steps cands).nd →
      (((HDRT.new n_sites init_qs orb_sym).initialize_steps cands).d_step.getD d []).getD 0 0 = 1 :=
    fun d hd => initialize_steps_first _ cands d hd
  have h0 : ∀ r, r ∈ (((HDRT.new n_sites init_qs orb_sym).initialize_steps cands).qs.zip
      ((HDRT.new n_sites init_qs orb_sym).initialize_steps cands).pgs).take
      ((HDRT.new n_sites init_qs orb_sym).initialize_steps cands).n_init_qs →
      r.1.getD 0 0 = (((HDRT.new n_sites init_qs orb_sym).initialize_steps cands).n_sites : Int) := by
    intro r hr
    rw [hrows, List.mem_map] at hr
    obtain ⟨q, _, hq⟩ := hr
    rw [← hq]
    rfl
  have T := HDRT_table_ok E su2 ((HDRT.new n_sites init_qs orb_sym).initialize_steps cands) h1 h0 hn
  have hlc := HDRT_last_cut E su2 ((HDRT.new n_sites init_qs orb_sym).initialize_steps cands)
    h1 h0 hn
  have hcl := HDRT_cuts_length E su2 ((HDRT.new n_sites init_qs orb_sym).initialize_steps cands)
  have hfc := HDRT_first_cut E su2 ((HDRT.new n_sites init_qs orb_sym).initialize_steps cands) hn
  rw [hrows] at hfc
  have hns : ((HDRT.new n_sites init_qs orb_sym).initialize_steps cands).n_sites = n_sites := rfl
  rw [hns] at hcl hlc
  generalize hcs : HDRT.cuts E su2 ((HDRT.new n_sites init_qs orb_sym).initialize_steps cands) = cs
    at T hlc hcl hfc
  have hxl : (HDRT.build E su2 n_sites init_qs orb_sym cands).xs.length =
      1 + cut_offset cs n_sites := by
    show ( HDRT.initialize E su2 _).xs.length = _
    rw [HDRT_init_xs, xs_loop_length, List.length_set, List.length_replicate, hcs, hcl]
    simp
  have hnd2 : (HDRT.build E su2 n_sites init_qs orb_sym cands).nd =
      ((HDRT.new n_sites init_qs orb_sym).initialize_steps cands).nd := rfl
  have hds2 : (HDRT.build E su2 n_sites init_qs orb_sym cands).d_step =
      ((HDRT.new n_sites init_qs orb_sym).initialize_steps cands).d_step := rfl
  have hos2 : (HDRT.build E su2 n_sites init_qs orb_sym cands).orb_sym =
      ((HDRT.new n_sites init_qs orb_sym).initialize_steps cands).orb_sym := rfl
  have hns2 : (HDRT.build E su2 n_sites init_qs orb_sym cands).n_sites = n_sites := rfl
  have hjx : ( HDRT.initialize E su2 ((HDRT.new n_sites init_qs orb_sym).initialize_steps cands)) =
      HDRT.build E su2 n_sites init_qs orb_sym cands := rfl
  rw [hjx, ← hnd2, ← hds2, ← hos2] at T
  generalize HDRT.build E su2 n_sites init_qs orb_sym cands = t at *
  -- the initial row and the path of `i`
  have hj0 : j0 < init_qs.length := by
    by_contra hc
    rw [List.getElem?_eq_none (by omega)] at hq
    exact absurd hq (by simp)
  have hflen : (cs.getD 0 []).length = init_qs.length := by rw [hfc, List.length_map]
  have hr : (cs.getD 0 [])[j0]? =
      some (([(n_sites : Int), q.n, q.twos, W, L], q.pg) : HRow) := by
    rw [hfc, List.getElem?_map, hq]
    rfl
  have hb3 := hb2
  rw [HDRT_base_succ] at hb3
  have hlt : i - t.base j0 < entry t.xs (cut_offset cs 0 + j0) t.nd := by
    rw [cut_offset_zero, Nat.zero_add]
    show i - t.base j0 < t.x j0 t.nd
    omega
  obtain ⟨w1, w2, w3⟩ := walk_spec T n_sites 0 j0 _ (i - t.base j0) (by omega) hr hlt
  rw [cut_offset_zero, Nat.zero_add] at w1 w2 w3
  have hoff1 : cut_offset cs 1 ≤ cut_offset cs n_sites := cut_offset_mono cs 1 n_sites hn
  have hoff2 : cut_offset cs 1 = init_qs.length := by
    rw [cut_offset_succ, cut_offset_zero, hflen, Nat.zero_add]
  have hbase0 : t.base 0 = 0 := rfl
  have hskip := HDRT_skip_init_eq t i j0 hb1 hb2 t.xs.length 0 (Nat.zero_le _) (by omega)
  rw [hbase0, Nat.sub_zero] at hskip
  -- the last cut is the terminal row
  obtain ⟨z, hz⟩ := path_last_cut T _ 0 j0 _ (by rw [w1]; omega) hr
    (by rw [cut_offset_zero, Nat.zero_add]; exact w2)
  rw [hcl, Nat.add_sub_cancel] at hz
  have hzz : z = ([0, 0, 0, 0, 0], 0) := hlc.2 z (List.getElem?_mem hz)
  have hlast : cs.getD (cs.length - 1) [] = [([0, 0, 0, 0, 0], 0)] := by
    rw [hcl, Nat.add_sub_cancel, ← hzz]
    exact list_eq_singleton _ z hlc.1 hz
  have hrec := recon_spec T
    (fun k d r => ((HDRT.undo_step (t.d_step.getD d []) (t.orb_sym.getD k 0) r).1, 0))
    (fun r => ((HDRT.canon_row r).1, 0)) ([0, 0, 0, 0, 0], 0)
    (fun k r d _ => Prod.ext (HDRT_undo_step_q _ _ r d 0) rfl)
    (by
      intro r2 hr2
      rw [hlast] at hr2
      simp only [List.getElem?_cons_zero, Option.some.injEq] at hr2
      rw [← hr2]
      rfl)
    _ 0 j0 _ (by rw [w1]; omega) hr
    (by rw [cut_offset_zero, Nat.zero_add]; exact w2)
  have hsum := recon_sums t.d_step t.orb_sym (walk_steps t.jds t.xs n_sites j0 (i - t.base j0))
  rw [hrec] at hsum
  refine ⟨walk_steps t.jds t.xs n_sites j0 (i - t.base j0), ?_, ?_, w1, ?_, ?_, ?_⟩
  · unfold HDRT.decode
    simp only [hskip, hns2]
    rw [walk_kidx, HDRT_walk_steps_eq, List.append_nil]
  · unfold HDRT.decode_steps
    simp only [hskip, HDRT_walk_steps_eq, hns2]
  · exact path_ok_lt _ _ _ _ w2
  · rw [← hsum.1]; rfl
  · rw [← hsum.2]; rfl

end DRTModel

namespace DRTModel

/-- C29: in an operator table built for at least one site from a catalog
whose keys other than the identity hold at least one operator `C` or `D`,
for every offset `i` in the range of an initial row with weight `W` and
length `L`, the site-index list of `operator[](i)` is in non-decreasing
order, has `L` elements and `W` distinct values, and every site `k` appears
as many times as the length delta of the step taken at `k`. -/
theorem C29_decode_sites [PGCompose] (E : Recoupling) (su2 : Bool) (n_sites : Nat)
    (init_qs : List (QLabel × Int × Int)) (orb_sym : List Nat) (cands : List DKey)
    (hn : 0 < n_sites)
    (hc : ∀ key, key ∈ cands → key ≠ ([], 0) →
      1 ≤ count_char 'C' key.1 + count_char 'D' key.1)
    (j0 i : Nat) (q : QLabel) (W L : Int)
    (hq : init_qs[j0]? = some (q, W, L))
    (hb1 : (HDRT.build E su2 n_sites init_qs orb_sym cands).base j0 ≤ i)
    (hb2 : i < (HDRT.build E su2 n_sites init_qs orb_sym cands).base (j0 + 1)) :
    ((HDRT.build E su2 n_sites init_qs orb_sym cands).decode i).2.Pairwise (fun a b => a ≤ b) ∧
      ((((HDRT.build E su2 n_sites init_qs orb_sym cands).decode i).2.length : Nat) : Int) = L ∧
      ((((HDRT.build E su2 n_sites init_qs orb_sym cands).decode i).2.toFinset.card : Nat) : Int)
        = W ∧
      ∀ k, k < n_sites →
        ((((HDRT.build E su2 n_sites init_qs orb_sym cands).decode i).2.count k : Nat) : Int) =
          ((HDRT.build E su2 n_sites init_qs orb_sym cands).d_step.getD
            (((HDRT.build E su2 n_sites init_qs orb_sym cands).decode_steps i).getD k 0) []).getD
            4 0 := by
  obtain ⟨ws, e1, e2, e3, e4, e5, e6⟩ :=
    HDRT_decode_path E su2 n_sites init_qs orb_sym cands hn j0 i q W L hq hb1 hb2
  have hins : ∀ d, d ∈ ws →
      ((((HDRT.build E su2 n_sites init_qs orb_sym cands).ins 0 d).length : Nat) : Int) =
          ((HDRT.build E su2 n_sites init_qs orb_sym cands).d_step.getD d []).getD 4 0 ∧
        (((if (HDRT.build E su2 n_sites init_qs orb_sym cands).ins 0 d = [] then 0 else 1 : Nat)) :
          Int) = ((HDRT.build E su2 n_sites init_qs orb_sym cands).d_step.getD d []).getD 3 0 :=
    fun d hd => catalog_ins (HDRT.new n_sites init_qs orb_sym) cands hc d (e4 d hd)
  rw [e1, e2]
  refine ⟨kidx_seq_sorted _ ws, ?_, ?_, ?_⟩
  · rw [kidx_seq_length, sum_cast_congr ws _ _ (fun d hd => (hins d hd).1)]
    exact e6
  · rw [kidx_seq_card, sum_cast_congr ws _ _ (fun d hd => (hins d hd).2)]
    exact e5
  · intro k hk
    rw [kidx_seq_count _ ws k (by omega)]
    apply (hins _ _).1
    rw [← List.mem_reverse]
    exact getD_mem_of_lt ws.reverse k 0 (by rw [List.length_reverse]; omega)

end DRTModel

namespace DRTModel

theorem C29_decode_sites_witness :
    (0 < 2 ∧
      (HDRT.build leaf_recoupling true 2 [(⟨1, 1, 0⟩, 1, 1)] [] [(['C'], 1)]).base 0 ≤ 1 ∧
      1 < (HDRT.build leaf_recoupling true 2 [(⟨1, 1, 0⟩, 1, 1)] [] [(['C'], 1)]).base (0 + 1)) ∧
      (((HDRT.build leaf_recoupling true 2 [(⟨1, 1, 0⟩, 1, 1)] [] [(['C'], 1)]).decode 1).2.Pairwise
          (fun a b => a ≤ b) ∧
        ((((HDRT.build leaf_recoupling true 2 [(⟨1, 1, 0⟩, 1, 1)] []
          [(['C'], 1)]).decode 1).2.length : Nat) : Int) = 1 ∧
        ((((HDRT.build leaf_recoupling true 2 [(⟨1, 1, 0⟩, 1, 1)] []
          [(['C'], 1)]).decode 1).2.toFinset.card : Nat) : Int) = 1 ∧
        ∀ k, k < 2 →
          ((((HDRT.build leaf_recoupling true 2 [(⟨1, 1, 0⟩, 1, 1)] []
            [(['C'], 1)]).decode 1).2.count k : Nat) : Int) =
            ((HDRT.build leaf_recoupling true 2 [(⟨1, 1, 0⟩, 1, 1)] [] [(['C'], 1)]).d_step.getD
              (((HDRT.build leaf_recoupling true 2 [(⟨1, 1, 0⟩, 1, 1)] []
                [(['C'], 1)]).decode_steps 1).getD k 0) []).getD 4 0) :=
  ⟨⟨by decide, by decide, by decide⟩,
    C29_decode_sites leaf_recoupling true 2 [(⟨1, 1, 0⟩, 1, 1)] [] [(['C'], 1)] (by decide)
      (by
        intro key hk _
        rw [List.mem_singleton] at hk
        rw [hk]
        decide)
      0 1 ⟨1, 1, 0⟩ 1 1 rfl (by decide) (by decide)⟩

/-- A catalog key without an operator `C` or `D`: the step of the key
`("c", 0)` has the weight delta `1` and the length delta `0`, so the initial
row of weight `1` has one offset, and `operator[](0)` returns the expression
`c` with an empty site-index list: no distinct value where the weight is `1`. -/
theorem C29_weight_without_operator :
    (HDRT.build leaf_recoupling false 1 [(⟨0, 0, 0⟩, 1, 0)] [] [(['c'], 0)]).d_step =
        [[1, 0, 0, 0, 0, 0], [1, 0, 0, 1, 0, 0]] ∧
      (HDRT.build leaf_recoupling false 1 [(⟨0, 0, 0⟩, 1, 0)] [] [(['c'], 0)]).base 0 ≤ 0 ∧
      0 < (HDRT.build leaf_recoupling false 1 [(⟨0, 0, 0⟩, 1, 0)] [] [(['c'], 0)]).base (0 + 1) ∧
      (HDRT.build leaf_recoupling false 1 [(⟨0, 0, 0⟩, 1, 0)] [] [(['c'], 0)]).decode 0 =
        (['c'], []) ∧
      ¬ ((((HDRT.build leaf_recoupling false 1 [(⟨0, 0, 0⟩, 1, 0)] []
        [(['c'], 0)]).decode 0).2.toFinset.card : Nat) : Int) = 1 := by
  refine ⟨by decide, by decide, by decide, by decide, ?_⟩
  have h : (HDRT.build leaf_recoupling false 1 [(⟨0, 0, 0⟩, 1, 0)] [] [(['c'], 0)]).decode 0 =
      (['c'], []) := by decide
  rw [h]
  decide

end DRTModel

namespace DRTModel

/-! ## The workspace of `expo_apply_complex_op` -/

theorem wrap_int_small (w : Nat) (z : Int) (h1 : -(2 : Int) ^ (w - 1) ≤ z)
    (h2 : z < 2 ^ (w - 1)) (hw : 1 ≤ w) : wrap_int w z = z := by
  have p3 : (2 : Int) ^ w = 2 * 2 ^ (w - 1) := by
    have : w = (w - 1) + 1 := by omega
    conv_lhs => rw [this]
    rw [pow_succ]
    ring
  unfold wrap_int
  rw [p3, Int.emod_eq_of_lt (by omega) (by omega)]
  omega

theorem wrap_int_add_left (w : Nat) (a b : Int) :
    wrap_int w (wrap_int w a + b) = wrap_int w (a + b) := by
  unfold wrap_int
  have e : (a + 2 ^ (w - 1)) % 2 ^ w - 2 ^ (w - 1) + b + 2 ^ (w - 1) =
      (a + 2 ^ (w - 1)) % 2 ^ w + b := by ring
  rw [e, Int.emod_add_emod]
  have e2 : a + 2 ^ (w - 1) + b = a + b + 2 ^ (w - 1) := by ring
  rw [e2]

theorem pow_pred_ge (w : Nat) (hw : 8 ≤ w) : (128 : Int) ≤ 2 ^ (w - 1) := by
  have h : (2 : Nat) ^ 7 ≤ 2 ^ (w - 1) := Nat.pow_le_pow_right (by norm_num) (by omega)
  have h2 : (((2 : Nat) ^ 7 : Nat) : Int) ≤ (((2 : Nat) ^ (w - 1) : Nat) : Int) := by
    exact_mod_cast h
  simpa using h2

/-- C32: for an index type of at least 8 bits and a vector of `n >= 0`
elements, `expo_apply_complex_op` passes to `expo_pade` exactly the workspace
`4 * m * m + ideg + 1` of its comment when `n < 4`; when `n >= 4` and
`deflation_max_size >= 1` it calls `expo_krylov` with `1 <= m < n` and a
workspace for which the flag of the input tests stays `0`, so the abort is
not reached, and the workspace is `n * (m + 2) + 5 * (m + 2)^2 + ideg + 1`
whenever that number is representable. -/
theorem C32_workspace_sizes (w : Nat) (n dms : Int) (hw : 8 ≤ w) (hn0 : 0 ≤ n)
    (hnw : n < 2 ^ (w - 1)) (hd : 1 ≤ dms) (hdw : dms < 2 ^ (w - 1)) :
    (n < 4 → expo_apply_complex_op_call w n dms = ExpoCall.pade 6 n (expo_pade_lwork 6 n)) ∧
      (4 ≤ n → ∃ m lwork, expo_apply_complex_op_call w n dms = ExpoCall.krylov n m lwork ∧
        1 ≤ m ∧ m < n ∧ expo_krylov_iflag w n m lwork = 0 ∧
        (n * (m + 2) + 5 * (m + 2) * (m + 2) + 7 < 2 ^ (w - 1) →
          lwork = n * (m + 2) + 5 * (m + 2) ^ 2 + 6 + 1)) := by
  have hp := pow_pred_ge w hw
  constructor
  · intro h4
    unfold expo_apply_complex_op_call expo_pade_lwork
    rw [if_pos h4]
    have e1 : wrap_int w (4 * n) = 4 * n := wrap_int_small w _ (by omega) (by omega) (by omega)
    have hn2 : n * n ≤ 9 := by nlinarith
    have hn3 : 0 ≤ n * n := by nlinarith
    have e2 : wrap_int w (4 * n * n) = 4 * n * n :=
      wrap_int_small w _ (by nlinarith) (by nlinarith) (by omega)
    have e3 : wrap_int w (4 * n * n + 7) = 4 * n * n + 7 :=
      wrap_int_small w _ (by nlinarith) (by nlinarith) (by omega)
    rw [e1, e2, e3]
    congr 1
    ring
  · intro h4
    have ed : wrap_int w dms = dms := wrap_int_small w _ (by omega) (by omega) (by omega)
    have en : wrap_int w (n - 1) = n - 1 := wrap_int_small w _ (by omega) (by omega) (by omega)
    refine ⟨min dms (n - 1), wrap_int w (krylov_core w n (min dms (n - 1)) + 7), ?_, ?_, ?_, ?_, ?_⟩
    · unfold expo_apply_complex_op_call
      rw [if_neg (by omega), ed, en]
    · omega
    · omega
    · unfold expo_krylov_iflag
      simp only
      rw [if_neg (by omega), wrap_int_add_left, if_neg]
      have e : krylov_core w n (min dms (n - 1)) + 6 + 1 =
          krylov_core w n (min dms (n - 1)) + 7 := by ring
      rw [e]
      exact lt_irrefl _
    · intro hfit
      generalize hm : min dms (n - 1) = m at hfit
      have hm1 : 1 ≤ m := by omega
      have hmn : m < n := by omega
      have q1 : 0 ≤ n * (m + 2) := by nlinarith
      have q2 : 0 ≤ 5 * (m + 2) * (m + 2) := by nlinarith
      have q3 : m + 2 ≤ 5 * (m + 2) * (m + 2) := by nlinarith
      have q4 : 5 * (m + 2) ≤ 5 * (m + 2) * (m + 2) := by nlinarith
      have f1 : wrap_int w (m + 2) = m + 2 :=
        wrap_int_small w _ (by omega) (by omega) (by omega)
      have f2 : wrap_int w (n * (m + 2)) = n * (m + 2) :=
        wrap_int_small w _ (by omega) (by omega) (by omega)
      have f3 : wrap_int w (5 * (m + 2)) = 5 * (m + 2) :=
        wrap_int_small w _ (by omega) (by omega) (by omega)
      have f4 : wrap_int w (5 * (m + 2) * (m + 2)) = 5 * (m + 2) * (m + 2) :=
        wrap_int_small w _ (by omega) (by omega) (by omega)
      have f5 : wrap_int w (n * (m + 2) + 5 * (m + 2) * (m + 2)) =
          n * (m + 2) + 5 * (m + 2) * (m + 2) :=
        wrap_int_small w _ (by omega) (by omega) (by omega)
      have f6 : wrap_int w (n * (m + 2) + 5 * (m + 2) * (m + 2) + 7) =
          n * (m + 2) + 5 * (m + 2) * (m + 2) + 7 :=
        wrap_int_small w _ (by omega) (by omega) (by omega)
      unfold krylov_core
      rw [f1, f2, f3, f4, f5, f6]
      ring

theorem C32_workspace_sizes_witness :
    ((8 : Nat) ≤ 32 ∧ (0 : Int) ≤ 10 ∧ (10 : Int) < 2 ^ (32 - 1) ∧ (1 : Int) ≤ 20 ∧
      (20 : Int) < 2 ^ (32 - 1)) ∧
      ((10 : Int) < 4 →
        expo_apply_complex_op_call 32 10 20 = ExpoCall.pade 6 10 (expo_pade_lwork 6 10)) ∧
      ((4 : Int) ≤ 10 → ∃ m lwork,
        expo_apply_complex_op_call 32 10 20 = ExpoCall.krylov 10 m lwork ∧
        1 ≤ m ∧ m < 10 ∧ expo_krylov_iflag 32 10 m lwork = 0 ∧
        (10 * (m + 2) + 5 * (m + 2) * (m + 2) + 7 < 2 ^ (32 - 1) →
          lwork = 10 * (m + 2) + 5 * (m + 2) ^ 2 + 6 + 1)) :=
  ⟨⟨by decide, by decide, by decide, by decide, by decide⟩,
    C32_workspace_sizes 32 10 20 (by decide) (by decide) (by decide) (by decide) (by decide)⟩

end DRTModel

namespace DRTModel

/-! ## The constructor `DRT(a, b, c)` -/

/-- For `b >= 0` the constructor `DRT(a, b, c)` passes the site count
`a + b + c` and a label whose initial row is `(a, b, c)`. -/
theorem DRT_abc_args_nonneg (a b c : Int) (ipg : Nat) (ha : 0 ≤ a) (hb : 0 ≤ b) (hc : 0 ≤ c) :
    (((DRT.abc_args a b c ipg).1 : Nat) : Int) = a + b + c ∧
      (DRT.abc_args a b c ipg).2.map (init_row (DRT.abc_args a b c ipg).1) =
        [((a, b, c), ipg)] := by
  have e : ((a + (b.natAbs : Int) + c).toNat : Int) = a + b + c := by omega
  refine ⟨e, ?_⟩
  show [init_row (a + (b.natAbs : Int) + c).toNat ⟨a + a + b, b, ipg⟩] = _
  unfold init_row
  simp only [e, Int.shiftRight_eq_div_pow]
  have e1 : (a + a + b - b) / ((2 ^ 1 : Nat) : Int) = a := by
    have : ((2 ^ 1 : Nat) : Int) = 2 := by norm_num
    rw [this]
    omega
  have e2 : (a + a + b + b) / ((2 ^ 1 : Nat) : Int) = a + b := by
    have : ((2 ^ 1 : Nat) : Int) = 2 := by norm_num
    rw [this]
    omega
  rw [e1, e2]
  have e3 : a + b + c - (a + b) = c := by ring
  rw [e3]

/-- C35 (failing input): `DRT(1, -1, 0)` in the SZ scheme. The constructor
passes the site count `1 + |-1| + 0 = 2` and the label `S(1, -1, 0)`; the
initial row pushed for this label, which is row `0` of the built table, is
`(1, -1, 2)` and not `(1, -1, 0)`. -/
theorem C35_negative_b_row :
    DRT.abc_args 1 (-1) 0 0 = (2, [⟨1, -1, 0⟩]) ∧
      (DRT.build_abc false 1 (-1) 0 0 []).n_sites = 2 ∧
      init_row 2 ⟨1, -1, 0⟩ = ((1, -1, 2), 0) ∧
      (DRT.build_abc false 1 (-1) 0 0 []).abc.getD 0 (0, 0, 0) = (1, -1, 2) ∧
      (DRT.build_abc false 1 (-1) 0 0 []).abc.getD 0 (0, 0, 0) ≠ (1, -1, 0) := by
  decide

end DRTModel

namespace DRTModel

/-! ## The symmetry test of `fill_integral_data` -/

/-- C37 (failing input): the SU2 operator table for 2 sites with the initial
label `(N=1, 2S=1, weight 1, length 1)` and the catalog `("C", 1), ("D", 1)`;
one scheme with the pattern `{0}` and the expressions `"C"` and `"D"`, so
that `expr_mp` holds the key `("C", {0})` with the number `0` and the key
`("D", {0})` with the number `1`; one data set with the expression `"C"` and
the entry `(1)`. The map `jis[0]` of the entry's own pattern carries the
entry's label `0`, the map `jis[1]` of the other pattern is empty, and the
call ends with the symmetry error. -/
theorem C37_check_reads_last_pattern :
    expr_mp [{ index_patterns := [[0]], data := [[['C'], ['D']]] }] =
        [(['C'], [0]), (['D'], [0])] ∧
      key_index (expr_mp [{ index_patterns := [[0]], data := [[['C'], ['D']]] }])
        (['C'], idx_mat [1]) = some 0 ∧
      entry_pg (HDRT.build leaf_recoupling true 2 [(⟨1, 1, 0⟩, 1, 1)] []
        [(['C'], 1), (['D'], 1)]) [1] = 0 ∧
      setup_all leaf_recoupling
          (HDRT.build leaf_recoupling true 2 [(⟨1, 1, 0⟩, 1, 1)] [] [(['C'], 1), (['D'], 1)])
          (expr_mp [{ index_patterns := [[0]], data := [[['C'], ['D']]] }]) =
        Except.ok [([1], [(0, 0, 0)]), ([2], [])] ∧
      jis_find [(0, 0, 0)] 0 = some (0, 0) ∧
      carried (HDRT.build leaf_recoupling true 2 [(⟨1, 1, 0⟩, 1, 1)] []
          [(['C'], 1), (['D'], 1)])
        (pattern_q (HDRT.build leaf_recoupling true 2 [(⟨1, 1, 0⟩, 1, 1)] []
          [(['C'], 1), (['D'], 1)]) [1]) 0 = true ∧
      fill_integral_data leaf_recoupling leaf_count_cds
          (HDRT.build leaf_recoupling true 2 [(⟨1, 1, 0⟩, 1, 1)] [] [(['C'], 1), (['D'], 1)])
          [{ index_patterns := [[0]], data := [[['C'], ['D']]] }]
          [({ exprs := [['C']], indices := [[1]], data := [[5]] } : GeneralFCIDUMP Int)] =
        Except.error "Small integral elements violating point group symmetry!" :=
  ⟨by decide, by decide, by decide, rfl, by decide, by decide, rfl⟩

/-- C36 (failing input): on the table, the scheme and the data set of one
entry `(1)` with the coefficient `5` described at C37, the index tuple is
sorted and no two entries share an offset; `HDRT::fill_data` returns the
buffer `[0, 5]`, while `fill_integral_data` ends with the symmetry error. -/
theorem C36_integral_data_differs :
    ([1] : List Nat).Pairwise (fun a b => a ≤ b) ∧
      HDRT.index leaf_recoupling
          (HDRT.build leaf_recoupling true 2 [(⟨1, 1, 0⟩, 1, 1)] [] [(['C'], 1), (['D'], 1)])
          ['C'] [1] = Except.ok 1 ∧
      HDRT.fill_data leaf_recoupling leaf_count_cds
          (HDRT.build leaf_recoupling true 2 [(⟨1, 1, 0⟩, 1, 1)] [] [(['C'], 1), (['D'], 1)])
          [['C']] [[1]] [[(5 : Int)]] = Except.ok [0, 5] ∧
      fill_integral_data leaf_recoupling leaf_count_cds
          (HDRT.build leaf_recoupling true 2 [(⟨1, 1, 0⟩, 1, 1)] [] [(['C'], 1), (['D'], 1)])
          [{ index_patterns := [[0]], data := [[['C'], ['D']]] }]
          [({ exprs := [['C']], indices := [[1]], data := [[5]] } : GeneralFCIDUMP Int)] =
        Except.error "Small integral elements violating point group symmetry!" :=
  ⟨by decide, rfl, rfl, rfl⟩

end DRTModel

namespace DRTModel

/-! ## `CSRMatrixRef::from_dense` -/

/-- C39 (failing input): the dense matrix of one row and one column with
the element `1e-30` and the default cutoff `TINY = 1e-20`. The element is
counted by the first loop, so `nnz = 1` and `rows = {0, 1}`, but it is not
stored, so `cols[0]` and `data[0]` keep the contents of the allocated
memory; when these are `0` and `7`, `to_dense` writes `7` where the matrix
of the stored elements holds `0`. -/
theorem C39_nnz_counts_nonzeros (gd : Nat → ℚ) (gc gr : Nat → Nat) :
    CSRMatrixRef.from_dense gd gc gr ⟨1, 1, [1 / 1000000000000000000000000000000]⟩ TINY =
        ⟨1, 1, 1, [gd 0], [0, 1], [gc 0]⟩ ∧
      stored_count ⟨1, 1, [1 / 1000000000000000000000000000000]⟩ TINY = 0 ∧
      (CSRMatrixRef.from_dense (fun _ => 7) (fun _ => 0) gr
        ⟨1, 1, [1 / 1000000000000000000000000000000]⟩ TINY).to_dense = [7] := by
  have h : ¬ (|(1 / 1000000000000000000000000000000 : ℚ)| > TINY) := by
    unfold TINY
    rw [abs_of_pos (by norm_num)]
    norm_num
  have h2 : ¬ (TINY < |(1000000000000000000000000000000 : ℚ)⁻¹|) := by
    intro hc
    apply h
    rw [one_div]
    exact hc
  have h3 : |(1000000000000000000000000000000 : ℚ)⁻¹| ≤ TINY := not_lt.mp h2
  have e : CSRMatrixRef.from_dense gd gc gr ⟨1, 1, [1 / 1000000000000000000000000000000]⟩
      TINY = ⟨1, 1, 1, [gd 0], [0, 1], [gc 0]⟩ := by
    simp [CSRMatrixRef.from_dense, CSRMatrixRef.allocate, from_dense_nnz, from_dense_loop,
      from_dense_row, MatrixRef.get, List.range, List.range.loop, h2, h3]
  refine ⟨e, ?_, ?_⟩
  · simp [stored_count, MatrixRef.get, List.range, List.range.loop, h2, h3]
  · have e2 : CSRMatrixRef.from_dense (fun _ => 7) (fun _ => 0) gr
        ⟨1, 1, [1 / 1000000000000000000000000000000]⟩ TINY = ⟨1, 1, 1, [7], [0, 1], [0]⟩ := by
      simp [CSRMatrixRef.from_dense, CSRMatrixRef.allocate, from_dense_nnz, from_dense_loop,
        from_dense_row, MatrixRef.get, List.range, List.range.loop, h2, h3]
    rw [e2]
    simp [CSRMatrixRef.to_dense, CSRMatrixRef.row_end, List.range, List.range.loop, List.range']

end DRTModel

namespace DRTModel

/-! ## `SU2Matrix::build_matrix` on the expressions of the specification -/

theorem digit_char_toNat (d : Nat) (h : d < 10) : (digit_char d).toNat = 48 + d := by
  interval_cases d <;> rfl

theorem is_digit_digit_char (d : Nat) (h : d < 10) : is_digit (digit_char d) = true := by
  unfold is_digit
  rw [digit_char_toNat d h]
  simp only [Bool.and_eq_true, decide_eq_true_eq]
  omega

theorem digit_char_ne (d : Nat) (h : d < 10) :
    digit_char d ≠ '(' ∧ digit_char d ≠ ')' ∧ digit_char d ≠ '+' := by
  interval_cases d <;> decide

theorem scan_plus_digits (ds : List Nat) (hd : ∀ d, d ∈ ds → d < 10) (rest : List Char)
    (depth : Int) :
    scan_plus (ds.map digit_char ++ rest) depth = ds.length + scan_plus rest depth := by
  induction ds with
  | nil => simp
  | cons d ds ih =>
    obtain ⟨h1, h2, h3⟩ := digit_char_ne d (hd d (List.mem_cons_self _ _))
    rw [List.map_cons, List.cons_append, scan_plus, if_neg h1, if_neg h2,
      if_neg (fun h => h3 h.1), ih (fun x hx => hd x (List.mem_cons_of_mem _ hx)),
      List.length_cons]
    omega

theorem wf_node (a b : CoupledExpr) (ds : List Nat) (h : (CoupledExpr.node a b ds).wf = true) :
    a.wf = true ∧ b.wf = true ∧ ds ≠ [] ∧ ∀ d, d ∈ ds → d < 10 := by
  simp only [CoupledExpr.wf, Bool.and_eq_true, decide_eq_true_eq, List.all_eq_true] at h
  exact ⟨h.1.1.1, h.1.1.2, h.1.2, h.2⟩

/-- The first loop of `build_matrix` runs through a complete expression that
it meets at depth `1` or deeper. -/
theorem scan_plus_through (e : CoupledExpr) (h : e.wf = true) :
    ∀ (depth : Int) (rest : List Char), 1 ≤ depth →
      scan_plus (e.render ++ rest) depth = e.render.length + scan_plus rest depth := by
  induction e with
  | C =>
    intro depth rest _
    show scan_plus ('C' :: rest) depth = 1 + _
    rw [scan_plus, if_neg (by decide), if_neg (by decide), if_neg (fun h => absurd h.1 (by decide))]
  | D =>
    intro depth rest _
    show scan_plus ('D' :: rest) depth = 1 + _
    rw [scan_plus, if_neg (by decide), if_neg (by decide), if_neg (fun h => absurd h.1 (by decide))]
  | node a b ds iha ihb =>
    intro depth rest hdep
    obtain ⟨ha, hb, _, hd⟩ := wf_node a b ds h
    have e1 : (CoupledExpr.node a b ds).render ++ rest =
        '(' :: (a.render ++ ('+' :: (b.render ++ (')' :: (ds.map digit_char ++ rest))))) := by
      simp [CoupledExpr.render]
    have e2 : (CoupledExpr.node a b ds).render.length =
        1 + a.render.length + 1 + b.render.length + 1 + ds.length := by
      simp [CoupledExpr.render]
      omega
    rw [e1, e2, scan_plus, if_pos rfl, iha ha (depth + 1) _ (by omega), scan_plus,
      if_neg (by decide), if_neg (by decide), if_neg (fun h => by omega),
      ihb hb (depth + 1) _ (by omega), scan_plus, if_neg (by decide), if_pos rfl,
      Int.add_sub_cancel, scan_plus_digits ds hd]
    omega

/-- On `(A+B)D` the first loop stops at the `+` after `A`. -/
theorem scan_plus_node (a b : CoupledExpr) (ds : List Nat)
    (h : (CoupledExpr.node a b ds).wf = true) :
    scan_plus (CoupledExpr.node a b ds).render 0 = 1 + a.render.length := by
  obtain ⟨ha, _, _, _⟩ := wf_node a b ds h
  have e1 : (CoupledExpr.node a b ds).render =
      '(' :: (a.render ++ ('+' :: (b.render ++ (')' :: ds.map digit_char)))) := by
    simp [CoupledExpr.render]
  rw [e1, scan_plus, if_pos rfl, scan_plus_through a ha (0 + 1) _ (by omega), scan_plus,
    if_neg (by decide), if_neg (by decide), if_pos ⟨rfl, by norm_num⟩]
  omega

end DRTModel

namespace DRTModel

theorem wrap_int_modEq (w : Nat) (z : Int) : wrap_int w z ≡ z [ZMOD 2 ^ w] := by
  unfold wrap_int
  have h : (z + 2 ^ (w - 1)) % 2 ^ w ≡ z + 2 ^ (w - 1) [ZMOD 2 ^ w] := Int.mod_modEq _ _
  have h2 := Int.ModEq.sub_right (2 ^ (w - 1)) h
  simpa using h2

theorem wrap_int_congr (w : Nat) (x y : Int) (h : x ≡ y [ZMOD 2 ^ w]) :
    wrap_int w x = wrap_int w y := by
  unfold wrap_int
  have h2 : x + 2 ^ (w - 1) ≡ y + 2 ^ (w - 1) [ZMOD 2 ^ w] := Int.ModEq.add_right _ h
  rw [h2]

theorem wrap_int_16_of_32 (x y : Int) (h : x ≡ y [ZMOD 2 ^ 32]) :
    wrap_int 16 x = wrap_int 16 y := by
  apply wrap_int_congr
  exact Int.ModEq.of_dvd (by norm_num) h

/-- The value of a digit string given with the last digit first. -/
theorem digits_value_reverse (rs : List Nat) :
    digits_value rs.reverse = rs.foldr (fun d v => d + 10 * v) 0 := by
  unfold digits_value
  rw [List.foldl_reverse]
  congr 1
  funext d v
  omega

/-- The second loop of `build_matrix` on a run of digits followed by a
character that is not a digit: `dq` gains the value of the digits, modulo
`2^32`, and `iy` is the index of that character. -/
theorem dq_loop_digits (rs : List Nat) (hd : ∀ d, d ∈ rs → d < 10) (c : Char)
    (hc : is_digit c = false) (rest : List Char) :
    ∀ k dq : Int,
      (dq_loop (rs.map digit_char ++ c :: rest) k dq).1 ≡
          dq + k * ((rs.foldr (fun d v => d + 10 * v) 0 : Nat) : Int) [ZMOD 2 ^ 32] ∧
        (dq_loop (rs.map digit_char ++ c :: rest) k dq).2 = rest.length := by
  induction rs with
  | nil =>
    intro k dq
    simp only [List.map_nil, List.nil_append, List.foldr_nil, Nat.cast_zero, mul_zero, add_zero]
    rw [dq_loop, hc]
    exact ⟨Int.ModEq.refl _, rfl⟩
  | cons d rs ih =>
    intro k dq
    have hd0 := hd d (List.mem_cons_self _ _)
    rw [List.map_cons, List.cons_append, dq_loop, is_digit_digit_char d hd0, if_pos rfl,
      digit_char_toNat d hd0]
    obtain ⟨i1, i2⟩ := ih (fun x hx => hd x (List.mem_cons_of_mem _ hx))
      (wrap_int 32 (k * 10)) (wrap_int 32 (dq + wrap_int 32 ((((48 + d : Nat) : Int) - 48) * k)))
    refine ⟨?_, i2⟩
    refine i1.trans ?_
    have a1 : wrap_int 32 (k * 10) ≡ k * 10 [ZMOD 2 ^ 32] := wrap_int_modEq _ _
    have a2 : wrap_int 32 ((((48 + d : Nat) : Int) - 48) * k) ≡ (d : Int) * k [ZMOD 2 ^ 32] := by
      refine (wrap_int_modEq _ _).trans ?_
      have : (((48 + d : Nat) : Int) - 48) = (d : Int) := by push_cast; ring
      rw [this]
    have a3 : wrap_int 32 (dq + wrap_int 32 ((((48 + d : Nat) : Int) - 48) * k)) ≡
        dq + (d : Int) * k [ZMOD 2 ^ 32] :=
      (wrap_int_modEq _ _).trans (Int.ModEq.add_left _ a2)
    have a4 := Int.ModEq.add a3 (Int.ModEq.mul_right
      ((rs.foldr (fun d v => d + 10 * v) 0 : Nat) : Int) a1)
    refine a4.trans ?_
    rw [List.foldr_cons]
    push_cast
    have : dq + (d : Int) * k + k * 10 * ((rs.foldr (fun d v => d + 10 * v) 0 : Nat) : Int) =
        dq + k * ((d : Int) + 10 * ((rs.foldr (fun d v => d + 10 * v) 0 : Nat) : Int)) := by
      ring
    rw [this]

theorem is_digit_paren : is_digit ')' = false := by decide

/-- On `(A+B)D` the second loop of `build_matrix` returns the index of the
closing bracket, and a `dq` that the conversion to `int16_t` maps to the
same value as the value of `D`. -/
theorem dq_loop_node (a b : CoupledExpr) (ds : List Nat)
    (h : (CoupledExpr.node a b ds).wf = true) :
    wrap_int 16 (dq_loop (CoupledExpr.node a b ds).render.reverse 1 0).1 =
        wrap_int 16 (digits_value ds) ∧
      (dq_loop (CoupledExpr.node a b ds).render.reverse 1 0).2 =
        1 + a.render.length + 1 + b.render.length := by
  obtain ⟨_, _, _, hd⟩ := wf_node a b ds h
  have e1 : (CoupledExpr.node a b ds).render.reverse =
      ds.reverse.map digit_char ++ ')' :: (['('] ++ a.render ++ ['+'] ++ b.render).reverse := by
    simp [CoupledExpr.render]
  obtain ⟨i1, i2⟩ := dq_loop_digits ds.reverse (fun d hx => hd d (List.mem_reverse.mp hx)) ')'
    is_digit_paren (['('] ++ a.render ++ ['+'] ++ b.render).reverse 1 0
  rw [e1]
  constructor
  · apply wrap_int_16_of_32
    refine i1.trans ?_
    rw [← digits_value_reverse, List.reverse_reverse]
    simp
  · rw [i2]
    simp
    omega

theorem substr_first (a rest : List Char) :
    substr ('(' :: (a ++ rest)) 1 (((1 + a.length : Nat) : Int) - 1) = Except.ok a := by
  unfold substr
  rw [if_neg (by simp), if_neg (by omega)]
  have : (((1 + a.length : Nat) : Int) - 1).toNat = a.length := by omega
  rw [this]
  simp

theorem substr_second (a b rest : List Char) :
    substr ('(' :: (a ++ '+' :: (b ++ rest))) (1 + a.length + 1)
        (((1 + a.length + 1 + b.length : Nat) : Int) - ((1 + a.length : Nat) : Int) - 1) =
      Except.ok b := by
  unfold substr
  rw [if_neg (by simp; omega), if_neg (by omega)]
  have : (((1 + a.length + 1 + b.length : Nat) : Int) - ((1 + a.length : Nat) : Int) - 1).toNat =
      b.length := by omega
  rw [this]
  have e : List.drop (1 + a.length + 1) ('(' :: (a ++ '+' :: (b ++ rest))) = b ++ rest := by
    have : 1 + a.length + 1 = (a.length + 1) + 1 := by omega
    rw [this, List.drop_succ_cons]
    have h2 : a ++ '+' :: (b ++ rest) = (a ++ ['+']) ++ (b ++ rest) := by simp
    rw [h2]
    have h3 : a.length + 1 = (a ++ ['+']).length := by simp
    rw [h3, List.drop_left]
  rw [e]
  simp

end DRTModel

namespace DRTModel

theorem render_length_pos (e : CoupledExpr) : 0 < e.render.length := by
  cases e <;> simp [CoupledExpr.render]

theorem render_node_form (a b : CoupledExpr) (ds : List Nat) :
    (CoupledExpr.node a b ds).render =
      '(' :: (a.render ++ '+' :: (b.render ++ (')' :: ds.map digit_char))) := by
  simp [CoupledExpr.render]

theorem render_node_length (a b : CoupledExpr) (ds : List Nat) :
    (CoupledExpr.node a b ds).render.length =
      1 + a.render.length + 1 + b.render.length + 1 + ds.length := by
  simp [CoupledExpr.render]
  omega

/-- With more nested calls allowed than the string is long, `build_matrix`
returns on every expression of the specification the matrix that the
specification assigns to it. -/
theorem build_matrix_fuel_eval {α : Type} (O : SU2Ops α) (e : CoupledExpr) (h : e.wf = true) :
    ∀ fuel, e.render.length < fuel → build_matrix_fuel O fuel e.render = Except.ok (e.eval O) := by
  induction e with
  | C =>
    intro fuel hf
    obtain ⟨f, rfl⟩ : ∃ f, fuel = f + 1 := ⟨fuel - 1, by omega⟩
    rfl
  | D =>
    intro fuel hf
    obtain ⟨f, rfl⟩ : ∃ f, fuel = f + 1 := ⟨fuel - 1, by omega⟩
    rfl
  | node a b ds iha ihb =>
    intro fuel hf
    obtain ⟨f, rfl⟩ : ∃ f, fuel = f + 1 := ⟨fuel - 1, by omega⟩
    obtain ⟨ha, hb, _, hd⟩ := wf_node a b ds h
    have hlen := render_node_length a b ds
    have hscan := scan_plus_node a b ds h
    obtain ⟨hdq, hiy⟩ := dq_loop_node a b ds h
    have hform := render_node_form a b ds
    have s1 : substr (CoupledExpr.node a b ds).render 1
        (((scan_plus (CoupledExpr.node a b ds).render 0 : Nat) : Int) - 1) =
        Except.ok a.render := by
      rw [hscan, hform]
      exact substr_first _ _
    have s2 : substr (CoupledExpr.node a b ds).render
        (scan_plus (CoupledExpr.node a b ds).render 0 + 1)
        ((((dq_loop (CoupledExpr.node a b ds).render.reverse 1 0).2 : Nat) : Int) -
          ((scan_plus (CoupledExpr.node a b ds).render 0 : Nat) : Int) - 1) =
        Except.ok b.render := by
      rw [hscan, hiy, hform]
      exact substr_second _ _ _
    have n1 : (CoupledExpr.node a b ds).render ≠ [] := by rw [hform]; simp
    have n2 : (CoupledExpr.node a b ds).render ≠ ['C'] := by rw [hform]; simp
    have n3 : (CoupledExpr.node a b ds).render ≠ ['D'] := by rw [hform]; simp
    rw [build_matrix_fuel, if_neg n1, if_neg n2, if_neg n3]
    simp only [s1, s2, iha ha f (by omega), ihb hb f (by omega)]
    show Except.ok (O.mul _ _ _) = Except.ok (O.mul _ _ _)
    rw [hdq]

theorem substr_length (s : List Char) (pos : Nat) (len : Int) (r : List Char)
    (h : substr s pos len = Except.ok r) : r.length + pos ≤ s.length := by
  unfold substr at h
  split_ifs at h with h1 h2
  · simp only [Except.ok.injEq] at h
    rw [← h, List.length_drop]
    omega
  · simp only [Except.ok.injEq] at h
    rw [← h, List.length_take, List.length_drop]
    omega

/-- The function `build_matrix` never uses up the nested calls it is allowed:
every nested call is on a string that is shorter by at least one character. -/
theorem build_matrix_fuel_total {α : Type} (O : SU2Ops α) :
    ∀ fuel expr, expr.length < fuel → build_matrix_fuel O fuel expr ≠ Except.error "fuel" := by
  intro fuel
  induction fuel with
  | zero => intro expr h; omega
  | succ f ih =>
    intro expr hf
    rw [build_matrix_fuel]
    split_ifs with h1 h2 h3
    · intro hc; cases hc
    · intro hc; cases hc
    · intro hc; cases hc
    · have hpos : 0 < expr.length := List.length_pos.mpr h1
      simp only
      cases hs1 : substr expr 1 ((scan_plus expr 0 : Int) - 1) with
      | error e =>
        simp only
        unfold substr at hs1
        split_ifs at hs1
        · cases hs1
          intro hc
          injection hc with hc2
          exact absurd hc2 (by decide)
      | ok ea =>
        simp only
        have l1 := substr_length _ _ _ _ hs1
        have i1 := ih ea (by omega)
        cases hb1 : build_matrix_fuel O f ea with
        | error e =>
          simp only
          intro hc
          rw [hb1] at i1
          exact i1 hc
        | ok x =>
          simp only
          cases hs2 : substr expr (scan_plus expr 0 + 1)
              (((dq_loop expr.reverse 1 0).2 : Int) - (scan_plus expr 0 : Int) - 1) with
          | error e =>
            simp only
            unfold substr at hs2
            split_ifs at hs2
            · cases hs2
              intro hc
              injection hc with hc2
              exact absurd hc2 (by decide)
          | ok eb =>
            simp only
            have l2 := substr_length _ _ _ _ hs2
            have i2 := ih eb (by omega)
            cases hb2 : build_matrix_fuel O f eb with
            | error e =>
              simp only
              intro hc
              rw [hb2] at i2
              exact i2 hc
            | ok y =>
              simp only
              intro hc; cases hc

/-- C40: on an expression `(A+B)D` of the specification, the first loop of
`build_matrix` stops at the `+` between `A` and `B`, and `build_matrix`
returns `multiply(build_matrix(A), build_matrix(B), value of D)`; the strings
`A` and `B` of the nested calls are shorter than the expression, and on no
string at all does `build_matrix` use up its nested calls. -/
theorem C40_build_matrix_splits {α : Type} (O : SU2Ops α) (a b : CoupledExpr) (ds : List Nat)
    (h : (CoupledExpr.node a b ds).wf = true) :
    (CoupledExpr.node a b ds).render.drop (scan_plus (CoupledExpr.node a b ds).render 0) =
        '+' :: (b.render ++ (')' :: ds.map digit_char)) ∧
      (∃ xa xb, build_matrix O a.render = Except.ok xa ∧
        build_matrix O b.render = Except.ok xb ∧
        build_matrix O (CoupledExpr.node a b ds).render =
          Except.ok (O.multiply xa xb (digits_value ds))) ∧
      a.render.length < (CoupledExpr.node a b ds).render.length ∧
      b.render.length < (CoupledExpr.node a b ds).render.length ∧
      ∀ expr : List Char, build_matrix O expr ≠ Except.error "fuel" := by
  obtain ⟨ha, hb, _, _⟩ := wf_node a b ds h
  have hlen := render_node_length a b ds
  refine ⟨?_, ⟨a.eval O, b.eval O, ?_, ?_, ?_⟩, by omega, by omega, ?_⟩
  · rw [scan_plus_node a b ds h, render_node_form]
    have e : 1 + a.render.length = a.render.length + 1 := by omega
    rw [e, List.drop_succ_cons, List.drop_left]
  · exact build_matrix_fuel_eval O a ha _ (by omega)
  · exact build_matrix_fuel_eval O b hb _ (by omega)
  · exact build_matrix_fuel_eval O _ h _ (by omega)
  · intro expr
    exact build_matrix_fuel_total O _ expr (by omega)

theorem C40_build_matrix_splits_witness :
    (CoupledExpr.node (CoupledExpr.node CoupledExpr.C CoupledExpr.D [0]) CoupledExpr.C [1]).wf =
        true ∧
      ((CoupledExpr.node (CoupledExpr.node CoupledExpr.C CoupledExpr.D [0]) CoupledExpr.C
          [1]).render.drop
          (scan_plus (CoupledExpr.node (CoupledExpr.node CoupledExpr.C CoupledExpr.D [0])
            CoupledExpr.C [1]).render 0) =
          '+' :: (CoupledExpr.C.render ++ (')' :: [1].map digit_char)) ∧
        (∃ xa xb : Nat,
          build_matrix (⟨fun i => i, fun x y z => x + y + z.toNat⟩ : SU2Ops Nat)
            (CoupledExpr.node CoupledExpr.C CoupledExpr.D [0]).render = Except.ok xa ∧
          build_matrix (⟨fun i => i, fun x y z => x + y + z.toNat⟩ : SU2Ops Nat)
            CoupledExpr.C.render = Except.ok xb ∧
          build_matrix (⟨fun i => i, fun x y z => x + y + z.toNat⟩ : SU2Ops Nat)
            (CoupledExpr.node (CoupledExpr.node CoupledExpr.C CoupledExpr.D [0]) CoupledExpr.C
              [1]).render =
            Except.ok (SU2Ops.multiply (⟨fun i => i, fun x y z => x + y + z.toNat⟩ : SU2Ops Nat)
              xa xb (digits_value [1]))) ∧
        (CoupledExpr.node CoupledExpr.C CoupledExpr.D [0]).render.length <
          (CoupledExpr.node (CoupledExpr.node CoupledExpr.C CoupledExpr.D [0]) CoupledExpr.C
            [1]).render.length ∧
        CoupledExpr.C.render.length <
          (CoupledExpr.node (CoupledExpr.node CoupledExpr.C CoupledExpr.D [0]) CoupledExpr.C
            [1]).render.length ∧
        ∀ expr : List Char,
          build_matrix (⟨fun i => i, fun x y z => x + y + z.toNat⟩ : SU2Ops Nat) expr ≠
            Except.error "fuel") :=
  ⟨by decide,
    C40_build_matrix_splits (⟨fun i => i, fun x y z => x + y + z.toNat⟩ : SU2Ops Nat)
      (CoupledExpr.node CoupledExpr.C CoupledExpr.D [0]) CoupledExpr.C [1] (by decide)⟩

end DRTModel

namespace DRTModel

/-! ## The scratch buffers of `build_operator_matrices` -/

theorem two_get_put {α : Type} (x : Two α) (i : Nat) (v : List α) : (x.put i v).get i = v := by
  unfold Two.get Two.put
  split_ifs <;> rfl

theorem slot_eq_iff (s s2 : Scratch) (i : Nat) :
    s.slot i = s2.slot i ↔
      s.xjh.get i = s2.xjh.get i ∧ s.xjk.get i = s2.xjk.get i ∧ s.xph.get i = s2.xph.get i ∧
        s.xpk.get i = s2.xpk.get i ∧ s.xhv.get i = s2.xhv.get i := by
  unfold Scratch.slot
  simp only [Prod.mk.injEq]

/-- Clearing the other buffers makes two states equal that agree on the
buffers `[pi]`. -/
theorem clear_other_eq (s s2 : Scratch) (pi : Nat) (hpi : pi ≤ 1) (h : s.slot pi = s2.slot pi) :
    s.clear (pi ^^^ 1) = s2.clear (pi ^^^ 1) := by
  rw [slot_eq_iff] at h
  obtain ⟨h1, h2, h3, h4, h5⟩ := h
  obtain ⟨a1, a2⟩ := s
  obtain ⟨b1, b2⟩ := s2
  rcases Nat.le_one_iff_eq_zero_or_eq_one.mp hpi with hp | hp
  · subst hp
    simp only [Two.get, if_true] at h1 h2 h3 h4 h5
    simp only [Scratch.clear, Two.put, Scratch.mk.injEq]
    refine ⟨?_, ?_, ?_, ?_, ?_⟩ <;> simp [*]
  · subst hp
    simp only [Two.get, if_false, one_ne_zero] at h1 h2 h3 h4 h5
    simp only [Scratch.clear, Two.put, Scratch.mk.injEq]
    refine ⟨?_, ?_, ?_, ?_, ?_⟩ <;> simp [*]

theorem push_slot (s : Scratch) (i jh jk ph pk : Nat) (hv : ℚ) :
    (s.push i jh jk ph pk hv).slot i =
      ((s.slot i).1 ++ [jh], (s.slot i).2.1 ++ [jk], (s.slot i).2.2.1 ++ [ph],
        (s.slot i).2.2.2.1 ++ [pk], (s.slot i).2.2.2.2 ++ [hv]) := by
  unfold Scratch.slot Scratch.push
  simp only [two_get_put]

theorem clear_slot (s : Scratch) (i : Nat) : (s.clear i).slot i = ([], [], [], [], []) := by
  unfold Scratch.slot Scratch.clear
  simp only [two_get_put]

theorem init_fold_slot (hdrt : HDRT) (imk : Nat) (xf : ℚ) (l : List Nat) :
    ∀ s s2 : Scratch, s.slot 0 = s2.slot 0 →
      (l.foldl (fun s1 i =>
        s1.push 0 i imk
          (if i ≠ 0 then (s1.xph.get 0).getLast?.getD 0 + hdrt.x (i - 1) hdrt.nd else 0) 0 xf)
        s).slot 0 =
      (l.foldl (fun s1 i =>
        s1.push 0 i imk
          (if i ≠ 0 then (s1.xph.get 0).getLast?.getD 0 + hdrt.x (i - 1) hdrt.nd else 0) 0 xf)
        s2).slot 0 := by
  induction l with
  | nil => intro s s2 h; exact h
  | cons i l ih =>
    intro s s2 h
    rw [List.foldl_cons, List.foldl_cons]
    apply ih
    have h3 : s.xph.get 0 = s2.xph.get 0 := ((slot_eq_iff s s2 0).mp h).2.2.1
    rw [push_slot, push_slot, h, h3]

/-- The buffers `[0]` after the start of the body do not depend on the
contents of the buffers before. -/
theorem bra_init_slot (hdrt : HDRT) (imk : Nat) (xf : ℚ) (s s2 : Scratch) :
    (bra_init hdrt imk xf s).slot 0 = (bra_init hdrt imk xf s2).slot 0 := by
  unfold bra_init
  apply init_fold_slot
  rw [clear_slot, clear_slot]

/-- One round of the descent gives the same state from two states that
agree on the buffers `[pi]`. -/
theorem bra_site_eq (drt : DRT) (hdrt : HDRT) (factors : List ℚ) (factor_strides : List Int)
    (kjis : List Nat) (hm : List (List (List (List HmItem)))) (s s2 : Scratch)
    (pi jbra pbra k : Nat) (hpi : pi ≤ 1) (h : s.slot pi = s2.slot pi) :
    bra_site drt hdrt factors factor_strides kjis hm (s, pi, jbra, pbra) k =
      bra_site drt hdrt factors factor_strides kjis hm (s2, pi, jbra, pbra) k := by
  unfold bra_site
  simp only [clear_other_eq s s2 pi hpi h]

/-- C31: the rows emitted for a bra index do not depend on the contents of
the worker's scratch buffers before the index is processed: the body started
with the contents `s` and the body started with the contents `s2` emit the
same column indices and values for every coefficient buffer. -/
theorem C31_scratch_independent (drt : DRT) (hdrt : HDRT) (factors : List ℚ)
    (factor_strides : List Int) (kjis : List Nat) (hm : List (List (List (List HmItem))))
    (ints : List (List ℚ)) (imb imk : Nat) (xf : ℚ) (s s2 : Scratch) (ibra : Nat) :
    bra_row drt hdrt factors factor_strides kjis hm ints imb imk xf s ibra =
      bra_row drt hdrt factors factor_strides kjis hm ints imb imk xf s2 ibra := by
  have h0 := bra_init_slot hdrt imk xf s s2
  unfold bra_row
  cases hks : (List.range drt.n_sites).reverse with
  | nil =>
    simp only [List.foldl_nil]
    obtain ⟨_, _, h3, h4, h5⟩ := (slot_eq_iff _ _ 0).mp h0
    rw [h3, h4, h5]
  | cons k ks =>
    simp only [List.foldl_cons]
    rw [bra_site_eq drt hdrt factors factor_strides kjis hm _ _ 0 imb ibra k (by omega) h0]

end DRTModel

namespace DRTModel

/-! ## The index of a DRT string is its rank in the order of the specification -/

/-- In a table with the structure `TableOK`, the descent of `operator[]`
from a row is increasing: a smaller offset below the subtree size of the row
takes a step sequence that is lexicographically smaller. -/
theorem walk_lex {α : Type} {cs : List (List α)} {step : Nat → α → Nat → α} {nd : Nat}
    {jds xs : List (List Nat)} (T : TableOK cs step nd jds xs) :
    ∀ k l t r i j, l + k + 1 = cs.length → (cs.getD l [])[t]? = some r →
      i < j → j < entry xs (cut_offset cs l + t) nd →
      list_lt (walk_steps jds xs k (cut_offset cs l + t) i)
        (walk_steps jds xs k (cut_offset cs l + t) j) = true := by
  intro k
  induction k with
  | zero =>
    intro l t r i j hl hr hij hj
    exfalso
    have hl2 : l = cs.length - 1 := by omega
    have ht := getElem?_lt_of_some hr
    have h1 := T.last_le
    have h2 := T.last_one
    rw [← hl2] at h1 h2
    have ht0 : t = 0 := by omega
    rw [ht0, Nat.add_zero, h2] at hj
    omega
  | succ k ih =>
    intro l t r i j hl hr hij hj
    obtain ⟨hlen, hrow, hedge⟩ := T.rows l t r (by omega) hr
    obtain ⟨hrl, h0, hsucc, hmono⟩ := row_sums jds xs nd (cut_offset cs l + t) hlen hrow
    obtain ⟨hd1, hle1, hlt1⟩ := choose_spec (xs.getD (cut_offset cs l + t) []) nd i hrl h0
      (by show i < entry xs _ nd; omega)
    obtain ⟨hd2, hle2, hlt2⟩ := choose_spec (xs.getD (cut_offset cs l + t) []) nd j hrl h0 hj
    generalize hdd1 : upper_bound (xs.getD (cut_offset cs l + t) []) i - 1 = d1
      at hd1 hle1 hlt1
    generalize hdd2 : upper_bound (xs.getD (cut_offset cs l + t) []) j - 1 = d2
      at hd2 hle2 hlt2
    have a1 : entry xs (cut_offset cs l + t) d1 ≤ i := hle1
    have a2 : i < entry xs (cut_offset cs l + t) (d1 + 1) := hlt1
    have b1 : entry xs (cut_offset cs l + t) d2 ≤ j := hle2
    have b2 : j < entry xs (cut_offset cs l + t) (d2 + 1) := hlt2
    have hw1 : walk_steps jds xs (k + 1) (cut_offset cs l + t) i =
        d1 :: walk_steps jds xs k (entry jds (cut_offset cs l + t) d1)
          (i - entry xs (cut_offset cs l + t) d1) := by
      show (upper_bound (xs.getD (cut_offset cs l + t) []) i - 1) :: _ = _
      rw [hdd1]
    have hw2 : walk_steps jds xs (k + 1) (cut_offset cs l + t) j =
        d2 :: walk_steps jds xs k (entry jds (cut_offset cs l + t) d2)
          (j - entry xs (cut_offset cs l + t) d2) := by
      show (upper_bound (xs.getD (cut_offset cs l + t) []) j - 1) :: _ = _
      rw [hdd2]
    rw [hw1, hw2, list_lt]
    have hle : d1 ≤ d2 := by
      by_contra hc
      have := hmono (d2 + 1) d1 (by omega) (by omega)
      omega
    rcases Nat.lt_or_eq_of_le hle with hlt | heq
    · simp only [hlt, decide_True, Bool.true_or]
    · subst heq
      simp only [lt_irrefl, decide_False, Bool.false_or, decide_True, Bool.true_and]
      rw [hsucc d1 hd1] at b2
      have hne : entry jds (cut_offset cs l + t) d1 ≠ 0 := by
        intro hz
        rw [if_neg (by simpa using hz)] at b2
        omega
      rw [if_pos hne] at b2
      obtain ⟨it, hit, hnext⟩ := hedge d1 hd1 hne
      rw [hit] at b2 ⊢
      exact ih (l + 1) it _ _ _ (by omega) hnext (by omega) (by omega)

theorem map_char_step_chars (ds : List Nat) (h : ∀ d, d ∈ ds → d < 4) :
    (ds.map (fun d => step_chars.getD d ' ')).map char_step = ds := by
  induction ds with
  | nil => rfl
  | cons d ds ih =>
    rw [List.map_cons, List.map_cons, char_step_chars d (h d (List.mem_cons_self _ _)),
      ih (fun x hx => h x (List.mem_cons_of_mem _ hx))]

/-- C33: in a table built for at least one site from labels with
non-negative triples, for two indices `i < j` in the range `q_range(j0)` of
a retained initial row `j0`, the string `operator[](i)` precedes the string
`operator[](j)` in the order that compares the characters from site
`n_sites - 1` down to site `0` with `'0' < '+' < '-' < '2'`. -/
theorem C33_index_is_lex_rank [PGCompose] (su2 : Bool) (n_sites : Nat) (init_qs : List QLabel)
    (orb_sym : List Nat) (hn : 0 < n_sites)
    (hq : ∀ q, q ∈ init_qs → 0 ≤ (init_row n_sites q).1.1 ∧ 0 ≤ (init_row n_sites q).1.2.1 ∧
      0 ≤ (init_row n_sites q).1.2.2)
    (j0 i j : Nat) (r : Row)
    (hr : ((DRT.cuts su2 n_sites init_qs orb_sym).getD 0 [])[j0]? = some r)
    (h1 : ((DRT.build su2 n_sites init_qs orb_sym).q_range j0).1 ≤ i) (hij : i < j)
    (h2 : j < ((DRT.build su2 n_sites init_qs orb_sym).q_range j0).2) :
    precedes ((DRT.build su2 n_sites init_qs orb_sym).decode i)
      ((DRT.build su2 n_sites init_qs orb_sym).decode j) = true := by
  have T := DRT_table_ok su2 n_sites init_qs orb_sym hn hq
  have hcl := DRT_cuts_length su2 n_sites init_qs orb_sym
  have hni : (DRT.build su2 n_sites init_qs orb_sym).n_init_qs = init_qs.length := rfl
  have hns : (DRT.build su2 n_sites init_qs orb_sym).n_sites = n_sites := rfl
  rw [DRT_q_range_eq] at h1 h2
  simp only at h1 h2
  have hj0 : j0 < ((DRT.cuts su2 n_sites init_qs orb_sym).getD 0 []).length :=
    getElem?_lt_of_some hr
  have hsub := (filter_cuts_sublist
    (fun _ k fabc r => has_target fabc ((fix_orb_sym n_sites orb_sym).getD k 0) r) 0
    (forward_cuts (expand_cut su2 (fix_orb_sym n_sites orb_sym)) n_sites
      (init_qs.map (init_row n_sites))) 0).length_le
  rw [forward_cuts_zero, List.length_map] at hsub
  have hj0q : j0 < init_qs.length := lt_of_lt_of_le hj0 hsub
  obtain ⟨hjl, hxr, _⟩ := T.rows 0 j0 r (by rw [hcl]; omega) hr
  rw [cut_offset_zero, Nat.zero_add] at hjl hxr
  obtain ⟨hrl, _, _, _⟩ := row_sums _ _ 4 j0 hjl hxr
  have hback := DRT_back_eq _ j0 hrl
  have hsum : ((List.range (j0 + 1)).map (DRT.build su2 n_sites init_qs orb_sym).back).sum =
      ((List.range j0).map (DRT.build su2 n_sites init_qs orb_sym).back).sum +
        (DRT.build su2 n_sites init_qs orb_sym).back j0 := by
    rw [List.range_succ, List.map_append, List.sum_append]
    simp
  have hski := DRT_skip_init_eq (DRT.build su2 n_sites init_qs orb_sym) i j0 h1
    (by rw [hsum]; omega) init_qs.length 0 (Nat.zero_le _) (by omega)
  have hskj := DRT_skip_init_eq (DRT.build su2 n_sites init_qs orb_sym) j j0 (by omega)
    (by rw [hsum]; omega) init_qs.length 0 (Nat.zero_le _) (by omega)
  simp only [List.range_zero, List.map_nil, List.sum_nil, Nat.sub_zero] at hski hskj
  generalize hb : ((List.range j0).map (DRT.build su2 n_sites init_qs orb_sym).back).sum = b
    at h1 h2 hski hskj
  have hlt : j - b < entry (DRT.build su2 n_sites init_qs orb_sym).xs
      (cut_offset (DRT.cuts su2 n_sites init_qs orb_sym) 0 + j0) 4 := by
    rw [cut_offset_zero, Nat.zero_add, ← hback]
    omega
  have hlex := walk_lex T n_sites 0 j0 r (i - b) (j - b) (by rw [hcl]; omega) hr (by omega) hlt
  obtain ⟨_, wi, _⟩ := walk_spec T n_sites 0 j0 r (i - b) (by rw [hcl]; omega) hr (by omega)
  obtain ⟨_, wj, _⟩ := walk_spec T n_sites 0 j0 r (j - b) (by rw [hcl]; omega) hr hlt
  rw [cut_offset_zero, Nat.zero_add] at hlex wi wj
  unfold precedes DRT.decode
  rw [hni, hns, hski, hskj]
  simp only
  rw [DRT_walk_eq, DRT_walk_eq, ← List.map_reverse, ← List.map_reverse, List.reverse_reverse,
    List.reverse_reverse, map_char_step_chars _ (path_ok_lt _ _ _ _ wi),
    map_char_step_chars _ (path_ok_lt _ _ _ _ wj)]
  exact hlex

end DRTModel

namespace DRTModel

theorem C33_index_is_lex_rank_witness :
    (0 < 2 ∧
      (∀ q, q ∈ [(⟨2, 0, 0⟩ : QLabel)] →
        0 ≤ (init_row 2 q).1.1 ∧ 0 ≤ (init_row 2 q).1.2.1 ∧ 0 ≤ (init_row 2 q).1.2.2) ∧
      ((DRT.cuts true 2 [⟨2, 0, 0⟩] []).getD 0 [])[0]? = some ((1, 0, 1), 0) ∧
      ((DRT.build true 2 [⟨2, 0, 0⟩] []).q_range 0).1 ≤ 0 ∧ 0 < 2 ∧
      2 < ((DRT.build true 2 [⟨2, 0, 0⟩] []).q_range 0).2) ∧
      precedes ((DRT.build true 2 [⟨2, 0, 0⟩] []).decode 0)
        ((DRT.build true 2 [⟨2, 0, 0⟩] []).decode 2) = true :=
  ⟨⟨by decide, by decide, by decide, by decide, by decide, by decide⟩,
    C33_index_is_lex_rank true 2 [⟨2, 0, 0⟩] [] (by decide) (by decide) 0 0 2 ((1, 0, 1), 0)
      (by decide) (by decide) (by decide) (by decide)⟩

end DRTModel

namespace DRTModel

/-! ## The paths of a DRT are the legal paths -/

/-- A step between two valid rows satisfies the selection predicate
`allow_abc`. -/
theorem allowed_of_valid [PGCompose] (su2 : Bool) (k : Nat) (r : Row) (gk d : Nat) (hd : d < 4)
    (hv : valid_row su2 (k + 1) r) (hv2 : valid_row su2 k (step_row r gk d)) :
    allow_abc su2 r.1.1 r.1.2.1 r.1.2.2 d = true := by
  obtain ⟨⟨a, b, c⟩, g⟩ := r
  unfold valid_row at hv hv2
  unfold step_row at hv2
  simp only at hv hv2
  obtain ⟨h1, h2, h3, h4⟩ := hv
  obtain ⟨g1, g2, g3, g4⟩ := hv2
  interval_cases d
  · simp only [make_abc] at g1 g2 g3 g4
    simp only [allow_abc, decide_eq_true_eq]
    omega
  · simp only [make_abc] at g1 g2 g3 g4
    cases su2 with
    | true =>
      simp only [allow_abc, if_true, decide_eq_true_eq]
      have := h4 rfl
      have := g4 rfl
      omega
    | false =>
      simp only [allow_abc, Bool.false_eq_true, if_false, Bool.or_eq_true, decide_eq_true_eq]
      by_cases hb : b > 0
      · exact Or.inl hb
      · right
        rw [if_pos (by omega)] at g1 g2
        exact mul_ne_zero (by omega) (by omega)
  · simp only [make_abc] at g1 g2 g3 g4
    cases su2 with
    | true =>
      simp only [allow_abc, if_true, decide_eq_true_eq]
      have hb := h4 rfl
      rw [if_pos (by omega)] at g1 g2
      exact mul_ne_zero (by omega) (by omega)
    | false =>
      simp only [allow_abc, Bool.false_eq_true, if_false, Bool.or_eq_true, decide_eq_true_eq]
      by_cases hb : b < 0
      · exact Or.inl hb
      · right
        rw [if_pos (by omega)] at g1 g2
        exact mul_ne_zero (by omega) (by omega)
  · simp only [make_abc] at g1 g2 g3 g4
    simp only [allow_abc, decide_eq_true_eq]
    omega

end DRTModel

namespace DRTModel

theorem allow_abc_lt (su2 : Bool) (a b c : Int) (d : Nat)
    (h : allow_abc su2 a b c d = true) : d < 4 := by
  by_contra hc
  obtain ⟨e, rfl⟩ : ∃ e, d = e + 4 := ⟨d - 4, by omega⟩
  simp [allow_abc] at h

/-- A sequence of existing edges from a row of the cut `l` down to the last
cut is a legal path of that row. -/
theorem DRT_path_legal [PGCompose] (su2 : Bool) (n_sites : Nat) (init_qs : List QLabel)
    (orb_sym : List Nat) (hn : 0 < n_sites)
    (hq : ∀ q, q ∈ init_qs → 0 ≤ (init_row n_sites q).1.1 ∧ 0 ≤ (init_row n_sites q).1.2.1 ∧
      0 ≤ (init_row n_sites q).1.2.2) :
    ∀ ds l t r, l + ds.length = n_sites →
      ((DRT.cuts su2 n_sites init_qs orb_sym).getD l [])[t]? = some r →
      path_ok (DRT.build su2 n_sites init_qs orb_sym).jds 4
        (cut_offset (DRT.cuts su2 n_sites init_qs orb_sym) l + t) ds = true →
      legal_path su2 (fix_orb_sym n_sites orb_sym) ds.length r ds = true := by
  have T := DRT_table_ok su2 n_sites init_qs orb_sym hn hq
  have hcl := DRT_cuts_length su2 n_sites init_qs orb_sym
  have hlast := DRT_last_cut su2 n_sites init_qs orb_sym hn hq
  intro ds
  induction ds with
  | nil =>
    intro l t r hl hr _
    simp only [List.length_nil, Nat.add_zero] at hl
    rw [hl] at hr
    have := hlast.2 r (List.getElem?_mem hr)
    simp only [List.length_nil, legal_path, decide_eq_true_eq]
    exact this
  | cons d ds ih =>
    intro l t r hl hr hp
    simp only [List.length_cons] at hl
    simp only [path_ok, Bool.and_eq_true, decide_eq_true_eq] at hp
    obtain ⟨⟨hd, hne⟩, hrest⟩ := hp
    obtain ⟨_, _, hedge⟩ := T.rows l t r (by rw [hcl]; omega) hr
    obtain ⟨it, hit, hnext⟩ := hedge d hd hne
    have hk : (DRT.cuts su2 n_sites init_qs orb_sym).length - 2 - l = ds.length := by
      rw [hcl]; omega
    rw [hk] at hnext
    rw [hit] at hrest
    have hleg := ih (l + 1) it _ (by omega) hnext hrest
    have hv1 := (forward_valid su2 n_sites init_qs orb_sym hn hq l r (by omega)
      (DRT_cut_mem_forward su2 n_sites init_qs orb_sym l t r hr)).1
    have hv2 := forward_valid su2 n_sites init_qs orb_sym hn hq (l + 1) _ (by omega)
      (DRT_cut_mem_forward su2 n_sites init_qs orb_sym (l + 1) it _ hnext)
    have e1 : n_sites - l = ds.length + 1 := by omega
    have e2 : n_sites - (l + 1) = ds.length := by omega
    rw [e1] at hv1
    rw [e2] at hv2
    have ha := allowed_of_valid su2 ds.length r _ d hd hv1 hv2.1
    simp only [List.length_cons, legal_path, Bool.and_eq_true]
    refine ⟨⟨ha, ?_⟩, hleg⟩
    unfold allow_pg
    by_cases hz : ds.length = 0
    · have := hv2.2 hz
      unfold step_row make_pg at this
      simp only at this
      simp only [this, decide_True, Bool.or_true]
    · simp only [ne_eq, hz, not_false_eq_true, decide_True, Bool.true_or]

/-- A legal path of a row of the forward cut `l` keeps the row in the
filtered cut, and its steps are existing edges. -/
theorem DRT_legal_path [PGCompose] (su2 : Bool) (n_sites : Nat) (init_qs : List QLabel)
    (orb_sym : List Nat) :
    ∀ ds l r, l + ds.length = n_sites →
      r ∈ (forward_cuts (expand_cut su2 (fix_orb_sym n_sites orb_sym)) n_sites
        (init_qs.map (init_row n_sites))).getD l [] →
      legal_path su2 (fix_orb_sym n_sites orb_sym) ds.length r ds = true →
      r ∈ (DRT.cuts su2 n_sites init_qs orb_sym).getD l [] ∧
        ∀ t, ((DRT.cuts su2 n_sites init_qs orb_sym).getD l [])[t]? = some r →
          path_ok (DRT.build su2 n_sites init_qs orb_sym).jds 4
            (cut_offset (DRT.cuts su2 n_sites init_qs orb_sym) l + t) ds = true := by
  have hflen : (forward_cuts (expand_cut su2 (fix_orb_sym n_sites orb_sym)) n_sites
      (init_qs.map (init_row n_sites))).length = n_sites + 1 := forward_cuts_length _ _ _
  intro ds
  induction ds with
  | nil =>
    intro l r hl hr _
    simp only [List.length_nil, Nat.add_zero] at hl
    have hfl := filter_cuts_last
      (fun _ k fabc r => has_target fabc ((fix_orb_sym n_sites orb_sym).getD k 0) r) 0
      (forward_cuts (expand_cut su2 (fix_orb_sym n_sites orb_sym)) n_sites
        (init_qs.map (init_row n_sites)))
    rw [hflen, Nat.add_sub_cancel] at hfl
    refine ⟨?_, fun t _ => rfl⟩
    unfold DRT.cuts
    rw [hl] at hr ⊢
    rw [hfl]
    exact hr
  | cons d ds ih =>
    intro l r hl hr hleg
    simp only [List.length_cons] at hl
    simp only [List.length_cons, legal_path, Bool.and_eq_true] at hleg
    obtain ⟨⟨ha, hpg⟩, hrest⟩ := hleg
    have hd := allow_abc_lt su2 _ _ _ d ha
    have hsucc := forward_cuts_succ (expand_cut su2 (fix_orb_sym n_sites orb_sym)) n_sites
      (init_qs.map (init_row n_sites)) l (by omega)
    have e1 : n_sites - 1 - l = ds.length := by omega
    rw [e1] at hsucc
    have hmem : step_row r ((fix_orb_sym n_sites orb_sym).getD ds.length 0) d ∈
        (forward_cuts (expand_cut su2 (fix_orb_sym n_sites orb_sym)) n_sites
          (init_qs.map (init_row n_sites))).getD (l + 1) [] := by
      rw [hsucc]
      exact expand_cut_of_mem su2 _ ds.length _ r d hr hd ha hpg
    obtain ⟨hin, hpath⟩ := ih (l + 1) _ (by omega) hmem hrest
    have hsorted := strict_to_sorted compare_abc_pg (fun _ => True) compare_abc_pg_order_on
      ((DRT.cuts su2 n_sites init_qs orb_sym).getD (l + 1) []) (fun _ _ => trivial)
      (DRT_cut_strict su2 n_sites init_qs orb_sym l)
    have hbs := binary_search_mem compare_abc_pg compare_abc_pg_order _ _ hsorted hin
    have hr2 : r ∈ (DRT.cuts su2 n_sites init_qs orb_sym).getD l [] := by
      rw [DRT_has_target su2 n_sites init_qs orb_sym l r (by omega)]
      refine ⟨hr, ?_⟩
      unfold has_target
      rw [List.any_eq_true]
      refine ⟨d, List.mem_range.mpr hd, ?_⟩
      rw [e1]
      exact hbs
    refine ⟨hr2, ?_⟩
    intro t ht
    have hedge := DRT_edge_of_mem su2 n_sites init_qs orb_sym l t r d (by omega) ht hd
      (by rw [e1]; exact hin)
    obtain ⟨it, hit, hrow, hne⟩ := hedge
    rw [e1] at hrow
    simp only [path_ok, Bool.and_eq_true, decide_eq_true_eq]
    refine ⟨⟨hd, hne⟩, ?_⟩
    rw [hit]
    exact hpath it hrow

end DRTModel

namespace DRTModel

/-! ## The legal paths of the SU2 scheme with trivial symmetry labels -/

theorem suffix_ok_nonneg (ds : List Nat) (h : suffix_ok ds = true) :
    0 ≤ (steps_row ds).2.1 ∧ 0 ≤ (steps_row ds).1 ∧ 0 ≤ (steps_row ds).2.2 := by
  induction ds with
  | nil => simp [steps_row]
  | cons d ds ih =>
    simp only [suffix_ok, Bool.and_eq_true, decide_eq_true_eq] at h
    obtain ⟨⟨hd, hb⟩, hs⟩ := h
    obtain ⟨i1, i2, i3⟩ := ih hs
    refine ⟨hb, ?_, ?_⟩
    · interval_cases d <;> simp only [steps_row] <;> omega
    · interval_cases d <;> simp only [steps_row] <;> omega

theorem triple_eq (a b c : Int) (x : Int × Int × Int) :
    (a, b, c) = x ↔ a = x.1 ∧ b = x.2.1 ∧ c = x.2.2 := by
  obtain ⟨x1, x2, x3⟩ := x
  simp only [Prod.mk.injEq]

theorem allow_pg_trivial [PGCompose]
    (h0 : pg_mul 0 0 = 0) (k d : Nat) : allow_pg k 0 0 d = true := by
  unfold allow_pg
  simp only [h0, ite_self, decide_True, Bool.or_true]

theorem make_pg_trivial [PGCompose] (h0 : pg_mul 0 0 = 0) (d : Nat) : make_pg 0 0 d = 0 := by
  unfold make_pg
  simp only [h0, ite_self]

/-- In the SU2 scheme with trivial symmetry labels, the legal paths of a row
with `b >= 0` and the label `0` are the step sequences that undo to the
triple of the row and keep `b` non-negative. -/
theorem legal_path_su2 [PGCompose]
    (h0 : pg_mul 0 0 = 0) (os : List Nat) (ho : ∀ k, os.getD k 0 = 0) :
    ∀ (ds : List Nat) (r : Row), 0 ≤ r.1.2.1 → r.2 = 0 →
      (legal_path true os ds.length r ds = true ↔ r.1 = steps_row ds ∧ suffix_ok ds = true) := by
  intro ds
  induction ds with
  | nil =>
    intro r _ hg
    obtain ⟨⟨a, b, c⟩, g⟩ := r
    simp only at hg
    subst hg
    simp only [List.length_nil, legal_path, decide_eq_true_eq, steps_row, suffix_ok, and_true,
      Prod.mk.injEq]
  | cons d ds ih =>
    intro r hb hg
    obtain ⟨⟨a, b, c⟩, g⟩ := r
    simp only at hb hg
    subst hg
    simp only [List.length_cons, legal_path, Bool.and_eq_true, ho, allow_pg_trivial h0, and_true]
    by_cases hd : d < 4
    · have hstep : ∀ x : Int × Int × Int,
          step_row ((a, b, c), 0) 0 d = (make_abc a b c d, 0) := by
        intro _
        unfold step_row
        simp only [make_pg_trivial h0]
      rw [hstep (0, 0, 0)]
      constructor
      · rintro ⟨ha, hl⟩
        interval_cases d
        · simp only [allow_abc, decide_eq_true_eq] at ha
          have i := (ih ((make_abc a b c 0), 0) (by simp only [make_abc]; exact hb) rfl).mp hl
          obtain ⟨i1, i2⟩ := i
          obtain ⟨n1, n2, n3⟩ := suffix_ok_nonneg ds i2
          simp only [make_abc] at i1
          rw [triple_eq] at i1
          simp only [steps_row, suffix_ok, Prod.mk.injEq, Bool.and_eq_true, decide_eq_true_eq]
          refine ⟨⟨?_, ?_, ?_⟩, ⟨by omega, ?_⟩, i2⟩ <;> omega
        · simp only [allow_abc, if_true, decide_eq_true_eq] at ha
          have hb1 : 1 ≤ b := by omega
          have e : make_abc a b c 1 = (a, b - 1, c) := by
            simp only [make_abc]
            rw [if_neg (by omega)]
            simp
          rw [e] at hl
          have i := (ih ((a, b - 1, c), 0) (by simp only; omega) rfl).mp hl
          obtain ⟨i1, i2⟩ := i
          rw [triple_eq] at i1
          simp only [steps_row, suffix_ok, Prod.mk.injEq, Bool.and_eq_true, decide_eq_true_eq]
          refine ⟨⟨?_, ?_, ?_⟩, ⟨by omega, ?_⟩, i2⟩ <;> omega
        · simp only [allow_abc, if_true, decide_eq_true_eq] at ha
          have e : make_abc a b c 2 = (a - 1, b + 1, c - 1) := by
            simp only [make_abc]
            rw [if_pos (by omega)]
          rw [e] at hl
          have i := (ih ((a - 1, b + 1, c - 1), 0) (by simp only; omega) rfl).mp hl
          obtain ⟨i1, i2⟩ := i
          rw [triple_eq] at i1
          simp only [steps_row, suffix_ok, Prod.mk.injEq, Bool.and_eq_true, decide_eq_true_eq]
          refine ⟨⟨?_, ?_, ?_⟩, ⟨by omega, ?_⟩, i2⟩ <;> omega
        · simp only [allow_abc, decide_eq_true_eq] at ha
          have i := (ih ((make_abc a b c 3), 0) (by simp only [make_abc]; exact hb) rfl).mp hl
          obtain ⟨i1, i2⟩ := i
          simp only [make_abc] at i1
          rw [triple_eq] at i1
          simp only [steps_row, suffix_ok, Prod.mk.injEq, Bool.and_eq_true, decide_eq_true_eq]
          refine ⟨⟨?_, ?_, ?_⟩, ⟨by omega, ?_⟩, i2⟩ <;> omega
      · rintro ⟨hrow, hsx⟩
        simp only [suffix_ok, Bool.and_eq_true, decide_eq_true_eq] at hsx
        obtain ⟨⟨_, hb2⟩, hs⟩ := hsx
        obtain ⟨n1, n2, n3⟩ := suffix_ok_nonneg ds hs
        interval_cases d
        · simp only [steps_row, Prod.mk.injEq] at hrow hb2
          obtain ⟨r1, r2, r3⟩ := hrow
          refine ⟨?_, ?_⟩
          · simp only [allow_abc, decide_eq_true_eq]
            omega
          · apply (ih ((make_abc a b c 0), 0) (by simp only [make_abc]; exact hb) rfl).mpr
            refine ⟨?_, hs⟩
            simp only [make_abc]
            rw [triple_eq]
            omega
        · simp only [steps_row, Prod.mk.injEq] at hrow hb2
          obtain ⟨r1, r2, r3⟩ := hrow
          have e : make_abc a b c 1 = (a, b - 1, c) := by
            simp only [make_abc]
            rw [if_neg (by omega)]
            simp
          refine ⟨?_, ?_⟩
          · simp only [allow_abc, if_true, decide_eq_true_eq]
            omega
          · rw [e]
            apply (ih ((a, b - 1, c), 0) (by simp only; omega) rfl).mpr
            refine ⟨?_, hs⟩
            rw [triple_eq]
            omega
        · simp only [steps_row, Prod.mk.injEq] at hrow hb2
          obtain ⟨r1, r2, r3⟩ := hrow
          have e : make_abc a b c 2 = (a - 1, b + 1, c - 1) := by
            simp only [make_abc]
            rw [if_pos (by omega)]
          refine ⟨?_, ?_⟩
          · simp only [allow_abc, if_true, decide_eq_true_eq]
            exact mul_ne_zero (by omega) (by omega)
          · rw [e]
            apply (ih ((a - 1, b + 1, c - 1), 0) (by simp only; omega) rfl).mpr
            refine ⟨?_, hs⟩
            rw [triple_eq]
            omega
        · simp only [steps_row, Prod.mk.injEq] at hrow hb2
          obtain ⟨r1, r2, r3⟩ := hrow
          refine ⟨?_, ?_⟩
          · simp only [allow_abc, decide_eq_true_eq]
            omega
          · apply (ih ((make_abc a b c 3), 0) (by simp only [make_abc]; exact hb) rfl).mpr
            refine ⟨?_, hs⟩
            simp only [make_abc]
            rw [triple_eq]
            omega
    · constructor
      · rintro ⟨ha, _⟩
        exact absurd (allow_abc_lt _ _ _ _ _ ha) hd
      · rintro ⟨_, hsx⟩
        simp only [suffix_ok, Bool.and_eq_true, decide_eq_true_eq] at hsx
        exact absurd hsx.1.1 hd

end DRTModel

namespace DRTModel

theorem steps_string_cons (d : Nat) (ds : List Nat) :
    steps_string (d :: ds) = steps_string ds ++ [step_chars.getD d ' '] := by
  unfold steps_string
  rw [List.reverse_cons, List.map_append]
  rfl

theorem steps_string_length (ds : List Nat) : (steps_string ds).length = ds.length := by
  unfold steps_string
  rw [List.length_map, List.length_reverse]

theorem count_char_append_single (c x : Char) (s : List Char) :
    count_char c (s ++ [x]) = count_char c s + (if x = c then 1 else 0) := by
  unfold count_char
  rw [List.filter_append, List.length_append]
  by_cases h : x = c
  · simp [h]
  · simp [h]

/-- The counts of the four characters in the string of a step sequence. -/
theorem steps_row_counts (ds : List Nat) (h4 : ∀ d, d ∈ ds → d < 4) :
    steps_row ds =
        (count_char '2' (steps_string ds) + count_char '-' (steps_string ds),
          count_char '+' (steps_string ds) - count_char '-' (steps_string ds),
          count_char '0' (steps_string ds) + count_char '-' (steps_string ds)) ∧
      (ds.length : Int) = count_char '0' (steps_string ds) + count_char '+' (steps_string ds) +
        count_char '-' (steps_string ds) + count_char '2' (steps_string ds) ∧
      ∀ c, c ∈ steps_string ds → c = '0' ∨ c = '+' ∨ c = '-' ∨ c = '2' := by
  induction ds with
  | nil =>
    refine ⟨rfl, rfl, ?_⟩
    intro c hc
    simp [steps_string] at hc
  | cons d ds ih =>
    obtain ⟨i1, i2, i3⟩ := ih (fun x hx => h4 x (List.mem_cons_of_mem _ hx))
    have hd := h4 d (List.mem_cons_self _ _)
    rw [triple_eq] at i1
    obtain ⟨j1, j2, j3⟩ := i1
    simp only at j1 j2 j3
    rw [steps_string_cons]
    simp only [count_char_append_single, List.length_cons, Nat.cast_add, Nat.cast_one]
    interval_cases d
    · have e : step_chars.getD 0 ' ' = '0' := rfl
      rw [e]
      refine ⟨?_, ?_, ?_⟩
      · simp only [steps_row, Prod.mk.injEq]
        simp only [show ('0' : Char) = '2' ↔ False from by decide,
          show ('0' : Char) = '-' ↔ False from by decide,
          show ('0' : Char) = '+' ↔ False from by decide, if_false, if_true]
        rw [j1, j2, j3]
        refine ⟨?_, ?_, ?_⟩ <;> omega
      · simp only [show ('0' : Char) = '2' ↔ False from by decide,
          show ('0' : Char) = '-' ↔ False from by decide,
          show ('0' : Char) = '+' ↔ False from by decide, if_false, if_true]
        omega
      · intro c hc
        rcases List.mem_append.mp hc with h | h
        · exact i3 c h
        · rw [List.mem_singleton] at h
          exact Or.inl h
    · have e : step_chars.getD 1 ' ' = '+' := rfl
      rw [e]
      refine ⟨?_, ?_, ?_⟩
      · simp only [steps_row, Prod.mk.injEq]
        simp only [show ('+' : Char) = '2' ↔ False from by decide,
          show ('+' : Char) = '-' ↔ False from by decide,
          show ('+' : Char) = '0' ↔ False from by decide, if_false, if_true]
        rw [j1, j2, j3]
        refine ⟨?_, ?_, ?_⟩ <;> omega
      · simp only [show ('+' : Char) = '2' ↔ False from by decide,
          show ('+' : Char) = '-' ↔ False from by decide,
          show ('+' : Char) = '0' ↔ False from by decide, if_false, if_true]
        omega
      · intro c hc
        rcases List.mem_append.mp hc with h | h
        · exact i3 c h
        · rw [List.mem_singleton] at h
          exact Or.inr (Or.inl h)
    · have e : step_chars.getD 2 ' ' = '-' := rfl
      rw [e]
      refine ⟨?_, ?_, ?_⟩
      · simp only [steps_row, Prod.mk.injEq]
        simp only [show ('-' : Char) = '2' ↔ False from by decide,
          show ('-' : Char) = '+' ↔ False from by decide,
          show ('-' : Char) = '0' ↔ False from by decide, if_false, if_true]
        rw [j1, j2, j3]
        refine ⟨?_, ?_, ?_⟩ <;> omega
      · simp only [show ('-' : Char) = '2' ↔ False from by decide,
          show ('-' : Char) = '+' ↔ False from by decide,
          show ('-' : Char) = '0' ↔ False from by decide, if_false, if_true]
        omega
      · intro c hc
        rcases List.mem_append.mp hc with h | h
        · exact i3 c h
        · rw [List.mem_singleton] at h
          exact Or.inr (Or.inr (Or.inl h))
    · have e : step_chars.getD 3 ' ' = '2' := rfl
      rw [e]
      refine ⟨?_, ?_, ?_⟩
      · simp only [steps_row, Prod.mk.injEq]
        simp only [show ('2' : Char) = '-' ↔ False from by decide,
          show ('2' : Char) = '+' ↔ False from by decide,
          show ('2' : Char) = '0' ↔ False from by decide, if_false, if_true]
        rw [j1, j2, j3]
        refine ⟨?_, ?_, ?_⟩ <;> omega
      · simp only [show ('2' : Char) = '-' ↔ False from by decide,
          show ('2' : Char) = '+' ↔ False from by decide,
          show ('2' : Char) = '0' ↔ False from by decide, if_false, if_true]
        omega
      · intro c hc
        rcases List.mem_append.mp hc with h | h
        · exact i3 c h
        · rw [List.mem_singleton] at h
          exact Or.inr (Or.inr (Or.inr h))

end DRTModel

namespace DRTModel

/-- The prefix condition of a string with one more character: it holds on
the shorter string and on the whole string. -/
theorem prefix_all_append (s : List Char) (x : Char) :
    (List.range ((s ++ [x]).length + 1)).all (fun k =>
        decide (count_char '-' ((s ++ [x]).take k) ≤ count_char '+' ((s ++ [x]).take k))) =
      ((List.range (s.length + 1)).all (fun k =>
        decide (count_char '-' (s.take k) ≤ count_char '+' (s.take k))) &&
        decide (count_char '-' (s ++ [x]) ≤ count_char '+' (s ++ [x]))) := by
  have hl : (s ++ [x]).length = s.length + 1 := by simp
  have hw : List.take (s.length + 1) (s ++ [x]) = s ++ [x] := by
    apply List.take_of_length_le
    simp
  rw [hl]
  apply Bool.eq_iff_iff.mpr
  simp only [Bool.and_eq_true, List.all_eq_true, decide_eq_true_eq, List.mem_range]
  constructor
  · intro h
    refine ⟨?_, ?_⟩
    · intro k hk
      have := h k (by omega)
      rw [List.take_append_of_le_length (by omega)] at this
      exact this
    · have := h (s.length + 1) (by omega)
      rw [hw] at this
      exact this
  · rintro ⟨h1, h2⟩ k hk
    by_cases hks : k ≤ s.length
    · rw [List.take_append_of_le_length hks]
      exact h1 k (by omega)
    · have e : k = s.length + 1 := by omega
      rw [e, hw]
      exact h2

/-- The steps keep `b` non-negative exactly when the string has at least as
many `+` as `-` in every prefix. -/
theorem suffix_ok_iff (ds : List Nat) (h4 : ∀ d, d ∈ ds → d < 4) :
    suffix_ok ds = (List.range ((steps_string ds).length + 1)).all (fun k =>
      decide (count_char '-' ((steps_string ds).take k) ≤
        count_char '+' ((steps_string ds).take k))) := by
  induction ds with
  | nil => rfl
  | cons d ds ih =>
    have hd := h4 d (List.mem_cons_self _ _)
    have i := ih (fun x hx => h4 x (List.mem_cons_of_mem _ hx))
    obtain ⟨c1, _, _⟩ := steps_row_counts (d :: ds) h4
    rw [triple_eq] at c1
    obtain ⟨_, c2, _⟩ := c1
    simp only at c2
    rw [suffix_ok, c2, steps_string_cons, prefix_all_append, ← i]
    simp only [hd, decide_True, Bool.true_and]
    rw [Bool.and_comm]
    congr 1
    apply decide_eq_decide.mpr
    constructor <;> intro h <;> omega

theorem step_chars_char_step (c : Char) (h : c = '0' ∨ c = '+' ∨ c = '-' ∨ c = '2') :
    char_step c < 4 ∧ step_chars.getD (char_step c) ' ' = c := by
  rcases h with h | h | h | h <;> subst h <;> exact ⟨by decide, by decide⟩

/-- A string over `0+-2` is the string of its step sequence. -/
theorem string_steps (s : List Char) (h : ∀ c, c ∈ s → c = '0' ∨ c = '+' ∨ c = '-' ∨ c = '2') :
    steps_string (s.map char_step).reverse = s ∧
      (∀ d, d ∈ (s.map char_step).reverse → d < 4) ∧
      ((s.map char_step).reverse).length = s.length := by
  refine ⟨?_, ?_, by simp⟩
  · unfold steps_string
    rw [List.reverse_reverse, List.map_map]
    conv_rhs => rw [← List.map_id s]
    apply List.map_congr_left
    intro c hc
    exact (step_chars_char_step c (h c hc)).2
  · intro d hd
    rw [List.mem_reverse, List.mem_map] at hd
    obtain ⟨c, hc, rfl⟩ := hd
    exact (step_chars_char_step c (h c hc)).1

/-- The step sequences of length `n_sites` that undo to the initial triple
of the label `(N, 2S)` and keep `b` non-negative are those whose strings
satisfy the conditions of the specification, when `N - 2S` is even. -/
theorem su2_string_iff (n_sites : Nat) (N S2 : Int) (g : Nat) (hpar : (N - S2) % 2 = 0)
    (ds : List Nat) (h4 : ∀ d, d ∈ ds → d < 4) :
    (ds.length = n_sites ∧ (init_row n_sites ⟨N, S2, g⟩).1 = steps_row ds ∧
        suffix_ok ds = true) ↔
      su2_string_ok n_sites N S2 (steps_string ds) = true := by
  obtain ⟨c1, c2, c3⟩ := steps_row_counts ds h4
  rw [triple_eq] at c1
  obtain ⟨d1, d2, d3⟩ := c1
  try simp only at d1 d2 d3
  unfold su2_string_ok
  rw [← suffix_ok_iff ds h4]
  simp only [Bool.and_eq_true, decide_eq_true_eq, List.all_eq_true, Bool.or_eq_true,
    steps_string_length]
  unfold init_row
  simp only [shr_one]
  rw [triple_eq]
  try simp only
  rw [d1, d2, d3]
  constructor
  · rintro ⟨hl, ⟨e1, e2, e3⟩, hs⟩
    refine ⟨⟨⟨⟨hl, ?_⟩, ?_⟩, ?_⟩, hs⟩
    · intro c hc
      rcases c3 c hc with h | h | h | h
      · exact Or.inl (Or.inl (Or.inl h))
      · exact Or.inl (Or.inl (Or.inr h))
      · exact Or.inl (Or.inr h)
      · exact Or.inr h
    · omega
    · omega
  · rintro ⟨⟨⟨⟨hl, _⟩, e1⟩, e2⟩, hs⟩
    refine ⟨hl, ⟨?_, ?_, ?_⟩, hs⟩
    · omega
    · omega
    · rw [← hl]
      omega

end DRTModel

namespace DRTModel

/-- Every non-negative triple is the triple of a step sequence that keeps
`b` non-negative. -/
theorem steps_row_exists :
    ∀ (n : Nat) (a b c : Int), 0 ≤ a → 0 ≤ b → 0 ≤ c → a + b + c = (n : Int) →
      ∃ ds : List Nat, ds.length = n ∧ (a, b, c) = steps_row ds ∧ suffix_ok ds = true := by
  intro n
  induction n with
  | zero =>
    intro a b c ha hb hc hs
    refine ⟨[], rfl, ?_, rfl⟩
    have h1 : a = 0 := by omega
    have h2 : b = 0 := by omega
    have h3 : c = 0 := by omega
    rw [h1, h2, h3]
    rfl
  | succ n ih =>
    intro a b c ha hb hc hs
    by_cases hc0 : 0 < c
    · obtain ⟨ds, h1, h2, h3⟩ := ih a b (c - 1) ha hb (by omega) (by push_cast at hs; omega)
      rw [triple_eq] at h2
      refine ⟨0 :: ds, by simp [h1], ?_, ?_⟩
      · simp only [steps_row]
        rw [triple_eq]
        simp only
        omega
      · simp only [suffix_ok, steps_row, Bool.and_eq_true, decide_eq_true_eq]
        exact ⟨⟨by omega, by omega⟩, h3⟩
    · by_cases ha0 : 0 < a
      · obtain ⟨ds, h1, h2, h3⟩ := ih (a - 1) b c (by omega) hb hc (by push_cast at hs; omega)
        rw [triple_eq] at h2
        refine ⟨3 :: ds, by simp [h1], ?_, ?_⟩
        · simp only [steps_row]
          rw [triple_eq]
          simp only
          omega
        · simp only [suffix_ok, steps_row, Bool.and_eq_true, decide_eq_true_eq]
          exact ⟨⟨by omega, by omega⟩, h3⟩
      · obtain ⟨ds, h1, h2, h3⟩ := ih a (b - 1) c ha (by push_cast at hs; omega) hc
          (by push_cast at hs; omega)
        rw [triple_eq] at h2
        refine ⟨1 :: ds, by simp [h1], ?_, ?_⟩
        · simp only [steps_row]
          rw [triple_eq]
          simp only
          omega
        · simp only [suffix_ok, steps_row, Bool.and_eq_true, decide_eq_true_eq]
          exact ⟨⟨by omega, by omega⟩, h3⟩

theorem steps_string_eq (ds : List Nat) :
    (ds.reverse).map (fun d => step_chars.getD d ' ') = steps_string ds := rfl

end DRTModel

namespace DRTModel

/-- C34 (amended): in the SU2 scheme with trivial symmetry labels and a
composition with `pg_mul 0 0 = 0`, for a table built for at least one site
from the single label `(N, 2S)` with the symmetry label `0`, a non-negative
triple and `N - 2S` even, the strings
`operator[](i)` for `i < size()` are exactly the strings of length `n_sites`
over `0+-2` with `2 * #2 + #+ + #- = N`, `#+ - #- = 2S` and `#+ >= #-` in
every prefix. -/
theorem C34_su2_strings [PGCompose]
    (h0 : pg_mul 0 0 = 0) (n_sites : Nat) (N S2 : Int) (orb_sym : List Nat)
    (hn : 0 < n_sites)
    (ho : ∀ k, (fix_orb_sym n_sites orb_sym).getD k 0 = 0)
    (hq : 0 ≤ (init_row n_sites ⟨N, S2, 0⟩).1.1 ∧ 0 ≤ (init_row n_sites ⟨N, S2, 0⟩).1.2.1 ∧
      0 ≤ (init_row n_sites ⟨N, S2, 0⟩).1.2.2)
    (hpar : (N - S2) % 2 = 0) (s : List Char) :
    (∃ i, i < (DRT.build true n_sites [⟨N, S2, 0⟩] orb_sym).size ∧
        (DRT.build true n_sites [⟨N, S2, 0⟩] orb_sym).decode i = s) ↔
      su2_string_ok n_sites N S2 s = true := by
  have hq2 : ∀ q, q ∈ [(⟨N, S2, 0⟩ : QLabel)] → 0 ≤ (init_row n_sites q).1.1 ∧
      0 ≤ (init_row n_sites q).1.2.1 ∧ 0 ≤ (init_row n_sites q).1.2.2 := by
    intro q hq1
    rw [List.mem_singleton] at hq1
    rw [hq1]
    exact hq
  have T := DRT_table_ok true n_sites [⟨N, S2, 0⟩] orb_sym hn hq2
  have hcl := DRT_cuts_length true n_sites [⟨N, S2, 0⟩] orb_sym
  have hv := init_row_valid true n_sites ⟨N, S2, 0⟩ hq
  have hg : (init_row n_sites ⟨N, S2, 0⟩).2 = 0 := rfl
  have hfwd : (forward_cuts (expand_cut true (fix_orb_sym n_sites orb_sym)) n_sites
      ([(⟨N, S2, 0⟩ : QLabel)].map (init_row n_sites))).getD 0 [] =
      [init_row n_sites ⟨N, S2, 0⟩] := by
    rw [forward_cuts_zero]
    rfl
  -- the initial row is retained
  obtain ⟨v1, v2, v3, v4⟩ := hv
  have hb0 := v4 rfl
  obtain ⟨ds0, e1, e2, e3⟩ := steps_row_exists n_sites _ _ _ v1 hb0 v2 (by omega)
  have hleg0 : legal_path true (fix_orb_sym n_sites orb_sym) ds0.length
      (init_row n_sites ⟨N, S2, 0⟩) ds0 = true :=
    (legal_path_su2 h0 _ ho ds0 _ hb0 hg).mpr ⟨e2, e3⟩
  obtain ⟨hin, _⟩ := DRT_legal_path true n_sites [⟨N, S2, 0⟩] orb_sym ds0 0
    (init_row n_sites ⟨N, S2, 0⟩) (by omega) (by rw [hfwd]; exact List.mem_singleton_self _)
    hleg0
  have hsub := (filter_cuts_sublist
    (fun _ k fabc r => has_target fabc ((fix_orb_sym n_sites orb_sym).getD k 0) r) 0
    (forward_cuts (expand_cut true (fix_orb_sym n_sites orb_sym)) n_sites
      ([(⟨N, S2, 0⟩ : QLabel)].map (init_row n_sites))) 0).length_le
  rw [hfwd] at hsub
  obtain ⟨t0, ht0⟩ := mem_getElem_some _ _ hin
  have ht1 := getElem?_lt_of_some ht0
  have ht00 : t0 = 0 := by
    have : ((DRT.cuts true n_sites [⟨N, S2, 0⟩] orb_sym).getD 0 []).length ≤ 1 := hsub
    omega
  subst ht00
  -- the size is the subtree size of row 0
  obtain ⟨hjl, hxr, _⟩ := T.rows 0 0 _ (by rw [hcl]; omega) ht0
  rw [cut_offset_zero, Nat.add_zero] at hjl hxr
  obtain ⟨hrl, _, _, _⟩ := row_sums _ _ 4 0 hjl hxr
  have hback := DRT_back_eq _ 0 hrl
  have hns : (DRT.build true n_sites [⟨N, S2, 0⟩] orb_sym).n_sites = n_sites := rfl
  have hdec : ∀ i, i < (DRT.build true n_sites [⟨N, S2, 0⟩] orb_sym).size →
      (DRT.build true n_sites [⟨N, S2, 0⟩] orb_sym).decode i =
        steps_string (walk_steps (DRT.build true n_sites [⟨N, S2, 0⟩] orb_sym).jds
          (DRT.build true n_sites [⟨N, S2, 0⟩] orb_sym).xs n_sites 0 i) := by
    intro i hi
    unfold DRT.decode
    rw [DRT_skip_init_first _ _ _ hi, hns]
    simp only
    rw [DRT_walk_eq]
    rfl
  have hsize : (DRT.build true n_sites [⟨N, S2, 0⟩] orb_sym).size =
      entry (DRT.build true n_sites [⟨N, S2, 0⟩] orb_sym).xs 0 4 := hback
  constructor
  · rintro ⟨i, hi, hs⟩
    rw [hdec i hi] at hs
    rw [hsize] at hi
    obtain ⟨w1, w2, _⟩ := walk_spec T n_sites 0 0 _ i (by rw [hcl]; omega) ht0
      (by rw [cut_offset_zero, Nat.add_zero]; exact hi)
    rw [cut_offset_zero, Nat.add_zero] at w1 w2
    generalize walk_steps (DRT.build true n_sites [⟨N, S2, 0⟩] orb_sym).jds
      (DRT.build true n_sites [⟨N, S2, 0⟩] orb_sym).xs n_sites 0 i = ds at hs w1 w2
    have hleg := DRT_path_legal true n_sites [⟨N, S2, 0⟩] orb_sym hn hq2 ds 0 0 _
      (by omega) ht0 (by rw [cut_offset_zero, Nat.add_zero]; exact w2)
    obtain ⟨r1, r2⟩ := (legal_path_su2 h0 _ ho ds _ hb0 hg).mp hleg
    rw [← hs]
    exact (su2_string_iff n_sites N S2 0 hpar ds (path_ok_lt _ _ _ _ w2)).mp ⟨w1, r1, r2⟩
  · intro hok
    have hchars : ∀ c, c ∈ s → c = '0' ∨ c = '+' ∨ c = '-' ∨ c = '2' := by
      unfold su2_string_ok at hok
      simp only [Bool.and_eq_true, decide_eq_true_eq, List.all_eq_true, Bool.or_eq_true] at hok
      intro c hc
      rcases hok.1.1.1.2 c hc with ((h | h) | h) | h
      · exact Or.inl h
      · exact Or.inr (Or.inl h)
      · exact Or.inr (Or.inr (Or.inl h))
      · exact Or.inr (Or.inr (Or.inr h))
    obtain ⟨g1, g2, g3⟩ := string_steps s hchars
    generalize (s.map char_step).reverse = ds at g1 g2 g3
    rw [← g1] at hok ⊢
    obtain ⟨l1, l2, l3⟩ := (su2_string_iff n_sites N S2 0 hpar ds g2).mpr hok
    have hleg : legal_path true (fix_orb_sym n_sites orb_sym) ds.length
        (init_row n_sites ⟨N, S2, 0⟩) ds = true :=
      (legal_path_su2 h0 _ ho ds _ hb0 hg).mpr ⟨l2, l3⟩
    obtain ⟨_, hpath⟩ := DRT_legal_path true n_sites [⟨N, S2, 0⟩] orb_sym ds 0
      (init_row n_sites ⟨N, S2, 0⟩) (by omega) (by rw [hfwd]; exact List.mem_singleton_self _)
      hleg
    have hp := hpath 0 ht0
    obtain ⟨p1, p2⟩ := path_spec T ds 0 0 _ (by rw [hcl]; omega) ht0 hp
    rw [cut_offset_zero, Nat.add_zero] at p1 p2 hp
    refine ⟨path_offset (DRT.build true n_sites [⟨N, S2, 0⟩] orb_sym).jds
      (DRT.build true n_sites [⟨N, S2, 0⟩] orb_sym).xs 0 ds, ?_, ?_⟩
    · rw [hsize]
      exact p1
    · rw [l1] at p2
      rw [hdec _ (by rw [hsize]; exact p1), p2]

theorem C34_su2_strings_witness :
    (pg_mul 0 0 = 0 ∧ 0 < 2 ∧ (∀ k, (fix_orb_sym 2 []).getD k 0 = 0) ∧
      (0 ≤ (init_row 2 ⟨2, 0, 0⟩).1.1 ∧ 0 ≤ (init_row 2 ⟨2, 0, 0⟩).1.2.1 ∧
        0 ≤ (init_row 2 ⟨2, 0, 0⟩).1.2.2) ∧ ((2 : Int) - 0) % 2 = 0) ∧
      ((∃ i, i < (DRT.build true 2 [⟨2, 0, 0⟩] []).size ∧
          (DRT.build true 2 [⟨2, 0, 0⟩] []).decode i = ['+', '-']) ↔
        su2_string_ok 2 2 0 ['+', '-'] = true) :=
  ⟨⟨by decide, by decide,
      (by
        intro k
        show (List.replicate 2 0).getD k 0 = 0
        rw [List.getD_eq_getElem?_getD, List.getElem?_replicate]
        split_ifs <;> rfl),
      by decide, by decide⟩,
    C34_su2_strings (by decide) 2 2 0 [] (by decide)
      (by
        intro k
        show (List.replicate 2 0).getD k 0 = 0
        rw [List.getD_eq_getElem?_getD, List.getElem?_replicate]
        split_ifs <;> rfl)
      (by decide) (by decide) ['+', '-']⟩

/-- C34 (counterexample): the label `(N=1, 2S=0)` for one site has the
non-negative triple `(0, 0, 1)`; the table has the single string `"0"`, which
does not satisfy `2 * #2 + #+ + #- = 1`. -/
theorem C34_odd_label :
    init_row 1 ⟨1, 0, 0⟩ = ((0, 0, 1), 0) ∧
      (DRT.build true 1 [⟨1, 0, 0⟩] []).size = 1 ∧
      (DRT.build true 1 [⟨1, 0, 0⟩] []).decode 0 = ['0'] ∧
      su2_string_ok 1 1 0 ['0'] = false := by
  decide

end DRTModel

namespace DRTModel

/-! ## The loops over the entries of a CSR matrix -/

theorem foldl_flatMap_map {α β γ σ : Type} (l : List α) (g : α → List β) (h : α → β → γ)
    (f : σ → γ → σ) (s : σ) :
    (l.flatMap (fun a => (g a).map (h a))).foldl f s =
      l.foldl (fun s1 a => (g a).foldl (fun s2 b => f s2 (h a b)) s1) s := by
  induction l generalizing s with
  | nil => rfl
  | cons a l ih =>
    rw [List.flatMap_cons, List.foldl_append, List.foldl_cons, ih, List.foldl_map]

theorem to_dense_entries (A : CSRMatrixRef) :
    A.to_dense = A.entries.foldl (fun M e =>
      M.set (e.1 * A.n + A.cols.getD e.2 0) (A.data.getD e.2 0)) (List.replicate (A.m * A.n) 0) := by
  unfold CSRMatrixRef.to_dense CSRMatrixRef.entries
  rw [foldl_flatMap_map]

theorem transpose_scatter_entries (A : CSRMatrixRef) (s : List Nat × List Nat × List ℚ) :
    transpose_scatter A s = A.entries.foldl (fun s1 e => transpose_put A e.1 s1 e.2) s := by
  unfold transpose_scatter CSRMatrixRef.entries
  rw [foldl_flatMap_map]

theorem mem_entries (A : CSRMatrixRef) (i k : Nat) :
    (i, k) ∈ A.entries ↔ i < A.m ∧ A.rows.getD i 0 ≤ k ∧ k < A.row_end i := by
  unfold CSRMatrixRef.entries
  simp only [List.mem_flatMap, List.mem_range, List.mem_map, List.mem_range'_1, Prod.mk.injEq]
  constructor
  · rintro ⟨a, ha, b, ⟨hb1, hb2⟩, rfl, rfl⟩
    exact ⟨ha, hb1, by omega⟩
  · rintro ⟨h1, h2, h3⟩
    exact ⟨i, h1, k, ⟨h2, by omega⟩, rfl, rfl⟩

theorem valid_row_end (A : CSRMatrixRef) (V : A.Valid) (i : Nat) (_ : i < A.m) :
    A.row_end i = A.rows.getD (i + 1) 0 := by
  unfold CSRMatrixRef.row_end
  by_cases h : i + 1 = A.m
  · rw [if_pos h, h, V.rows_last]
  · rw [if_neg h]

theorem valid_rows_le (A : CSRMatrixRef) (V : A.Valid) :
    ∀ i2 i1, i1 ≤ i2 → i2 ≤ A.m → A.rows.getD i1 0 ≤ A.rows.getD i2 0 := by
  intro i2
  induction i2 with
  | zero =>
    intro i1 h1 _
    have : i1 = 0 := by omega
    rw [this]
  | succ i2 ih =>
    intro i1 h1 h2
    by_cases he : i1 = i2 + 1
    · rw [he]
    · have := ih i1 (by omega) (by omega)
      have := V.rows_mono i2 (by omega)
      omega

/-- The positions of the entries of a valid matrix are `0, ..., nnz - 1` in
this order. -/
theorem valid_entries_snd (A : CSRMatrixRef) (V : A.Valid) :
    A.entries.map Prod.snd = List.range A.nnz := by
  have key : ∀ m, m ≤ A.m →
      ((List.range m).flatMap (fun i =>
        (List.range' (A.rows.getD i 0) (A.row_end i - A.rows.getD i 0)).map
          (fun k => (i, k)))).map Prod.snd = List.range (A.rows.getD m 0) := by
    intro m
    induction m with
    | zero =>
      intro _
      rw [V.rows_zero]
      rfl
    | succ m ih =>
      intro hm
      rw [List.range_succ, List.flatMap_append, List.map_append, ih (by omega)]
      simp only [List.flatMap_cons, List.flatMap_nil, List.append_nil, List.map_map]
      have e : (Prod.snd ∘ fun k => (m, k)) = (id : Nat → Nat) := by
        funext k
        rfl
      rw [e, List.map_id, valid_row_end A V m (by omega), List.range_eq_range',
        List.range_eq_range']
      have hle := V.rows_mono m (by omega)
      have := List.range'_append 0 (A.rows.getD m 0) (A.rows.getD (m + 1) 0 - A.rows.getD m 0) 1
      simp only [Nat.zero_add, Nat.one_mul] at this
      rw [this]
      congr 1
      omega
  have := key A.m (le_refl _)
  rw [V.rows_last] at this
  exact this

end DRTModel

namespace DRTModel

/-- A sequence of writes to pairwise distinct cells of an array: every
written cell holds its value, every other cell is unchanged. -/
theorem writes_get (ws : List (Nat × ℚ)) (hnd : (ws.map Prod.fst).Nodup) :
    ∀ M : List ℚ, (∀ w, w ∈ ws → w.1 < M.length) →
      (∀ w, w ∈ ws → (ws.foldl (fun M2 w2 => M2.set w2.1 w2.2) M).getD w.1 0 = w.2) ∧
        (∀ x, x ∉ ws.map Prod.fst →
          (ws.foldl (fun M2 w2 => M2.set w2.1 w2.2) M).getD x 0 = M.getD x 0) ∧
        (ws.foldl (fun M2 w2 => M2.set w2.1 w2.2) M).length = M.length := by
  induction ws with
  | nil =>
    intro M _
    refine ⟨fun w hw => absurd hw (List.not_mem_nil _), fun _ _ => rfl, rfl⟩
  | cons w ws ih =>
    intro M hlt
    rw [List.map_cons, List.nodup_cons] at hnd
    obtain ⟨i1, i2, i3⟩ := ih hnd.2 (M.set w.1 w.2) (by
      intro w2 hw2
      rw [List.length_set]
      exact hlt w2 (List.mem_cons_of_mem _ hw2))
    simp only [List.foldl_cons]
    refine ⟨?_, ?_, ?_⟩
    · intro w2 hw2
      rcases List.mem_cons.mp hw2 with h | h
      · rw [h, i2 w.1 hnd.1, List.getD_eq_getElem?_getD, List.getElem?_set_self
          (hlt w (List.mem_cons_self _ _))]
        rfl
      · exact i1 w2 h
    · intro x hx
      rw [List.map_cons, List.mem_cons, not_or] at hx
      rw [i2 x hx.2, List.getD_eq_getElem?_getD, List.getElem?_set_ne (Ne.symm hx.1),
        ← List.getD_eq_getElem?_getD]
    · rw [i3, List.length_set]

/-- The entries of a valid matrix: no entry twice, every entry lies in its
row, and two entries of one row have different columns. -/
theorem valid_entries_facts (A : CSRMatrixRef) (V : A.Valid) :
    A.entries.Nodup ∧
      (∀ e, e ∈ A.entries → e.1 < A.m ∧ A.rows.getD e.1 0 ≤ e.2 ∧
        e.2 < A.rows.getD (e.1 + 1) 0 ∧ e.2 < A.nnz) := by
  have hs := valid_entries_snd A V
  refine ⟨?_, ?_⟩
  · apply List.Nodup.of_map Prod.snd
    rw [hs]
    exact List.nodup_range _
  · intro e he
    obtain ⟨i, k⟩ := e
    have h1 := (mem_entries A i k).mp he
    obtain ⟨a1, a2, a3⟩ := h1
    rw [valid_row_end A V i a1] at a3
    have hm : k ∈ A.entries.map Prod.snd := List.mem_map.mpr ⟨(i, k), he, rfl⟩
    rw [hs, List.mem_range] at hm
    exact ⟨a1, a2, a3, hm⟩

/-- The cells written by `to_dense` for a valid matrix are pairwise
distinct and inside the dense array. -/
theorem valid_cells (A : CSRMatrixRef) (V : A.Valid) :
    ((A.entries.map (fun e => (e.1 * A.n + A.cols.getD e.2 0, A.data.getD e.2 0))).map
        Prod.fst).Nodup ∧
      ∀ w, w ∈ A.entries.map (fun e => (e.1 * A.n + A.cols.getD e.2 0, A.data.getD e.2 0)) →
        w.1 < (List.replicate (A.m * A.n) (0 : ℚ)).length := by
  obtain ⟨hnd, hf⟩ := valid_entries_facts A V
  constructor
  · rw [List.map_map]
    apply List.Nodup.map_on _ hnd
    intro e1 he1 e2 he2 hcell
    obtain ⟨i1, k1⟩ := e1
    obtain ⟨i2, k2⟩ := e2
    obtain ⟨a1, a2, a3, a4⟩ := hf _ he1
    obtain ⟨b1, b2, b3, b4⟩ := hf _ he2
    simp only at a1 a2 a3 a4 b1 b2 b3 b4
    simp only [Function.comp] at hcell
    have c1 := V.cols_lt k1 a4
    have c2 := V.cols_lt k2 b4
    have hi : i1 = i2 := by
      by_contra hne
      rcases Nat.lt_or_gt_of_ne hne with h | h
      · have : (i1 + 1) * A.n ≤ i2 * A.n := Nat.mul_le_mul_right _ h
        rw [Nat.add_mul] at this
        omega
      · have : (i2 + 1) * A.n ≤ i1 * A.n := Nat.mul_le_mul_right _ h
        rw [Nat.add_mul] at this
        omega
    subst hi
    have hc : A.cols.getD k1 0 = A.cols.getD k2 0 := by omega
    have hk : k1 = k2 := by
      by_contra hne
      rcases Nat.lt_or_gt_of_ne hne with h | h
      · exact V.no_repeat i1 a1 k2 b3 k1 h a2 hc
      · exact V.no_repeat i1 a1 k1 a3 k2 h b2 hc.symm
    rw [hk]
  · intro w hw
    rw [List.mem_map] at hw
    obtain ⟨e, he, rfl⟩ := hw
    obtain ⟨a1, _, _, a4⟩ := hf _ he
    have c1 := V.cols_lt e.2 a4
    rw [List.length_replicate]
    simp only
    have : (e.1 + 1) * A.n ≤ A.m * A.n := Nat.mul_le_mul_right _ a1
    rw [Nat.add_mul] at this
    omega

/-- The dense form of a valid matrix: the cell `(i, j)` holds the value of
the entry of row `i` with the column `j`, and `0` when the row has no such
entry. -/
theorem valid_dense (A : CSRMatrixRef) (V : A.Valid) (i j : Nat) (hi : i < A.m)
    (hj : j < A.n) :
    (∀ k, A.rows.getD i 0 ≤ k → k < A.rows.getD (i + 1) 0 → A.cols.getD k 0 = j →
        A.to_dense.getD (i * A.n + j) 0 = A.data.getD k 0) ∧
      ((∀ k, A.rows.getD i 0 ≤ k → k < A.rows.getD (i + 1) 0 → A.cols.getD k 0 ≠ j) →
        A.to_dense.getD (i * A.n + j) 0 = 0) := by
  obtain ⟨cnd, clt⟩ := valid_cells A V
  obtain ⟨hnd, hf⟩ := valid_entries_facts A V
  obtain ⟨w1, w2, _⟩ := writes_get _ cnd (List.replicate (A.m * A.n) 0) clt
  have hto : A.to_dense = (A.entries.map
      (fun e => (e.1 * A.n + A.cols.getD e.2 0, A.data.getD e.2 0))).foldl
      (fun M2 w2 => M2.set w2.1 w2.2) (List.replicate (A.m * A.n) 0) := by
    rw [to_dense_entries, List.foldl_map]
  constructor
  · intro k hk1 hk2 hc
    have hmem : (i, k) ∈ A.entries := by
      rw [mem_entries, valid_row_end A V i hi]
      exact ⟨hi, hk1, hk2⟩
    have := w1 (i * A.n + A.cols.getD k 0, A.data.getD k 0)
      (List.mem_map.mpr ⟨(i, k), hmem, rfl⟩)
    simp only at this
    rw [hto, ← hc]
    exact this
  · intro hno
    rw [hto, w2]
    · rw [List.getD_eq_getElem?_getD, List.getElem?_replicate]
      split_ifs <;> rfl
    · intro hx
      rw [List.map_map, List.mem_map] at hx
      obtain ⟨e, he, hcell⟩ := hx
      obtain ⟨i2, k⟩ := e
      obtain ⟨a1, a2, a3, a4⟩ := hf _ he
      simp only [Function.comp] at hcell a1 a2 a3 a4
      have c1 := V.cols_lt k a4
      have hi2 : i2 = i := by
        by_contra hne
        rcases Nat.lt_or_gt_of_ne hne with h | h
        · have : (i2 + 1) * A.n ≤ i * A.n := Nat.mul_le_mul_right _ h
          rw [Nat.add_mul] at this
          omega
        · have : (i + 1) * A.n ≤ i2 * A.n := Nat.mul_le_mul_right _ h
          rw [Nat.add_mul] at this
          omega
      subst hi2
      exact hno k a2 a3 (by omega)

end DRTModel

namespace DRTModel

/-! ## The loops of `CSRMatrixRef::transpose` -/

theorem getD_set_eq {α : Type} (l : List α) (i : Nat) (v d : α) (h : i < l.length) :
    (l.set i v).getD i d = v := by
  rw [List.getD_eq_getElem?_getD, List.getElem?_set_self h]
  rfl

theorem getD_set_neq {α : Type} (l : List α) (i j : Nat) (v d : α) (h : i ≠ j) :
    (l.set i v).getD j d = l.getD j d := by
  rw [List.getD_eq_getElem?_getD, List.getElem?_set_ne h, ← List.getD_eq_getElem?_getD]

theorem take_succ_getD (l : List Nat) (K : Nat) (h : K < l.length) :
    l.take (K + 1) = l.take K ++ [l.getD K 0] := by
  rw [List.take_succ, List.getD_eq_getElem?_getD, List.getElem?_eq_getElem h]
  rfl

theorem count_take_succ (l : List Nat) (K c : Nat) (h : K < l.length) :
    (l.take (K + 1)).count c = (l.take K).count c + (if l.getD K 0 = c then 1 else 0) := by
  rw [take_succ_getD l K h, List.count_append, List.count_singleton]
  congr 1
  by_cases hc : l.getD K 0 = c
  · simp [hc]
  · simp [hc]

theorem foldl_range_succ {σ : Type} (f : σ → Nat → σ) (s : σ) (K : Nat) :
    (List.range (K + 1)).foldl f s = f ((List.range K).foldl f s) K := by
  rw [List.range_succ, List.foldl_append]
  rfl

/-- The first loop of `transpose`: after `K` rounds the entry `c + 1` of the
row array counts the column `c` among the first `K` entries. -/
theorem transpose_count_spec (cols : List Nat) (n : Nat)
    (hc : ∀ k, k < cols.length → cols.getD k 0 < n) :
    ∀ K, K ≤ cols.length →
      (transpose_count cols K (List.replicate (n + 1) 0)).length = n + 1 ∧
        (transpose_count cols K (List.replicate (n + 1) 0)).getD 0 0 = 0 ∧
        ∀ c, c < n → (transpose_count cols K (List.replicate (n + 1) 0)).getD (c + 1) 0 =
          (cols.take K).count c := by
  intro K
  induction K with
  | zero =>
    intro _
    refine ⟨by simp [transpose_count], ?_, ?_⟩
    · simp [transpose_count]
    · intro c hcn
      simp only [transpose_count, List.range_zero, List.foldl_nil, List.take_zero, List.count_nil]
      rw [List.getD_eq_getElem?_getD, List.getElem?_replicate]
      split_ifs <;> rfl
  | succ K ih =>
    intro hK
    obtain ⟨i1, i2, i3⟩ := ih (by omega)
    have hck := hc K (by omega)
    unfold transpose_count at i1 i2 i3 ⊢
    rw [foldl_range_succ]
    refine ⟨by rw [List.length_set]; exact i1, ?_, ?_⟩
    · rw [getD_set_neq _ _ _ _ _ (by omega)]
      exact i2
    · intro c hcn
      rw [count_take_succ cols K c (by omega)]
      by_cases he : cols.getD K 0 = c
      · rw [if_pos he, he, getD_set_eq _ _ _ _ (by rw [i1]; omega), i3 c hcn]
      · rw [if_neg he, getD_set_neq _ _ _ _ _ (by omega), i3 c hcn]
        rfl

theorem col_start_succ (cols : List Nat) (c : Nat) :
    col_start cols (c + 1) = col_start cols c + cols.count c := by
  unfold col_start
  induction cols with
  | nil => rfl
  | cons x xs ih =>
    rw [List.countP_cons, List.countP_cons, List.count_cons, ih]
    by_cases h1 : x < c
    · have h2 : x < c + 1 := by omega
      have h3 : ¬ (x = c) := by omega
      simp [h1, h2, h3]
      omega
    · by_cases h4 : x = c
      · subst h4
        simp
        omega
      · have h5 : ¬ (x < c + 1) := by omega
        simp [h1, h5, h4]

theorem col_start_zero (cols : List Nat) : col_start cols 0 = 0 := by
  unfold col_start
  simp

/-- The second loop of `transpose`: after `j` rounds the entries `i <= j` of
the row array are the starts of the rows of the transposed matrix. -/
theorem transpose_sums_spec (cols : List Nat) (n : Nat) (L : List Nat) (hlen : L.length = n + 1)
    (h0 : L.getD 0 0 = 0) (hL : ∀ c, c < n → L.getD (c + 1) 0 = cols.count c) :
    ∀ j, j ≤ n →
      (transpose_sums j L).length = n + 1 ∧
        (∀ i, i ≤ j → (transpose_sums j L).getD i 0 = col_start cols i) ∧
        ∀ i, j < i → (transpose_sums j L).getD i 0 = L.getD i 0 := by
  intro j
  induction j with
  | zero =>
    intro _
    refine ⟨hlen, ?_, fun _ _ => rfl⟩
    intro i hi
    have : i = 0 := by omega
    rw [this, col_start_zero]
    exact h0
  | succ j ih =>
    intro hj
    obtain ⟨i1, i2, i3⟩ := ih (by omega)
    unfold transpose_sums at i1 i2 i3 ⊢
    rw [foldl_range_succ]
    refine ⟨by rw [List.length_set]; exact i1, ?_, ?_⟩
    · intro i hi
      by_cases he : i = j + 1
      · rw [he, getD_set_eq _ _ _ _ (by rw [i1]; omega), i3 (j + 1) (by omega),
          i2 j (le_refl _), hL j (by omega), col_start_succ]
        omega
      · rw [getD_set_neq _ _ _ _ _ (by omega)]
        exact i2 i (by omega)
    · intro i hi
      rw [getD_set_neq _ _ _ _ _ (by omega)]
      exact i3 i (by omega)

/-- The last loop of `transpose` moves every entry below `n` one place up
and writes `0` at the front. -/
theorem transpose_shift_spec :
    ∀ (n : Nat) (rows : List Nat), n ≤ rows.length →
      (transpose_shift n rows).length = rows.length ∧
        ∀ i, (transpose_shift n rows).getD i 0 =
          if i < n then (if i = 0 then 0 else rows.getD (i - 1) 0) else rows.getD i 0 := by
  intro n
  induction n with
  | zero =>
    intro rows _
    refine ⟨rfl, ?_⟩
    intro i
    rw [if_neg (by omega)]
    rfl
  | succ n ih =>
    intro rows hn
    have hstep : transpose_shift (n + 1) rows =
        transpose_shift n (rows.set n (if n = 0 then 0 else rows.getD (n - 1) 0)) := by
      unfold transpose_shift
      rw [List.range_succ, List.reverse_append, List.reverse_singleton, List.singleton_append,
        List.foldl_cons]
      congr 2
      by_cases h0 : n = 0
      · simp [h0]
      · simp only [h0, if_false]
        omega
    rw [hstep]
    obtain ⟨i1, i2⟩ := ih (rows.set n (if n = 0 then 0 else rows.getD (n - 1) 0))
      (by rw [List.length_set]; omega)
    refine ⟨by rw [i1, List.length_set], ?_⟩
    intro i
    rw [i2 i]
    have hlt : n < rows.length := by omega
    by_cases h1 : i < n
    · have h1b : i < n + 1 := by omega
      rw [if_pos h1, if_pos h1b]
      by_cases h0 : i = 0
      · rw [if_pos h0, if_pos h0]
      · have hne : n ≠ i - 1 := by omega
        rw [if_neg h0, if_neg h0, getD_set_neq _ _ _ _ _ hne]
    · rw [if_neg h1]
      by_cases h2 : i = n
      · have h2b : i < n + 1 := by omega
        rw [if_pos h2b, h2, getD_set_eq _ _ _ _ hlt]
      · have h2b : ¬ (i < n + 1) := by omega
        have hne : n ≠ i := by omega
        rw [if_neg h2b, getD_set_neq _ _ _ _ _ hne]

end DRTModel

namespace DRTModel

/-! ## The positions `col_pos` that the scatter loop writes -/

theorem count_take_mono (l : List Nat) (c K1 K2 : Nat) (h : K1 ≤ K2) :
    (l.take K1).count c ≤ (l.take K2).count c := by
  have e : l.take K1 = (l.take K2).take K1 := by rw [List.take_take, Nat.min_eq_left h]
  rw [e]
  exact (List.take_sublist _ _).count_le _

theorem count_take_le (l : List Nat) (c K : Nat) : (l.take K).count c ≤ l.count c :=
  (List.take_sublist K l).count_le c

theorem count_take_lt (l : List Nat) (k : Nat) (h : k < l.length) :
    (l.take k).count (l.getD k 0) < l.count (l.getD k 0) := by
  have h1 := count_take_succ l k (l.getD k 0) h
  rw [if_pos rfl] at h1
  have h2 := count_take_le l (l.getD k 0) (k + 1)
  omega

theorem col_pos_lt (cols : List Nat) (k : Nat) (h : k < cols.length) :
    col_pos cols k < col_start cols (cols.getD k 0 + 1) := by
  unfold col_pos
  rw [col_start_succ]
  have := count_take_lt cols k h
  omega

theorem col_pos_ge (cols : List Nat) (k : Nat) :
    col_start cols (cols.getD k 0) ≤ col_pos cols k := by
  unfold col_pos
  omega

theorem col_start_mono (cols : List Nat) (c1 c2 : Nat) (h : c1 ≤ c2) :
    col_start cols c1 ≤ col_start cols c2 := by
  unfold col_start
  apply List.countP_mono_left
  intro x _ hx
  simp only [decide_eq_true_eq] at hx ⊢
  omega

theorem col_start_le_length (cols : List Nat) (c : Nat) : col_start cols c ≤ cols.length := by
  unfold col_start
  exact List.countP_le_length _

theorem col_start_full (cols : List Nat) (n : Nat)
    (hc : ∀ k, k < cols.length → cols.getD k 0 < n) : col_start cols n = cols.length := by
  unfold col_start
  rw [List.countP_eq_length]
  intro a ha
  obtain ⟨i, hi, e⟩ := List.mem_iff_getElem.mp ha
  have := hc i hi
  rw [List.getD_eq_getElem _ _ hi, e] at this
  simpa using this

theorem col_pos_lt_same (cols : List Nat) (k1 k2 : Nat) (h12 : k1 < k2) (h2 : k2 < cols.length)
    (he : cols.getD k1 0 = cols.getD k2 0) : col_pos cols k1 < col_pos cols k2 := by
  unfold col_pos
  rw [he]
  have h1 := count_take_succ cols k1 (cols.getD k2 0) (by omega)
  rw [if_pos he] at h1
  have h3 := count_take_mono cols (cols.getD k2 0) (k1 + 1) k2 (by omega)
  omega

theorem col_pos_ne (cols : List Nat) (k1 k2 : Nat) (h12 : k1 < k2) (h2 : k2 < cols.length) :
    col_pos cols k1 ≠ col_pos cols k2 := by
  by_cases he : cols.getD k1 0 = cols.getD k2 0
  · have := col_pos_lt_same cols k1 k2 h12 h2 he
    omega
  · have a1 := col_pos_lt cols k1 (by omega)
    have a2 := col_pos_lt cols k2 h2
    have b1 := col_pos_ge cols k1
    have b2 := col_pos_ge cols k2
    rcases Nat.lt_or_gt_of_ne he with hlt | hgt
    · have := col_start_mono cols (cols.getD k1 0 + 1) (cols.getD k2 0) (by omega)
      omega
    · have := col_start_mono cols (cols.getD k2 0 + 1) (cols.getD k1 0) (by omega)
      omega

theorem col_pos_inj (cols : List Nat) (k1 k2 : Nat) (h1 : k1 < cols.length)
    (h2 : k2 < cols.length) (he : col_pos cols k1 = col_pos cols k2) : k1 = k2 := by
  rcases Nat.lt_trichotomy k1 k2 with h | h | h
  · exact absurd he (col_pos_ne cols k1 k2 h h2)
  · exact h
  · exact absurd he.symm (col_pos_ne cols k2 k1 h h1)

theorem count_take_surj (l : List Nat) (c : Nat) :
    ∀ K, K ≤ l.length → ∀ j, j < (l.take K).count c →
      ∃ k, k < K ∧ l.getD k 0 = c ∧ (l.take k).count c = j := by
  intro K
  induction K with
  | zero =>
    intro _ j hj
    simp at hj
  | succ K ih =>
    intro hK j hj
    rw [count_take_succ l K c (by omega)] at hj
    by_cases hlt : j < (l.take K).count c
    · obtain ⟨k, a1, a2, a3⟩ := ih (by omega) j hlt
      exact ⟨k, by omega, a2, a3⟩
    · by_cases he : l.getD K 0 = c
      · rw [if_pos he] at hj
        exact ⟨K, by omega, he, by omega⟩
      · rw [if_neg he] at hj
        omega

theorem col_pos_surj (cols : List Nat) (c p : Nat) (h1 : col_start cols c ≤ p)
    (h2 : p < col_start cols (c + 1)) :
    ∃ k, k < cols.length ∧ cols.getD k 0 = c ∧ col_pos cols k = p := by
  rw [col_start_succ] at h2
  have e : cols.take cols.length = cols := List.take_length cols
  have hj : p - col_start cols c < (cols.take cols.length).count c := by
    rw [e]
    omega
  obtain ⟨k, a1, a2, a3⟩ := count_take_surj cols c cols.length (le_refl _) _ hj
  refine ⟨k, a1, a2, ?_⟩
  unfold col_pos
  rw [a2, a3]
  omega

end DRTModel

namespace DRTModel

/-! ## The entries of a valid matrix in storage order -/

theorem entries_length (A : CSRMatrixRef) (V : A.Valid) : A.entries.length = A.nnz := by
  have h := congrArg List.length (valid_entries_snd A V)
  rw [List.length_map, List.length_range] at h
  exact h

theorem entries_getD_snd (A : CSRMatrixRef) (V : A.Valid) (k : Nat) (hk : k < A.nnz) :
    (A.entries.getD k (0, 0)).2 = k := by
  have hl := entries_length A V
  have h := valid_entries_snd A V
  have h2 : (A.entries.map Prod.snd)[k]? = (List.range A.nnz)[k]? := by rw [h]
  rw [List.getElem?_map, List.getElem?_range hk, List.getElem?_eq_getElem (by omega)] at h2
  rw [List.getD_eq_getElem _ _ (by omega)]
  simpa using h2

theorem entries_eq_map (A : CSRMatrixRef) (V : A.Valid) :
    A.entries = (List.range A.nnz).map (fun k => (A.row_of k, k)) := by
  have hl := entries_length A V
  apply List.ext_getElem
  · rw [List.length_map, List.length_range, hl]
  · intro k h1 h2
    have hk : k < A.nnz := by omega
    have e := entries_getD_snd A V k hk
    rw [List.getElem_map, List.getElem_range]
    unfold CSRMatrixRef.row_of
    rw [List.getD_eq_getElem _ _ h1] at e ⊢
    exact Prod.ext rfl e

theorem row_of_facts (A : CSRMatrixRef) (V : A.Valid) (k : Nat) (hk : k < A.nnz) :
    A.row_of k < A.m ∧ A.rows.getD (A.row_of k) 0 ≤ k ∧ k < A.rows.getD (A.row_of k + 1) 0 := by
  have hl := entries_length A V
  obtain ⟨_, hf⟩ := valid_entries_facts A V
  have hm : A.entries.getD k (0, 0) ∈ A.entries := by
    rw [List.getD_eq_getElem _ _ (by omega)]
    exact List.getElem_mem _
  obtain ⟨a1, a2, a3, _⟩ := hf _ hm
  rw [entries_getD_snd A V k hk] at a2 a3
  exact ⟨a1, a2, a3⟩

theorem row_of_unique (A : CSRMatrixRef) (V : A.Valid) (i k : Nat) (hi : i < A.m)
    (h1 : A.rows.getD i 0 ≤ k) (h2 : k < A.rows.getD (i + 1) 0) : A.row_of k = i := by
  have hlast := valid_rows_le A V A.m (i + 1) (by omega) (le_refl _)
  rw [V.rows_last] at hlast
  obtain ⟨a1, a2, a3⟩ := row_of_facts A V k (by omega)
  rcases Nat.lt_trichotomy (A.row_of k) i with h | h | h
  · have := valid_rows_le A V i (A.row_of k + 1) (by omega) (by omega)
    omega
  · exact h
  · have := valid_rows_le A V (A.row_of k) (i + 1) (by omega) (by omega)
    omega

theorem row_of_mono (A : CSRMatrixRef) (V : A.Valid) (k1 k2 : Nat) (h12 : k1 ≤ k2)
    (h2 : k2 < A.nnz) : A.row_of k1 ≤ A.row_of k2 := by
  obtain ⟨a1, a2, a3⟩ := row_of_facts A V k1 (by omega)
  obtain ⟨b1, b2, b3⟩ := row_of_facts A V k2 h2
  by_contra hlt
  have := valid_rows_le A V (A.row_of k1) (A.row_of k2 + 1) (by omega) (by omega)
  omega

theorem row_of_lt (A : CSRMatrixRef) (V : A.Valid) (k1 k2 : Nat) (h12 : k1 < k2)
    (h2 : k2 < A.nnz) (he : A.cols.getD k1 0 = A.cols.getD k2 0) :
    A.row_of k1 < A.row_of k2 := by
  have hle := row_of_mono A V k1 k2 (by omega) h2
  obtain ⟨a1, a2, a3⟩ := row_of_facts A V k1 (by omega)
  obtain ⟨b1, b2, b3⟩ := row_of_facts A V k2 h2
  rcases Nat.lt_or_eq_of_le hle with h | h
  · exact h
  · exfalso
    rw [← h] at b3
    exact V.no_repeat (A.row_of k1) a1 k2 b3 k1 h12 a2 he

end DRTModel

namespace DRTModel

/-! ## The scatter loop of `transpose` -/

theorem transpose_scatter_range (A : CSRMatrixRef) (V : A.Valid)
    (s : List Nat × List Nat × List ℚ) :
    transpose_scatter A s =
      (List.range A.nnz).foldl (fun s1 k => transpose_put A (A.row_of k) s1 k) s := by
  rw [transpose_scatter_entries]
  conv_lhs => rw [entries_eq_map A V]
  rw [List.foldl_map]

/-- After `K` entries the scatter loop has advanced the cursor of every
column by the number of its entries among the first `K`, and has written the
row and the value of every entry `k < K` at the position `col_pos k`. -/
theorem scatter_inv (A : CSRMatrixRef) (V : A.Valid) (cur0 Rc0 : List Nat) (Rd0 : List ℚ)
    (hcur : cur0.length = A.n + 1)
    (h0 : ∀ c, c ≤ A.n → cur0.getD c 0 = col_start A.cols c)
    (hRc : Rc0.length = A.nnz) (hRd : Rd0.length = A.nnz) :
    ∀ K, K ≤ A.nnz →
      ((List.range K).foldl (fun s1 k => transpose_put A (A.row_of k) s1 k)
          (cur0, Rc0, Rd0)).1.length = A.n + 1 ∧
        (∀ c, c ≤ A.n →
          ((List.range K).foldl (fun s1 k => transpose_put A (A.row_of k) s1 k)
            (cur0, Rc0, Rd0)).1.getD c 0 = col_start A.cols c + (A.cols.take K).count c) ∧
        ((List.range K).foldl (fun s1 k => transpose_put A (A.row_of k) s1 k)
          (cur0, Rc0, Rd0)).2.1.length = A.nnz ∧
        ((List.range K).foldl (fun s1 k => transpose_put A (A.row_of k) s1 k)
          (cur0, Rc0, Rd0)).2.2.length = A.nnz ∧
        ∀ k, k < K →
          ((List.range K).foldl (fun s1 k => transpose_put A (A.row_of k) s1 k)
            (cur0, Rc0, Rd0)).2.1.getD (col_pos A.cols k) 0 = A.row_of k ∧
          ((List.range K).foldl (fun s1 k => transpose_put A (A.row_of k) s1 k)
            (cur0, Rc0, Rd0)).2.2.getD (col_pos A.cols k) 0 = A.data.getD k 0 := by
  intro K
  induction K with
  | zero =>
    intro _
    refine ⟨hcur, ?_, hRc, hRd, fun k hk => absurd hk (Nat.not_lt_zero _)⟩
    intro c hc
    simp only [List.range_zero, List.foldl_nil, List.take_zero, List.count_nil, Nat.add_zero]
    exact h0 c hc
  | succ K ih =>
    intro hK
    obtain ⟨i1, i2, i3, i4, i5⟩ := ih (by omega)
    rw [foldl_range_succ]
    generalize (List.range K).foldl (fun s1 k => transpose_put A (A.row_of k) s1 k)
      (cur0, Rc0, Rd0) = s at i1 i2 i3 i4 i5 ⊢
    obtain ⟨cur, Rc, Rd⟩ := s
    have hlen := V.cols_len
    have hcK : A.cols.getD K 0 < A.n := V.cols_lt K (by omega)
    have hp : cur.getD (A.cols.getD K 0) 0 = col_pos A.cols K := i2 _ (by omega)
    have hplt : col_pos A.cols K < A.nnz := by
      have a := col_pos_lt A.cols K (by omega)
      have b := col_start_le_length A.cols (A.cols.getD K 0 + 1)
      omega
    have i1b : cur.length = A.n + 1 := i1
    have i3b : Rc.length = A.nnz := i3
    have i4b : Rd.length = A.nnz := i4
    have e1 : (transpose_put A (A.row_of K) (cur, Rc, Rd) K).1 =
        cur.set (A.cols.getD K 0) (col_pos A.cols K + 1) := by
      show cur.set (A.cols.getD K 0) (cur.getD (A.cols.getD K 0) 0 + 1) = _
      rw [hp]
    have e2 : (transpose_put A (A.row_of K) (cur, Rc, Rd) K).2.1 =
        Rc.set (col_pos A.cols K) (A.row_of K) := by
      show Rc.set (cur.getD (A.cols.getD K 0) 0) (A.row_of K) = _
      rw [hp]
    have e3 : (transpose_put A (A.row_of K) (cur, Rc, Rd) K).2.2 =
        Rd.set (col_pos A.cols K) (A.data.getD K 0) := by
      show Rd.set (cur.getD (A.cols.getD K 0) 0) (A.data.getD K 0) = _
      rw [hp]
    rw [e1, e2, e3]
    refine ⟨by rw [List.length_set]; exact i1b, ?_, by rw [List.length_set]; exact i3b,
      by rw [List.length_set]; exact i4b, ?_⟩
    · intro c hc
      rw [count_take_succ A.cols K c (by omega)]
      by_cases he : A.cols.getD K 0 = c
      · rw [if_pos he, he, getD_set_eq _ _ _ _ (by rw [i1b]; omega)]
        unfold col_pos
        rw [he]
        omega
      · rw [if_neg he, getD_set_neq _ _ _ _ _ he]
        exact i2 c hc
    · intro k hk
      by_cases he : k = K
      · rw [he, getD_set_eq _ _ _ _ (by rw [i3b]; exact hplt),
          getD_set_eq _ _ _ _ (by rw [i4b]; exact hplt)]
        exact ⟨rfl, rfl⟩
      · have hne : col_pos A.cols K ≠ col_pos A.cols k :=
          fun h => (col_pos_ne A.cols k K (by omega) (by omega)) h.symm
        rw [getD_set_neq _ _ _ _ _ hne, getD_set_neq _ _ _ _ _ hne]
        exact i5 k (by omega)

end DRTModel

namespace DRTModel

/-! ## The arrays of the transposed matrix -/

theorem transpose_dims (gd : Nat → ℚ) (gc : Nat → Nat) (A : CSRMatrixRef) :
    (A.transpose gd gc).m = A.n ∧ (A.transpose gd gc).n = A.m ∧
      (A.transpose gd gc).nnz = A.nnz :=
  ⟨rfl, rfl, rfl⟩

theorem col_start_top (A : CSRMatrixRef) (V : A.Valid) :
    col_start A.cols A.n = A.nnz ∧ col_start A.cols (A.n + 1) = A.nnz := by
  have hlen := V.cols_len
  constructor
  · rw [col_start_full A.cols A.n (fun k hk => V.cols_lt k (by omega)), hlen]
  · rw [col_start_full A.cols (A.n + 1)
      (fun k hk => Nat.lt_succ_of_lt (V.cols_lt k (by omega))), hlen]

/-- The arrays that `transpose` returns for a valid matrix: the row starts
are the numbers of entries with a smaller column, and the entry `k` of the
matrix stands at the position `col_pos k`. -/
theorem transpose_arrays (gd : Nat → ℚ) (gc : Nat → Nat) (A : CSRMatrixRef) (V : A.Valid) :
    (A.transpose gd gc).rows.length = A.n + 1 ∧
      (A.transpose gd gc).cols.length = A.nnz ∧
      (A.transpose gd gc).data.length = A.nnz ∧
      (∀ c, c ≤ A.n → (A.transpose gd gc).rows.getD c 0 = col_start A.cols c) ∧
      ∀ k, k < A.nnz →
        (A.transpose gd gc).cols.getD (col_pos A.cols k) 0 = A.row_of k ∧
        (A.transpose gd gc).data.getD (col_pos A.cols k) 0 = A.data.getD k 0 := by
  have hlen := V.cols_len
  have hcl : ∀ k, k < A.cols.length → A.cols.getD k 0 < A.n := fun k hk => V.cols_lt k (by omega)
  obtain ⟨t1, t2⟩ := col_start_top A V
  have hrep : (List.range (A.n + 1)).map (fun _ => (0 : Nat)) = List.replicate (A.n + 1) 0 := by
    rw [List.map_const', List.length_range]
  obtain ⟨c1, c2, c3⟩ := transpose_count_spec A.cols A.n hcl A.cols.length (le_refl _)
  rw [List.take_length, hlen] at c3
  rw [hlen] at c1 c2
  obtain ⟨s1, s2, _⟩ := transpose_sums_spec A.cols A.n _ c1 c2 c3 A.n (le_refl _)
  obtain ⟨p1, p2, p3, p4, p5⟩ := scatter_inv A V _ ((List.range A.nnz).map gc)
    ((List.range A.nnz).map gd) s1 s2 (by rw [List.length_map, List.length_range])
    (by rw [List.length_map, List.length_range]) A.nnz (le_refl _)
  rw [← transpose_scatter_range A V] at p1 p2 p3 p4 p5
  rw [← hlen, List.take_length, hlen] at p2
  obtain ⟨q1, q2⟩ := transpose_shift_spec A.n _ (show A.n ≤ _ by rw [p1]; omega)
  have hrows : (A.transpose gd gc).rows = transpose_shift A.n
      (transpose_scatter A (transpose_sums A.n
        (transpose_count A.cols A.nnz (List.replicate (A.n + 1) 0)),
        (List.range A.nnz).map gc, (List.range A.nnz).map gd)).1 := by
    rw [← hrep]
    rfl
  have hcols : (A.transpose gd gc).cols =
      (transpose_scatter A (transpose_sums A.n
        (transpose_count A.cols A.nnz (List.replicate (A.n + 1) 0)),
        (List.range A.nnz).map gc, (List.range A.nnz).map gd)).2.1 := by
    rw [← hrep]
    rfl
  have hdata : (A.transpose gd gc).data =
      (transpose_scatter A (transpose_sums A.n
        (transpose_count A.cols A.nnz (List.replicate (A.n + 1) 0)),
        (List.range A.nnz).map gc, (List.range A.nnz).map gd)).2.2 := by
    rw [← hrep]
    rfl
  rw [hrows, hcols, hdata]
  refine ⟨by rw [q1, p1], p3, p4, ?_, p5⟩
  intro c hc
  rw [q2 c]
  by_cases h1 : c < A.n
  · rw [if_pos h1]
    by_cases h0 : c = 0
    · rw [if_pos h0, h0, col_start_zero]
    · rw [if_neg h0, p2 (c - 1) (by omega), ← col_start_succ]
      congr 1
      omega
  · have hcn : c = A.n := by omega
    rw [if_neg h1, hcn, p2 A.n (le_refl _), ← col_start_succ, t1, t2]

end DRTModel

namespace DRTModel

/-! ## The transposed matrix is valid -/

theorem block_exists (cols : List Nat) :
    ∀ n p, p < col_start cols n → ∃ c, c < n ∧ col_start cols c ≤ p ∧ p < col_start cols (c + 1) := by
  intro n
  induction n with
  | zero =>
    intro p hp
    rw [col_start_zero] at hp
    omega
  | succ n ih =>
    intro p hp
    by_cases h : p < col_start cols n
    · obtain ⟨c, a1, a2, a3⟩ := ih p h
      exact ⟨c, by omega, a2, a3⟩
    · exact ⟨n, by omega, by omega, hp⟩

/-- Every position of a row of the transposed matrix holds an entry of the
matrix with that column. -/
theorem transpose_block (gd : Nat → ℚ) (gc : Nat → Nat) (A : CSRMatrixRef) (V : A.Valid)
    (c p : Nat) (hc : c < A.n) (h1 : (A.transpose gd gc).rows.getD c 0 ≤ p)
    (h2 : p < (A.transpose gd gc).rows.getD (c + 1) 0) :
    ∃ k, k < A.nnz ∧ A.cols.getD k 0 = c ∧ col_pos A.cols k = p ∧
      (A.transpose gd gc).cols.getD p 0 = A.row_of k ∧
      (A.transpose gd gc).data.getD p 0 = A.data.getD k 0 := by
  obtain ⟨_, _, _, r4, r5⟩ := transpose_arrays gd gc A V
  rw [r4 c (by omega)] at h1
  rw [r4 (c + 1) (by omega)] at h2
  obtain ⟨k, a1, a2, a3⟩ := col_pos_surj A.cols c p h1 h2
  rw [V.cols_len] at a1
  obtain ⟨b1, b2⟩ := r5 k a1
  rw [a3] at b1 b2
  exact ⟨k, a1, a2, a3, b1, b2⟩

/-- The row indices inside every row of the transposed matrix ascend. -/
theorem transpose_ascending (gd : Nat → ℚ) (gc : Nat → Nat) (A : CSRMatrixRef) (V : A.Valid)
    (c p1 p2 : Nat) (hc : c < A.n) (h1 : (A.transpose gd gc).rows.getD c 0 ≤ p1)
    (h12 : p1 < p2) (h2 : p2 < (A.transpose gd gc).rows.getD (c + 1) 0) :
    (A.transpose gd gc).cols.getD p1 0 < (A.transpose gd gc).cols.getD p2 0 := by
  obtain ⟨k1, a1, a2, a3, a4, _⟩ := transpose_block gd gc A V c p1 hc h1 (by omega)
  obtain ⟨k2, b1, b2, b3, b4, _⟩ := transpose_block gd gc A V c p2 hc (by omega) h2
  have hlen := V.cols_len
  rw [a4, b4]
  have hk : k1 < k2 := by
    rcases Nat.lt_trichotomy k1 k2 with h | h | h
    · exact h
    · rw [h] at a3
      omega
    · have := col_pos_lt_same A.cols k2 k1 h (by omega) (by rw [a2, b2])
      omega
  exact row_of_lt A V k1 k2 hk b1 (by rw [a2, b2])

theorem transpose_valid (gd : Nat → ℚ) (gc : Nat → Nat) (A : CSRMatrixRef) (V : A.Valid) :
    (A.transpose gd gc).Valid := by
  obtain ⟨r1, r2, r3, r4, r5⟩ := transpose_arrays gd gc A V
  obtain ⟨t1, _⟩ := col_start_top A V
  have dm : (A.transpose gd gc).m = A.n := rfl
  have dn : (A.transpose gd gc).n = A.m := rfl
  have dz : (A.transpose gd gc).nnz = A.nnz := rfl
  refine ⟨?_, ?_, ?_, ?_, ?_, ?_, ?_, ?_⟩
  · rw [dm]
    exact r1
  · rw [dz]
    exact r2
  · rw [dz]
    exact r3
  · rw [r4 0 (by omega), col_start_zero]
  · rw [dm, dz, r4 A.n (le_refl _), t1]
  · intro i hi
    rw [dm] at hi
    rw [r4 i (by omega), r4 (i + 1) (by omega)]
    exact col_start_mono _ _ _ (by omega)
  · intro p hp
    rw [dz] at hp
    rw [dn]
    rw [← t1] at hp
    obtain ⟨c, c1, c2, c3⟩ := block_exists A.cols A.n p hp
    rw [← r4 c (by omega)] at c2
    rw [← r4 (c + 1) (by omega)] at c3
    obtain ⟨k, a1, _, _, a4, _⟩ := transpose_block gd gc A V c p c1 c2 c3
    rw [a4]
    exact (row_of_facts A V k a1).1
  · intro i hi k hk j hjk hj
    rw [dm] at hi
    have := transpose_ascending gd gc A V i j k hi hj hjk hk
    omega

end DRTModel

namespace DRTModel

/-- Claim C38: for every valid matrix `A` (row starts from `0` to `nnz`
without decreasing, column indices below `n`, no position twice) and whatever
the allocated memory holds, `transpose()` returns a matrix with `n` rows, `m`
columns and the same `nnz`, whose dense form at `(j, i)` is the dense form of
`A` at `(i, j)`, whose row starts begin with `0` and end with `nnz`, and whose
column indices ascend inside every row. -/
theorem C38_transpose_dense (gd : Nat → ℚ) (gc : Nat → Nat) (A : CSRMatrixRef) (V : A.Valid) :
    (A.transpose gd gc).m = A.n ∧ (A.transpose gd gc).n = A.m ∧
      (A.transpose gd gc).nnz = A.nnz ∧
      (∀ i j, i < A.m → j < A.n →
        (A.transpose gd gc).to_dense.getD (j * A.m + i) 0 = A.to_dense.getD (i * A.n + j) 0) ∧
      (A.transpose gd gc).rows.getD 0 0 = 0 ∧
      (A.transpose gd gc).rows.getD A.n 0 = A.nnz ∧
      ∀ c p1 p2, c < A.n → (A.transpose gd gc).rows.getD c 0 ≤ p1 → p1 < p2 →
        p2 < (A.transpose gd gc).row_end c →
        (A.transpose gd gc).cols.getD p1 0 < (A.transpose gd gc).cols.getD p2 0 := by
  have VR := transpose_valid gd gc A V
  obtain ⟨r1, r2, r3, r4, r5⟩ := transpose_arrays gd gc A V
  obtain ⟨t1, _⟩ := col_start_top A V
  refine ⟨rfl, rfl, rfl, ?_, VR.rows_zero, VR.rows_last, ?_⟩
  · intro i j hi hj
    obtain ⟨dA1, dA2⟩ := valid_dense A V i j hi hj
    obtain ⟨dR1, dR2⟩ := valid_dense (A.transpose gd gc) VR j i hj hi
    change (∀ p, (A.transpose gd gc).rows.getD j 0 ≤ p →
      p < (A.transpose gd gc).rows.getD (j + 1) 0 → (A.transpose gd gc).cols.getD p 0 = i →
      (A.transpose gd gc).to_dense.getD (j * A.m + i) 0 =
        (A.transpose gd gc).data.getD p 0) at dR1
    change ((∀ p, (A.transpose gd gc).rows.getD j 0 ≤ p →
      p < (A.transpose gd gc).rows.getD (j + 1) 0 → (A.transpose gd gc).cols.getD p 0 ≠ i) →
      (A.transpose gd gc).to_dense.getD (j * A.m + i) 0 = 0) at dR2
    by_cases hex : ∃ k, A.rows.getD i 0 ≤ k ∧ k < A.rows.getD (i + 1) 0 ∧ A.cols.getD k 0 = j
    · obtain ⟨k, k1, k2, k3⟩ := hex
      have hlast := valid_rows_le A V A.m (i + 1) (by omega) (le_refl _)
      rw [V.rows_last] at hlast
      have hk : k < A.nnz := by omega
      obtain ⟨b1, b2⟩ := r5 k hk
      have hrow := row_of_unique A V i k hi k1 k2
      have g1 := col_pos_ge A.cols k
      have g2 := col_pos_lt A.cols k (by rw [V.cols_len]; exact hk)
      rw [k3] at g1 g2
      rw [← r4 j (by omega)] at g1
      rw [← r4 (j + 1) (by omega)] at g2
      rw [dA1 k k1 k2 k3, dR1 (col_pos A.cols k) g1 g2 (by rw [b1, hrow]), b2]
    · rw [dA2 (fun k h1 h2 h3 => hex ⟨k, h1, h2, h3⟩)]
      apply dR2
      intro p h1 h2 h3
      obtain ⟨k, a1, a2, _, a4, _⟩ := transpose_block gd gc A V j p hj h1 h2
      obtain ⟨f1, f2, f3⟩ := row_of_facts A V k a1
      rw [a4] at h3
      rw [h3] at f2 f3
      exact hex ⟨k, f2, f3, a2⟩
  · intro c p1 p2 hc h1 h12 h2
    rw [valid_row_end _ VR c hc] at h2
    exact transpose_ascending gd gc A V c p1 p2 hc h1 h12 h2

/-- Witness of claim C38 on the matrix `csr_example`: it is valid, and the
element `(2, 0)` of the dense form of its transpose is the element `(0, 2)` of
its own dense form. -/
theorem C38_transpose_dense_witness :
    csr_example.Valid ∧
      (csr_example.transpose (fun _ => 0) (fun _ => 0)).to_dense.getD (2 * 2 + 0) 0 =
        csr_example.to_dense.getD (0 * 3 + 2) 0 := by
  have V : csr_example.Valid :=
    ⟨by decide, by decide, by decide, by decide, by decide, by decide, by decide, by decide⟩
  exact ⟨V, (C38_transpose_dense (fun _ => 0) (fun _ => 0) csr_example V).2.2.2.1 0 2
    (by decide) (by decide)⟩

end DRTModel

/-! ## Concrete tables -/

namespace DRTModel

/-- C2 (code evaluated at a failing input): in the SU2 table for one site with
the initial labels `(N=0, 2S=0)` and `(N=1, 2S=1)`, the string `"+"` is a legal
path of the second label and is `operator[](1)`, but `index("+")` is `2` and
`operator[](index("+"))` is `"2"`: the last loop of `index` restarts at row `0`
instead of the row of the second label. -/
theorem C2_index_restarts_at_row_zero :
    legal_path true [0] 1 (init_row 1 ⟨1, 1, 0⟩) [1] = true ∧
      steps_string [1] = ['+'] ∧
      (DRT.build true 1 [⟨0, 0, 0⟩, ⟨1, 1, 0⟩] []).decode 1 = ['+'] ∧
      (DRT.build true 1 [⟨0, 0, 0⟩, ⟨1, 1, 0⟩] []).index ['+'] = 2 ∧
      (DRT.build true 1 [⟨0, 0, 0⟩, ⟨1, 1, 0⟩] []).decode
        ((DRT.build true 1 [⟨0, 0, 0⟩, ⟨1, 1, 0⟩] []).index ['+']) = ['2'] := by
  decide

/-- C3 (code evaluated at a failing input): in the SU2 table for one site with
the initial labels `(N=0, 2S=0)` and `(N=1, 2S=1)`, both initial rows have
subtree size `1`, their sum is `2`, and `size()` is `1`. -/
theorem C3_size_is_first_row_only :
    (DRT.build true 1 [⟨0, 0, 0⟩, ⟨1, 1, 0⟩] []).n_init_qs = 2 ∧
      (DRT.build true 1 [⟨0, 0, 0⟩, ⟨1, 1, 0⟩] []).back 0 = 1 ∧
      (DRT.build true 1 [⟨0, 0, 0⟩, ⟨1, 1, 0⟩] []).back 1 = 1 ∧
      (DRT.build true 1 [⟨0, 0, 0⟩, ⟨1, 1, 0⟩] []).total = 2 ∧
      (DRT.build true 1 [⟨0, 0, 0⟩, ⟨1, 1, 0⟩] []).size = 1 := by
  decide

/-- C4 (code evaluated at two failing inputs): for one site and the single
label `(N=0, 2S=0, pg=1)`, whose triple `(0, 0, 1)` is non-negative, no string
is a legal path and `size()` is `1`; for one site and the two labels
`(N=0, 2S=0)`, `(N=1, 2S=1)` the brute-force count is `2` and `size()` is `1`. -/
theorem C4_size_differs_from_brute_force :
    init_row 1 ⟨0, 0, 1⟩ = ((0, 0, 1), 1) ∧
      brute_force_count true 1 [⟨0, 0, 1⟩] [] = 0 ∧
      (DRT.build true 1 [⟨0, 0, 1⟩] []).size = 1 ∧
      brute_force_count true 1 [⟨0, 0, 0⟩, ⟨1, 1, 0⟩] [] = 2 ∧
      (DRT.build true 1 [⟨0, 0, 0⟩, ⟨1, 1, 0⟩] []).size = 1 := by
  decide

/-- C5 (code evaluated at a failing input): in the SU2 table for one site with
the initial labels `(N=0, 2S=0)` and `(N=1, 2S=1)`, `q_range(0) = [0, 1)` and
`q_range(1) = [1, 2)`, so `q_range(n_init_qs - 1).second` is `2`, and `size()`
is `1`. -/
theorem C5_last_range_end_is_not_size :
    (DRT.build true 1 [⟨0, 0, 0⟩, ⟨1, 1, 0⟩] []).q_range 0 = (0, 1) ∧
      (DRT.build true 1 [⟨0, 0, 0⟩, ⟨1, 1, 0⟩] []).q_range 1 = (1, 2) ∧
      (DRT.build true 1 [⟨0, 0, 0⟩, ⟨1, 1, 0⟩] []).size = 1 := by
  decide

/-- C6 (counterexample): the SU2 table for 2 sites with the single initial
label `(N=2, 2S=0)` and trivial per-site labels has `size() == 3`, not `4`. -/
theorem C6_size_is_not_four : (DRT.build true 2 [⟨2, 0, 0⟩] []).size ≠ 4 := by
  decide

/-- C6 (amended): the SU2 table for 2 sites with the single initial label
`(N=2, 2S=0)` and trivial per-site labels has `size() == 3`; `operator[]`
gives for `i = 0, 1, 2` the three pairwise distinct strings with characters
`r[0] r[1]` equal to `"20"`, `"+-"`, `"02"`, which are exactly the strings of
the legal paths of the label, and `index` maps each of them back to its `i`. -/
theorem C6_two_sites_singlet_has_three_states :
    (DRT.build true 2 [⟨2, 0, 0⟩] []).size = 3 ∧
      (List.range 3).map (DRT.build true 2 [⟨2, 0, 0⟩] []).decode =
        [['2', '0'], ['+', '-'], ['0', '2']] ∧
      ((List.range 3).map (DRT.build true 2 [⟨2, 0, 0⟩] []).decode).Nodup ∧
      ((all_steps 2).filter
          (legal_path true [0, 0] 2 (init_row 2 ⟨2, 0, 0⟩))).map steps_string =
        (List.range 3).map (DRT.build true 2 [⟨2, 0, 0⟩] []).decode ∧
      (List.range 3).map (fun i => (DRT.build true 2 [⟨2, 0, 0⟩] []).index
          ((DRT.build true 2 [⟨2, 0, 0⟩] []).decode i)) = [0, 1, 2] := by
  decide

/-- C7 (code evaluated at a failing input): in the SU2 table for one site with
the single label `(N=0, 2S=0, pg=1)` the sum of the initial rows' subtree
sizes is `1`, and for `i = 0` below it `operator[]` chooses at row `0` the step
`d = 3` whose edge `jds[0][3]` is the sentinel `0`. -/
theorem C7_sentinel_followed :
    (DRT.build true 1 [⟨0, 0, 1⟩] []).total = 1 ∧
      (DRT.build true 1 [⟨0, 0, 1⟩] []).skip_init 1 0 0 = (0, 0) ∧
      (DRT.build true 1 [⟨0, 0, 1⟩] []).choose 0 0 = 3 ∧
      ((DRT.build true 1 [⟨0, 0, 1⟩] []).jds.getD 0 []).getD 3 0 = 0 ∧
      (DRT.build true 1 [⟨0, 0, 1⟩] []).walk_has_edges 1 0 0 = false := by
  decide

/-- C8 (code evaluated at a failing input): in the SU2 table for one site with
the distinct initial labels `init_qs = [(N=0, 2S=0, pg=1), (N=0, 2S=0, pg=0)]`
the first label has no legal path and its row is removed by the filter, so
`q_index(init_qs[1])` is `0` and `q_index(init_qs[0])` is `-1`. -/
theorem C8_q_index_after_pruning :
    (DRT.build true 1 [⟨0, 0, 1⟩, ⟨0, 0, 0⟩] []).abc = [(0, 0, 1), (0, 0, 0)] ∧
      (DRT.build true 1 [⟨0, 0, 1⟩, ⟨0, 0, 0⟩] []).pgs = [0, 0] ∧
      (DRT.build true 1 [⟨0, 0, 1⟩, ⟨0, 0, 0⟩] []).q_index ⟨0, 0, 0⟩ = 0 ∧
      (DRT.build true 1 [⟨0, 0, 1⟩, ⟨0, 0, 0⟩] []).q_index ⟨0, 0, 1⟩ = -1 := by
  decide

end DRTModel

namespace DRTModel

/-! ## The first loop of `HDRT::index` on the result of `operator[]` -/

end DRTModel

namespace DRTModel

end DRTModel

namespace DRTModel

end DRTModel
